import Mathlib

/-!
# simtrie: exact lookup, the DFS driver and the LCS / Similar delegates

A shallow embedding of `lib/dawgdic/dictionary.h` and `lib/dawgdic/similar.h`.

* bytes (`CharType`, `UCharType`) are `Fin 256`; the casts between the two
  C++ character types are bijections on bytes and disappear;
* `BaseType` (an unsigned 32 bit index) is `Nat`; the only arithmetic on it is
  exclusive or, which cannot overflow;
* `ValueType` and the cost type are `Int`;
* the unit array behind `units_` is a total map from indices to units, so that a
  read at any index has some value;
* loops are either structural or carry an explicit iteration budget.
-/

namespace dawgdic

/-! ## base-types.h -/

/-- 8-bit characters. -/
abbrev CharType := Fin 256
/-- 8-bit characters, unsigned. -/
abbrev UCharType := Fin 256
/-- 32-bit integer. -/
abbrev ValueType := Int
/-- 32-bit unsigned integer. -/
abbrev BaseType := Nat
/-- 32 or 64-bit unsigned integer. -/
abbrev SizeType := Nat

/-! ## dictionary-unit.h, guide.h -/

/-- Modelled from the spec: `dictionary-unit.h` is not among the sources. A unit
carries a transition label, a has-leaf flag and an offset/value field; the four
accessors `label()`, `has_leaf()`, `offset()` and `value()` are kept as the fields
of the record. -/
structure DictionaryUnit where
  label : BaseType
  has_leaf : Bool
  offset : BaseType
  value : ValueType
deriving DecidableEq, Repr

/-- Unit of a guide: a pair of bytes per state (`ranked-guide-unit.h` has the same
two fields and accessors). -/
structure GuideUnit where
  child : UCharType
  sibling : UCharType
deriving DecidableEq, Repr

/-- Modelled from the spec: `guide.h` is not among the sources. A guide is a
sequence of guide units indexed by state, with `child(state)` and
`sibling(state)`. -/
structure Guide where
  units_ : BaseType → GuideUnit
  size_ : SizeType

namespace Guide

/-- Accessor `child(index)`. -/
def child (g : Guide) (index : BaseType) : UCharType := (g.units_ index).child

/-- Accessor `sibling(index)`. -/
def sibling (g : Guide) (index : BaseType) : UCharType := (g.units_ index).sibling

end Guide

/-! ## dictionary.h -/

/-- Dictionary class for retrieval: the unit array and its size. -/
structure Dictionary where
  units_ : BaseType → DictionaryUnit
  size_ : SizeType

namespace Dictionary

/-- Root index. -/
def root (_dic : Dictionary) : BaseType := 0

/-- Checks if a given index is related to the end of a key. -/
def has_value (dic : Dictionary) (index : BaseType) : Bool :=
  (dic.units_ index).has_leaf

/-- Gets a value from a given index. -/
def value (dic : Dictionary) (index : BaseType) : ValueType :=
  (dic.units_ (index ^^^ (dic.units_ index).offset)).value

/-- Follows a transition: `Follow(CharType label, BaseType *index)`. The result is
`none` when the C++ function returns false (the index is then left alone) and
`some next_index` when it returns true. -/
def Follow (dic : Dictionary) (label : CharType) (index : BaseType) : Option BaseType :=
  let next_index := index ^^^ (dic.units_ index).offset ^^^ label.val
  if (dic.units_ next_index).label ≠ label.val then none else some next_index

/-- Follows transitions: `Follow(const CharType *s, SizeType length, BaseType *index)`.
The loop stops at the first transition that fails. -/
def FollowN (dic : Dictionary) : List CharType → BaseType → Option BaseType
  | [], index => some index
  | c :: s, index =>
    match dic.Follow c index with
    | none => none
    | some next_index => FollowN dic s next_index

/-- Exact matching: `Contains(const CharType *key, SizeType length)`. -/
def Contains (dic : Dictionary) (key : List CharType) : Bool :=
  match dic.FollowN key dic.root with
  | none => false
  | some index => dic.has_value index

/-- Exact matching: `ValueType Find(const CharType *key, SizeType length)`. -/
def Find (dic : Dictionary) (key : List CharType) : ValueType :=
  match dic.FollowN key dic.root with
  | none => -1
  | some index => if dic.has_value index then dic.value index else -1

/-- Exact matching: `bool Find(const CharType *key, SizeType length, ValueType *value)`.
The argument `value` is what `*value` holds before the call, the second component
of the result what it holds afterwards. -/
def FindValue (dic : Dictionary) (key : List CharType) (value : ValueType) :
    Bool × ValueType :=
  match dic.FollowN key dic.root with
  | none => (false, value)
  | some index =>
    if !dic.has_value index then (false, value) else (true, dic.value index)

/-- The transition relation of section 3 of the specification, one byte at a time:
from state `s` the byte `c` leads to `t = s XOR offset(s) XOR c`, and the
transition is valid iff the label of `t` is `c`. `Reaches dic s key t` says that
every step along `key` from `s` is valid and ends in `t`. -/
inductive Reaches (dic : Dictionary) : BaseType → List CharType → BaseType → Prop
  | nil (s : BaseType) : Reaches dic s [] s
  | cons (s : BaseType) (c : CharType) (cs : List CharType) (t : BaseType) :
      (dic.units_ (s ^^^ (dic.units_ s).offset ^^^ c.val)).label = c.val →
      Reaches dic (s ^^^ (dic.units_ s).offset ^^^ c.val) cs t →
      Reaches dic s (c :: cs) t

end Dictionary

/-! ## similar.h: cost tables -/

/-- The cost type of the search (the template parameter `CostType`), taken to be
the integers. -/
abbrev CostType := Int

/-- The effect of `std::vector::resize(n, v)`: keeps the first `n` entries and
pads with `v`. -/
def resize {T : Type} (l : List T) (n : Nat) (v : T) : List T :=
  l.take n ++ List.replicate (n - l.length) v

/-- The effect of `all_null(keys...)` on a list of key pointers, a null pointer
being `none`. -/
def all_null : List (Option UCharType) → Bool
  | [] => true
  | p_k :: keys => p_k.isNone && all_null keys

/-- Specialisation `CostsMap<1>`: a vector of costs indexed by the key, and a
default. -/
structure CostsMap1 where
  costs_ : List CostType
  default_ : CostType
deriving DecidableEq, Repr

namespace CostsMap1

/-- Constructor: the default is 1. -/
def new : CostsMap1 := { costs_ := [], default_ := 1 }

/-- Member `set(cost, p_k)`; a null `p_k` is `none`. -/
def set (m : CostsMap1) (cost : CostType) (p_k : Option UCharType) : Bool × CostsMap1 :=
  match p_k with
  | none => (true, { costs_ := [], default_ := cost })
  | some k =>
    let costs :=
      if k.val ≥ m.costs_.length then resize m.costs_ (k.val + 1) m.default_ else m.costs_
    (true, { m with costs_ := costs.set k.val cost })

/-- Member `operator()(k)`. -/
def get (m : CostsMap1) (k : UCharType) : CostType :=
  if k.val < m.costs_.length then m.costs_.getD k.val m.default_ else m.default_

end CostsMap1

/-- The element that `std::unordered_map::operator[]` yields for key `k`, created
by `mk` when absent. -/
def mapEntry {V : Type} (costs : List (UCharType × V)) (k : UCharType) (mk : V) : V :=
  match costs.lookup k with
  | some v => v
  | none => mk

/-- Stores `v` under key `k` of an `std::unordered_map` kept as an association
list with one entry per key. -/
def mapStore {V : Type} (costs : List (UCharType × V)) (k : UCharType) (v : V) :
    List (UCharType × V) :=
  (k, v) :: costs.filter (fun e => e.1 ≠ k)

/-- Instance `CostsMap<2>`: a map from the first key to a `CostsMap<1>`, and a
default. -/
structure CostsMap2 where
  costs_ : List (UCharType × CostsMap1)
  default_ : CostType
deriving DecidableEq, Repr

namespace CostsMap2

/-- Constructor: the default is 1. -/
def new : CostsMap2 := { costs_ := [], default_ := 1 }

/-- Member `set(cost, p_k, keys...)` with one further key pointer. -/
def set (m : CostsMap2) (cost : CostType) (p_k p_k2 : Option UCharType) : Bool × CostsMap2 :=
  match p_k with
  | none =>
    if !all_null [p_k2] then (false, m)
    else (true, { costs_ := [], default_ := cost })
  | some k =>
    let inner := ((mapEntry m.costs_ k CostsMap1.new).set cost p_k2).2
    (true, { m with costs_ := mapStore m.costs_ k inner })

/-- Member `operator()(k0, k1)`. -/
def get (m : CostsMap2) (k0 k1 : UCharType) : CostType :=
  if m.costs_.isEmpty then m.default_
  else
    match m.costs_.lookup k0 with
    | some inner => inner.get k1
    | none => m.default_

end CostsMap2

/-- Instance `CostsMap<3>`: a map from the first key to a `CostsMap<2>`, and a
default. -/
structure CostsMap3 where
  costs_ : List (UCharType × CostsMap2)
  default_ : CostType
deriving DecidableEq, Repr

namespace CostsMap3

/-- Constructor: the default is 1. -/
def new : CostsMap3 := { costs_ := [], default_ := 1 }

/-- Member `set(cost, p_k, keys...)` with two further key pointers. -/
def set (m : CostsMap3) (cost : CostType) (p_k p_k2 p_k3 : Option UCharType) :
    Bool × CostsMap3 :=
  match p_k with
  | none =>
    if !all_null [p_k2, p_k3] then (false, m)
    else (true, { costs_ := [], default_ := cost })
  | some k =>
    let inner := ((mapEntry m.costs_ k CostsMap2.new).set cost p_k2 p_k3).2
    (true, { m with costs_ := mapStore m.costs_ k inner })

/-- Member `operator()(k0, k1, k2)`. -/
def get (m : CostsMap3) (k0 k1 k2 : UCharType) : CostType :=
  if m.costs_.isEmpty then m.default_
  else
    match m.costs_.lookup k0 with
    | some inner => inner.get k1 k2
    | none => m.default_

end CostsMap3

/-- Class `Costs`: one table per edit operation. -/
structure Costs where
  insert : CostsMap1
  delete_ : CostsMap1
  replace : CostsMap2
  transpose : CostsMap2
  split : CostsMap3
  merge : CostsMap3
deriving DecidableEq, Repr

namespace Costs

/-- The default-constructed `Costs`: every table has default 1 and no entry. -/
def new : Costs :=
  { insert := CostsMap1.new, delete_ := CostsMap1.new, replace := CostsMap2.new,
    transpose := CostsMap2.new, split := CostsMap3.new, merge := CostsMap3.new }

/-- Setter `set_insert_cost(cost)`. -/
def set_insert_cost_default (c : Costs) (cost : CostType) : Bool × Costs :=
  let r := c.insert.set cost none
  (r.1, { c with insert := r.2 })

/-- Setter `set_insert_cost(k, cost)`. -/
def set_insert_cost (c : Costs) (k : UCharType) (cost : CostType) : Bool × Costs :=
  let r := c.insert.set cost (some k)
  (r.1, { c with insert := r.2 })

/-- Setter `set_delete_cost(cost)`. -/
def set_delete_cost_default (c : Costs) (cost : CostType) : Bool × Costs :=
  let r := c.delete_.set cost none
  (r.1, { c with delete_ := r.2 })

/-- Setter `set_delete_cost(k, cost)`. -/
def set_delete_cost (c : Costs) (k : UCharType) (cost : CostType) : Bool × Costs :=
  let r := c.delete_.set cost (some k)
  (r.1, { c with delete_ := r.2 })

/-- Setter `set_replace_cost(k1, k2, cost)`. -/
def set_replace_cost (c : Costs) (k1 k2 : UCharType) (cost : CostType) : Bool × Costs :=
  let r := c.replace.set cost (some k1) (some k2)
  (r.1, { c with replace := r.2 })

/-- Setter `set_transpose_cost(k1, k2, cost)`. -/
def set_transpose_cost (c : Costs) (k1 k2 : UCharType) (cost : CostType) : Bool × Costs :=
  let r := c.transpose.set cost (some k1) (some k2)
  (r.1, { c with transpose := r.2 })

/-- Setter `set_split_cost(a, b1, b2, cost)`. -/
def set_split_cost (c : Costs) (a b1 b2 : UCharType) (cost : CostType) : Bool × Costs :=
  let r := c.split.set cost (some a) (some b1) (some b2)
  (r.1, { c with split := r.2 })

/-- Setter `set_merge_cost(a1, a2, b, cost)`. -/
def set_merge_cost (c : Costs) (a1 a2 b : UCharType) (cost : CostType) : Bool × Costs :=
  let r := c.merge.set cost (some a1) (some a2) (some b)
  (r.1, { c with merge := r.2 })

end Costs

/-! ## similar.h: Matrix -/

/-- Class `Matrix<T>`: a row-major buffer with a fixed number of columns. -/
structure Matrix (T : Type) where
  columns_ : Nat
  rows_ : List T
deriving DecidableEq, Repr

namespace Matrix

variable {T : Type} [Zero T]

/-- Member `set_columns(n_columns)`. -/
def set_columns (m : Matrix T) (n_columns : Nat) : Matrix T :=
  { m with columns_ := n_columns }

/-- Member `columns()`. -/
def columns (m : Matrix T) : Nat := m.columns_

/-- The read `(*this)[i][j]`: the entry at offset `i * columns_ + j` of the buffer
(zero when the buffer is shorter). -/
def get (m : Matrix T) (i j : Nat) : T := m.rows_.getD (i * m.columns_ + j) 0

/-- The write `(*this)[i][j] = v`. -/
def put (m : Matrix T) (i j : Nat) (v : T) : Matrix T :=
  { m with rows_ := m.rows_.set (i * m.columns_ + j) v }

/-- Member `allocate(i)`: resizes the buffer to `i + 1` rows; new entries are
value-initialised. -/
def allocate (m : Matrix T) (i : Nat) : Matrix T :=
  { m with rows_ := resize m.rows_ ((i + 1) * m.columns_) 0 }

end Matrix

/-! ## similar.h: the DFS driver -/

/-- The traversal mode `state_` of the driver. -/
inductive Mode where
  | NEXT_SIBLING
  | NEXT_CHILD
deriving DecidableEq, Repr

/-- The capability set of a delegate with state `D`. Both callbacks receive what
the delegate reads through its `dfs_` member: the current key `dfs_.key()` and
the index on top of the stack (behind `dfs_.has_value()`). `on_step` returns the
new delegate state and the pair `(descend, result)`. -/
structure Delegate (D : Type) where
  on_step : List UCharType → BaseType → D → D × Bool × Bool
  on_ascend : List UCharType → D → D

/-- Class `DFS<Delegate>`: the delegate, the stack of state indices (top first),
the key and the mode. The dictionary and the guide are immutable and are passed
to the member functions. -/
structure DFS (D : Type) where
  delegate : D
  stack_ : List BaseType
  key_ : List UCharType
  state_ : Mode

/-- What one pass through the body of `while (true)` in `next()` does. -/
inductive Outcome (σ : Type) where
  /-- The statement `return b` was reached. -/
  | returned (b : Bool) (s : σ)
  /-- The loop goes round again. -/
  | continue (s : σ)
  /-- The member `top()` was called on an empty stack. -/
  | undefined

namespace DFS

variable {D : Type}

/-- Member `ascend()`: `on_ascend`, then pop the stack and the key. (`pop_back`
on an empty key, which C++ leaves undefined, leaves the key empty.) -/
def ascend (del : Delegate D) (s : DFS D) : DFS D :=
  { s with
    delegate := del.on_ascend s.key_ s.delegate
    stack_ := s.stack_.tail
    key_ := s.key_.dropLast }

/-- Member `follow(label)`. The outer `none` stands for `top()` of an empty stack,
`some none` for the result false and `some (some s)` for the result true. -/
def follow (dic : Dictionary) (s : DFS D) (label : UCharType) : Option (Option (DFS D)) :=
  match s.stack_ with
  | [] => none
  | index :: _ =>
    match dic.Follow label index with
    | none => some none
    | some next_index =>
      some (some { s with stack_ := next_index :: s.stack_, key_ := s.key_ ++ [label] })

/-- The call `delegate.on_step()`, reading the key and the top of the stack. -/
def call_on_step (del : Delegate D) (s : DFS D) : Option (DFS D × Bool × Bool) :=
  match s.stack_ with
  | [] => none
  | top :: _ =>
    let r := del.on_step s.key_ top s.delegate
    some ({ s with delegate := r.1 }, r.2.1, r.2.2)

/-- Accessor `key()`. -/
def key (s : DFS D) : List UCharType := s.key_

/-- Accessor `value()`; `none` stands for `top()` of an empty stack. -/
def value (dic : Dictionary) (s : DFS D) : Option ValueType :=
  match s.stack_ with
  | [] => none
  | top :: _ => some (dic.value top)

/-- Accessor `has_value()`; `none` stands for `top()` of an empty stack. -/
def has_value (dic : Dictionary) (s : DFS D) : Option Bool :=
  match s.stack_ with
  | [] => none
  | top :: _ => some (dic.has_value top)

/-- Member `start(max_expected_depth)`. -/
def start (dic : Dictionary) (s : DFS D) : DFS D :=
  { s with state_ := Mode.NEXT_CHILD, stack_ := [dic.root], key_ := [] }

/-- One pass through the body of the loop `while (true)` of `next()`. The inner
loop of the case `NEXT_SIBLING` goes round with `state_` still `NEXT_SIBLING`, so
one of its passes is one pass of the outer loop. -/
def iteration (dic : Dictionary) (guide : Guide) (del : Delegate D) (s : DFS D) :
    Outcome (DFS D) :=
  match s.state_ with
  | Mode.NEXT_CHILD =>
    match s.stack_ with
    | [] => Outcome.undefined
    | top :: _ =>
      let child_label := guide.child top
      if child_label ≠ 0 then
        match follow dic s child_label with
        | none => Outcome.undefined
        | some none => Outcome.returned false s
        | some (some s1) =>
          match call_on_step del s1 with
          | none => Outcome.undefined
          | some (s2, descend, result) =>
            if !descend then
              if result then Outcome.returned true { s2 with state_ := Mode.NEXT_SIBLING }
              else Outcome.continue { s2 with state_ := Mode.NEXT_SIBLING }
            else if result then Outcome.returned true s2
            else Outcome.continue s2
      else Outcome.continue { s with state_ := Mode.NEXT_SIBLING }
  | Mode.NEXT_SIBLING =>
    match s.stack_ with
    | [] => Outcome.undefined
    | top :: _ =>
      let sibling_label := guide.sibling top
      let s1 := ascend del s
      if sibling_label ≠ 0 then
        match follow dic s1 sibling_label with
        | none => Outcome.undefined
        | some none => Outcome.returned false s1
        | some (some s2) =>
          match call_on_step del s2 with
          | none => Outcome.undefined
          | some (s3, descend, result) =>
            let s4 : DFS D :=
              { s3 with state_ := if descend then Mode.NEXT_CHILD else Mode.NEXT_SIBLING }
            if result then Outcome.returned true s4 else Outcome.continue s4
      else if s1.stack_.isEmpty then Outcome.returned false s1
      else Outcome.continue s1

/-- The loop `while (true)` of `next()` with a budget of passes; `none` when the
budget runs out or the behaviour is undefined. -/
def next_loop (dic : Dictionary) (guide : Guide) (del : Delegate D) :
    Nat → DFS D → Option (Bool × DFS D)
  | 0, _ => none
  | fuel + 1, s =>
    match iteration dic guide del s with
    | Outcome.undefined => none
    | Outcome.returned b s1 => some (b, s1)
    | Outcome.continue s1 => next_loop dic guide del fuel s1

/-- Member `next()`, with a budget for its loop. -/
def next (dic : Dictionary) (guide : Guide) (del : Delegate D) (fuel : Nat) (s : DFS D) :
    Option (Bool × DFS D) :=
  if s.stack_.isEmpty then some (false, s) else next_loop dic guide del fuel s

/-- The client loop `while (search.next()) { ... }`: calls `next()` until it
returns false, at most `calls` times, and collects the state of the search after
every call that returned true, together with the state after the call that
returned false. -/
def drain (dic : Dictionary) (guide : Guide) (del : Delegate D) (fuel : Nat) :
    Nat → DFS D → Option (List (DFS D) × DFS D)
  | 0, _ => none
  | calls + 1, s =>
    match next dic guide del fuel s with
    | none => none
    | some (false, s1) => some ([], s1)
    | some (true, s1) =>
      match drain dic guide del fuel calls s1 with
      | none => none
      | some (found, last) => some (s1 :: found, last)

end DFS

namespace DFS

variable {D : Type}

/-- The state after the call number `k + 1` of `next()` in a row of calls, and what
that call returned (the calls go on after one has returned false). -/
def advance (dic : Dictionary) (guide : Guide) (del : Delegate D) (fuel : Nat) :
    Nat → DFS D → Option (Bool × DFS D)
  | 0, s => next dic guide del fuel s
  | k + 1, s =>
    match next dic guide del fuel s with
    | none => none
    | some (_, s1) => advance dic guide del fuel k s1

/-- What a caller sees of a search: the key, the top of the stack and the state
of the delegate. -/
def view (s : DFS D) : List UCharType × Option BaseType × D :=
  (s.key_, s.stack_.head?, s.delegate)

/-- `Passes dic guide del s found s1`: passes of the loop of `next()` lead from `s`
to `s1`, entering the loop again after every `return true`; `found` lists the
states at which `return true` was reached. -/
inductive Passes (dic : Dictionary) (guide : Guide) (del : Delegate D) :
    DFS D → List (DFS D) → DFS D → Prop
  | done (s : DFS D) : Passes dic guide del s [] s
  | pass (s s1 s2 : DFS D) (found : List (DFS D)) :
      iteration dic guide del s = Outcome.continue s1 →
      Passes dic guide del s1 found s2 → Passes dic guide del s found s2
  | hit (s s1 s2 : DFS D) (found : List (DFS D)) :
      iteration dic guide del s = Outcome.returned true s1 →
      Passes dic guide del s1 found s2 → Passes dic guide del s (s1 :: found) s2

/-- The state of the driver right after `on_step` at the child `t` of `p`. -/
def stepped (del : Delegate D) (p t : BaseType) (rest : List BaseType)
    (path : List UCharType) (c : UCharType) (d : D) : DFS D :=
  { delegate := (del.on_step (path ++ [c]) t d).1
    stack_ := t :: p :: rest
    key_ := path ++ [c]
    state_ := if (del.on_step (path ++ [c]) t d).2.1 then Mode.NEXT_CHILD
              else Mode.NEXT_SIBLING }

/-- The two ways in which the driver comes to the chain of children of `p` at the
label `c` with delegate state `d`: in mode `NEXT_CHILD` on `p`, or in mode
`NEXT_SIBLING` on the child before. -/
def Entry (guide : Guide) (del : Delegate D) (s : DFS D) (p : BaseType)
    (rest : List BaseType) (path : List UCharType) (c : UCharType) (d : D) : Prop :=
  (s = ⟨d, p :: rest, path, Mode.NEXT_CHILD⟩ ∧ c = guide.child p) ∨
  ∃ t0 c0 d0, s = ⟨d0, t0 :: p :: rest, path ++ [c0], Mode.NEXT_SIBLING⟩ ∧
    c = guide.sibling t0 ∧ d = del.on_ascend (path ++ [c0]) d0

/-- The stack and the key of a search belong together: the stack holds, top
first, the states along the key from the root. -/
inductive OnPath (dic : Dictionary) : List BaseType → List UCharType → Prop
  | root : OnPath dic [dic.root] []
  | push (p t : BaseType) (rest : List BaseType) (key : List UCharType) (c : UCharType) :
      OnPath dic (p :: rest) key → dic.Follow c p = some t →
      OnPath dic (t :: p :: rest) (key ++ [c])

/-- What holds of a search between calls of `next()`, given an invariant `Inv` of
the delegate state along the key: the stack is empty, or the stack and the key
belong together and the invariant holds. -/
def Sound (dic : Dictionary) (Inv : List UCharType → D → Prop) (s : DFS D) : Prop :=
  s.stack_ = [] ∨ (OnPath dic s.stack_ s.key_ ∧ Inv s.key_ s.delegate)

/-- What holds of a search after `return true`: the stack and the key belong
together, the invariant holds, and the state of the delegate comes from a call of
`on_step` that returned `result = true`, made in a state with the invariant for the
key without its last byte. -/
def Hit (dic : Dictionary) (del : Delegate D) (Inv : List UCharType → D → Prop)
    (s1 : DFS D) : Prop :=
  OnPath dic s1.stack_ s1.key_ ∧ Inv s1.key_ s1.delegate ∧
    ∃ t rest q a d0, s1.stack_ = t :: rest ∧ s1.key_ = q ++ [a] ∧ Inv q d0 ∧
      s1.delegate = (del.on_step s1.key_ t d0).1 ∧ (del.on_step s1.key_ t d0).2.2 = true

/-- What holds of a search after a call of `next()` that returned `b`. -/
def SoundResult (dic : Dictionary) (del : Delegate D) (Inv : List UCharType → D → Prop)
    (b : Bool) (s1 : DFS D) : Prop :=
  Sound dic Inv s1 ∧ (b = true → Hit dic del Inv s1)

end DFS

/-! ## The preorder walk in Guide order -/

/-- One call of `on_step` in a walk: the path stepped onto, the state reached, the
delegate state after the call and the two flags returned. -/
structure Visit (D : Type) where
  key : List UCharType
  index : BaseType
  delegate : D
  descend : Bool
  result : Bool

/-- The preorder walk in the words of the specification, as a recursion over the
Guide: starting with the label `c`, walk the children of the state `p` (reached by
`path`) along the child-then-sibling chain. Each child is stepped onto first, then
its own children are walked unless `on_step` returned `descend = false`, then the
delegate ascends and the walk goes on with the sibling label. The result lists the
calls of `on_step` in order and the final delegate state; it is `none` when the
depth budget `n` runs out or a label of the Guide is no transition of the
Dictionary. -/
def walk {D : Type} (dic : Dictionary) (guide : Guide) (del : Delegate D) :
    Nat → BaseType → List UCharType → UCharType → D → Option (List (Visit D) × D)
  | 0, _, _, _, _ => none
  | n + 1, p, path, c, d =>
    if c = 0 then some ([], d)
    else
      match dic.Follow c p with
      | none => none
      | some t =>
        let r := del.on_step (path ++ [c]) t d
        let v : Visit D :=
          { key := path ++ [c], index := t, delegate := r.1, descend := r.2.1,
            result := r.2.2 }
        match (if r.2.1 then walk dic guide del n t (path ++ [c]) (guide.child t) r.1
               else some ([], r.1)) with
        | none => none
        | some (below, d2) =>
          match walk dic guide del n p path (guide.sibling t)
              (del.on_ascend (path ++ [c]) d2) with
          | none => none
          | some (beside, d4) => some (v :: (below ++ beside), d4)

/-- What a walk records of a call of `on_step` that returned `result = true`, in
the shape of `DFS.view`. -/
def Visit.view {D : Type} (v : Visit D) : List UCharType × Option BaseType × D :=
  (v.key, some v.index, v.delegate)

/-- The node of a visit: the path and the state it leads to. -/
def Visit.node {D : Type} (v : Visit D) : List UCharType × BaseType := (v.key, v.index)

/-- A delegate that keeps, next to the state of `del`, the list of the calls of
`on_step` made so far. -/
def recorder {D : Type} (del : Delegate D) : Delegate (D × List (Visit D)) where
  on_step := fun key top s =>
    let r := del.on_step key top s.1
    ((r.1, s.2 ++ [{ key := key, index := top, delegate := r.1, descend := r.2.1,
                      result := r.2.2 }]), r.2.1, r.2.2)
  on_ascend := fun key s => (del.on_ascend key s.1, s.2)

/-- The delegate that always descends and never yields. -/
def plainDelegate : Delegate Unit where
  on_step := fun _ _ d => (d, true, false)
  on_ascend := fun _ d => d

/-- The nodes below the root in Guide order: every path of the Guide with the
state it leads to. -/
def nodes (dic : Dictionary) (guide : Guide) (n : Nat) : Option (List (List UCharType × BaseType)) :=
  match walk dic guide plainDelegate n dic.root [] (guide.child dic.root) () with
  | none => none
  | some (vs, _) => some (vs.map Visit.node)

/-- A well-formed Dictionary/Guide pair: the root has no sibling and no value (the
empty string is no key), the walk along the Guide's child and sibling labels is
finite and follows transitions of the Dictionary only, and the Guide lists every
transition of every state on the walk (`child` is the first outgoing label,
`sibling` the next one). -/
def WellFormed (dic : Dictionary) (guide : Guide) : Prop :=
  guide.sibling dic.root = 0 ∧ dic.has_value dic.root = false ∧
  ∃ n ns, nodes dic guide n = some ns ∧
    ∀ e ∈ ([], dic.root) :: ns, ∀ (c : UCharType) (t : BaseType),
      dic.Follow c e.2 = some t → (e.1 ++ [c], t) ∈ ns

/-! ## similar.h: the LCS search -/

/-- Conversion of an `int` to `IndexType` (`int16_t`): the value modulo `2^16` in
the range `-32768 .. 32767`. -/
def toIndexType (x : Int) : Int := (x + 32768) % 65536 - 32768

/-- Class `LCS` without its `dfs_` member (the driver holds the delegate). -/
structure LCS where
  word_ : List UCharType
  C_ : Matrix Int
  min_length_ : Int
  result_ : List UCharType
deriving DecidableEq, Repr

namespace LCS

/-- The loop of `backtrack` with a budget of passes; `a[i]` is `key[i - 1]` and
`b[j]` is `word_[j - 1]`. Returns the bytes pushed and the final `i` and `j`. -/
def backtrack_loop (C : Matrix Int) (key word : List UCharType) :
    Nat → SizeType → SizeType → List UCharType → List UCharType × SizeType × SizeType
  | 0, i, j, result => (result, i, j)
  | fuel + 1, i, j, result =>
    if i > 0 ∧ j > 0 then
      if key.getD (i - 1) 0 = word.getD (j - 1) 0 then
        backtrack_loop C key word fuel (i - 1) (j - 1) (result ++ [key.getD (i - 1) 0])
      else if C.get i (j - 1) > C.get (i - 1) j then
        backtrack_loop C key word fuel i (j - 1) result
      else
        backtrack_loop C key word fuel (i - 1) j result
    else (result, i, j)

/-- Member `backtrack(a, b, i, j)`: the loop runs at most `i + j` times; the bytes
pushed are reversed. -/
def backtrack (s : LCS) (key : List UCharType) (i j : SizeType) : LCS :=
  { s with result_ := (backtrack_loop s.C_ key s.word_ (i + j) i j []).1.reverse }

/-- The loop `for (j = 1; j < columns; j++)` of `on_step`, with `n` passes left. -/
def step_loop (key word : List UCharType) (i : Nat) :
    Nat → SizeType → Matrix Int → Matrix Int
  | 0, _, C => C
  | n + 1, j, C =>
    let C1 :=
      if key.getD (i - 1) 0 = word.getD (j - 1) 0 then
        C.put i j (toIndexType (C.get (i - 1) (j - 1) + 1))
      else
        C.put i j (max (C.get i (j - 1)) (C.get (i - 1) j))
    step_loop key word i n (j + 1) C1

/-- Member `on_step()`. -/
def on_step (dic : Dictionary) (key : List UCharType) (top : BaseType) (s : LCS) :
    LCS × Bool × Bool :=
  let i := key.length
  let columns := s.C_.columns
  let C1 := (s.C_.allocate i).put i 0 0
  let C2 := step_loop key s.word_ i (columns - 1) 1 C1
  let s1 : LCS := { s with C_ := C2 }
  if dic.has_value top then
    let lcs := C2.get i (columns - 1)
    if lcs ≥ s1.min_length_ then (backtrack s1 key i (columns - 1), true, true)
    else (s1, true, false)
  else (s1, true, false)

/-- Member `on_ascend()`. -/
def on_ascend (_key : List UCharType) (s : LCS) : LCS := s

/-- The delegate that the `LCS` object hands to its driver. -/
def delegate (dic : Dictionary) : Delegate LCS where
  on_step := on_step dic
  on_ascend := on_ascend

/-- The loop of `start` that fills row 0 with zeros. -/
def start_loop : Nat → SizeType → Matrix Int → Matrix Int
  | 0, _, C => C
  | n + 1, j, C => start_loop n (j + 1) (C.put 0 j 0)

/-- Member `start(s, len, min_length)` on the search object, the driver with its
delegate. -/
def start (dic : Dictionary) (s : DFS LCS) (word : List CharType) (min_length : Int) :
    DFS LCS :=
  let C1 := (s.delegate.C_.set_columns (word.length + 1)).allocate 0
  let C2 := start_loop C1.columns 0 C1
  DFS.start dic
    { s with
      delegate :=
        { word_ := word, C_ := C2, min_length_ := min_length,
          result_ := s.delegate.result_ } }

/-- A freshly constructed search object. -/
def new : DFS LCS :=
  { delegate := { word_ := [], C_ := { columns_ := 0, rows_ := [] }, min_length_ := 0,
                  result_ := [] }
    stack_ := [], key_ := [], state_ := Mode.NEXT_SIBLING }

/-- Member `next()`. -/
def next (dic : Dictionary) (guide : Guide) (fuel : Nat) (s : DFS LCS) :
    Option (Bool × DFS LCS) :=
  DFS.next dic guide (delegate dic) fuel s

/-- Accessors `lcs()` and `lcs_length()`: the bytes of the result buffer. -/
def lcs (s : DFS LCS) : List UCharType := s.delegate.result_

end LCS

/-! ## similar.h: the Similar search -/

/-- Class `Similar<CostType>` without its `dfs_` member. The pointer `costs_` is
`none` while it is null. -/
structure Similar where
  costs_ : Option Costs
  cached_insert_cost_ : List CostType
  word_ : List UCharType
  distances_ : Matrix CostType
  max_cost_ : CostType
  found_cost_ : CostType
  allow_transpose : Bool
  allow_split : Bool
  allow_merge : Bool
  da_ : List BaseType
  da_rollback_ : List BaseType
deriving DecidableEq, Repr

namespace Similar

/-- Member `col_delete_range_cost(start, end)`. -/
def col_delete_range_cost (M : Matrix CostType) (start end_ : Nat) : CostType :=
  M.get end_ 0 - M.get (start - 1) 0

/-- Member `row_insert_range_cost(start, end)`. -/
def row_insert_range_cost (M : Matrix CostType) (start end_ : Nat) : CostType :=
  M.get 0 end_ - M.get 0 (start - 1)

/-- The value `cost` that one pass of the loop of `compute_cost_fast` stores in
`row_i[j]`, and the new `db`. -/
def cell_cost (Transpose UnionSplit : Bool) (s : Similar) (costs : Costs)
    (key : List UCharType) (i : Nat) (delete_cost_a_i : CostType) (M : Matrix CostType)
    (j : SizeType) (db : SizeType) (row_i_j_1 : CostType) : CostType × SizeType :=
  let a_i := key.getD (i - 1) 0
  let b_j := s.word_.getD (j - 1) 0
  let L := db
  let replace_cost := M.get (i - 1) (j - 1)
  let r : CostType × SizeType :=
    if b_j ≠ a_i then
      let replace_cost := replace_cost + costs.replace.get a_i b_j
      let insert_cost := row_i_j_1 + s.cached_insert_cost_.getD (j - 1) 0
      let delete_cost := M.get (i - 1) j + delete_cost_a_i
      (min (min insert_cost delete_cost) replace_cost, db)
    else
      (replace_cost, if Transpose then j else db)
  let cost := r.1
  let cost :=
    if Transpose && decide (L ≥ 1) then
      let k := s.da_.getD b_j.val 0
      if k < 1 ∨ L < 1 then cost
      else
        let c_diag := M.get (k - 1) (L - 1)
        let c0 := costs.transpose.get (key.getD (k - 1) 0) a_i
        let transpose_cost :=
          c_diag + col_delete_range_cost M (k + 1) (i - 1) + c0 +
            row_insert_range_cost M (L + 1) (j - 1)
        min cost transpose_cost
    else cost
  let cost :=
    if UnionSplit && s.allow_split && decide (j > 1) then
      min cost (M.get (i - 1) (j - 2) +
        costs.split.get a_i (s.word_.getD (j - 2) 0) b_j)
    else cost
  let cost :=
    if UnionSplit && s.allow_merge && decide (i > 1) then
      min cost (M.get (i - 2) (j - 1) +
        costs.merge.get (key.getD (i - 2) 0) a_i b_j)
    else cost
  (cost, r.2)

/-- The loop `for (j = 1; j < columns; j++)` of `compute_cost_fast`, with `n`
passes left; returns the matrix and `smallest`. -/
def cost_loop (Transpose UnionSplit : Bool) (s : Similar) (costs : Costs)
    (key : List UCharType) (i : Nat) (delete_cost_a_i : CostType) :
    Nat → SizeType → SizeType → CostType → CostType → Matrix CostType →
      Matrix CostType × CostType
  | 0, _, _, _, smallest, M => (M, smallest)
  | n + 1, j, db, row_i_j_1, smallest, M =>
    let r := cell_cost Transpose UnionSplit s costs key i delete_cost_a_i M j db row_i_j_1
    cost_loop Transpose UnionSplit s costs key i delete_cost_a_i n (j + 1) r.2 r.1
      (min smallest r.1) (M.put i j r.1)

/-- Member `compute_cost_fast<Transpose, UnionSplit>()`. A null `costs_` reads as
the default-constructed table. -/
def compute_cost_fast (Transpose UnionSplit : Bool) (dic : Dictionary)
    (key : List UCharType) (top : BaseType) (s : Similar) : Similar × Bool × Bool :=
  let i := key.length
  let a_i := key.getD (i - 1) 0
  let costs := s.costs_.getD Costs.new
  let delete_cost_a_i := costs.delete_.get a_i
  let columns := s.distances_.columns
  let M0 := s.distances_.allocate i
  let row_i_0 := M0.get (i - 1) 0 + delete_cost_a_i
  let M1 := M0.put i 0 row_i_0
  let r := cost_loop Transpose UnionSplit s costs key i delete_cost_a_i (columns - 1) 1 0
    row_i_0 row_i_0 M1
  let smallest := r.2
  let s1 : Similar := { s with distances_ := r.1 }
  let s2 : Similar :=
    if Transpose then
      let rollback := (resize s1.da_rollback_ (i + 1) 0).set i (s1.da_.getD a_i.val 0)
      { s1 with da_rollback_ := rollback, da_ := s1.da_.set a_i.val i }
    else s1
  let best_cost := r.1.get i (columns - 1)
  let descend := decide (smallest ≤ s.max_cost_)
  if best_cost ≤ s.max_cost_ ∧ dic.has_value top = true then
    ({ s2 with found_cost_ := best_cost }, descend, true)
  else
    ({ s2 with found_cost_ := -1 }, descend, false)

/-- Member `on_step()`. -/
def on_step (dic : Dictionary) (key : List UCharType) (top : BaseType) (s : Similar) :
    Similar × Bool × Bool :=
  if s.allow_split || s.allow_merge then
    if s.allow_transpose then compute_cost_fast true true dic key top s
    else compute_cost_fast false true dic key top s
  else if s.allow_transpose then compute_cost_fast true false dic key top s
  else compute_cost_fast false false dic key top s

/-- Member `on_ascend()`. -/
def on_ascend (key : List UCharType) (s : Similar) : Similar :=
  if s.allow_transpose then
    let i := key.length
    { s with da_ := s.da_.set (key.getD (i - 1) 0).val (s.da_rollback_.getD i 0) }
  else s

/-- The delegate that the `Similar` object hands to its driver. -/
def delegate (dic : Dictionary) : Delegate Similar where
  on_step := on_step dic
  on_ascend := on_ascend

/-- The loop of `start` that fills `cached_insert_cost_` and row 0, with `n`
passes left. -/
def start_loop (costs : Costs) (word : List UCharType) :
    Nat → SizeType → CostType → List CostType → Matrix CostType →
      List CostType × Matrix CostType
  | 0, _, _, cached, M => (cached, M)
  | n + 1, j, cost, cached, M =>
    let ic := costs.insert.get (word.getD (j - 1) 0)
    start_loop costs word n (j + 1) (cost + ic) (cached.set (j - 1) ic)
      (M.put 0 j (cost + ic))

/-- A freshly constructed search object: no cost table, all features off. -/
def new : DFS Similar :=
  { delegate :=
      { costs_ := none, cached_insert_cost_ := [], word_ := [],
        distances_ := { columns_ := 0, rows_ := [] }, max_cost_ := 0, found_cost_ := 0,
        allow_transpose := false, allow_split := false, allow_merge := false,
        da_ := [], da_rollback_ := [] }
    stack_ := [], key_ := [], state_ := Mode.NEXT_SIBLING }

/-- Member `set_costs(costs)`. -/
def set_costs (s : DFS Similar) (costs : Costs) : DFS Similar :=
  { s with delegate := { s.delegate with costs_ := some costs } }

/-- Member `set_enable_transpose(allow)`. -/
def set_enable_transpose (s : DFS Similar) (allow : Bool) : DFS Similar :=
  { s with delegate := { s.delegate with allow_transpose := allow } }

/-- Member `set_enable_merge(allow)`. -/
def set_enable_merge (s : DFS Similar) (allow : Bool) : DFS Similar :=
  { s with delegate := { s.delegate with allow_merge := allow } }

/-- Member `set_enable_split(allow)`. -/
def set_enable_split (s : DFS Similar) (allow : Bool) : DFS Similar :=
  { s with delegate := { s.delegate with allow_split := allow } }

/-- Member `start(s, len, max_cost)` on the search object, the driver with its
delegate. -/
def start (dic : Dictionary) (s : DFS Similar) (word : List CharType) (max_cost : CostType) :
    DFS Similar :=
  let d := s.delegate
  let costs := d.costs_.getD Costs.new
  let len := word.length
  let M0 := (d.distances_.set_columns (len + 1)).allocate 0
  let r := start_loop costs word (M0.columns - 1) 1 0 (resize d.cached_insert_cost_ len 0)
    (M0.put 0 0 0)
  DFS.start dic
    { s with
      delegate :=
        { d with
          word_ := word
          costs_ := some costs
          distances_ := r.2
          found_cost_ := -1
          max_cost_ := max 0 max_cost
          cached_insert_cost_ := r.1
          da_ := if d.allow_transpose then resize [] 256 0 else d.da_ } }

/-- Member `next()`. -/
def next (dic : Dictionary) (guide : Guide) (fuel : Nat) (s : DFS Similar) :
    Option (Bool × DFS Similar) :=
  DFS.next dic guide (delegate dic) fuel s

/-- Accessor `cost()`. -/
def cost (s : DFS Similar) : CostType := s.delegate.found_cost_

end Similar

/-! ## The dictionary of the scenarios -/

/-- A unit that is no state and no transition target. -/
def unusedUnit : DictionaryUnit :=
  { label := 2147483648, has_leaf := false, offset := 0, value := 0 }

/-- A state unit: label, has-leaf flag and offset. -/
def stateUnit (label : BaseType) (has_leaf : Bool) (offset : BaseType) : DictionaryUnit :=
  { label := label, has_leaf := has_leaf, offset := offset, value := 0 }

/-- A value unit: its label is no byte. -/
def valueUnit (value : ValueType) : DictionaryUnit :=
  { label := 2147483648, has_leaf := false, offset := 0, value := value }

/-- The units of a double array for `cat -> 1, car -> 2, cart -> 3, dog -> 4`:
state `s` has its transitions in the block `s XOR offset(s)`, a multiple of 256. -/
def exampleUnits : List (BaseType × DictionaryUnit) :=
  [ (0, stateUnit 0 false 256),
    (355, stateUnit 99 false (355 ^^^ 512)),
    (356, stateUnit 100 false (356 ^^^ 1792)),
    (609, stateUnit 97 false (609 ^^^ 768)),
    (882, stateUnit 114 true (882 ^^^ 1024)),
    (884, stateUnit 116 true (884 ^^^ 1536)),
    (1024, valueUnit 2),
    (1140, stateUnit 116 true (1140 ^^^ 1280)),
    (1280, valueUnit 3),
    (1536, valueUnit 1),
    (1903, stateUnit 111 false (1903 ^^^ 2048)),
    (2151, stateUnit 103 true (2151 ^^^ 2304)),
    (2304, valueUnit 4) ]

/-- The dictionary `cat -> 1, car -> 2, cart -> 3, dog -> 4`. -/
def exampleDic : Dictionary where
  units_ := fun i => (exampleUnits.lookup i).getD unusedUnit
  size_ := 2305

/-- The guide units of `exampleDic`: children in the order of their labels. -/
def exampleGuideUnits : List (BaseType × GuideUnit) :=
  [ (0, ⟨99, 0⟩), (355, ⟨97, 100⟩), (356, ⟨111, 0⟩), (609, ⟨114, 0⟩),
    (882, ⟨116, 116⟩), (1903, ⟨103, 0⟩) ]

/-- The guide of `exampleDic`. -/
def exampleGuide : Guide where
  units_ := fun i => (exampleGuideUnits.lookup i).getD ⟨0, 0⟩
  size_ := 2305

/-! ## The length of a longest common subsequence -/

/-- The length of a longest common subsequence of two byte strings, by the
textbook recursion on the first bytes. -/
def lcsLength : List UCharType → List UCharType → Nat
  | [], _ => 0
  | _ :: _, [] => 0
  | x :: xs, y :: ys =>
    if x = y then lcsLength xs ys + 1
    else max (lcsLength (x :: xs) ys) (lcsLength xs (y :: ys))
termination_by xs ys => xs.length + ys.length

namespace Matrix

/-- The matrix has `cols` columns and its buffer holds the rows `0 .. n - 1`. -/
def Ready {T : Type} (m : Matrix T) (cols n : Nat) : Prop :=
  m.columns_ = cols ∧ n * cols ≤ m.rows_.length

end Matrix

namespace LCS

/-- The invariant of the LCS delegate along a path: the word and the minimum length
are those of `start`, the matrix has `|word| + 1` columns and holds the rows
`0 .. |path|`, row 0 and column 0 are zero, and every other cell of these rows
satisfies the recurrence of `on_step` (with the conversion to `IndexType`). -/
def Inv (word : List UCharType) (min_length : Int) (path : List UCharType) (d : LCS) : Prop :=
  d.word_ = word ∧ d.min_length_ = min_length ∧
  d.C_.Ready (word.length + 1) (path.length + 1) ∧
  (∀ j, j ≤ word.length → d.C_.get 0 j = 0) ∧
  (∀ r, r ≤ path.length → d.C_.get r 0 = 0) ∧
  ∀ r, r < path.length → ∀ j, j < word.length →
    d.C_.get (r + 1) (j + 1) =
      if path.getD r 0 = word.getD j 0 then toIndexType (d.C_.get r j + 1)
      else max (d.C_.get (r + 1) j) (d.C_.get r (j + 1))

end LCS

/-! ## The weighted edit distance -/

/-- The cost structure of a cost table for insertions, deletions and replacements:
replacing a byte by itself is free. -/
def editCost (costs : Costs) : Levenshtein.Cost UCharType UCharType Int where
  delete := fun a => costs.delete_.get a
  insert := fun b => costs.insert.get b
  substitute := fun a b => if a = b then 0 else costs.replace.get a b

/-- The distance `d(key, word)` of the specification: the least total cost of
insertions, deletions and replacements that turn `key` into `word`, every byte
being touched at most once (the Levenshtein distance of Mathlib for the cost
structure of the table). -/
def editDistance (costs : Costs) (key word : List UCharType) : Int :=
  levenshtein (editCost costs) key word

namespace Similar

/-- What `on_step` and `on_ascend` leave alone: the cost table, the word, the
bound, the three flags, the cached insertion costs and the number of columns. -/
def Config (costs : Costs) (word : List UCharType) (bound : CostType) (tr sp me : Bool)
    (d : Similar) : Prop :=
  d.costs_ = some costs ∧ d.word_ = word ∧ d.max_cost_ = bound ∧
  d.allow_transpose = tr ∧ d.allow_split = sp ∧ d.allow_merge = me ∧
  d.distances_.columns_ = word.length + 1 ∧
  ∀ j, j < word.length → d.cached_insert_cost_.getD j 0 = costs.insert.get (word.getD j 0)

/-- The invariant of the Similar delegate along a path when transposition, split
and merge are off: the matrix holds the rows `0 .. |path|`, and `d[r][j]` is the
edit distance from the first `r` bytes of the path to the first `j` bytes of the
word. -/
def Inv (costs : Costs) (word : List UCharType) (bound : CostType) (path : List UCharType)
    (d : Similar) : Prop :=
  Config costs word bound false false false d ∧
  d.distances_.Ready (word.length + 1) (path.length + 1) ∧
  ∀ r, r ≤ path.length → ∀ j, j ≤ word.length →
    d.distances_.get r j = editDistance costs (path.take r) (word.take j)

/-- The conditions on a cost table under which the search computes the edit
distance: the costs of insertions, deletions and replacements are non-negative,
and a deletion, or an insertion, costs no more when it is done directly than when
it is done by way of a replacement. -/
def Metric (costs : Costs) : Prop :=
  (∀ a, 0 ≤ costs.insert.get a) ∧ (∀ a, 0 ≤ costs.delete_.get a) ∧
  (∀ a b, 0 ≤ costs.replace.get a b) ∧
  (∀ a c, a ≠ c → costs.delete_.get a ≤ costs.replace.get a c + costs.delete_.get c) ∧
  (∀ c b, c ≠ b → costs.insert.get b ≤ costs.insert.get c + costs.replace.get c b)

end Similar

namespace Similar

/-- The matrix and the value of `smallest` with which the loop of
`compute_cost_fast` ends when it is called with the key `key` in the state `s`. -/
def new_row (Transpose UnionSplit : Bool) (s : Similar) (key : List UCharType) :
    Matrix CostType × CostType :=
  let i := key.length
  let costs := s.costs_.getD Costs.new
  let delete_cost_a_i := costs.delete_.get (key.getD (i - 1) 0)
  let M0 := s.distances_.allocate i
  let row_i_0 := M0.get (i - 1) 0 + delete_cost_a_i
  cost_loop Transpose UnionSplit s costs key i delete_cost_a_i (s.distances_.columns - 1) 1 0
    row_i_0 row_i_0 (M0.put i 0 row_i_0)

end Similar

/-! ## The client loop, the search without pruning, and two cost tables -/

namespace Similar

/-- The pairs `(key(), cost())` that the client loop `while (next()) ...` is shown,
in order; `none` while the budgets `fuel` and `calls` do not suffice. -/
def collect (dic : Dictionary) (guide : Guide) (del : Delegate Similar) (fuel calls : Nat)
    (s : DFS Similar) : Option (List (List UCharType × CostType)) :=
  (DFS.drain dic guide del fuel calls s).map
    (fun r => r.1.map (fun x => (x.key, cost x)))

/-- The reference of the specification for the pruning: the same delegate, except
that `on_step` always returns `descend = true`. -/
def unpruned (dic : Dictionary) : Delegate Similar where
  on_step := fun key top s => ((on_step dic key top s).1, true, (on_step dic key top s).2.2)
  on_ascend := on_ascend

end Similar

/-- A cost table in which inserting `x` costs 10 and replacing `c` by `x` is free;
every other cost is 1. -/
def skewCosts : Costs :=
  ((Costs.new.set_insert_cost 120 10).2.set_replace_cost 99 120 0).2

/-- A cost table in which every insertion and every deletion costs 5, replacing `c`
by `x` costs 5, and every other cost, that of a merge included, is 1. -/
def mergeCosts : Costs :=
  (((Costs.new.set_insert_cost_default 5).2.set_delete_cost_default 5).2.set_replace_cost
    99 120 5).2

/-- A cost table in which every insertion costs 2, every deletion 3 and every
replacement 1. -/
def weightedCosts : Costs :=
  ((Costs.new.set_insert_cost_default 2).2.set_delete_cost_default 3).2

/-! ## The order of the labels in the Guide -/

/-- The labels of the child-then-sibling chain of state `p` from label `c` on: `c`
itself when it is a transition of `p`, and the labels of the chain from the sibling
label of the state that `c` leads to. -/
inductive Guide.InChain (dic : Dictionary) (guide : Guide) (p : BaseType) :
    UCharType → UCharType → Prop
  | here (c : UCharType) (t : BaseType) : c ≠ 0 → dic.Follow c p = some t →
      Guide.InChain dic guide p c c
  | next (c : UCharType) (t : BaseType) (a : UCharType) : c ≠ 0 → dic.Follow c p = some t →
      Guide.InChain dic guide p (guide.sibling t) a → Guide.InChain dic guide p c a

/-- Label `b` comes after label `a` in the chain of state `p`: it is in the chain
from the sibling label of the state that `a` leads to. -/
def Guide.After (dic : Dictionary) (guide : Guide) (p : BaseType) (a b : UCharType) : Prop :=
  ∃ t, dic.Follow a p = some t ∧ Guide.InChain dic guide p (guide.sibling t) b

/-! ## The client loop of the LCS search, and the cost table of a scenario -/

namespace LCS

/-- The pairs `(key(), lcs())` that the client loop `while (next()) ...` is shown,
in order; `none` while the budgets `fuel` and `calls` do not suffice. -/
def collect (dic : Dictionary) (guide : Guide) (fuel calls : Nat) (s : DFS LCS) :
    Option (List (List UCharType × List UCharType)) :=
  (DFS.drain dic guide (delegate dic) fuel calls s).map
    (fun r => r.1.map (fun x => (x.key, lcs x)))

end LCS

/-- The default cost table after `set_delete_cost('t', 5)`. -/
def deleteTCosts : Costs := (Costs.new.set_delete_cost 116 5).2

/-! ## dictionary.h: reading a dictionary -/

/-- The callback type `IOFunction` on a stream of type `σ`: a call
`read(stream, buf, size)` leaves a new stream and, when it reports success, the
bytes it stored in `buf`; `none` is the report of a failure. -/
abbrev IOFunction (σ : Type) := σ → SizeType → σ × Option (List UCharType)

/-- What `Read` needs of the missing `dictionary-unit.h`: the value of
`sizeof(DictionaryUnit)` and the unit that a run of that many bytes stands for. -/
structure UnitLayout where
  size : SizeType
  decode : List UCharType → DictionaryUnit

/-- The `BaseType` that four bytes in memory stand for, least significant byte
first, modulo `2^32`. -/
def le32 (bytes : List UCharType) : BaseType :=
  (bytes.foldr (fun b acc => b.val + 256 * acc) 0) % 4294967296

/-- The units in a buffer of `n` units read as bytes. -/
def decodeUnits (layout : UnitLayout) : Nat → List UCharType → List DictionaryUnit
  | 0, _ => []
  | n + 1, bytes =>
    layout.decode (bytes.take layout.size) :: decodeUnits layout n (bytes.drop layout.size)

namespace Dictionary

/-- Member `SwapUnitsBuf(units_buf)`: the dictionary takes over the buffer. A read
past the end of the buffer yields the unit that no bytes stand for. -/
def SwapUnitsBuf (layout : UnitLayout) (_dic : Dictionary) (units_buf : List DictionaryUnit) :
    Dictionary :=
  { units_ := fun i => units_buf.getD i (layout.decode []), size_ := units_buf.length }

/-- Member `Read(read, stream)`: the result, the dictionary and the stream after
the call. -/
def Read {σ : Type} (layout : UnitLayout) (read : IOFunction σ) (stream : σ)
    (dic : Dictionary) : Bool × Dictionary × σ :=
  match read stream 4 with
  | (stream1, none) => (false, dic, stream1)
  | (stream1, some header) =>
    let size := le32 header
    match read stream1 (layout.size * size) with
    | (stream2, none) => (false, dic, stream2)
    | (stream2, some payload) =>
      (true, SwapUnitsBuf layout dic (decodeUnits layout size payload), stream2)

end Dictionary

/-- A read callback on a stream of bytes: fails when fewer than `size` bytes are
left, and hands out the next `size` bytes otherwise. -/
def bytesRead : IOFunction (List UCharType) := fun stream size =>
  if stream.length < size then (stream, none) else (stream.drop size, some (stream.take size))

/-- A layout of four bytes per unit: the label, the has-leaf flag, the offset and
the value in one byte each. -/
def exampleLayout : UnitLayout where
  size := 4
  decode := fun bytes =>
    { label := (bytes.getD 0 0).val, has_leaf := decide ((bytes.getD 1 0).val ≠ 0),
      offset := (bytes.getD 2 0).val, value := (bytes.getD 3 0).val }

/-! ## A delegate that records the calls of `on_ascend` -/

/-- A delegate that keeps, next to the state of `del`, the keys with which
`on_ascend` was called so far. -/
def ascendLog {D : Type} (del : Delegate D) : Delegate (D × List (List UCharType)) where
  on_step := fun key top s =>
    (((del.on_step key top s.1).1, s.2), (del.on_step key top s.1).2.1,
      (del.on_step key top s.1).2.2)
  on_ascend := fun key s => (del.on_ascend key s.1, s.2 ++ [key])

/-! ## The dynamic programme of the Similar search along a path -/

namespace Similar

/-- The state of the delegate after the calls of `on_step` that a descent along
`rest` makes, one per byte, from the state `d` at the path `done`; `top` gives the
state index on top of the stack at each path. -/
def steps (dic : Dictionary) (top : List UCharType → BaseType) :
    List UCharType → List UCharType → Similar → Similar
  | _, [], d => d
  | done, c :: rest, d =>
    steps dic top (done ++ [c]) rest (on_step dic (done ++ [c]) (top (done ++ [c])) d).1

/-- The cell `d[|path|][|word|]` that the search started for `word` computes when
it descends along `path`: the last cell of the last row. -/
def path_cost (dic : Dictionary) (top : List UCharType → BaseType) (s : DFS Similar)
    (word : List CharType) (max_cost : CostType) (path : List UCharType) : CostType :=
  (steps dic top [] path (start dic s word max_cost).delegate).distances_.get
    path.length word.length

/-- The recurrence of the loop of `compute_cost_fast` with the three features off,
read as a function of the path and of the word, both with their last byte first. -/
def plainCost (costs : Costs) : List UCharType → List UCharType → CostType
  | [], [] => 0
  | [], b :: w => plainCost costs [] w + costs.insert.get b
  | a :: k, [] => plainCost costs k [] + costs.delete_.get a
  | a :: k, b :: w =>
    if b ≠ a then
      min (min (plainCost costs (a :: k) w + costs.insert.get b)
          (plainCost costs k (b :: w) + costs.delete_.get a))
        (plainCost costs k w + costs.replace.get a b)
    else plainCost costs k w
termination_by k w => k.length + w.length

/-- The invariant of the Similar delegate along a path when transposition, split
and merge are off, for any cost table: the matrix holds the rows `0 .. |path|`, and
`d[r][j]` is the value of the recurrence for the first `r` bytes of the path and
the first `j` bytes of the word. -/
def PlainInv (costs : Costs) (word : List UCharType) (bound : CostType) (path : List UCharType)
    (d : Similar) : Prop :=
  Config costs word bound false false false d ∧
  d.distances_.Ready (word.length + 1) (path.length + 1) ∧
  ∀ r, r ≤ path.length → ∀ j, j ≤ word.length →
    d.distances_.get r j = plainCost costs (path.take r).reverse (word.take j).reverse

end Similar

/-! ## The last occurrences on the path -/

/-- The largest depth (1-based position) at which `path` holds the byte `c`, and 0
when `c` does not occur on `path`. -/
def lastDepth : List UCharType → UCharType → Nat
  | [], _ => 0
  | a :: rest, c =>
    if lastDepth rest c ≠ 0 then lastDepth rest c + 1 else if a = c then 1 else 0

namespace Similar

/-- The invariant of `da_` and `da_rollback_` along a path, with transposition on:
`da_` has an entry for every byte, `da_[c]` is the last depth at which the path
holds `c`, and `da_rollback_[r]` is, for the byte at depth `r`, the last depth
above `r` at which the path holds it. -/
def DaInv (path : List UCharType) (d : Similar) : Prop :=
  d.allow_transpose = true ∧ d.da_.length = 256 ∧
  (∀ c : UCharType, d.da_.getD c.val 0 = lastDepth path c) ∧
  ∀ r, 1 ≤ r → r ≤ path.length →
    d.da_rollback_.getD r 0 = lastDepth (path.take (r - 1)) (path.getD (r - 1) 0)

end Similar

namespace DFS

/-- The states that the loop of `next()` passes through from the state `s0` on, one
pass of the loop at a time, across the calls of `next()`. -/
inductive Reached {D : Type} (dic : Dictionary) (guide : Guide) (del : Delegate D)
    (s0 : DFS D) : DFS D → Prop
  | start : Reached dic guide del s0 s0
  | pass (s s1 : DFS D) : Reached dic guide del s0 s →
      iteration dic guide del s = Outcome.continue s1 → Reached dic guide del s0 s1
  | ret (b : Bool) (s s1 : DFS D) : Reached dic guide del s0 s →
      iteration dic guide del s = Outcome.returned b s1 → Reached dic guide del s0 s1

end DFS

namespace Similar

/-- What relates the states `dA` and `dB` of two searches for the same word, with
the same cost table and bound, at the same path, when every feature that is on in
`dA` is on in `dB`: no cell of the rows `0 .. |path|` is larger in `dB` than in
`dA`, row 0 and column 0 are the same, and in both states `da_` and
`da_rollback_` are those of the path when transposition is on. -/
def Below (costs : Costs) (word : List UCharType) (bound : CostType) (path : List UCharType)
    (dA dB : Similar) : Prop :=
  Config costs word bound dA.allow_transpose dA.allow_split dA.allow_merge dA ∧
  Config costs word bound dB.allow_transpose dB.allow_split dB.allow_merge dB ∧
  (dA.allow_transpose = true → dB.allow_transpose = true) ∧
  (dA.allow_split = true → dB.allow_split = true) ∧
  (dA.allow_merge = true → dB.allow_merge = true) ∧
  dA.distances_.Ready (word.length + 1) (path.length + 1) ∧
  dB.distances_.Ready (word.length + 1) (path.length + 1) ∧
  (∀ r, r ≤ path.length → ∀ j, j ≤ word.length →
    dB.distances_.get r j ≤ dA.distances_.get r j) ∧
  (∀ r, r ≤ path.length → dB.distances_.get r 0 = dA.distances_.get r 0) ∧
  (∀ j, j ≤ word.length → dB.distances_.get 0 j = dA.distances_.get 0 j) ∧
  (dA.allow_transpose = true → DaInv path dA) ∧
  (dB.allow_transpose = true → DaInv path dB)

end Similar

/-! ## Edit sequences with swaps of adjacent bytes -/

namespace Similar

/-- The recurrence of the loop of `compute_cost_fast` with transposition on, split
and merge off and every cost 1, read as a function of the path and of the word,
both with their last byte first: the cell is the diagonal cell when the two bytes
are equal and else the least of the insertion, deletion and replacement
candidates, and the transposition candidate enters the minimum when the byte of
the word occurs earlier on the path (`da_`) and the byte of the path occurs
earlier in the word (`db`). -/
def transposeCost : List UCharType → List UCharType → Nat
  | [], w => w.length
  | _ :: k, [] => k.length + 1
  | a :: k, b :: w =>
    let cost :=
      if b ≠ a then
        min (min (transposeCost (a :: k) w + 1) (transposeCost k (b :: w) + 1))
          (transposeCost k w + 1)
      else transposeCost k w
    if k.indexOf b < k.length ∧ w.indexOf a < w.length then
      min cost (transposeCost (k.drop (k.indexOf b + 1)) (w.drop (w.indexOf a + 1)) +
        k.indexOf b + 1 + w.indexOf a)
    else cost
termination_by k w => k.length + w.length
decreasing_by
  all_goals simp_wf
  all_goals omega

end Similar

/-- One edit of a byte string in the sense of the Damerau-Levenshtein distance:
the insertion of a byte, the deletion of a byte, the substitution of a byte by
another one, or the swap of two adjacent bytes. -/
inductive Edit : List UCharType → List UCharType → Prop
  | insert (u v : List UCharType) (c : UCharType) : Edit (u ++ v) (u ++ c :: v)
  | delete (u v : List UCharType) (c : UCharType) : Edit (u ++ c :: v) (u ++ v)
  | substitute (u v : List UCharType) (c c2 : UCharType) : Edit (u ++ c :: v) (u ++ c2 :: v)
  | swap (u v : List UCharType) (c c2 : UCharType) :
      Edit (u ++ c :: c2 :: v) (u ++ c2 :: c :: v)

/-- A sequence of `n` edits that turns the first byte string into the second. -/
inductive EditChain : Nat → List UCharType → List UCharType → Prop
  | done (a : List UCharType) : EditChain 0 a a
  | step (n : Nat) (a b c : List UCharType) : Edit a b → EditChain n b c → EditChain (n + 1) a c

namespace Similar

/-- The byte string `S` is never more than one edit dearer than `S2`, whatever is
appended to the path later: the cells of `S` are at most those of `S2` plus 1,
and so is what a later transposition candidate reads through an occurrence of a
byte in `S2` (or else the cell of `S` itself makes up for it). -/
def Dominates (S S2 : List UCharType) : Prop :=
  (∀ z, transposeCost S z ≤ transposeCost S2 z + 1) ∧
  ∀ (y : UCharType) (p S0 z : List UCharType), S2 = p ++ y :: S0 → y ∉ p →
    (∃ p2 T0, S = p2 ++ y :: T0 ∧ y ∉ p2 ∧
      transposeCost T0 z + p2.length ≤ transposeCost S0 z + p.length + 1) ∨
    transposeCost S z ≤ transposeCost S0 z + p.length + 1

end Similar

namespace Similar

/-- The invariant of the Similar delegate along a path when transposition is on,
split and merge are off and the cost table is the default one: the matrix holds
the rows `0 .. |path|`, `d[r][j]` is the value of the recurrence with
transpositions for the first `r` bytes of the path and the first `j` bytes of the
word, and `da_` and `da_rollback_` are those of the path. -/
def TransInv (word : List UCharType) (bound : CostType) (path : List UCharType)
    (d : Similar) : Prop :=
  Config Costs.new word bound true false false d ∧
  d.distances_.Ready (word.length + 1) (path.length + 1) ∧
  (∀ r, r ≤ path.length → ∀ j, j ≤ word.length →
    d.distances_.get r j =
      ((transposeCost (path.take r).reverse (word.take j).reverse : Nat) : Int)) ∧
  DaInv path d

end Similar

/-! ## The minimum of a row -/

namespace Similar

/-- The costs that the loop of `compute_cost_fast` reads while transposition and
merge are off are non-negative: insertions, deletions, replacements and splits. -/
def NonNegative (costs : Costs) : Prop :=
  (∀ a, 0 ≤ costs.insert.get a) ∧ (∀ a, 0 ≤ costs.delete_.get a) ∧
  (∀ a b, 0 ≤ costs.replace.get a b) ∧ (∀ a b c, 0 ≤ costs.split.get a b c)

/-- The invariant of the Similar delegate along a path when transposition and merge
are off: the matrix holds the rows `0 .. |path|`, and every cell of a row
`r >= 1` is at least some cell of the row above, that is, the minimum of row `r`
is at least the minimum of row `r - 1`. -/
def RowInv (costs : Costs) (word : List UCharType) (bound : CostType) (sp : Bool)
    (path : List UCharType) (d : Similar) : Prop :=
  Config costs word bound false sp false d ∧
  d.distances_.Ready (word.length + 1) (path.length + 1) ∧
  ∀ r, 1 ≤ r → r ≤ path.length → ∀ j, j ≤ word.length →
    ∃ j', j' ≤ word.length ∧ d.distances_.get (r - 1) j' ≤ d.distances_.get r j

end Similar

/-! ## The calls of `backtrack` -/

/-- Conversion of an `int` to `std::size_t`, taken with 64 bits: the value modulo
`2^64`. -/
def toSizeType (x : Int) : Int := x % 18446744073709551616

namespace LCS

/-- The state of the delegate after the calls of `on_step` that a descent along
`rest` makes, one per byte, from the state `d` at the path `done`; `top` gives the
state index on top of the stack at each path. -/
def steps (dic : Dictionary) (top : List UCharType → BaseType) :
    List UCharType → List UCharType → LCS → LCS
  | _, [], d => d
  | done, c :: rest, d =>
    steps dic top (done ++ [c]) rest (on_step dic (done ++ [c]) (top (done ++ [c])) d).1

/-- The condition of the `assert` that closes `backtrack(a, b, i, j)`, as it is
written: the size of the result buffer against `C_[i][C_.columns() - 1]`, where
`i` is the parameter after the loop has counted it down, and the cell is converted
to `std::size_t` for the comparison. -/
def backtrack_assertion (s : LCS) (key : List UCharType) (i j : SizeType) : Bool :=
  let r := backtrack_loop s.C_ key s.word_ (i + j) i j []
  decide ((r.1.reverse.length : Int) = toSizeType (s.C_.get r.2.1 (s.C_.columns - 1)))

/-- The value of the assertion of `backtrack` in a call of `on_step`; `none` when
`on_step` does not call `backtrack`. -/
def on_step_assertion (dic : Dictionary) (key : List UCharType) (top : BaseType) (s : LCS) :
    Option Bool :=
  let i := key.length
  let columns := s.C_.columns
  let C1 := (s.C_.allocate i).put i 0 0
  let C2 := step_loop key s.word_ i (columns - 1) 1 C1
  let s1 : LCS := { s with C_ := C2 }
  if dic.has_value top then
    let lcs := C2.get i (columns - 1)
    if lcs ≥ s1.min_length_ then some (backtrack_assertion s1 key i (columns - 1))
    else none
  else none

/-- The delegate of the LCS search together with a record of the values of the
assertion of `backtrack`, one for each call of `backtrack`, in order. -/
def assertLog (dic : Dictionary) : Delegate (LCS × List Bool) where
  on_step := fun key top s =>
    (((on_step dic key top s.1).1,
        match on_step_assertion dic key top s.1 with
        | none => s.2
        | some b => s.2 ++ [b]),
      (on_step dic key top s.1).2)
  on_ascend := fun key s => (on_ascend key s.1, s.2)

end LCS

/-- The index of the state that the key of `k` bytes `a` leads to in `chainDic`:
the root, and then the byte `a` in the block `256 * k`. -/
def chainState (k : Nat) : Nat := if k = 0 then 0 else 256 * k + 97

/-- A dictionary with the single key `a ... a` of `n` bytes (`a` is the byte 97):
a chain of `n + 1` states, the last with a value. -/
def chainDic (n : Nat) : Dictionary where
  units_ := fun i =>
    if i = 0 then stateUnit 0 false (0 ^^^ chainState 1 ^^^ 97)
    else if i % 256 = 97 ∧ 1 ≤ i / 256 ∧ i / 256 ≤ n then
      stateUnit 97 (decide (i / 256 = n)) (i ^^^ chainState (i / 256 + 1) ^^^ 97)
    else unusedUnit
  size_ := 256 * (n + 2)

/-- The guide of `chainDic n`: every state but the last has the child `a`, and no
state has a sibling. -/
def chainGuide (n : Nat) : Guide where
  units_ := fun i =>
    if (i = 0 ∨ (i % 256 = 97 ∧ 1 ≤ i / 256)) ∧ i / 256 < n then ⟨97, 0⟩ else ⟨0, 0⟩
  size_ := 256 * (n + 2)

/-- The stack of the driver at the key of `k` bytes `a` in `chainDic`, top first. -/
def chainStack : Nat → List BaseType
  | 0 => [0]
  | k + 1 => chainState (k + 1) :: chainStack k

/-! ## A Guide that does not fit the dictionary -/

/-- A guide that does not fit `exampleDic`: it is `exampleGuide`, except that the
state of the key `c` (index 355) names the child `z` (byte 122), for which the
dictionary has no transition; its sibling is `d` as before. -/
def mismatchedGuide : Guide where
  units_ := fun i => if i = 355 then ⟨122, 100⟩ else exampleGuide.units_ i
  size_ := 2305

/-- The default cost table with `set_split_cost('c', 'd', 'o', 0)`. -/
def splitCosts : Costs := (Costs.new.set_split_cost 99 100 111 0).2
/-! ## Exact lookup -/

namespace Dictionary

theorem followN_eq_some_iff (dic : Dictionary) (key : List CharType) (s t : BaseType) :
    dic.FollowN key s = some t ↔ dic.Reaches s key t := by
  induction key generalizing s with
  | nil =>
    simp only [FollowN, Option.some.injEq]
    constructor
    · rintro rfl; exact Reaches.nil _
    · intro h; cases h; rfl
  | cons c cs ih =>
    simp only [FollowN, Follow]
    by_cases hl : (dic.units_ (s ^^^ (dic.units_ s).offset ^^^ c.val)).label = c.val
    · simp only [ne_eq, hl, not_true_eq_false, ite_false]
      rw [ih]
      constructor
      · intro h; exact Reaches.cons _ _ _ _ hl h
      · intro h; cases h; assumption
    · simp only [ne_eq, hl, not_false_eq_true, ite_true]
      constructor
      · intro h; cases h
      · intro h; cases h; contradiction

theorem reaches_unique (dic : Dictionary) (key : List CharType) (s t t' : BaseType)
    (h : dic.Reaches s key t) (h' : dic.Reaches s key t') : t = t' := by
  rw [← followN_eq_some_iff] at h h'
  rw [h] at h'
  exact Option.some.inj h'


/-- C1: `Find(key, length)` returns `value(t)` exactly when following the bytes of the
key one by one from the root succeeds at every step and the state `t` reached has
`has_leaf` set, and `-1` in every other case; the overload with a value pointer
returns true and stores that value in the same case (and returns false, leaving the
value alone, otherwise), and `Contains(key, length)` is true in the same case. -/
theorem find_iff_reaches (dic : Dictionary) (key : List CharType) (old : ValueType) :
    (∀ t, dic.Reaches dic.root key t ∧ dic.has_value t = true →
      dic.Find key = dic.value t ∧ dic.FindValue key old = (true, dic.value t) ∧
        dic.Contains key = true) ∧
    ((¬ ∃ t, dic.Reaches dic.root key t ∧ dic.has_value t = true) →
      dic.Find key = -1 ∧ dic.FindValue key old = (false, old) ∧
        dic.Contains key = false) := by
  constructor
  · rintro t ⟨hr, hv⟩
    rw [← followN_eq_some_iff] at hr
    simp [Find, FindValue, Contains, hr, hv]
  · intro hno
    cases hf : dic.FollowN key dic.root with
    | none => simp [Find, FindValue, Contains, hf]
    | some t =>
      have hv : dic.has_value t = false := by
        cases hv : dic.has_value t with
        | false => rfl
        | true => exact absurd ⟨t, (followN_eq_some_iff dic key _ t).1 hf, hv⟩ hno
      simp [Find, FindValue, Contains, hf, hv]

/-- On the dictionary of the scenarios the key `cat` is found with value 1, by
`find_iff_reaches` at the state 884. -/
theorem find_iff_reaches_witness :
    exampleDic.Find [99, 97, 116] = exampleDic.value 884 ∧
      exampleDic.FindValue [99, 97, 116] 0 = (true, exampleDic.value 884) ∧
      exampleDic.Contains [99, 97, 116] = true :=
  (find_iff_reaches exampleDic [99, 97, 116] 0).1 884
    ⟨(followN_eq_some_iff exampleDic _ _ _).1 (by decide), by decide⟩

end Dictionary


/-! ## The driver and the preorder walk -/

namespace DFS

variable {D : Type}

theorem next_loop_mono (dic : Dictionary) (guide : Guide) (del : Delegate D)
    (fuel : Nat) (s : DFS D) (r : Bool × DFS D)
    (h : next_loop dic guide del fuel s = some r) (fuel' : Nat) (hle : fuel ≤ fuel') :
    next_loop dic guide del fuel' s = some r := by
  induction fuel generalizing s fuel' with
  | zero => simp [next_loop] at h
  | succ n ih =>
    obtain ⟨m, rfl⟩ : ∃ m, fuel' = m + 1 := ⟨fuel' - 1, by omega⟩
    simp only [next_loop] at h ⊢
    cases hi : iteration dic guide del s with
    | undefined => simp [hi] at h
    | returned b s1 => simpa [hi] using h
    | «continue» s1 =>
      simp only [hi] at h ⊢
      exact ih s1 h m (by omega)

theorem passes_trans {dic : Dictionary} {guide : Guide} {del : Delegate D}
    {s s1 s2 : DFS D} {l1 l2 : List (DFS D)}
    (h1 : Passes dic guide del s l1 s1) (h2 : Passes dic guide del s1 l2 s2) :
    Passes dic guide del s (l1 ++ l2) s2 := by
  induction h1 with
  | done s => simpa using h2
  | pass s sa sb found hi _ ih => exact Passes.pass s sa _ _ hi (ih h2)
  | hit s sa sb found hi _ ih => exact Passes.hit s sa _ _ hi (ih h2)

/-- The first `return` of the loop along `Passes`. -/
theorem passes_first {dic : Dictionary} {guide : Guide} {del : Delegate D}
    {s s1 s2 : DFS D} {found : List (DFS D)}
    (h : Passes dic guide del s found s1)
    (hlast : iteration dic guide del s1 = Outcome.returned false s2) :
    ∃ fuel, ∀ fuel', fuel ≤ fuel' →
      next_loop dic guide del fuel' s =
        some ((found.head?.map (Prod.mk true)).getD (false, s2)) := by
  induction h with
  | done s =>
    refine ⟨1, fun fuel' hf => ?_⟩
    obtain ⟨m, rfl⟩ : ∃ m, fuel' = m + 1 := ⟨fuel' - 1, by omega⟩
    simp [next_loop, hlast]
  | pass s sa sb found hi _ ih =>
    obtain ⟨fuel, hfuel⟩ := ih hlast
    refine ⟨fuel + 1, fun fuel' hf => ?_⟩
    obtain ⟨m, rfl⟩ : ∃ m, fuel' = m + 1 := ⟨fuel' - 1, by omega⟩
    simp only [next_loop, hi]
    exact hfuel m (by omega)
  | hit s sa sb found hi _ _ =>
    refine ⟨1, fun fuel' hf => ?_⟩
    obtain ⟨m, rfl⟩ : ∃ m, fuel' = m + 1 := ⟨fuel' - 1, by omega⟩
    simp [next_loop, hi]

/-- The passes after the first `return true`. -/
theorem passes_tail {dic : Dictionary} {guide : Guide} {del : Delegate D}
    {s s1 x : DFS D} {found : List (DFS D)}
    (h : Passes dic guide del s (x :: found) s1) : Passes dic guide del x found s1 := by
  generalize hl : x :: found = l at h
  induction h with
  | done s => cases hl
  | pass s sa sb fd hi _ ih => exact ih hl
  | hit s sa sb fd hi hp _ =>
    cases hl
    exact hp

theorem iteration_true_stack {dic : Dictionary} {guide : Guide} {del : Delegate D}
    {s s1 : DFS D} (h : iteration dic guide del s = Outcome.returned true s1) :
    s1.stack_ ≠ [] := by
  unfold iteration at h
  cases hm : s.state_ <;> simp only [hm] at h
  · -- NEXT_SIBLING
    cases hs : s.stack_ with
    | nil => simp [hs] at h
    | cons top rest =>
      simp only [hs] at h
      split_ifs at h with h0 h1
      · cases hr : rest with
        | nil => simp [follow, ascend, hs, hr] at h
        | cons p rest' =>
          cases hf : dic.Follow (guide.sibling top) p with
          | none => simp [follow, ascend, hs, hr, hf] at h
          | some t =>
            simp only [follow, ascend, hs, hr, hf, List.tail_cons, call_on_step] at h
            split_ifs at h <;> cases h <;> simp
      · cases h
  · -- NEXT_CHILD
    cases hs : s.stack_ with
    | nil => simp [hs] at h
    | cons top rest =>
      simp only [hs] at h
      split_ifs at h with h0
      cases hf : dic.Follow (guide.child top) top with
      | none => simp [follow, hs, hf] at h
      | some t =>
        simp only [follow, hs, hf, call_on_step] at h
        split_ifs at h <;> cases h <;> simp

theorem passes_found_stack {dic : Dictionary} {guide : Guide} {del : Delegate D}
    {s s1 : DFS D} {found : List (DFS D)}
    (h : Passes dic guide del s found s1) : ∀ x ∈ found, x.stack_ ≠ [] := by
  induction h with
  | done s => simp
  | pass s sa sb fd hi _ ih => exact ih
  | hit s sa sb fd hi _ ih =>
    intro x hx
    rcases List.mem_cons.1 hx with rfl | hx
    · exact iteration_true_stack hi
    · exact ih x hx

theorem next_of_stack_nil (dic : Dictionary) (guide : Guide) (del : Delegate D)
    (fuel : Nat) (s : DFS D) (h : s.stack_ = []) :
    next dic guide del fuel s = some (false, s) := by
  simp [next, h]

theorem advance_of_stack_nil (dic : Dictionary) (guide : Guide) (del : Delegate D)
    (fuel : Nat) (k : Nat) (s : DFS D) (h : s.stack_ = []) :
    advance dic guide del fuel k s = some (false, s) := by
  induction k with
  | zero => simp [advance, next, h]
  | succ k ih => simp [advance, next, h, ih]

/-- The client loop along `Passes`: the calls of `next()` return true at the
states `found` in turn, and false then. -/
theorem drain_of_passes {dic : Dictionary} {guide : Guide} {del : Delegate D}
    {found : List (DFS D)} :
    ∀ {s s1 s2 : DFS D}, Passes dic guide del s found s1 →
      iteration dic guide del s1 = Outcome.returned false s2 → s.stack_ ≠ [] →
      ∃ fuel, ∀ fuel', fuel ≤ fuel' → ∀ calls, found.length < calls →
        drain dic guide del fuel' calls s = some (found, s2) := by
  induction found with
  | nil =>
    intro s s1 s2 h hlast hs
    obtain ⟨fuel, hfuel⟩ := passes_first h hlast
    refine ⟨fuel, fun fuel' hf calls hc => ?_⟩
    obtain ⟨m, rfl⟩ : ∃ m, calls = m + 1 := ⟨calls - 1, by simp at hc; omega⟩
    have hne : s.stack_.isEmpty = false := by
      cases hq : s.stack_ with
      | nil => exact absurd hq hs
      | cons a b => rfl
    simp [drain, next, hne, hfuel fuel' hf]
  | cons x rest ih =>
    intro s s1 s2 h hlast hs
    obtain ⟨fuel, hfuel⟩ := passes_first h hlast
    have hx : x.stack_ ≠ [] := passes_found_stack h x (List.mem_cons_self _ _)
    obtain ⟨fuel2, hfuel2⟩ := ih (passes_tail h) hlast hx
    refine ⟨max fuel fuel2, fun fuel' hf calls hc => ?_⟩
    obtain ⟨m, rfl⟩ : ∃ m, calls = m + 1 := ⟨calls - 1, by simp at hc; omega⟩
    have hne : s.stack_.isEmpty = false := by
      cases hq : s.stack_ with
      | nil => exact absurd hq hs
      | cons a b => rfl
    have h1 := hfuel fuel' (le_trans (le_max_left _ _) hf)
    have h2 := hfuel2 fuel' (le_trans (le_max_right _ _) hf) m (by simp at hc; omega)
    simp [drain, next, hne, h1, h2]

/-- The calls of `next()` in a row along `Passes`: call number `k + 1` returns true
at the state `found[k]` while there is one, and false at the last state then. -/
theorem advance_of_passes {dic : Dictionary} {guide : Guide} {del : Delegate D}
    {found : List (DFS D)} :
    ∀ {s s1 s2 : DFS D}, Passes dic guide del s found s1 →
      iteration dic guide del s1 = Outcome.returned false s2 → s.stack_ ≠ [] →
      s2.stack_ = [] →
      ∃ fuel, ∀ fuel', fuel ≤ fuel' → ∀ k,
        advance dic guide del fuel' k s =
          some (decide (k < found.length), (found.get? k).getD s2) := by
  induction found with
  | nil =>
    intro s s1 s2 h hlast hs hs2
    obtain ⟨fuel, hfuel⟩ := passes_first h hlast
    refine ⟨fuel, fun fuel' hf k => ?_⟩
    have hne : s.stack_.isEmpty = false := by
      cases hq : s.stack_ with
      | nil => exact absurd hq hs
      | cons a b => rfl
    cases k with
    | zero => simp [advance, next, hne, hfuel fuel' hf]
    | succ k =>
      simp [advance, next, hne, hfuel fuel' hf, advance_of_stack_nil _ _ _ _ _ _ hs2]
  | cons x rest ih =>
    intro s s1 s2 h hlast hs hs2
    obtain ⟨fuel, hfuel⟩ := passes_first h hlast
    have hx : x.stack_ ≠ [] := passes_found_stack h x (List.mem_cons_self _ _)
    obtain ⟨fuel2, hfuel2⟩ := ih (passes_tail h) hlast hx hs2
    refine ⟨max fuel fuel2, fun fuel' hf k => ?_⟩
    have hne : s.stack_.isEmpty = false := by
      cases hq : s.stack_ with
      | nil => exact absurd hq hs
      | cons a b => rfl
    have h1 := hfuel fuel' (le_trans (le_max_left _ _) hf)
    cases k with
    | zero => simp [advance, next, hne, h1]
    | succ k =>
      have h2 := hfuel2 fuel' (le_trans (le_max_right _ _) hf) k
      simp [advance, next, hne, h1, h2]

end DFS


namespace DFS

variable {D : Type}

theorem iteration_child_zero (dic : Dictionary) (guide : Guide) (del : Delegate D)
    (p : BaseType) (rest : List BaseType) (path : List UCharType) (d : D)
    (h0 : guide.child p = 0) :
    iteration dic guide del ⟨d, p :: rest, path, Mode.NEXT_CHILD⟩ =
      Outcome.continue ⟨d, p :: rest, path, Mode.NEXT_SIBLING⟩ := by
  simp [iteration, h0]

theorem iteration_child_step (dic : Dictionary) (guide : Guide) (del : Delegate D)
    (p t : BaseType) (rest : List BaseType) (path : List UCharType) (d : D)
    (h0 : guide.child p ≠ 0) (hf : dic.Follow (guide.child p) p = some t) :
    iteration dic guide del ⟨d, p :: rest, path, Mode.NEXT_CHILD⟩ =
      if (del.on_step (path ++ [guide.child p]) t d).2.2 then
        Outcome.returned true (stepped del p t rest path (guide.child p) d)
      else Outcome.continue (stepped del p t rest path (guide.child p) d) := by
  simp only [iteration, h0, ne_eq, not_false_eq_true, ite_true, follow, hf, call_on_step,
    stepped]
  cases h1 : (del.on_step (path ++ [guide.child p]) t d).2.1 <;>
    cases h2 : (del.on_step (path ++ [guide.child p]) t d).2.2 <;> simp

theorem iteration_sibling_zero (dic : Dictionary) (guide : Guide) (del : Delegate D)
    (p t0 : BaseType) (rest : List BaseType) (path : List UCharType) (c0 : UCharType)
    (d : D) (h0 : guide.sibling t0 = 0) :
    iteration dic guide del ⟨d, t0 :: p :: rest, path ++ [c0], Mode.NEXT_SIBLING⟩ =
      Outcome.continue
        ⟨del.on_ascend (path ++ [c0]) d, p :: rest, path, Mode.NEXT_SIBLING⟩ := by
  simp [iteration, h0, ascend]

theorem iteration_sibling_step (dic : Dictionary) (guide : Guide) (del : Delegate D)
    (p t0 t : BaseType) (rest : List BaseType) (path : List UCharType) (c0 : UCharType)
    (d : D) (h0 : guide.sibling t0 ≠ 0) (hf : dic.Follow (guide.sibling t0) p = some t) :
    iteration dic guide del ⟨d, t0 :: p :: rest, path ++ [c0], Mode.NEXT_SIBLING⟩ =
      if (del.on_step (path ++ [guide.sibling t0]) t (del.on_ascend (path ++ [c0]) d)).2.2
      then Outcome.returned true
        (stepped del p t rest path (guide.sibling t0) (del.on_ascend (path ++ [c0]) d))
      else Outcome.continue
        (stepped del p t rest path (guide.sibling t0) (del.on_ascend (path ++ [c0]) d)) := by
  simp only [iteration, h0, ne_eq, not_false_eq_true, ite_true, follow, ascend,
    List.tail_cons, List.dropLast_concat, hf, call_on_step, stepped]

theorem view_stepped (del : Delegate D) (p t : BaseType) (rest : List BaseType)
    (path : List UCharType) (c : UCharType) (d : D) :
    (stepped del p t rest path c d).view =
      (path ++ [c], some t, (del.on_step (path ++ [c]) t d).1) := rfl

/-- The driver refines the walk: from either entry to a chain of children the
passes of the loop make the calls of the walk, return true at the visits with
`result = true`, and leave the driver on `p` in mode `NEXT_SIBLING`. -/
theorem passes_of_walk (dic : Dictionary) (guide : Guide) (del : Delegate D) :
    ∀ (n : Nat) (p : BaseType) (path : List UCharType) (c : UCharType) (d : D)
      (vs : List (Visit D)) (d1 : D),
      walk dic guide del n p path c d = some (vs, d1) →
      ∀ (rest : List BaseType) (s : DFS D), Entry guide del s p rest path c d →
        ∃ found, Passes dic guide del s found ⟨d1, p :: rest, path, Mode.NEXT_SIBLING⟩ ∧
          found.map view = (vs.filter (fun v => v.result)).map Visit.view := by
  intro n
  induction n with
  | zero => intro p path c d vs d1 h; simp [walk] at h
  | succ n ih =>
    intro p path c d vs d1 h rest s hent
    simp only [walk] at h
    by_cases hc : c = 0
    · simp only [hc, ite_true, Option.some.injEq, Prod.mk.injEq] at h
      obtain ⟨rfl, rfl⟩ := h
      refine ⟨[], ?_, by simp⟩
      rcases hent with ⟨rfl, hch⟩ | ⟨t0, c0, d0, rfl, hsb, rfl⟩
      · exact Passes.pass _ _ _ _
          (iteration_child_zero dic guide del p rest path d (hch ▸ hc).symm.symm)
          (Passes.done _)
      · exact Passes.pass _ _ _ _
          (iteration_sibling_zero dic guide del p t0 rest path c0 d0 (hsb ▸ hc))
          (Passes.done _)
    · simp only [hc, ite_false] at h
      cases hf : dic.Follow c p with
      | none => simp [hf] at h
      | some t =>
        simp only [hf] at h
        -- the walk below `t`
        cases hb : (if (del.on_step (path ++ [c]) t d).2.1 = true then
            walk dic guide del n t (path ++ [c]) (guide.child t)
              (del.on_step (path ++ [c]) t d).1
            else some ([], (del.on_step (path ++ [c]) t d).1)) with
        | none => simp [hb] at h
        | some rb =>
          obtain ⟨below, d2⟩ := rb
          simp only [hb] at h
          cases hs : walk dic guide del n p path (guide.sibling t)
              (del.on_ascend (path ++ [c]) d2) with
          | none => simp [hs] at h
          | some rs =>
            obtain ⟨beside, d4⟩ := rs
            simp only [hs, Option.some.injEq, Prod.mk.injEq] at h
            obtain ⟨rfl, rfl⟩ := h
            -- the first pass steps onto `t`
            have hfirst : iteration dic guide del s =
                if (del.on_step (path ++ [c]) t d).2.2 then
                  Outcome.returned true (stepped del p t rest path c d)
                else Outcome.continue (stepped del p t rest path c d) := by
              rcases hent with ⟨rfl, hch⟩ | ⟨t0, c0, d0, rfl, hsb, rfl⟩
              · subst hch
                exact iteration_child_step dic guide del p t rest path d hc hf
              · subst hsb
                exact iteration_sibling_step dic guide del p t0 t rest path c0 d0 hc hf
            -- the passes below `t`
            have hbelow : ∃ fb, Passes dic guide del (stepped del p t rest path c d) fb
                ⟨d2, t :: p :: rest, path ++ [c], Mode.NEXT_SIBLING⟩ ∧
                fb.map view = (below.filter (fun v => v.result)).map Visit.view := by
              by_cases hd : (del.on_step (path ++ [c]) t d).2.1 = true
              · simp only [hd, ite_true] at hb
                have := ih t (path ++ [c]) (guide.child t) _ below d2 hb (p :: rest)
                  (stepped del p t rest path c d) (Or.inl ⟨by simp [stepped, hd], rfl⟩)
                exact this
              · simp only [hd, ite_false, Option.some.injEq, Prod.mk.injEq] at hb
                obtain ⟨rfl, rfl⟩ := hb
                refine ⟨[], ?_, by simp⟩
                have : stepped del p t rest path c d =
                    ⟨(del.on_step (path ++ [c]) t d).1, t :: p :: rest, path ++ [c],
                      Mode.NEXT_SIBLING⟩ := by simp [stepped, hd]
                rw [this]
                exact Passes.done _
            obtain ⟨fb, hpb, hvb⟩ := hbelow
            obtain ⟨fs, hps, hvs⟩ := ih p path (guide.sibling t) _ beside d4 hs rest
              ⟨d2, t :: p :: rest, path ++ [c], Mode.NEXT_SIBLING⟩
              (Or.inr ⟨t, c, d2, rfl, rfl, rfl⟩)
            have htail := passes_trans hpb hps
            by_cases hr : (del.on_step (path ++ [c]) t d).2.2 = true
            · simp only [hr, ite_true] at hfirst
              refine ⟨stepped del p t rest path c d :: (fb ++ fs),
                Passes.hit _ _ _ _ hfirst htail, ?_⟩
              simp [List.filter_cons, hr, hvb, hvs, view_stepped, Visit.view]
            · simp only [hr, ite_false] at hfirst
              refine ⟨fb ++ fs, Passes.pass _ _ _ _ hfirst htail, ?_⟩
              simp [List.filter_cons, hr, hvb, hvs]

end DFS

/-! ## Facts about the walk -/

theorem walk_mono {D : Type} (dic : Dictionary) (guide : Guide) (del : Delegate D) :
    ∀ (n : Nat) (p : BaseType) (path : List UCharType) (c : UCharType) (d : D)
      (r : List (Visit D) × D), walk dic guide del n p path c d = some r →
      ∀ m, n ≤ m → walk dic guide del m p path c d = some r := by
  intro n
  induction n with
  | zero => intro p path c d r h; simp [walk] at h
  | succ n ih =>
    intro p path c d r h m hm
    obtain ⟨m, rfl⟩ : ∃ k, m = k + 1 := ⟨m - 1, by omega⟩
    have hnm : n ≤ m := by omega
    simp only [walk] at h ⊢
    by_cases hc : c = 0
    · simpa [hc] using h
    · simp only [hc, ite_false] at h ⊢
      cases hf : dic.Follow c p with
      | none => simp [hf] at h
      | some t =>
        simp only [hf] at h ⊢
        cases hb : (if (del.on_step (path ++ [c]) t d).2.1 = true then
            walk dic guide del n t (path ++ [c]) (guide.child t)
              (del.on_step (path ++ [c]) t d).1
            else some ([], (del.on_step (path ++ [c]) t d).1)) with
        | none => simp [hb] at h
        | some rb =>
          obtain ⟨below, d2⟩ := rb
          have hb' : (if (del.on_step (path ++ [c]) t d).2.1 = true then
              walk dic guide del m t (path ++ [c]) (guide.child t)
                (del.on_step (path ++ [c]) t d).1
              else some ([], (del.on_step (path ++ [c]) t d).1)) = some (below, d2) := by
            by_cases hd : (del.on_step (path ++ [c]) t d).2.1 = true
            · simp only [hd, ite_true] at hb ⊢
              exact ih _ _ _ _ _ hb m hnm
            · simpa [hd] using hb
          simp only [hb, hb'] at h ⊢
          cases hs : walk dic guide del n p path (guide.sibling t)
              (del.on_ascend (path ++ [c]) d2) with
          | none => simp [hs] at h
          | some rs =>
            rw [ih _ _ _ _ _ hs m hnm]
            simpa [hs] using h

/-- A delegate walks a part of what the plain walk lists, in the same order, and
its walk is defined wherever the plain walk is. -/
theorem walk_of_plain {D : Type} (dic : Dictionary) (guide : Guide) (del : Delegate D) :
    ∀ (n : Nat) (p : BaseType) (path : List UCharType) (c : UCharType)
      (vs0 : List (Visit Unit)) (u : Unit),
      walk dic guide plainDelegate n p path c () = some (vs0, u) →
      ∀ d : D, ∃ vs d1, walk dic guide del n p path c d = some (vs, d1) ∧
        (vs.map Visit.node).Sublist (vs0.map Visit.node) := by
  intro n
  induction n with
  | zero => intro p path c vs0 u h; simp [walk] at h
  | succ n ih =>
    intro p path c vs0 u h d
    simp only [walk] at h ⊢
    by_cases hc : c = 0
    · simp only [hc, ite_true, Option.some.injEq, Prod.mk.injEq] at h ⊢
      obtain ⟨rfl, _⟩ := h
      exact ⟨[], d, ⟨rfl, rfl⟩, by simp⟩
    · simp only [hc, ite_false] at h ⊢
      cases hf : dic.Follow c p with
      | none => simp [hf] at h
      | some t =>
        simp only [hf, plainDelegate, ite_true] at h ⊢
        cases hb : walk dic guide plainDelegate n t (path ++ [c]) (guide.child t) () with
        | none => simp [plainDelegate] at hb; simp [hb] at h
        | some rb =>
          obtain ⟨below0, ub⟩ := rb
          simp only [plainDelegate] at hb
          simp only [hb] at h
          cases hs : walk dic guide plainDelegate n p path (guide.sibling t) () with
          | none => simp [plainDelegate] at hs; simp [hs] at h
          | some rs =>
            obtain ⟨beside0, us⟩ := rs
            simp only [plainDelegate] at hs
            simp only [hs, Option.some.injEq, Prod.mk.injEq] at h
            obtain ⟨rfl, _⟩ := h
            -- below
            have hbelow : ∃ below d2,
                (if (del.on_step (path ++ [c]) t d).2.1 = true then
                  walk dic guide del n t (path ++ [c]) (guide.child t)
                    (del.on_step (path ++ [c]) t d).1
                else some ([], (del.on_step (path ++ [c]) t d).1)) = some (below, d2) ∧
                (below.map Visit.node).Sublist (below0.map Visit.node) := by
              by_cases hd : (del.on_step (path ++ [c]) t d).2.1 = true
              · simp only [hd, ite_true]
                exact ih t (path ++ [c]) (guide.child t) below0 ub hb _
              · simp only [hd, ite_false]
                exact ⟨[], _, rfl, by simp⟩
            obtain ⟨below, d2, hbel, hsub1⟩ := hbelow
            obtain ⟨beside, d4, hbes, hsub2⟩ :=
              ih p path (guide.sibling t) beside0 us hs (del.on_ascend (path ++ [c]) d2)
            refine ⟨{ key := path ++ [c], index := t,
                      delegate := (del.on_step (path ++ [c]) t d).1,
                      descend := (del.on_step (path ++ [c]) t d).2.1,
                      result := (del.on_step (path ++ [c]) t d).2.2 } :: (below ++ beside),
              d4, ?_, ?_⟩
            · simp only [hbel, hbes]
            · simp only [List.map_cons, List.map_append, Visit.node]
              exact List.Sublist.cons₂ _ (List.Sublist.append hsub1 hsub2)

/-- On a well-formed pair the walk of every delegate is defined. -/
theorem walk_of_wellFormed {D : Type} {dic : Dictionary} {guide : Guide}
    (hwf : WellFormed dic guide) (del : Delegate D) (d : D) :
    ∃ n ns vs d1, nodes dic guide n = some ns ∧
      walk dic guide del n dic.root [] (guide.child dic.root) d = some (vs, d1) ∧
      (vs.map Visit.node).Sublist ns := by
  obtain ⟨_, _, n, ns, hn, _⟩ := hwf
  simp only [nodes] at hn
  cases hw : walk dic guide plainDelegate n dic.root [] (guide.child dic.root) () with
  | none => simp [hw] at hn
  | some r =>
    obtain ⟨vs0, u⟩ := r
    simp only [hw, Option.some.injEq] at hn
    obtain ⟨vs, d1, h1, h2⟩ := walk_of_plain dic guide del n _ _ _ vs0 u hw d
    refine ⟨n, ns, vs, d1, ?_, h1, hn ▸ h2⟩
    simp [nodes, hw, hn]

namespace DFS

variable {D : Type}

/-- From `start()` the passes of the loop make the calls of the walk from the
root and end in a `return false` with an empty stack. -/
theorem passes_of_start (dic : Dictionary) (guide : Guide) (del : Delegate D)
    (hsib : guide.sibling dic.root = 0) (s : DFS D) (n : Nat) (vs : List (Visit D)) (d1 : D)
    (hw : walk dic guide del n dic.root [] (guide.child dic.root) s.delegate = some (vs, d1)) :
    ∃ found, Passes dic guide del (start dic s) found ⟨d1, [dic.root], [], Mode.NEXT_SIBLING⟩ ∧
      iteration dic guide del ⟨d1, [dic.root], [], Mode.NEXT_SIBLING⟩ =
        Outcome.returned false ⟨del.on_ascend [] d1, [], [], Mode.NEXT_SIBLING⟩ ∧
      found.map view = (vs.filter (fun v => v.result)).map Visit.view := by
  obtain ⟨found, hp, hv⟩ := passes_of_walk dic guide del n dic.root [] _ _ vs d1 hw []
    (start dic s) (Or.inl ⟨rfl, rfl⟩)
  refine ⟨found, hp, ?_, hv⟩
  simp [iteration, hsib, ascend]

end DFS

/-! ## The calls of `next()` and of `on_step` against the walk -/

theorem length_eq_of_map_view {D : Type} {found : List (DFS D)} {ys : List (Visit D)}
    (h : found.map DFS.view = ys.map Visit.view) : found.length = ys.length := by
  have := congrArg List.length h
  simpa using this

/-- C10: on a well-formed pair and for every delegate, call number `k + 1` of
`next()` after `start()` returns true exactly when the preorder walk (which skips
the subtrees that `on_step` pruned) has more than `k` nodes at which `on_step`
returned `result = true`, and it then shows the node number `k + 1` of these;
otherwise, when no such node is left, it returns false with an empty stack, and
so does every later call. -/
theorem next_false_iff_exhausted {D : Type} (dic : Dictionary) (guide : Guide)
    (hwf : WellFormed dic guide) (del : Delegate D) (s : DFS D) :
    ∃ n vs d1,
      walk dic guide del n dic.root [] (guide.child dic.root) s.delegate = some (vs, d1) ∧
      ∃ fuel, ∀ fuel', fuel ≤ fuel' → ∀ k, ∃ s1,
        DFS.advance dic guide del fuel' k (DFS.start dic s) =
          some (decide (k < (vs.filter (fun v => v.result)).length), s1) ∧
        (k < (vs.filter (fun v => v.result)).length →
          some s1.view = ((vs.filter (fun v => v.result)).get? k).map Visit.view) ∧
        ((vs.filter (fun v => v.result)).length ≤ k → s1.stack_ = []) := by
  obtain ⟨n, ns, vs, d1, _, hw, _⟩ := walk_of_wellFormed hwf del s.delegate
  refine ⟨n, vs, d1, hw, ?_⟩
  obtain ⟨found, hp, hlast, hv⟩ := DFS.passes_of_start dic guide del hwf.1 s n vs d1 hw
  obtain ⟨fuel, hfuel⟩ := DFS.advance_of_passes hp hlast (by simp [DFS.start]) rfl
  have hlen := length_eq_of_map_view hv
  refine ⟨fuel, fun fuel' hf k =>
    ⟨(found.get? k).getD ⟨del.on_ascend [] d1, [], [], Mode.NEXT_SIBLING⟩, ?_, ?_, ?_⟩⟩
  · rw [hfuel fuel' hf k, hlen]
  · intro hk
    have hk' : k < found.length := by omega
    have h1 : (found.map DFS.view).get? k = ((vs.filter (fun v => v.result)).map Visit.view).get? k := by
      rw [hv]
    simp only [List.get?_eq_getElem?, List.getElem?_map] at h1 ⊢
    rw [← h1, List.getElem?_eq_getElem hk']
    simp
  · intro hk
    have hk' : found.length ≤ k := by omega
    simp [List.get?_eq_getElem?, List.getElem?_eq_none hk']

/-- The walk of the recording delegate is the walk of the delegate, with the calls
of `on_step` appended to the record. -/
theorem walk_recorder {D : Type} (dic : Dictionary) (guide : Guide) (del : Delegate D) :
    ∀ (n : Nat) (p : BaseType) (path : List UCharType) (c : UCharType) (d : D)
      (vs : List (Visit D)) (d1 : D), walk dic guide del n p path c d = some (vs, d1) →
      ∀ log : List (Visit D), ∃ ws,
        walk dic guide (recorder del) n p path c (d, log) = some (ws, (d1, log ++ vs)) ∧
        (ws.filter (fun v => v.result)).map (fun v => v.key) =
          (vs.filter (fun v => v.result)).map (fun v => v.key) := by
  intro n
  induction n with
  | zero => intro p path c d vs d1 h; simp [walk] at h
  | succ n ih =>
    intro p path c d vs d1 h log
    simp only [walk] at h ⊢
    by_cases hc : c = 0
    · simp only [hc, ite_true, Option.some.injEq, Prod.mk.injEq] at h ⊢
      obtain ⟨rfl, rfl⟩ := h
      exact ⟨[], by simp⟩
    · simp only [hc, ite_false] at h ⊢
      cases hf : dic.Follow c p with
      | none => simp [hf] at h
      | some t =>
        simp only [hf] at h ⊢
        cases hb : (if (del.on_step (path ++ [c]) t d).2.1 = true then
            walk dic guide del n t (path ++ [c]) (guide.child t)
              (del.on_step (path ++ [c]) t d).1
            else some ([], (del.on_step (path ++ [c]) t d).1)) with
        | none => simp [hb] at h
        | some rb =>
          obtain ⟨below, d2⟩ := rb
          simp only [hb] at h
          cases hs : walk dic guide del n p path (guide.sibling t)
              (del.on_ascend (path ++ [c]) d2) with
          | none => simp [hs] at h
          | some rs =>
            obtain ⟨beside, d4⟩ := rs
            simp only [hs, Option.some.injEq, Prod.mk.injEq] at h
            obtain ⟨rfl, rfl⟩ := h
            let v : Visit D :=
              { key := path ++ [c], index := t, delegate := (del.on_step (path ++ [c]) t d).1,
                descend := (del.on_step (path ++ [c]) t d).2.1,
                result := (del.on_step (path ++ [c]) t d).2.2 }
            have hbelow : ∃ wb,
                (if (del.on_step (path ++ [c]) t d).2.1 = true then
                  walk dic guide (recorder del) n t (path ++ [c]) (guide.child t)
                    ((del.on_step (path ++ [c]) t d).1, log ++ [v])
                else some ([], ((del.on_step (path ++ [c]) t d).1, log ++ [v]))) =
                  some (wb, (d2, (log ++ [v]) ++ below)) ∧
                (wb.filter (fun v => v.result)).map (fun v => v.key) =
                  (below.filter (fun v => v.result)).map (fun v => v.key) := by
              by_cases hd : (del.on_step (path ++ [c]) t d).2.1 = true
              · simp only [hd, ite_true] at hb ⊢
                exact ih _ _ _ _ _ _ hb _
              · simp only [hd, ite_false, Option.some.injEq, Prod.mk.injEq] at hb ⊢
                obtain ⟨rfl, rfl⟩ := hb
                exact ⟨[], by simp⟩
            obtain ⟨wb, hwb, hkb⟩ := hbelow
            obtain ⟨wsib, hws, hks⟩ := ih _ _ _ _ _ _ hs ((log ++ [v]) ++ below)
            refine ⟨{ key := path ++ [c], index := t,
                      delegate := ((del.on_step (path ++ [c]) t d).1, log ++ [v]),
                      descend := (del.on_step (path ++ [c]) t d).2.1,
                      result := (del.on_step (path ++ [c]) t d).2.2 } :: (wb ++ wsib), ?_, ?_⟩
            · simp only [recorder] at hwb hws ⊢
              simp only [hwb, hws]
              simp [v]
            · by_cases hr : (del.on_step (path ++ [c]) t d).2.2 = true
              · simp [List.filter_cons, hr, hkb, hks]
              · simp [List.filter_cons, hr, hkb, hks]

/-! ## The key and the value of a result -/

namespace Dictionary

theorem followN_append (dic : Dictionary) (k : List CharType) (c : CharType) (s : BaseType) :
    dic.FollowN (k ++ [c]) s = (dic.FollowN k s).bind (dic.Follow c) := by
  induction k generalizing s with
  | nil =>
    simp only [List.nil_append, FollowN, Option.some_bind]
    cases dic.Follow c s <;> rfl
  | cons a k ih =>
    simp only [List.cons_append, FollowN]
    cases dic.Follow a s with
    | none => rfl
    | some t => exact ih t

end Dictionary

namespace DFS

variable {D : Type}

theorem followN_of_onPath {dic : Dictionary} {stack : List BaseType} {key : List UCharType}
    (h : OnPath dic stack key) : ∃ t rest, stack = t :: rest ∧ dic.FollowN key dic.root = some t := by
  induction h with
  | root => exact ⟨_, _, rfl, rfl⟩
  | push p t rest key c _ hf ih =>
    obtain ⟨t', rest', he, hk⟩ := ih
    cases he
    exact ⟨t, _, rfl, by rw [Dictionary.followN_append, hk]; exact hf⟩

theorem onPath_pop_eq {dic : Dictionary} {stack : List BaseType} {key : List UCharType}
    (h : OnPath dic stack key) :
    ∀ t p rest, stack = t :: p :: rest →
      ∃ key' c, key = key' ++ [c] ∧ OnPath dic (p :: rest) key' := by
  cases h with
  | root => intro t p rest he; cases he
  | push p0 t0 rest0 key' c h' _ =>
    intro t p rest he
    cases he
    exact ⟨key', c, rfl, h'⟩

theorem onPath_pop {dic : Dictionary} {t p : BaseType} {rest : List BaseType}
    {key : List UCharType} (h : OnPath dic (t :: p :: rest) key) :
    OnPath dic (p :: rest) key.dropLast := by
  obtain ⟨key', c, rfl, h'⟩ := onPath_pop_eq h t p rest rfl
  simpa using h'

/-- The stack and the key belong together, and an invariant of the delegate holds,
after every pass of the loop that does not run into undefined behaviour, unless the
stack has become empty. -/
theorem iteration_sound (dic : Dictionary) (guide : Guide) (del : Delegate D)
    (Inv : List UCharType → D → Prop)
    (hstep : ∀ path c t d, Inv path d → Inv (path ++ [c]) (del.on_step (path ++ [c]) t d).1)
    (hasc : ∀ path c d, Inv (path ++ [c]) d → Inv path (del.on_ascend (path ++ [c]) d))
    {s : DFS D} (h : OnPath dic s.stack_ s.key_) (hinv : Inv s.key_ s.delegate) :
    match iteration dic guide del s with
    | Outcome.undefined => True
    | Outcome.continue s1 => OnPath dic s1.stack_ s1.key_ ∧ Inv s1.key_ s1.delegate
    | Outcome.returned true s1 => Hit dic del Inv s1
    | Outcome.returned false s1 =>
      (OnPath dic s1.stack_ s1.key_ ∧ Inv s1.key_ s1.delegate) ∨ s1.stack_ = [] := by
  unfold iteration
  cases hm : s.state_ <;> simp only []
  · -- NEXT_SIBLING
    cases hs : s.stack_ with
    | nil => trivial
    | cons top rest =>
      simp only []
      cases hr : rest with
      | nil =>
        split_ifs with h0 h1
        · simp [follow, ascend, hs, hr]
        · simp [ascend, hs, hr]
        · simp [ascend, hs, hr] at h1
      | cons p rest' =>
        rw [hs, hr] at h
        have hpop : OnPath dic (p :: rest') s.key_.dropLast := onPath_pop h
        have hinv' : Inv s.key_.dropLast (del.on_ascend s.key_ s.delegate) := by
          obtain ⟨key', c, hk, _⟩ := onPath_pop_eq h top p rest' rfl
          rw [hk] at hinv ⊢
          simpa using hasc key' c _ hinv
        split_ifs with h0 h1
        · cases hf : dic.Follow (guide.sibling top) p with
          | none => simpa [follow, ascend, hs, hr, hf] using ⟨hpop, hinv'⟩
          | some t =>
            simp only [follow, ascend, hs, hr, hf, List.tail_cons, call_on_step]
            have hpush := OnPath.push p t rest' _ _ hpop hf
            have hnew := hstep _ (guide.sibling top) t _ hinv'
            split_ifs <;>
              first
              | exact ⟨hpush, hnew⟩
              | exact ⟨hpush, hnew, t, _, _, _, _, rfl, rfl, hinv', rfl, by assumption⟩
        · simp [ascend, hs, hr] at h1
        · simpa [ascend, hs, hr] using ⟨hpop, hinv'⟩
  · -- NEXT_CHILD
    cases hs : s.stack_ with
    | nil => trivial
    | cons top rest =>
      simp only []
      split_ifs with h0
      · cases hf : dic.Follow (guide.child top) top with
        | none => simpa [follow, hs, hf] using ⟨hs ▸ h, hinv⟩
        | some t =>
          simp only [follow, hs, hf, call_on_step]
          have hpush := OnPath.push top t rest _ _ (hs ▸ h) hf
          have hnew := hstep _ (guide.child top) t _ hinv
          split_ifs <;>
            first
            | exact ⟨hpush, hnew⟩
            | exact ⟨hpush, hnew, t, _, _, _, _, rfl, rfl, hinv, rfl, by assumption⟩
      · simpa [hs] using And.intro (hs ▸ h) hinv

theorem next_loop_sound {dic : Dictionary} {guide : Guide} {del : Delegate D}
    (Inv : List UCharType → D → Prop)
    (hstep : ∀ path c t d, Inv path d → Inv (path ++ [c]) (del.on_step (path ++ [c]) t d).1)
    (hasc : ∀ path c d, Inv (path ++ [c]) d → Inv path (del.on_ascend (path ++ [c]) d)) :
    ∀ (fuel : Nat) (s : DFS D), OnPath dic s.stack_ s.key_ → Inv s.key_ s.delegate →
      ∀ b s1, next_loop dic guide del fuel s = some (b, s1) → SoundResult dic del Inv b s1 := by
  intro fuel
  induction fuel with
  | zero => intro s _ _ b s1 h; simp [next_loop] at h
  | succ n ih =>
    intro s hs hinv b s1 h
    have hi := iteration_sound dic guide del Inv hstep hasc hs hinv
    simp only [next_loop] at h
    cases hit : iteration dic guide del s with
    | undefined => simp [hit] at h
    | «continue» s2 =>
      simp only [hit] at h hi
      exact ih s2 hi.1 hi.2 b s1 h
    | returned b' s2 =>
      simp only [hit, Option.some.injEq, Prod.mk.injEq] at h
      obtain ⟨rfl, rfl⟩ := h
      cases b' with
      | true =>
        simp only [hit] at hi
        exact ⟨Or.inr ⟨hi.1, hi.2.1⟩, fun _ => hi⟩
      | false =>
        simp only [hit] at hi
        exact ⟨hi.symm, fun hb => by cases hb⟩

theorem next_sound {dic : Dictionary} {guide : Guide} {del : Delegate D}
    (Inv : List UCharType → D → Prop)
    (hstep : ∀ path c t d, Inv path d → Inv (path ++ [c]) (del.on_step (path ++ [c]) t d).1)
    (hasc : ∀ path c d, Inv (path ++ [c]) d → Inv path (del.on_ascend (path ++ [c]) d))
    (fuel : Nat) (s : DFS D) (hs : Sound dic Inv s) (b : Bool) (s1 : DFS D)
    (h : next dic guide del fuel s = some (b, s1)) : SoundResult dic del Inv b s1 := by
  rcases hs with hs | hs
  · simp only [next, hs, List.isEmpty_nil, ite_true, Option.some.injEq, Prod.mk.injEq] at h
    obtain ⟨rfl, rfl⟩ := h
    exact ⟨Or.inl hs, fun hb => by cases hb⟩
  · by_cases he : s.stack_.isEmpty = true
    · simp only [next, he, ite_true, Option.some.injEq, Prod.mk.injEq] at h
      obtain ⟨rfl, rfl⟩ := h
      exact ⟨Or.inr hs, fun hb => by cases hb⟩
    · simp only [next, he] at h
      exact next_loop_sound Inv hstep hasc fuel s hs.1 hs.2 b s1 h

theorem advance_sound {dic : Dictionary} {guide : Guide} {del : Delegate D}
    (Inv : List UCharType → D → Prop)
    (hstep : ∀ path c t d, Inv path d → Inv (path ++ [c]) (del.on_step (path ++ [c]) t d).1)
    (hasc : ∀ path c d, Inv (path ++ [c]) d → Inv path (del.on_ascend (path ++ [c]) d))
    (fuel : Nat) :
    ∀ (k : Nat) (s : DFS D), Sound dic Inv s → ∀ b s1,
      advance dic guide del fuel k s = some (b, s1) → SoundResult dic del Inv b s1 := by
  intro k
  induction k with
  | zero => intro s hs b s1 h; exact next_sound Inv hstep hasc fuel s hs b s1 h
  | succ k ih =>
    intro s hs b s1 h
    simp only [advance] at h
    cases hn : next dic guide del fuel s with
    | none => simp [hn] at h
    | some r =>
      obtain ⟨b', s2⟩ := r
      simp only [hn] at h
      exact ih s2 (next_sound Inv hstep hasc fuel s hs b' s2 hn).1 b s1 h

/-- After a call of `next()` that returned true, at any point of a row of calls
from a started search whose delegate state has the invariant for the empty key:
`Hit` holds. -/
theorem advance_hit (dic : Dictionary) (guide : Guide) (del : Delegate D)
    (Inv : List UCharType → D → Prop)
    (hstep : ∀ path c t d, Inv path d → Inv (path ++ [c]) (del.on_step (path ++ [c]) t d).1)
    (hasc : ∀ path c d, Inv (path ++ [c]) d → Inv path (del.on_ascend (path ++ [c]) d))
    (fuel k : Nat) (s : DFS D) (h0 : Inv [] s.delegate) (s1 : DFS D)
    (h : advance dic guide del fuel k (start dic s) = some (true, s1)) :
    Hit dic del Inv s1 := by
  have hs : Sound dic Inv (start dic s) :=
    Or.inr ⟨by simpa [start] using OnPath.root, by simpa [start] using h0⟩
  exact (advance_sound Inv hstep hasc fuel k _ hs true s1 h).2 rfl

/-- After a call of `next()` that returned true, at any point of a row of calls
from `start()`: the key leads from the root to the top of the stack, and if the
delegate returns `result = true` only on states with a value, the key is in the
dictionary and its value is the value of the top of the stack. -/
theorem result_key_value {dic : Dictionary} {guide : Guide} {del : Delegate D}
    (hdel : ∀ key top d, (del.on_step key top d).2.2 = true → dic.has_value top = true)
    (fuel k : Nat) (s : DFS D) (s1 : DFS D)
    (h : advance dic guide del fuel k (start dic s) = some (true, s1)) :
    ∃ top rest, s1.stack_ = top :: rest ∧ dic.Reaches dic.root s1.key top ∧
      dic.Contains s1.key = true ∧ value dic s1 = some (dic.Find s1.key) := by
  obtain ⟨hon, _, t, rest, q, a, d, hst, _, _, _, hres⟩ :=
    advance_hit dic guide del (fun _ _ => True) (fun _ _ _ _ _ => trivial)
      (fun _ _ _ _ => trivial) fuel k s trivial s1 h
  obtain ⟨t', rest', hst', hfol⟩ := followN_of_onPath hon
  rw [hst] at hst'
  cases hst'
  have hv := hdel _ _ _ hres
  refine ⟨t, rest, hst, (Dictionary.followN_eq_some_iff dic _ _ _).1 hfol, ?_, ?_⟩
  · simp [Dictionary.Contains, key, hfol, hv]
  · simp [Dictionary.Find, key, value, hst, hfol, hv]

end DFS

theorem lcs_result_has_value (dic : Dictionary) (key : List UCharType) (top : BaseType)
    (d : LCS) (h : ((LCS.delegate dic).on_step key top d).2.2 = true) :
    dic.has_value top = true := by
  simp only [LCS.delegate, LCS.on_step] at h
  split_ifs at h with h1 h2
  exact h1

theorem compute_has_value (tr us : Bool) (dic : Dictionary) (key : List UCharType)
    (top : BaseType) (d : Similar)
    (h : (Similar.compute_cost_fast tr us dic key top d).2.2 = true) :
    dic.has_value top = true := by
  simp only [Similar.compute_cost_fast] at h
  by_cases hv : dic.has_value top = true
  · exact hv
  · simp [hv] at h

theorem similar_result_has_value (dic : Dictionary) (key : List UCharType) (top : BaseType)
    (d : Similar) (h : ((Similar.delegate dic).on_step key top d).2.2 = true) :
    dic.has_value top = true := by
  simp only [Similar.delegate, Similar.on_step] at h
  split_ifs at h <;> exact compute_has_value _ _ dic key top d h

/-- C8: whenever a call of `next()` of an LCS search or of a Similar search returns
true (at any point of a row of calls after `start`), the key exposed is the list of
labels of the path from the root to the state on top of the stack,
`Contains(key, key_length)` is true, and `value()` is `Find(key, key_length)`. -/
theorem result_key_in_dictionary (dic : Dictionary) (guide : Guide) :
    (∀ (s : DFS LCS) (word : List CharType) (min_length : Int) (fuel k : Nat) (s1 : DFS LCS),
      DFS.advance dic guide (LCS.delegate dic) fuel k (LCS.start dic s word min_length) =
        some (true, s1) →
      ∃ top rest, s1.stack_ = top :: rest ∧ dic.Reaches dic.root s1.key top ∧
        dic.Contains s1.key = true ∧ DFS.value dic s1 = some (dic.Find s1.key)) ∧
    (∀ (s : DFS Similar) (word : List CharType) (max_cost : CostType) (fuel k : Nat)
      (s1 : DFS Similar),
      DFS.advance dic guide (Similar.delegate dic) fuel k (Similar.start dic s word max_cost) =
        some (true, s1) →
      ∃ top rest, s1.stack_ = top :: rest ∧ dic.Reaches dic.root s1.key top ∧
        dic.Contains s1.key = true ∧ DFS.value dic s1 = some (dic.Find s1.key)) := by
  constructor
  · intro s word min_length fuel k s1 h
    exact DFS.result_key_value (lcs_result_has_value dic) fuel k _ s1 h
  · intro s word max_cost fuel k s1 h
    exact DFS.result_key_value (similar_result_has_value dic) fuel k _ s1 h

/-! ## Longest common subsequences -/

theorem lcsLength_nil_left (ys : List UCharType) : lcsLength [] ys = 0 := by
  rw [lcsLength]

theorem lcsLength_nil_right (xs : List UCharType) : lcsLength xs [] = 0 := by
  cases xs <;> rw [lcsLength]

theorem lcsLength_cons_cons (x y : UCharType) (xs ys : List UCharType) :
    lcsLength (x :: xs) (y :: ys) =
      if x = y then lcsLength xs ys + 1
      else max (lcsLength (x :: xs) ys) (lcsLength xs (y :: ys)) := by
  rw [lcsLength]

/-- Some common subsequence has length `lcsLength`. -/
theorem lcsLength_attained : ∀ (n : Nat) (xs ys : List UCharType), xs.length + ys.length ≤ n →
    ∃ s : List UCharType, s.Sublist xs ∧ s.Sublist ys ∧ s.length = lcsLength xs ys := by
  intro n
  induction n with
  | zero =>
    intro xs ys h
    have hx : xs = [] := List.eq_nil_of_length_eq_zero (by omega)
    subst hx
    exact ⟨[], List.Sublist.refl _, List.nil_sublist _, by simp [lcsLength_nil_left]⟩
  | succ n ih =>
    intro xs ys h
    cases xs with
    | nil => exact ⟨[], List.Sublist.refl _, List.nil_sublist _, by simp [lcsLength_nil_left]⟩
    | cons x xs =>
      cases ys with
      | nil => exact ⟨[], List.nil_sublist _, List.Sublist.refl _, by simp [lcsLength_nil_right]⟩
      | cons y ys =>
        simp only [List.length_cons] at h
        rw [lcsLength_cons_cons]
        by_cases hxy : x = y
        · subst hxy
          obtain ⟨s, h1, h2, h3⟩ := ih xs ys (by omega)
          exact ⟨x :: s, h1.cons₂ x, h2.cons₂ x, by simp [h3]⟩
        · simp only [hxy, ite_false]
          rcases le_total (lcsLength (x :: xs) ys) (lcsLength xs (y :: ys)) with hle | hle
          · obtain ⟨s, h1, h2, h3⟩ := ih xs (y :: ys) (by simp only [List.length_cons]; omega)
            exact ⟨s, h1.cons x, h2, by rw [h3, max_eq_right hle]⟩
          · obtain ⟨s, h1, h2, h3⟩ := ih (x :: xs) ys (by simp only [List.length_cons]; omega)
            exact ⟨s, h1, h2.cons y, by rw [h3, max_eq_left hle]⟩

/-- No common subsequence is longer than `lcsLength`. -/
theorem lcsLength_bound : ∀ (n : Nat) (xs ys s : List UCharType), xs.length + ys.length ≤ n →
    s.Sublist xs → s.Sublist ys → s.length ≤ lcsLength xs ys := by
  intro n
  induction n with
  | zero =>
    intro xs ys s h h1 _
    have hx : xs = [] := List.eq_nil_of_length_eq_zero (by omega)
    subst hx
    simp [List.sublist_nil.1 h1]
  | succ n ih =>
    intro xs ys s h h1 h2
    cases xs with
    | nil => simp [List.sublist_nil.1 h1]
    | cons x xs =>
      cases ys with
      | nil => simp [List.sublist_nil.1 h2]
      | cons y ys =>
        simp only [List.length_cons] at h
        rw [lcsLength_cons_cons]
        cases s with
        | nil => simp
        | cons a s =>
          by_cases hxy : x = y
          · subst hxy
            simp only [ite_true, List.length_cons, add_le_add_iff_right]
            have h1' : s.Sublist xs := by
              rcases List.sublist_cons_iff.1 h1 with h | ⟨r, hr, h⟩
              · exact (List.sublist_cons_self a s).trans h
              · cases hr; exact h
            have h2' : s.Sublist ys := by
              rcases List.sublist_cons_iff.1 h2 with h | ⟨r, hr, h⟩
              · exact (List.sublist_cons_self a s).trans h
              · cases hr; exact h
            exact ih xs ys s (by omega) h1' h2'
          · simp only [hxy, ite_false]
            rcases List.sublist_cons_iff.1 h1 with h | ⟨r, hr, h⟩
            · exact le_trans (ih xs (y :: ys) _ (by simp only [List.length_cons]; omega) h h2)
                (le_max_right _ _)
            · cases hr
              rcases List.sublist_cons_iff.1 h2 with h' | ⟨r', hr', h'⟩
              · exact le_trans (ih (x :: xs) ys _ (by simp only [List.length_cons]; omega) h1 h')
                  (le_max_left _ _)
              · cases hr'
                exact absurd rfl hxy

theorem lcsLength_le_iff (xs ys : List UCharType) (m : Nat) :
    m ≤ lcsLength xs ys ↔ ∃ s : List UCharType, s.Sublist xs ∧ s.Sublist ys ∧ m ≤ s.length := by
  constructor
  · intro h
    obtain ⟨s, h1, h2, h3⟩ := lcsLength_attained _ xs ys le_rfl
    exact ⟨s, h1, h2, by omega⟩
  · rintro ⟨s, h1, h2, h3⟩
    exact le_trans h3 (lcsLength_bound _ xs ys s le_rfl h1 h2)

theorem lcsLength_reverse (xs ys : List UCharType) :
    lcsLength xs.reverse ys.reverse = lcsLength xs ys := by
  apply le_antisymm
  · obtain ⟨s, h1, h2, h3⟩ := lcsLength_attained _ xs.reverse ys.reverse le_rfl
    rw [← h3, ← List.length_reverse]
    apply lcsLength_bound _ xs ys s.reverse le_rfl
    · simpa using List.reverse_sublist.2 h1
    · simpa using List.reverse_sublist.2 h2
  · obtain ⟨s, h1, h2, h3⟩ := lcsLength_attained _ xs ys le_rfl
    rw [← h3, ← List.length_reverse]
    exact lcsLength_bound _ xs.reverse ys.reverse s.reverse le_rfl
      (List.reverse_sublist.2 h1) (List.reverse_sublist.2 h2)

/-- The recursion on the last bytes, the form in which `on_step` fills a row. -/
theorem lcsLength_concat (xs ys : List UCharType) (x y : UCharType) :
    lcsLength (xs ++ [x]) (ys ++ [y]) =
      if x = y then lcsLength xs ys + 1
      else max (lcsLength (xs ++ [x]) ys) (lcsLength xs (ys ++ [y])) := by
  rw [← lcsLength_reverse (xs ++ [x]) (ys ++ [y]), ← lcsLength_reverse (xs ++ [x]) ys,
    ← lcsLength_reverse xs (ys ++ [y]), ← lcsLength_reverse xs ys]
  simp only [List.reverse_append, List.reverse_cons, List.reverse_nil, List.nil_append,
    List.singleton_append]
  rw [lcsLength_cons_cons]

theorem lcsLength_le_right (xs ys : List UCharType) : lcsLength xs ys ≤ ys.length := by
  obtain ⟨s, _, h2, h3⟩ := lcsLength_attained _ xs ys le_rfl
  rw [← h3]
  exact h2.length_le

/-! ## Reads and writes of a matrix -/

namespace Matrix

theorem index_lt (cols : Nat) {i j n : Nat} (hi : i < n) (hj : j < cols) : i * cols + j < n * cols := by
  have : (i + 1) * cols ≤ n * cols := Nat.mul_le_mul_right cols hi
  rw [Nat.succ_mul] at this
  omega

theorem index_inj {cols i j i' j' : Nat} (hj : j < cols) (hj' : j' < cols)
    (h : i' * cols + j' = i * cols + j) : i' = i ∧ j' = j := by
  rcases Nat.lt_trichotomy i' i with hlt | heq | hgt
  · have := index_lt cols hlt hj'
    omega
  · subst heq; omega
  · have := index_lt cols hgt hj
    omega

theorem getD_set_eq {T : Type} (l : List T) (n : Nat) (v d : T) (h : n < l.length) :
    (l.set n v).getD n d = v := by
  simp [List.getD_eq_getElem?_getD, List.getElem?_set, h]

theorem getD_set_ne {T : Type} (l : List T) (n k : Nat) (v d : T) (h : k ≠ n) :
    (l.set n v).getD k d = l.getD k d := by
  simp [List.getD_eq_getElem?_getD, List.getElem?_set, Ne.symm h]

theorem put_columns {T : Type} (m : Matrix T) (i j : Nat) (v : T) : (m.put i j v).columns_ = m.columns_ :=
  rfl

theorem put_length {T : Type} (m : Matrix T) (i j : Nat) (v : T) :
    (m.put i j v).rows_.length = m.rows_.length := by
  simp [put]

theorem put_ready {T : Type} {m : Matrix T} {cols n : Nat} (h : m.Ready cols n) (i j : Nat) (v : T) :
    (m.put i j v).Ready cols n := by
  simpa [Ready, put] using h

theorem get_put_same {T : Type} [Zero T] {m : Matrix T} {cols i j : Nat} (h : m.Ready cols (i + 1)) (hj : j < cols)
    (v : T) : (m.put i j v).get i j = v := by
  obtain ⟨hc, hl⟩ := h
  have := index_lt cols (Nat.lt_add_one i) hj
  simp only [get, put, hc]
  exact getD_set_eq _ _ _ _ (by omega)

theorem get_put_ne {T : Type} [Zero T] {m : Matrix T} {cols i j i' j' : Nat} (hc : m.columns_ = cols)
    (hj : j < cols) (hj' : j' < cols) (hne : ¬ (i' = i ∧ j' = j)) (v : T) :
    (m.put i j v).get i' j' = m.get i' j' := by
  simp only [get, put, hc]
  exact getD_set_ne _ _ _ _ _ (fun h => hne (index_inj hj hj' h))

theorem allocate_columns {T : Type} [Zero T] (m : Matrix T) (i : Nat) : (m.allocate i).columns_ = m.columns_ := rfl

theorem resize_length {T : Type} (l : List T) (n : Nat) (v : T) : (resize l n v).length = n := by
  simp only [resize, List.length_append, List.length_take, List.length_replicate]
  omega

theorem resize_getD {T : Type} (l : List T) (n k : Nat) (v d : T) (hk : k < n) (hl : k < l.length) :
    (resize l n v).getD k d = l.getD k d := by
  simp only [resize, List.getD_eq_getElem?_getD]
  rw [List.getElem?_append_left (by simp; omega)]
  simp [List.getElem?_take, hk]

theorem allocate_ready {T : Type} [Zero T] (m : Matrix T) (i : Nat) : (m.allocate i).Ready m.columns_ (i + 1) := by
  refine ⟨rfl, ?_⟩
  simp [allocate, resize_length]

theorem get_allocate {T : Type} [Zero T] {m : Matrix T} {cols n : Nat} (h : m.Ready cols n) (i r j : Nat)
    (hr : r < n) (hri : r ≤ i) (hj : j < cols) : (m.allocate i).get r j = m.get r j := by
  obtain ⟨hc, hl⟩ := h
  have h1 := index_lt cols hr hj
  have h2 := index_lt cols (Nat.lt_succ_of_le hri) hj
  simp only [get, allocate, hc]
  exact resize_getD _ _ _ _ _ h2 (by omega)

end Matrix

/-! ## The LCS delegate -/

theorem take_succ_getD (w : List UCharType) (j : Nat) (h : j < w.length) :
    w.take (j + 1) = w.take j ++ [w.getD j 0] := by
  rw [List.take_succ, List.getD_eq_getElem?_getD, List.getElem?_eq_getElem h]
  rfl

theorem getD_append_left (path : List UCharType) (c : UCharType) (r : Nat)
    (h : r < path.length) : (path ++ [c]).getD r 0 = path.getD r 0 := by
  simp [List.getD_eq_getElem?_getD, List.getElem?_append_left h]

theorem getD_append_last (path : List UCharType) (c : UCharType) :
    (path ++ [c]).getD path.length 0 = c := by
  simp [List.getD_eq_getElem?_getD]

theorem toIndexType_eq (x : Int) (h0 : -32768 ≤ x) (h1 : x < 32768) : toIndexType x = x := by
  unfold toIndexType
  omega

theorem toIndexType_ge (x : Int) : -32768 ≤ toIndexType x := by
  unfold toIndexType
  omega

theorem toIndexType_le (x : Int) (h0 : -32768 ≤ x) : toIndexType x ≤ x := by
  unfold toIndexType
  omega

namespace LCS

theorem start_loop_spec (cols : Nat) :
    ∀ (n j : Nat) (C : Matrix Int), n + j = cols → C.Ready cols 1 →
      (∀ j', j' < j → C.get 0 j' = 0) →
      (start_loop n j C).Ready cols 1 ∧ ∀ j', j' < cols → (start_loop n j C).get 0 j' = 0 := by
  intro n
  induction n with
  | zero =>
    intro j C hj hr hz
    simp only [start_loop]
    exact ⟨hr, fun j' hj' => hz j' (by omega)⟩
  | succ n ih =>
    intro j C hj hr hz
    simp only [start_loop]
    apply ih (j + 1) _ (by omega) (Matrix.put_ready hr _ _ _)
    intro j' hj'
    by_cases he : j' = j
    · subst he
      exact Matrix.get_put_same hr (by omega) _
    · rw [Matrix.get_put_ne hr.1 (by omega) (by omega) (by omega)]
      exact hz j' (by omega)

theorem inv_start (dic : Dictionary) (s : DFS LCS) (word : List CharType) (min_length : Int) :
    Inv word min_length [] (start dic s word min_length).delegate := by
  have hr : ((s.delegate.C_.set_columns (word.length + 1)).allocate 0).Ready
      (word.length + 1) 1 := by
    have := Matrix.allocate_ready (s.delegate.C_.set_columns (word.length + 1)) 0
    simpa [Matrix.set_columns] using this
  have hcols : ((s.delegate.C_.set_columns (word.length + 1)).allocate 0).columns =
      word.length + 1 := rfl
  obtain ⟨h1, h2⟩ := start_loop_spec (word.length + 1) (word.length + 1) 0 _ (by omega) hr
    (fun j' hj' => by omega)
  refine ⟨rfl, rfl, ?_, ?_, ?_, ?_⟩
  · simpa [start, DFS.start, hcols] using h1
  · intro j hj
    simp only [start, DFS.start, hcols]
    exact h2 j (by omega)
  · intro r hr'
    simp only [List.length_nil, Nat.le_zero] at hr'
    subst hr'
    simp only [start, DFS.start, hcols]
    exact h2 0 (by omega)
  · intro r hr'
    simp at hr'

/-- The loop of `on_step` fills row `i` by the recurrence and leaves the rows above
alone. -/
theorem step_loop_spec (word path : List UCharType) (c : UCharType) (C0 : Matrix Int) :
    ∀ (n j : Nat) (C : Matrix Int), n + j = word.length + 1 → 1 ≤ j →
      C.Ready (word.length + 1) (path.length + 2) →
      (∀ r, r ≤ path.length → ∀ j', j' ≤ word.length → C.get r j' = C0.get r j') →
      C.get (path.length + 1) 0 = 0 →
      (∀ j', j' + 1 < j →
        C.get (path.length + 1) (j' + 1) =
          if c = word.getD j' 0 then toIndexType (C0.get path.length j' + 1)
          else max (C.get (path.length + 1) j') (C0.get path.length (j' + 1))) →
      (step_loop (path ++ [c]) word (path.length + 1) n j C).Ready (word.length + 1)
          (path.length + 2) ∧
      (∀ r, r ≤ path.length → ∀ j', j' ≤ word.length →
        (step_loop (path ++ [c]) word (path.length + 1) n j C).get r j' = C0.get r j') ∧
      (step_loop (path ++ [c]) word (path.length + 1) n j C).get (path.length + 1) 0 = 0 ∧
      ∀ j', j' < word.length →
        (step_loop (path ++ [c]) word (path.length + 1) n j C).get (path.length + 1) (j' + 1) =
          if c = word.getD j' 0 then toIndexType (C0.get path.length j' + 1)
          else max ((step_loop (path ++ [c]) word (path.length + 1) n j C).get
            (path.length + 1) j') (C0.get path.length (j' + 1)) := by
  intro n
  induction n with
  | zero =>
    intro j C hj _ hr hold hz hrow
    simp only [step_loop]
    exact ⟨hr, hold, hz, fun j' hj' => hrow j' (by omega)⟩
  | succ n ih =>
    intro j C hj hj1 hr hold hz hrow
    simp only [step_loop]
    obtain ⟨j0, rfl⟩ : ∃ j0, j = j0 + 1 := ⟨j - 1, by omega⟩
    have hdiag : C.get path.length j0 = C0.get path.length j0 := hold _ le_rfl _ (by omega)
    have hup : C.get path.length (j0 + 1) = C0.get path.length (j0 + 1) :=
      hold _ le_rfl _ (by omega)
    simp only [Nat.add_sub_cancel, getD_append_last, hdiag, hup]
    have hC1 : (if c = word.getD j0 0 then
          C.put (path.length + 1) (j0 + 1) (toIndexType (C0.get path.length j0 + 1))
        else C.put (path.length + 1) (j0 + 1)
          (max (C.get (path.length + 1) j0) (C0.get path.length (j0 + 1)))) =
        C.put (path.length + 1) (j0 + 1)
          (if c = word.getD j0 0 then toIndexType (C0.get path.length j0 + 1)
           else max (C.get (path.length + 1) j0) (C0.get path.length (j0 + 1))) := by
      split_ifs <;> rfl
    rw [hC1]
    have hkeep : ∀ j', j' < j0 + 1 → (C.put (path.length + 1) (j0 + 1)
          (if c = word.getD j0 0 then toIndexType (C0.get path.length j0 + 1)
           else max (C.get (path.length + 1) j0) (C0.get path.length (j0 + 1)))).get
          (path.length + 1) j' = C.get (path.length + 1) j' := by
      intro j' hj'
      exact Matrix.get_put_ne hr.1 (by omega) (by omega) (by omega) _
    apply ih (j0 + 1 + 1) _ (by omega) (by omega) (Matrix.put_ready hr _ _ _)
    · intro r hr' j' hj'
      rw [Matrix.get_put_ne hr.1 (by omega) (by omega) (by omega)]
      exact hold r hr' j' hj'
    · rw [hkeep 0 (by omega)]
      exact hz
    · intro j' hj'
      by_cases he : j' = j0
      · subst he
        rw [Matrix.get_put_same hr (by omega), hkeep j' (by omega)]
      · rw [hkeep (j' + 1) (by omega), hkeep j' (by omega)]
        exact hrow j' (by omega)

/-- The matrix that `on_step` leaves behind. -/
theorem on_step_matrix (dic : Dictionary) (word path : List UCharType) (c : UCharType)
    (min_length : Int) (t : BaseType) (d : LCS) (h : Inv word min_length path d) :
    (on_step dic (path ++ [c]) t d).1.C_ =
      step_loop (path ++ [c]) word (path.length + 1) word.length 1
        ((d.C_.allocate (path.length + 1)).put (path.length + 1) 0 0) ∧
    (on_step dic (path ++ [c]) t d).1.word_ = word ∧
    (on_step dic (path ++ [c]) t d).1.min_length_ = min_length := by
  obtain ⟨hword, hmin, hready, _⟩ := h
  have hcols : d.C_.columns = word.length + 1 := hready.1
  simp only [on_step, List.length_append, List.length_singleton, hcols, Nat.add_sub_cancel,
    hword, hmin]
  split_ifs <;> simp [backtrack]

theorem inv_on_step (dic : Dictionary) (word : List UCharType) (min_length : Int)
    (path : List UCharType) (c : UCharType) (t : BaseType) (d : LCS)
    (h : Inv word min_length path d) :
    Inv word min_length (path ++ [c]) (on_step dic (path ++ [c]) t d).1 := by
  obtain ⟨hm, hword', hmin'⟩ := on_step_matrix dic word path c min_length t d h
  obtain ⟨hword, hmin, hready, hrow0, hcol0, hrec⟩ := h
  have hal : (d.C_.allocate (path.length + 1)).Ready (word.length + 1) (path.length + 2) := by
    have := Matrix.allocate_ready d.C_ (path.length + 1)
    rwa [hready.1] at this
  have hC1 : ((d.C_.allocate (path.length + 1)).put (path.length + 1) 0 0).Ready
      (word.length + 1) (path.length + 2) := Matrix.put_ready hal _ _ _
  have hold : ∀ r, r ≤ path.length → ∀ j', j' ≤ word.length →
      ((d.C_.allocate (path.length + 1)).put (path.length + 1) 0 0).get r j' = d.C_.get r j' := by
    intro r hr j' hj'
    rw [Matrix.get_put_ne hal.1 (by omega) (by omega) (by omega)]
    exact Matrix.get_allocate hready _ _ _ (by omega) (by omega) (by omega)
  obtain ⟨h1, h2, h3, h4⟩ := step_loop_spec word path c d.C_
    word.length 1 _ (by omega) le_rfl hC1 hold
    (Matrix.get_put_same hal (by omega) _)
    (fun j' hj' => by omega)
  refine ⟨hword', hmin', ?_, ?_, ?_, ?_⟩
  · rw [hm]
    simpa using h1
  · intro j hj
    rw [hm, h2 0 (by omega) j hj]
    exact hrow0 j hj
  · intro r hr
    rw [hm]
    simp only [List.length_append, List.length_singleton] at hr
    by_cases hlast : r = path.length + 1
    · subst hlast
      exact h3
    · rw [h2 r (by omega) 0 (by omega)]
      exact hcol0 r (by omega)
  · intro r hr j hj
    rw [hm]
    simp only [List.length_append, List.length_singleton] at hr
    by_cases hlast : r = path.length
    · subst hlast
      rw [h4 j hj, getD_append_last, h2 _ le_rfl _ (by omega), h2 _ le_rfl _ (by omega)]
    · have hr' : r < path.length := by omega
      rw [h2 _ (by omega) _ (by omega), h2 _ (by omega) _ (by omega),
        h2 _ (by omega) _ (by omega), h2 _ (by omega) _ (by omega),
        getD_append_left path c r hr']
      exact hrec r hr' j hj

theorem inv_on_ascend (word : List UCharType) (min_length : Int) (path : List UCharType)
    (c : UCharType) (d : LCS) (h : Inv word min_length (path ++ [c]) d) :
    Inv word min_length path (on_ascend (path ++ [c]) d) := by
  obtain ⟨hword, hmin, hready, hrow0, hcol0, hrec⟩ := h
  simp only [List.length_append, List.length_singleton] at hready hcol0 hrec
  refine ⟨hword, hmin, ⟨hready.1, ?_⟩, hrow0, fun r hr => hcol0 r (by omega), ?_⟩
  · have h2 : (path.length + 1) * (word.length + 1) ≤
        (path.length + 1 + 1) * (word.length + 1) := Nat.mul_le_mul_right _ (by omega)
    exact le_trans h2 hready.2
  · intro r hr j hj
    have := hrec r (by omega) j hj
    rwa [getD_append_left path c r hr] at this

/-- With a word shorter than 32768 bytes no conversion to `IndexType` wraps, and
the cells are the lengths of longest common subsequences. -/
theorem inv_cells (word : List UCharType) (min_length : Int) (path : List UCharType) (d : LCS)
    (hw : word.length < 32768) (h : Inv word min_length path d) :
    ∀ r, r ≤ path.length → ∀ j, j ≤ word.length →
      d.C_.get r j = (lcsLength (path.take r) (word.take j) : Int) := by
  obtain ⟨_, _, _, hrow0, hcol0, hrec⟩ := h
  intro r
  induction r with
  | zero =>
    intro _ j hj
    rw [hrow0 j hj]
    simp [lcsLength_nil_left]
  | succ r ihr =>
    intro hr j
    induction j with
    | zero =>
      intro _
      rw [hcol0 _ hr]
      simp [lcsLength_nil_right]
    | succ j ihj =>
      intro hj
      rw [hrec r (by omega) j (by omega), ihr (by omega) j (by omega),
        ihr (by omega) (j + 1) hj, ihj (by omega),
        take_succ_getD path r (by omega), take_succ_getD word j (by omega), lcsLength_concat]
      by_cases hc : path.getD r 0 = word.getD j 0
      · simp only [hc, ite_true, Nat.cast_add, Nat.cast_one]
        have hb := lcsLength_le_right (path.take r) (word.take j)
        have : (word.take j).length ≤ j := by simp
        exact toIndexType_eq _ (by omega) (by omega)
      · simp only [hc, ite_false, Nat.cast_max]

theorem inv_cells_ge (word : List UCharType) (min_length : Int) (path : List UCharType) (d : LCS)
    (h : Inv word min_length path d) :
    ∀ r, r ≤ path.length → ∀ j, j ≤ word.length → -32768 ≤ d.C_.get r j := by
  obtain ⟨_, _, _, hrow0, hcol0, hrec⟩ := h
  intro r
  induction r with
  | zero =>
    intro _ j hj
    rw [hrow0 j hj]
    omega
  | succ r ihr =>
    intro hr j
    induction j with
    | zero =>
      intro _
      rw [hcol0 _ hr]
      omega
    | succ j ihj =>
      intro hj
      rw [hrec r (by omega) j (by omega)]
      split_ifs
      · exact toIndexType_ge _
      · exact le_trans (ihj (by omega)) (le_max_left _ _)

/-- What `on_step` returns on a state with the invariant, for a word shorter than
32768 bytes: it always descends, and it yields exactly on the states with a value
whose key has a common subsequence with the word of length at least `min_length`. -/
theorem on_step_flags (dic : Dictionary) (word : List UCharType) (min_length : Int)
    (hw : word.length < 32768) (path : List UCharType) (c : UCharType) (t : BaseType) (d : LCS)
    (h : Inv word min_length path d) :
    (on_step dic (path ++ [c]) t d).2.1 = true ∧
    ((on_step dic (path ++ [c]) t d).2.2 = true ↔
      dic.has_value t = true ∧ min_length ≤ (lcsLength (path ++ [c]) word : Int)) := by
  have hinv := inv_on_step dic word min_length path c t d h
  obtain ⟨hm, _, _⟩ := on_step_matrix dic word path c min_length t d h
  have hcell := inv_cells word min_length _ _ hw hinv (path.length + 1) (by simp)
    word.length le_rfl
  have ht : List.take (path.length + 1) (path ++ [c]) = path ++ [c] :=
    List.take_of_length_le (by simp)
  rw [hm, ht, List.take_length] at hcell
  obtain ⟨hword, hmin, hready, _⟩ := h
  have hcols : d.C_.columns = word.length + 1 := hready.1
  simp only [on_step, List.length_append, List.length_singleton, hcols, Nat.add_sub_cancel,
    hword, hmin, hcell]
  constructor
  · split_ifs <;> rfl
  · split_ifs with h1 h2
    · simp [h1, h2]
    · simp [h1]; omega
    · simp [h1]

/-- The loop of `backtrack` on a matrix with the invariant: the bytes pushed are,
read backwards, a common subsequence of the first `i` bytes of the key and the
first `j` bytes of the word, and there are at least `C[i][j]` of them. -/
theorem backtrack_loop_spec (word : List UCharType) (min_length : Int) (key : List UCharType)
    (d : LCS) (h : Inv word min_length key d) :
    ∀ (fuel i j : Nat) (res : List UCharType), i ≤ key.length → j ≤ word.length →
      i + j ≤ fuel →
      ∃ bt : List UCharType, (backtrack_loop d.C_ key word fuel i j res).1 = res ++ bt ∧
        bt.reverse.Sublist (key.take i) ∧ bt.reverse.Sublist (word.take j) ∧
        d.C_.get i j ≤ (bt.length : Int) := by
  have hge := inv_cells_ge word min_length key d h
  obtain ⟨_, _, _, hrow0, hcol0, hrec⟩ := h
  intro fuel
  induction fuel with
  | zero =>
    intro i j res hi hj hf
    have hi0 : i = 0 := by omega
    have hj0 : j = 0 := by omega
    subst hi0 hj0
    exact ⟨[], by simp [backtrack_loop], by simp, by simp, by simp [hrow0 0 (by omega)]⟩
  | succ fuel ih =>
    intro i j res hi hj hf
    simp only [backtrack_loop]
    by_cases hpos : i > 0 ∧ j > 0
    · obtain ⟨i0, rfl⟩ : ∃ i0, i = i0 + 1 := ⟨i - 1, by omega⟩
      obtain ⟨j0, rfl⟩ : ∃ j0, j = j0 + 1 := ⟨j - 1, by omega⟩
      have htk := take_succ_getD key i0 (by omega)
      have htw := take_succ_getD word j0 (by omega)
      have hcell := hrec i0 (by omega) j0 (by omega)
      simp only [hpos, and_self, ite_true, Nat.add_sub_cancel]
      by_cases hm : key.getD i0 0 = word.getD j0 0
      · simp only [hm, ite_true] at hcell ⊢
        obtain ⟨bt, h1, h2, h3, h4⟩ := ih i0 j0 (res ++ [word.getD j0 0]) (by omega) (by omega)
          (by omega)
        refine ⟨word.getD j0 0 :: bt, by simpa using h1, ?_, ?_, ?_⟩
        · rw [htk, hm, List.reverse_cons]
          exact List.Sublist.append h2 (List.Sublist.refl _)
        · rw [htw, List.reverse_cons]
          exact List.Sublist.append h3 (List.Sublist.refl _)
        · rw [hcell]
          have := toIndexType_le (d.C_.get i0 j0 + 1)
            (by have := hge i0 (by omega) j0 (by omega); omega)
          simp only [List.length_cons, Nat.cast_add, Nat.cast_one]
          omega
      · simp only [hm, ite_false] at hcell ⊢
        by_cases hgt : d.C_.get (i0 + 1) j0 > d.C_.get i0 (j0 + 1)
        · simp only [hgt, ite_true]
          obtain ⟨bt, h1, h2, h3, h4⟩ := ih (i0 + 1) j0 res (by omega) (by omega) (by omega)
          refine ⟨bt, h1, h2, h3.trans ?_, ?_⟩
          · rw [htw]; exact List.sublist_append_left _ _
          · rw [hcell, max_eq_left (le_of_lt hgt)]
            exact h4
        · simp only [hgt, ite_false]
          obtain ⟨bt, h1, h2, h3, h4⟩ := ih i0 (j0 + 1) res (by omega) (by omega) (by omega)
          refine ⟨bt, h1, h2.trans ?_, h3, ?_⟩
          · rw [htk]; exact List.sublist_append_left _ _
          · rw [hcell, max_eq_right (le_of_not_lt hgt)]
            exact h4
    · simp only [hpos, ite_false]
      refine ⟨[], by simp, by simp, by simp, ?_⟩
      have : i = 0 ∨ j = 0 := by omega
      rcases this with rfl | rfl
      · simp [hrow0 j hj]
      · simp [hcol0 i hi]

/-- The result buffer after a call of `on_step` that returned `result = true`. -/
theorem on_step_result (dic : Dictionary) (word : List UCharType) (min_length : Int)
    (path : List UCharType) (c : UCharType) (t : BaseType) (d : LCS)
    (h : Inv word min_length path d) (hres : (on_step dic (path ++ [c]) t d).2.2 = true) :
    (on_step dic (path ++ [c]) t d).1.result_.Sublist (path ++ [c]) ∧
    (on_step dic (path ++ [c]) t d).1.result_.Sublist word ∧
    min_length ≤ ((on_step dic (path ++ [c]) t d).1.result_.length : Int) := by
  have hinv := inv_on_step dic word min_length path c t d h
  obtain ⟨hm, _, _⟩ := on_step_matrix dic word path c min_length t d h
  obtain ⟨hword, hmin, hready, _⟩ := h
  have hcols : d.C_.columns = word.length + 1 := hready.1
  -- the matrix of the new state, under a name
  generalize hC : step_loop (path ++ [c]) word (path.length + 1) word.length 1
      ((d.C_.allocate (path.length + 1)).put (path.length + 1) 0 0) = C at hm
  have hinvC : Inv word min_length (path ++ [c])
      { word_ := word, C_ := C, min_length_ := min_length, result_ := d.result_ } := by
    obtain ⟨_, _, a, b, e, f⟩ := hinv
    rw [hm] at a b e f
    exact ⟨rfl, rfl, a, b, e, f⟩
  obtain ⟨bt, h1, h2, h3, h4⟩ := backtrack_loop_spec word min_length (path ++ [c]) _ hinvC
    (path.length + 1 + word.length) (path.length + 1) word.length [] (by simp) le_rfl le_rfl
  simp only [List.nil_append] at h1
  have ht : List.take (path.length + 1) (path ++ [c]) = path ++ [c] :=
    List.take_of_length_le (by simp)
  rw [ht] at h2
  rw [List.take_length] at h3
  simp only [on_step, List.length_append, List.length_singleton, hcols, Nat.add_sub_cancel,
    hword, hmin, hC] at hres ⊢
  split_ifs at hres ⊢ with hv hl
  simp only [backtrack, h1, List.length_reverse]
  exact ⟨h2, h3, le_trans hl h4⟩

end LCS

/-! ## The walk of a delegate with an invariant -/

/-- Every call of `on_step` in a walk is made in a state with the invariant for the
path without its last byte, and the walk ends in a state with the invariant. -/
theorem walk_inv {D : Type} (dic : Dictionary) (guide : Guide) (del : Delegate D)
    (Inv : List UCharType → D → Prop)
    (hstep : ∀ path c t d, Inv path d → Inv (path ++ [c]) (del.on_step (path ++ [c]) t d).1)
    (hasc : ∀ path c d, Inv (path ++ [c]) d → Inv path (del.on_ascend (path ++ [c]) d)) :
    ∀ (n : Nat) (p : BaseType) (path : List UCharType) (c : UCharType) (d : D)
      (vs : List (Visit D)) (d1 : D), walk dic guide del n p path c d = some (vs, d1) →
      Inv path d →
      Inv path d1 ∧ ∀ v ∈ vs, ∃ q a d0, v.key = q ++ [a] ∧ Inv q d0 ∧
        v.delegate = (del.on_step v.key v.index d0).1 ∧
        v.descend = (del.on_step v.key v.index d0).2.1 ∧
        v.result = (del.on_step v.key v.index d0).2.2 := by
  intro n
  induction n with
  | zero => intro p path c d vs d1 h; simp [walk] at h
  | succ n ih =>
    intro p path c d vs d1 h hinv
    simp only [walk] at h
    by_cases hc : c = 0
    · simp only [hc, ite_true, Option.some.injEq, Prod.mk.injEq] at h
      obtain ⟨rfl, rfl⟩ := h
      exact ⟨hinv, by simp⟩
    · simp only [hc, ite_false] at h
      cases hf : dic.Follow c p with
      | none => simp [hf] at h
      | some t =>
        simp only [hf] at h
        cases hb : (if (del.on_step (path ++ [c]) t d).2.1 = true then
            walk dic guide del n t (path ++ [c]) (guide.child t)
              (del.on_step (path ++ [c]) t d).1
            else some ([], (del.on_step (path ++ [c]) t d).1)) with
        | none => simp [hb] at h
        | some rb =>
          obtain ⟨below, d2⟩ := rb
          simp only [hb] at h
          cases hs : walk dic guide del n p path (guide.sibling t)
              (del.on_ascend (path ++ [c]) d2) with
          | none => simp [hs] at h
          | some rs =>
            obtain ⟨beside, d4⟩ := rs
            simp only [hs, Option.some.injEq, Prod.mk.injEq] at h
            obtain ⟨rfl, rfl⟩ := h
            have hnew := hstep path c t d hinv
            have hbelow : Inv (path ++ [c]) d2 ∧ ∀ v ∈ below, ∃ q a d0, v.key = q ++ [a] ∧
                Inv q d0 ∧ v.delegate = (del.on_step v.key v.index d0).1 ∧
                v.descend = (del.on_step v.key v.index d0).2.1 ∧
                v.result = (del.on_step v.key v.index d0).2.2 := by
              by_cases hd : (del.on_step (path ++ [c]) t d).2.1 = true
              · simp only [hd, ite_true] at hb
                exact ih _ _ _ _ _ _ hb hnew
              · simp only [hd, ite_false, Option.some.injEq, Prod.mk.injEq] at hb
                obtain ⟨rfl, rfl⟩ := hb
                exact ⟨hnew, by simp⟩
            obtain ⟨hinv2, hvb⟩ := hbelow
            obtain ⟨hinv4, hvs⟩ := ih _ _ _ _ _ _ hs (hasc path c d2 hinv2)
            refine ⟨hinv4, ?_⟩
            intro v hv
            rcases List.mem_cons.1 hv with rfl | hv
            · exact ⟨path, c, d, rfl, hinv, rfl, rfl, rfl⟩
            · rcases List.mem_append.1 hv with hv | hv
              · exact hvb v hv
              · exact hvs v hv

/-- A delegate that always descends (in states with its invariant) walks exactly
the nodes of the plain walk. -/
theorem walk_nodes_of_descend {D : Type} (dic : Dictionary) (guide : Guide) (del : Delegate D)
    (Inv : List UCharType → D → Prop)
    (hstep : ∀ path c t d, Inv path d → Inv (path ++ [c]) (del.on_step (path ++ [c]) t d).1)
    (hasc : ∀ path c d, Inv (path ++ [c]) d → Inv path (del.on_ascend (path ++ [c]) d))
    (hdesc : ∀ path c t d, Inv path d → (del.on_step (path ++ [c]) t d).2.1 = true) :
    ∀ (n : Nat) (p : BaseType) (path : List UCharType) (c : UCharType) (d : D)
      (vs : List (Visit D)) (d1 : D) (vs0 : List (Visit Unit)) (u : Unit),
      walk dic guide del n p path c d = some (vs, d1) →
      walk dic guide plainDelegate n p path c () = some (vs0, u) →
      Inv path d → vs.map Visit.node = vs0.map Visit.node := by
  intro n
  induction n with
  | zero => intro p path c d vs d1 vs0 u h; simp [walk] at h
  | succ n ih =>
    intro p path c d vs d1 vs0 u h h0 hinv
    simp only [walk] at h h0
    by_cases hc : c = 0
    · simp only [hc, ite_true, Option.some.injEq, Prod.mk.injEq] at h h0
      obtain ⟨rfl, rfl⟩ := h
      obtain ⟨rfl, _⟩ := h0
      rfl
    · simp only [hc, ite_false] at h h0
      cases hf : dic.Follow c p with
      | none => simp [hf] at h
      | some t =>
        simp only [hf, hdesc path c t d hinv, ite_true] at h
        simp only [hf, plainDelegate, ite_true] at h0
        cases hb : walk dic guide del n t (path ++ [c]) (guide.child t)
            (del.on_step (path ++ [c]) t d).1 with
        | none => simp [hb] at h
        | some rb =>
          obtain ⟨below, d2⟩ := rb
          simp only [hb] at h
          cases hs : walk dic guide del n p path (guide.sibling t)
              (del.on_ascend (path ++ [c]) d2) with
          | none => simp [hs] at h
          | some rs =>
            obtain ⟨beside, d4⟩ := rs
            simp only [hs, Option.some.injEq, Prod.mk.injEq] at h
            obtain ⟨rfl, rfl⟩ := h
            cases hb0 : walk dic guide plainDelegate n t (path ++ [c]) (guide.child t) () with
            | none => simp [plainDelegate] at hb0; simp [hb0] at h0
            | some rb0 =>
              obtain ⟨below0, ub⟩ := rb0
              have hb0' := hb0
              simp only [plainDelegate] at hb0'
              simp only [hb0'] at h0
              cases hs0 : walk dic guide plainDelegate n p path (guide.sibling t) () with
              | none => simp [plainDelegate] at hs0; simp [hs0] at h0
              | some rs0 =>
                obtain ⟨beside0, us⟩ := rs0
                have hs0' := hs0
                simp only [plainDelegate] at hs0'
                simp only [hs0', Option.some.injEq, Prod.mk.injEq] at h0
                obtain ⟨rfl, _⟩ := h0
                have hnew := hstep path c t d hinv
                have e1 := ih _ _ _ _ _ _ _ _ hb hb0 hnew
                have hinv2 := (walk_inv dic guide del Inv hstep hasc n _ _ _ _ _ _ hb hnew).1
                have e2 := ih _ _ _ _ _ _ _ _ hs hs0 (hasc path c d2 hinv2)
                simp only [List.map_cons, List.map_append, e1, e2, Visit.node]

/-- The nodes of the plain walk below `p`: the state of a node is reached from `p`
by following the bytes that the key adds to the path. -/
theorem walk_plain_follow (dic : Dictionary) (guide : Guide) :
    ∀ (n : Nat) (p : BaseType) (path : List UCharType) (c : UCharType)
      (vs0 : List (Visit Unit)) (u : Unit),
      walk dic guide plainDelegate n p path c () = some (vs0, u) →
      ∀ v ∈ vs0, ∃ a rest, v.key = path ++ a :: rest ∧ dic.FollowN (a :: rest) p = some v.index := by
  intro n
  induction n with
  | zero => intro p path c vs0 u h; simp [walk] at h
  | succ n ih =>
    intro p path c vs0 u h
    simp only [walk] at h
    by_cases hc : c = 0
    · simp only [hc, ite_true, Option.some.injEq, Prod.mk.injEq] at h
      obtain ⟨rfl, _⟩ := h
      simp
    · simp only [hc, ite_false] at h
      cases hf : dic.Follow c p with
      | none => simp [hf] at h
      | some t =>
        simp only [hf, plainDelegate, ite_true] at h
        cases hb : walk dic guide plainDelegate n t (path ++ [c]) (guide.child t) () with
        | none => simp [plainDelegate] at hb; simp [hb] at h
        | some rb =>
          obtain ⟨below0, ub⟩ := rb
          have hb' := hb
          simp only [plainDelegate] at hb'
          simp only [hb'] at h
          cases hs : walk dic guide plainDelegate n p path (guide.sibling t) () with
          | none => simp [plainDelegate] at hs; simp [hs] at h
          | some rs =>
            obtain ⟨beside0, us⟩ := rs
            have hs' := hs
            simp only [plainDelegate] at hs'
            simp only [hs', Option.some.injEq, Prod.mk.injEq] at h
            obtain ⟨rfl, _⟩ := h
            intro v hv
            rcases List.mem_cons.1 hv with rfl | hv
            · exact ⟨c, [], rfl, by simp [Dictionary.FollowN, hf]⟩
            · rcases List.mem_append.1 hv with hv | hv
              · obtain ⟨a, rest, hk, hfo⟩ := ih _ _ _ _ _ hb v hv
                refine ⟨c, a :: rest, by simp [hk], ?_⟩
                simp only [Dictionary.FollowN, hf]
                exact hfo
              · exact ih _ _ _ _ _ hs v hv

/-- On a well-formed pair the nodes of the Guide are the non-empty paths of the
Dictionary, each with the state it leads to. -/
theorem mem_nodes_iff {dic : Dictionary} {guide : Guide} (hwf : WellFormed dic guide)
    {n : Nat} {ns : List (List UCharType × BaseType)} (hn : nodes dic guide n = some ns)
    (k : List UCharType) (t : BaseType) :
    (k, t) ∈ ns ↔ k ≠ [] ∧ dic.FollowN k dic.root = some t := by
  have hn' := hn
  simp only [nodes] at hn'
  cases hw : walk dic guide plainDelegate n dic.root [] (guide.child dic.root) () with
  | none => simp [hw] at hn'
  | some r =>
    obtain ⟨vs0, u⟩ := r
    simp only [hw, Option.some.injEq] at hn'
    constructor
    · intro hmem
      rw [← hn'] at hmem
      obtain ⟨v, hv, hve⟩ := List.mem_map.1 hmem
      obtain ⟨a, rest, hk, hfo⟩ := walk_plain_follow dic guide n _ _ _ vs0 u hw v hv
      simp only [Visit.node, Prod.mk.injEq] at hve
      obtain ⟨rfl, rfl⟩ := hve
      simp only [List.nil_append] at hk
      rw [hk]
      exact ⟨by simp, hfo⟩
    · rintro ⟨hne, hfo⟩
      obtain ⟨_, _, m, ms, hm, hclosed⟩ := hwf
      -- the two budgets list the same nodes
      have hsame : ms = ns := by
        simp only [nodes] at hm
        cases hw2 : walk dic guide plainDelegate m dic.root [] (guide.child dic.root) () with
        | none => simp [hw2] at hm
        | some r2 =>
          obtain ⟨ws0, u2⟩ := r2
          simp only [hw2, Option.some.injEq] at hm
          rcases le_total n m with hle | hle
          · have := walk_mono dic guide plainDelegate n _ _ _ _ _ hw m hle
            rw [hw2] at this
            simp only [Option.some.injEq, Prod.mk.injEq] at this
            rw [← hm, ← hn', this.1]
          · have := walk_mono dic guide plainDelegate m _ _ _ _ _ hw2 n hle
            rw [hw] at this
            simp only [Option.some.injEq, Prod.mk.injEq] at this
            rw [← hm, ← hn', this.1]
      subst hsame
      -- induction on the key from its end
      have key_ind : ∀ (k : List UCharType) (t : BaseType),
          dic.FollowN k dic.root = some t → (k, t) ∈ ([], dic.root) :: ms := by
        intro k
        induction k using List.reverseRecOn with
        | nil =>
          intro t hfo
          simp only [Dictionary.FollowN, Option.some.injEq] at hfo
          subst hfo
          exact List.mem_cons_self _ _
        | append_singleton k c ih =>
          intro t hfo
          rw [Dictionary.followN_append] at hfo
          cases hp : dic.FollowN k dic.root with
          | none => simp [hp] at hfo
          | some p =>
            simp only [hp, Option.some_bind] at hfo
            exact List.mem_cons_of_mem _ (hclosed (k, p) (ih p hp) c t hfo)
      rcases List.mem_cons.1 (key_ind k t hfo) with h | h
      · simp only [Prod.mk.injEq] at h
        exact absurd h.1 hne
      · exact h

/-! ## No path is walked twice, and no path is left out -/

/-- A node of the plain walk along the chain of `p` starts a chain label, and the
walk from that label is the end of the walk. -/
theorem walk_plain_suffix (dic : Dictionary) (guide : Guide) :
    ∀ (n : Nat) (p : BaseType) (path : List UCharType) (c : UCharType)
      (vs0 : List (Visit Unit)) (u : Unit),
      walk dic guide plainDelegate n p path c () = some (vs0, u) →
      ∀ v ∈ vs0, ∀ a rest, v.key = path ++ a :: rest →
        ∃ m ws pre, m ≤ n ∧ walk dic guide plainDelegate m p path a () = some (ws, ()) ∧
          vs0 = pre ++ ws := by
  intro n
  induction n with
  | zero => intro p path c vs0 u h; simp [walk] at h
  | succ n ih =>
    intro p path c vs0 u h
    have hfull := h
    simp only [walk] at h
    by_cases hc : c = 0
    · simp only [hc, ite_true, Option.some.injEq, Prod.mk.injEq] at h
      obtain ⟨rfl, _⟩ := h
      simp
    · simp only [hc, ite_false] at h
      cases hf : dic.Follow c p with
      | none => simp [hf] at h
      | some t =>
        simp only [hf, plainDelegate, ite_true] at h
        cases hb : walk dic guide plainDelegate n t (path ++ [c]) (guide.child t) () with
        | none => simp [plainDelegate] at hb; simp [hb] at h
        | some rb =>
          obtain ⟨below0, ub⟩ := rb
          have hb' := hb
          simp only [plainDelegate] at hb'
          simp only [hb'] at h
          cases hs : walk dic guide plainDelegate n p path (guide.sibling t) () with
          | none => simp [plainDelegate] at hs; simp [hs] at h
          | some rs =>
            obtain ⟨beside0, us⟩ := rs
            have hs' := hs
            simp only [plainDelegate] at hs'
            simp only [hs', Option.some.injEq, Prod.mk.injEq] at h
            obtain ⟨rfl, _⟩ := h
            intro v hv a rest hk
            have hhead : a = c → ∃ m ws pre, m ≤ n + 1 ∧
                walk dic guide plainDelegate m p path a () = some (ws, ()) ∧
                ({ key := path ++ [c], index := t, delegate := (), descend := true,
                   result := false } : Visit Unit) :: (below0 ++ beside0) = pre ++ ws := by
              rintro rfl
              exact ⟨n + 1, _, [], le_rfl, hfull, rfl⟩
            rcases List.mem_cons.1 hv with rfl | hv
            · simp only [List.append_cancel_left_eq, List.cons.injEq] at hk
              exact hhead hk.1.symm
            · rcases List.mem_append.1 hv with hv | hv
              · obtain ⟨a', rest', hk', _⟩ := walk_plain_follow dic guide n _ _ _ _ _ hb v hv
                rw [hk'] at hk
                simp only [List.append_assoc, List.singleton_append, List.append_cancel_left_eq,
                  List.cons.injEq] at hk
                exact hhead hk.1.symm
              · obtain ⟨m, ws, pre, hm, hws, he⟩ := ih _ _ _ _ _ hs v hv a rest hk
                refine ⟨m, ws, (⟨path ++ [c], t, (), true, false⟩ : Visit Unit) ::
                  (below0 ++ pre), by omega, hws, ?_⟩
                simp [he]

/-- No path occurs twice in the plain walk. -/
theorem walk_plain_nodup (dic : Dictionary) (guide : Guide) :
    ∀ (n : Nat) (p : BaseType) (path : List UCharType) (c : UCharType)
      (vs0 : List (Visit Unit)) (u : Unit),
      walk dic guide plainDelegate n p path c () = some (vs0, u) →
      (vs0.map fun v => v.key).Nodup := by
  intro n
  induction n with
  | zero => intro p path c vs0 u h; simp [walk] at h
  | succ n ih =>
    intro p path c vs0 u h
    have hfull := h
    simp only [walk] at h
    by_cases hc : c = 0
    · simp only [hc, ite_true, Option.some.injEq, Prod.mk.injEq] at h
      obtain ⟨rfl, _⟩ := h
      simp
    · simp only [hc, ite_false] at h
      cases hf : dic.Follow c p with
      | none => simp [hf] at h
      | some t =>
        simp only [hf, plainDelegate, ite_true] at h
        cases hb : walk dic guide plainDelegate n t (path ++ [c]) (guide.child t) () with
        | none => simp [plainDelegate] at hb; simp [hb] at h
        | some rb =>
          obtain ⟨below0, ub⟩ := rb
          have hb' := hb
          simp only [plainDelegate] at hb'
          simp only [hb'] at h
          cases hs : walk dic guide plainDelegate n p path (guide.sibling t) () with
          | none => simp [plainDelegate] at hs; simp [hs] at h
          | some rs =>
            obtain ⟨beside0, us⟩ := rs
            have hs' := hs
            simp only [plainDelegate] at hs'
            simp only [hs', Option.some.injEq, Prod.mk.injEq] at h
            obtain ⟨rfl, _⟩ := h
            -- no node beside starts with the label `c`
            have hbeside : ∀ v ∈ beside0, ∀ rest, v.key ≠ path ++ c :: rest := by
              intro v hv rest hk
              obtain ⟨m, ws, pre, hm, hws, he⟩ :=
                walk_plain_suffix dic guide n _ _ _ _ _ hs v hv c rest hk
              have := walk_mono dic guide plainDelegate m _ _ _ _ _ hws (n + 1) (by omega)
              rw [hfull] at this
              simp only [Option.some.injEq, Prod.mk.injEq] at this
              have hlen := congrArg List.length this.1
              have hlen2 := congrArg List.length he
              simp only [List.length_cons, List.length_append] at hlen hlen2
              omega
            have hbelow : ∀ v ∈ below0, ∃ a rest, v.key = path ++ c :: a :: rest := by
              intro v hv
              obtain ⟨a, rest, hk, _⟩ := walk_plain_follow dic guide n _ _ _ _ _ hb v hv
              exact ⟨a, rest, by simp [hk]⟩
            simp only [List.map_cons, List.map_append, List.nodup_cons, List.mem_append,
              List.mem_map, not_or, not_exists, not_and]
            refine ⟨⟨?_, ?_⟩, ?_⟩
            · intro v hv hk
              obtain ⟨a, rest, hk'⟩ := hbelow v hv
              rw [hk'] at hk
              simp at hk
            · intro v hv hk
              exact hbeside v hv [] (by simpa using hk)
            · rw [List.nodup_append]
              refine ⟨ih _ _ _ _ _ hb, ih _ _ _ _ _ hs, ?_⟩
              intro k hk1 hk2
              obtain ⟨v, hv, rfl⟩ := List.mem_map.1 hk1
              obtain ⟨v', hv', hk'⟩ := List.mem_map.1 hk2
              obtain ⟨a, rest, hka⟩ := hbelow v hv
              exact hbeside v' hv' (a :: rest) (by rw [hk', hka])

/-- A node of the plain walk is walked by a delegate as soon as the delegate descends
at every path between the start of the walk and the node. -/
theorem walk_complete {D : Type} (dic : Dictionary) (guide : Guide) (del : Delegate D)
    (Inv : List UCharType → D → Prop)
    (hstep : ∀ path c t d, Inv path d → Inv (path ++ [c]) (del.on_step (path ++ [c]) t d).1)
    (hasc : ∀ path c d, Inv (path ++ [c]) d → Inv path (del.on_ascend (path ++ [c]) d))
    (desc : List UCharType → Prop)
    (hdesc : ∀ path c t d, Inv path d → desc (path ++ [c]) →
      (del.on_step (path ++ [c]) t d).2.1 = true) :
    ∀ (n : Nat) (p : BaseType) (path : List UCharType) (c : UCharType) (d : D)
      (vs : List (Visit D)) (d1 : D) (vs0 : List (Visit Unit)) (u : Unit),
      walk dic guide del n p path c d = some (vs, d1) →
      walk dic guide plainDelegate n p path c () = some (vs0, u) →
      Inv path d →
      ∀ v0 ∈ vs0, (∀ q, path.length < q.length → q <+: v0.key → q ≠ v0.key → desc q) →
        v0.node ∈ vs.map Visit.node := by
  intro n
  induction n with
  | zero => intro p path c d vs d1 vs0 u h; simp [walk] at h
  | succ n ih =>
    intro p path c d vs d1 vs0 u h h0 hinv
    simp only [walk] at h h0
    by_cases hc : c = 0
    · simp only [hc, ite_true, Option.some.injEq, Prod.mk.injEq] at h h0
      obtain ⟨rfl, _⟩ := h0
      simp
    · simp only [hc, ite_false] at h h0
      cases hf : dic.Follow c p with
      | none => simp [hf] at h
      | some t =>
        simp only [hf] at h
        simp only [hf, plainDelegate, ite_true] at h0
        cases hb0 : walk dic guide plainDelegate n t (path ++ [c]) (guide.child t) () with
        | none => simp [plainDelegate] at hb0; simp [hb0] at h0
        | some rb0 =>
          obtain ⟨below0, ub⟩ := rb0
          have hb0' := hb0
          simp only [plainDelegate] at hb0'
          simp only [hb0'] at h0
          cases hs0 : walk dic guide plainDelegate n p path (guide.sibling t) () with
          | none => simp [plainDelegate] at hs0; simp [hs0] at h0
          | some rs0 =>
            obtain ⟨beside0, us⟩ := rs0
            have hs0' := hs0
            simp only [plainDelegate] at hs0'
            simp only [hs0', Option.some.injEq, Prod.mk.injEq] at h0
            obtain ⟨rfl, _⟩ := h0
            cases hb : (if (del.on_step (path ++ [c]) t d).2.1 = true then
                walk dic guide del n t (path ++ [c]) (guide.child t)
                  (del.on_step (path ++ [c]) t d).1
                else some ([], (del.on_step (path ++ [c]) t d).1)) with
            | none => simp [hb] at h
            | some rb =>
              obtain ⟨below, d2⟩ := rb
              simp only [hb] at h
              cases hs : walk dic guide del n p path (guide.sibling t)
                  (del.on_ascend (path ++ [c]) d2) with
              | none => simp [hs] at h
              | some rs =>
                obtain ⟨beside, d4⟩ := rs
                simp only [hs, Option.some.injEq, Prod.mk.injEq] at h
                obtain ⟨rfl, rfl⟩ := h
                have hnew := hstep path c t d hinv
                have hinv2 : Inv (path ++ [c]) d2 := by
                  by_cases hd : (del.on_step (path ++ [c]) t d).2.1 = true
                  · simp only [hd, ite_true] at hb
                    exact (walk_inv dic guide del Inv hstep hasc n _ _ _ _ _ _ hb hnew).1
                  · simp only [hd, ite_false, Option.some.injEq, Prod.mk.injEq] at hb
                    obtain ⟨_, rfl⟩ := hb
                    exact hnew
                intro v0 hv0 hpre
                simp only [List.map_cons, List.map_append, List.mem_cons, List.mem_append]
                rcases List.mem_cons.1 hv0 with rfl | hv0
                · exact Or.inl rfl
                · rcases List.mem_append.1 hv0 with hv0 | hv0
                  · obtain ⟨a, rest, hk, _⟩ := walk_plain_follow dic guide n _ _ _ _ _ hb0 v0 hv0
                    have hd : (del.on_step (path ++ [c]) t d).2.1 = true := by
                      apply hdesc path c t d hinv
                      apply hpre (path ++ [c]) (by simp)
                      · rw [hk]; exact List.prefix_append _ _
                      · rw [hk]; simp
                    simp only [hd, ite_true] at hb
                    refine Or.inr (Or.inl (ih _ _ _ _ _ _ _ _ hb hb0 hnew v0 hv0 ?_))
                    intro q hq1 hq2 hq3
                    exact hpre q (by simp at hq1; omega) hq2 hq3
                  · exact Or.inr (Or.inr
                      (ih _ _ _ _ _ _ _ _ hs hs0 (hasc path c d2 hinv2) v0 hv0 hpre))

/-! ## The order of the walk -/

theorem walk_plain_succ (dic : Dictionary) (guide : Guide) (n : Nat) (p : BaseType)
    (path : List UCharType) (c : UCharType) (vs0 : List (Visit Unit)) (u : Unit)
    (h : walk dic guide plainDelegate (n + 1) p path c () = some (vs0, u)) (hc : c ≠ 0) :
    ∃ t below0 beside0, dic.Follow c p = some t ∧
      walk dic guide plainDelegate n t (path ++ [c]) (guide.child t) () = some (below0, ()) ∧
      walk dic guide plainDelegate n p path (guide.sibling t) () = some (beside0, ()) ∧
      vs0 = (⟨path ++ [c], t, (), true, false⟩ : Visit Unit) :: (below0 ++ beside0) := by
  simp only [walk, hc, ite_false] at h
  cases hf : dic.Follow c p with
  | none => simp [hf] at h
  | some t =>
    simp only [hf, plainDelegate, ite_true] at h
    cases hb : walk dic guide plainDelegate n t (path ++ [c]) (guide.child t) () with
    | none => simp [plainDelegate] at hb; simp [hb] at h
    | some rb =>
      obtain ⟨below0, ub⟩ := rb
      have hb' := hb
      simp only [plainDelegate] at hb'
      simp only [hb'] at h
      cases hs : walk dic guide plainDelegate n p path (guide.sibling t) () with
      | none => simp [plainDelegate] at hs; simp [hs] at h
      | some rs =>
        obtain ⟨beside0, us⟩ := rs
        have hs' := hs
        simp only [plainDelegate] at hs'
        simp only [hs', Option.some.injEq, Prod.mk.injEq] at h
        exact ⟨t, below0, beside0, rfl, hb, hs, h.1.symm⟩

theorem walk_succ {D : Type} (dic : Dictionary) (guide : Guide) (del : Delegate D) (n : Nat)
    (p : BaseType) (path : List UCharType) (c : UCharType) (d : D) (vs : List (Visit D))
    (d1 : D) (h : walk dic guide del (n + 1) p path c d = some (vs, d1)) (hc : c ≠ 0) :
    ∃ t below d2 beside, dic.Follow c p = some t ∧
      ((del.on_step (path ++ [c]) t d).2.1 = true ∧
          walk dic guide del n t (path ++ [c]) (guide.child t)
            (del.on_step (path ++ [c]) t d).1 = some (below, d2) ∨
        (del.on_step (path ++ [c]) t d).2.1 = false ∧ below = []) ∧
      walk dic guide del n p path (guide.sibling t) (del.on_ascend (path ++ [c]) d2) =
        some (beside, d1) ∧
      vs = (⟨path ++ [c], t, (del.on_step (path ++ [c]) t d).1,
          (del.on_step (path ++ [c]) t d).2.1, (del.on_step (path ++ [c]) t d).2.2⟩ :
            Visit D) :: (below ++ beside) := by
  simp only [walk, hc, ite_false] at h
  cases hf : dic.Follow c p with
  | none => simp [hf] at h
  | some t =>
    simp only [hf] at h
    cases hm : (if (del.on_step (path ++ [c]) t d).2.1 = true then
        walk dic guide del n t (path ++ [c]) (guide.child t)
          (del.on_step (path ++ [c]) t d).1
        else some ([], (del.on_step (path ++ [c]) t d).1)) with
    | none => simp [hm] at h
    | some rb =>
      obtain ⟨below, d2⟩ := rb
      simp only [hm] at h
      cases hs : walk dic guide del n p path (guide.sibling t)
          (del.on_ascend (path ++ [c]) d2) with
      | none => simp [hs] at h
      | some rs =>
        obtain ⟨beside, d4⟩ := rs
        simp only [hs, Option.some.injEq, Prod.mk.injEq] at h
        obtain ⟨rfl, rfl⟩ := h
        refine ⟨t, below, d2, beside, rfl, ?_, hs, rfl⟩
        by_cases hd : (del.on_step (path ++ [c]) t d).2.1 = true
        · rw [if_pos hd] at hm
          exact Or.inl ⟨hd, hm⟩
        · rw [if_neg hd] at hm
          simp only [Option.some.injEq, Prod.mk.injEq] at hm
          exact Or.inr ⟨by simpa using hd, hm.1.symm⟩

theorem walk_zero_label {D : Type} (dic : Dictionary) (guide : Guide) (del : Delegate D)
    (n : Nat) (p : BaseType) (path : List UCharType) (d : D) (vs : List (Visit D)) (d1 : D)
    (h : walk dic guide del (n + 1) p path 0 d = some (vs, d1)) : vs = [] := by
  simp only [walk, ite_true, Option.some.injEq, Prod.mk.injEq] at h
  exact h.1.symm

/-- The order of two paths `k1`, `k2` of a walk from the chain label `c` of state
`p`, reached by `path`, when `k1` is stepped onto first: `k2` is no prefix of `k1`,
and where the two paths part, the label of `k1` comes before the label of `k2` in
the chain of the state at which they part. -/
theorem walk_plain_order (dic : Dictionary) (guide : Guide) :
    ∀ (n : Nat) (p : BaseType) (path : List UCharType) (c : UCharType)
      (vs0 : List (Visit Unit)) (u : Unit),
      walk dic guide plainDelegate n p path c () = some (vs0, u) →
      (∀ v ∈ vs0, ∀ a rest, v.key = path ++ a :: rest → Guide.InChain dic guide p c a) ∧
      (vs0.map (fun v => v.key)).Pairwise (fun k1 k2 =>
        ¬ k2 <+: k1 ∧
        (∀ a b r1 r2, k1 = path ++ a :: r1 → k2 = path ++ b :: r2 → a ≠ b →
          Guide.After dic guide p a b) ∧
        (∀ q a b r1 r2 p', q ≠ [] → k1 = path ++ q ++ a :: r1 → k2 = path ++ q ++ b :: r2 →
          a ≠ b → dic.FollowN q p = some p' →
          Guide.InChain dic guide p' (guide.child p') a ∧ Guide.After dic guide p' a b)) := by
  intro n
  induction n with
  | zero => intro p path c vs0 u h; simp [walk] at h
  | succ n ih =>
    intro p path c vs0 u h
    by_cases hc : c = 0
    · subst hc
      have := walk_zero_label dic guide plainDelegate n p path () vs0 u h
      subst this
      simp
    · obtain ⟨t, below0, beside0, hf, hb, hs, rfl⟩ :=
        walk_plain_succ dic guide n p path c vs0 u h hc
      obtain ⟨ihb1, ihb2⟩ := ih _ _ _ _ _ hb
      obtain ⟨ihs1, ihs2⟩ := ih _ _ _ _ _ hs
      have hbelow : ∀ k ∈ below0.map (fun v => v.key), ∃ a rest, k = path ++ c :: a :: rest := by
        intro k hk
        obtain ⟨v, hv, rfl⟩ := List.mem_map.1 hk
        obtain ⟨a, rest, hk, _⟩ := walk_plain_follow dic guide n _ _ _ _ _ hb v hv
        exact ⟨a, rest, by simp [hk]⟩
      have hbeside : ∀ k ∈ beside0.map (fun v => v.key), ∃ a rest, k = path ++ a :: rest ∧
          a ≠ c ∧ Guide.InChain dic guide p (guide.sibling t) a := by
        intro k hk
        obtain ⟨v, hv, rfl⟩ := List.mem_map.1 hk
        obtain ⟨a, rest, hk, _⟩ := walk_plain_follow dic guide n _ _ _ _ _ hs v hv
        refine ⟨a, rest, hk, ?_, ihs1 v hv a rest hk⟩
        rintro rfl
        obtain ⟨m, ws, pre, hm, hws, he⟩ :=
          walk_plain_suffix dic guide n _ _ _ _ _ hs v hv a rest hk
        have := walk_mono dic guide plainDelegate m _ _ _ _ _ hws (n + 1) (by omega)
        rw [h] at this
        simp only [Option.some.injEq, Prod.mk.injEq] at this
        have hlen := congrArg List.length this.1
        have hlen2 := congrArg List.length he
        simp only [List.length_cons, List.length_append] at hlen hlen2
        omega
      refine ⟨?_, ?_⟩
      · intro v hv a rest hk
        rcases List.mem_cons.1 hv with rfl | hv
        · simp only [List.append_cancel_left_eq, List.cons.injEq] at hk
          rw [← hk.1]
          exact Guide.InChain.here c t hc hf
        · rcases List.mem_append.1 hv with hv | hv
          · obtain ⟨a', rest', hk'⟩ := hbelow _ (List.mem_map_of_mem _ hv)
            rw [hk'] at hk
            simp only [List.append_cancel_left_eq, List.cons.injEq] at hk
            rw [← hk.1]
            exact Guide.InChain.here c t hc hf
          · exact Guide.InChain.next c t a hc hf (ihs1 v hv a rest hk)
      · simp only [List.map_cons, List.map_append, List.pairwise_cons, List.pairwise_append,
          List.mem_append]
        refine ⟨?_, ?_, ihs2, ?_⟩
        · intro k hk
          rcases hk with hk | hk
          · obtain ⟨a', rest', rfl⟩ := hbelow k hk
            refine ⟨?_, ?_, ?_⟩
            · intro hp
              have := hp.length_le
              simp at this
            · intro a b r1 r2 h1 h2 hab
              simp only [List.append_cancel_left_eq, List.cons.injEq] at h1 h2
              exact absurd (h1.1.symm.trans h2.1) hab
            · intro q a b r1 r2 p' hq h1 _ _ _
              have := congrArg List.length h1
              cases q with
              | nil => exact absurd rfl hq
              | cons x q => simp at this
          · obtain ⟨a', rest', rfl, hne, hin⟩ := hbeside k hk
            refine ⟨?_, ?_, ?_⟩
            · intro hp
              rw [List.prefix_append_right_inj] at hp
              exact hne (List.cons_prefix_cons.1 hp).1
            · intro a b r1 r2 h1 h2 _
              simp only [List.append_cancel_left_eq, List.cons.injEq] at h1 h2
              rw [← h1.1, ← h2.1]
              exact ⟨t, hf, hin⟩
            · intro q a b r1 r2 p' hq h1 _ _ _
              have := congrArg List.length h1
              cases q with
              | nil => exact absurd rfl hq
              | cons x q => simp at this
        · refine List.Pairwise.imp_of_mem ?_ ihb2
          intro k1 k2 hk1 hk2 hr
          obtain ⟨a1, rest1, rfl⟩ := hbelow k1 hk1
          obtain ⟨a2, rest2, rfl⟩ := hbelow k2 hk2
          obtain ⟨hr1, hr2, hr3⟩ := hr
          refine ⟨hr1, ?_, ?_⟩
          · intro a b r1 r2 h1 h2 hab
            simp only [List.append_cancel_left_eq, List.cons.injEq] at h1 h2
            exact absurd (h1.1.symm.trans h2.1) hab
          · intro q a b r1 r2 p' hq h1 h2 hab hfo
            cases q with
            | nil => exact absurd rfl hq
            | cons x q =>
              have hx : x = c := by
                simp only [List.append_assoc, List.cons_append, List.append_cancel_left_eq,
                  List.cons.injEq] at h1
                exact h1.1.symm
              subst hx
              simp only [Dictionary.FollowN, hf] at hfo
              have e1 : path ++ x :: a1 :: rest1 = (path ++ [x]) ++ a1 :: rest1 := by simp
              have e2 : path ++ x :: a2 :: rest2 = (path ++ [x]) ++ a2 :: rest2 := by simp
              have e3 : ∀ r : List UCharType, path ++ (x :: q) ++ r = (path ++ [x]) ++ q ++ r := by
                intro r; simp
              rw [e3] at h1 h2
              cases q with
              | nil =>
                simp only [Dictionary.FollowN, Option.some.injEq] at hfo
                subst hfo
                simp only [List.append_nil] at h1 h2
                obtain ⟨v, hv, hvk⟩ := List.mem_map.1 hk1
                exact ⟨ihb1 v hv a r1 (hvk.trans h1), hr2 a b r1 r2 h1 h2 hab⟩
              | cons y q =>
                exact hr3 (y :: q) a b r1 r2 p' (by simp) h1 h2 hab hfo
        · intro k1 hk1 k2 hk2
          obtain ⟨a1, rest1, rfl⟩ := hbelow k1 hk1
          obtain ⟨a', rest', rfl, hne, hin⟩ := hbeside k2 hk2
          refine ⟨?_, ?_, ?_⟩
          · intro hp
            rw [List.prefix_append_right_inj] at hp
            exact hne (List.cons_prefix_cons.1 hp).1
          · intro a b r1 r2 h1 h2 _
            simp only [List.append_cancel_left_eq, List.cons.injEq] at h1 h2
            rw [← h1.1, ← h2.1]
            exact ⟨t, hf, hin⟩
          · intro q a b r1 r2 p' hq h1 h2 _ _
            cases q with
            | nil => exact absurd rfl hq
            | cons x q =>
              simp only [List.append_assoc, List.cons_append, List.append_cancel_left_eq,
                List.cons.injEq] at h1 h2
              exact absurd (h2.1.trans h1.1.symm) hne

theorem walk_plain_keys (dic : Dictionary) (guide : Guide) (n : Nat) (p : BaseType)
    (path : List UCharType) (c : UCharType) (t : BaseType)
    (below0 beside0 : List (Visit Unit))
    (h : walk dic guide plainDelegate (n + 1) p path c () =
      some ((⟨path ++ [c], t, (), true, false⟩ : Visit Unit) :: (below0 ++ beside0), ()))
    (hb : walk dic guide plainDelegate n t (path ++ [c]) (guide.child t) () = some (below0, ()))
    (hs : walk dic guide plainDelegate n p path (guide.sibling t) () = some (beside0, ())) :
    (∀ k ∈ below0.map (fun v => v.key), ∃ a rest, k = path ++ c :: a :: rest) ∧
    ∀ k ∈ beside0.map (fun v => v.key), ∃ a rest, k = path ++ a :: rest ∧ a ≠ c := by
  constructor
  · intro k hk
    obtain ⟨v, hv, rfl⟩ := List.mem_map.1 hk
    obtain ⟨a, rest, hk, _⟩ := walk_plain_follow dic guide n _ _ _ _ _ hb v hv
    exact ⟨a, rest, by simp [hk]⟩
  · intro k hk
    obtain ⟨v, hv, rfl⟩ := List.mem_map.1 hk
    obtain ⟨a, rest, hk, _⟩ := walk_plain_follow dic guide n _ _ _ _ _ hs v hv
    refine ⟨a, rest, hk, ?_⟩
    rintro rfl
    obtain ⟨m, ws, pre, hm, hws, he⟩ :=
      walk_plain_suffix dic guide n _ _ _ _ _ hs v hv a rest hk
    have := walk_mono dic guide plainDelegate m _ _ _ _ _ hws (n + 1) (by omega)
    rw [h] at this
    simp only [Option.some.injEq, Prod.mk.injEq] at this
    have hlen := congrArg List.length this.1
    have hlen2 := congrArg List.length he
    simp only [List.length_cons, List.length_append] at hlen hlen2
    omega

/-- No path below a path at which `on_step` returned `descend = false` is stepped
onto, and every path stepped onto is a path of the plain walk. -/
theorem walk_pruned {D : Type} (dic : Dictionary) (guide : Guide) (del : Delegate D) :
    ∀ (n : Nat) (p : BaseType) (path : List UCharType) (c : UCharType) (d : D)
      (vs : List (Visit D)) (d1 : D) (vs0 : List (Visit Unit)) (u : Unit),
      walk dic guide del n p path c d = some (vs, d1) →
      walk dic guide plainDelegate n p path c () = some (vs0, u) →
      (∀ v ∈ vs, v.key ∈ vs0.map (fun v => v.key)) ∧
      ∀ x ∈ vs, x.descend = false → ∀ v ∈ vs, x.key <+: v.key → v.key = x.key := by
  intro n
  induction n with
  | zero => intro p path c d vs d1 vs0 u h; simp [walk] at h
  | succ n ih =>
    intro p path c d vs d1 vs0 u h h0
    by_cases hc : c = 0
    · subst hc
      have := walk_zero_label dic guide del n p path d vs d1 h
      subst this
      simp
    · obtain ⟨t, below0, beside0, hf, hb0, hs0, rfl⟩ :=
        walk_plain_succ dic guide n p path c vs0 u h0 hc
      obtain ⟨t', below, d2, beside, hf', hbelow, hs, rfl⟩ :=
        walk_succ dic guide del n p path c d vs d1 h hc
      rw [hf] at hf'
      simp only [Option.some.injEq] at hf'
      subst hf'
      obtain ⟨hk0, hk1⟩ := walk_plain_keys dic guide n p path c t below0 beside0 h0 hb0 hs0
      obtain ⟨ihs1, ihs2⟩ := ih _ _ _ _ _ _ _ _ hs hs0
      have hbl : (∀ v ∈ below, v.key ∈ below0.map (fun v => v.key)) ∧
          ∀ x ∈ below, x.descend = false → ∀ v ∈ below, x.key <+: v.key → v.key = x.key := by
        rcases hbelow with ⟨_, hb⟩ | ⟨_, rfl⟩
        · exact ih _ _ _ _ _ _ _ _ hb hb0
        · simp
      obtain ⟨ihb1, ihb2⟩ := hbl
      have kb : ∀ v ∈ below, ∃ a rest, v.key = path ++ c :: a :: rest :=
        fun v hv => hk0 _ (ihb1 v hv)
      have ks : ∀ v ∈ beside, ∃ a rest, v.key = path ++ a :: rest ∧ a ≠ c :=
        fun v hv => hk1 _ (ihs1 v hv)
      constructor
      · intro v hv
        rcases List.mem_cons.1 hv with rfl | hv
        · simp
        · rcases List.mem_append.1 hv with hv | hv
          · have := ihb1 v hv
            simp only [List.map_cons, List.map_append, List.mem_cons, List.mem_append]
            exact Or.inr (Or.inl this)
          · have := ihs1 v hv
            simp only [List.map_cons, List.map_append, List.mem_cons, List.mem_append]
            exact Or.inr (Or.inr this)
      · intro x hx hxd v hv hp
        rcases List.mem_cons.1 hx with rfl | hx
        · rcases List.mem_cons.1 hv with rfl | hv
          · rfl
          · rcases List.mem_append.1 hv with hv | hv
            · rcases hbelow with ⟨hd, _⟩ | ⟨_, rfl⟩
              · simp only at hxd
                rw [hd] at hxd
                cases hxd
              · simp at hv
            · obtain ⟨a, rest, hk, hne⟩ := ks v hv
              simp only [hk, List.prefix_append_right_inj] at hp
              exact absurd (List.cons_prefix_cons.1 hp).1.symm hne
        · rcases List.mem_append.1 hx with hx | hx
          · obtain ⟨a1, rest1, hxk⟩ := kb x hx
            rcases List.mem_cons.1 hv with rfl | hv
            · have := hp.length_le
              simp [hxk] at this
            · rcases List.mem_append.1 hv with hv | hv
              · exact ihb2 x hx hxd v hv hp
              · obtain ⟨a, rest, hk, hne⟩ := ks v hv
                simp only [hk, hxk, List.prefix_append_right_inj] at hp
                exact absurd (List.cons_prefix_cons.1 hp).1.symm hne
          · obtain ⟨a1, rest1, hxk, hne1⟩ := ks x hx
            rcases List.mem_cons.1 hv with rfl | hv
            · simp only [hxk, List.prefix_append_right_inj] at hp
              exact absurd (List.cons_prefix_cons.1 hp).1 hne1
            · rcases List.mem_append.1 hv with hv | hv
              · obtain ⟨a, rest, hk⟩ := kb v hv
                simp only [hk, hxk, List.prefix_append_right_inj] at hp
                exact absurd (List.cons_prefix_cons.1 hp).1 hne1
              · exact ihs2 x hx hxd v hv hp

/-- C9: on a well-formed pair and for every delegate, the calls of `on_step` that
the driver makes until `next()` returns false are, in order, the calls of the
preorder walk in Guide order (`walk`: a child is stepped onto, then its children
unless `on_step` returned `descend = false`, then the next label of the
child-then-sibling chain). Of two paths, the one stepped onto first is not an
extension of the other, and where the two part, its label comes first in the chain
of the state at which they part; no path below a path with `descend = false` is
stepped onto; and the keys at which `next()` returned true are the paths of this
walk at which `on_step` returned `result = true`, in the same order. The calls are
read off a delegate that records them. -/
theorem on_step_calls_preorder {D : Type} (dic : Dictionary) (guide : Guide)
    (hwf : WellFormed dic guide) (del : Delegate D) (s : DFS D) :
    ∃ n vs d1,
      walk dic guide del n dic.root [] (guide.child dic.root) s.delegate = some (vs, d1) ∧
      (vs.map (fun v => v.key)).Pairwise (fun k1 k2 =>
        ¬ k2 <+: k1 ∧
        ∀ q a b r1 r2 p, k1 = q ++ a :: r1 → k2 = q ++ b :: r2 → a ≠ b →
          dic.FollowN q dic.root = some p →
          Guide.InChain dic guide p (guide.child p) a ∧ Guide.After dic guide p a b) ∧
      (∀ x ∈ vs, x.descend = false → ∀ v ∈ vs, x.key <+: v.key → v.key = x.key) ∧
      ∃ fuel, ∀ fuel', fuel ≤ fuel' → ∀ calls, (vs.filter (fun v => v.result)).length < calls →
        ∃ found last,
          DFS.drain dic guide (recorder del) fuel' calls
            (DFS.start dic ⟨(s.delegate, []), s.stack_, s.key_, s.state_⟩) = some (found, last) ∧
          last.delegate.2 = vs ∧
          found.map (fun x => x.key_) = (vs.filter (fun v => v.result)).map (fun v => v.key) := by
  obtain ⟨n, ns, vs, d1, hn, hw, hsub⟩ := walk_of_wellFormed hwf del s.delegate
  refine ⟨n, vs, d1, hw, ?_, ?_, ?_⟩
  · simp only [nodes] at hn
    cases hw0 : walk dic guide plainDelegate n dic.root [] (guide.child dic.root) () with
    | none => simp [hw0] at hn
    | some r =>
      obtain ⟨vs0, u⟩ := r
      simp only [hw0, Option.some.injEq] at hn
      obtain ⟨h1, h2⟩ := walk_plain_order dic guide n _ _ _ vs0 u hw0
      have hs2 : (vs.map (fun v => v.key)).Sublist (vs0.map (fun v => v.key)) := by
        rw [← hn] at hsub
        have := hsub.map (fun e : List UCharType × BaseType => e.1)
        simpa [Function.comp_def, Visit.node] using this
      refine List.Pairwise.sublist hs2 (List.Pairwise.imp_of_mem ?_ h2)
      intro k1 k2 hk1 _ hr
      obtain ⟨hr1, hr2, hr3⟩ := hr
      refine ⟨hr1, ?_⟩
      intro q a b r1 r2 p e1 e2 hab hfo
      cases q with
      | nil =>
        simp only [Dictionary.FollowN, Option.some.injEq] at hfo
        subst hfo
        obtain ⟨v, hv, hvk⟩ := List.mem_map.1 hk1
        exact ⟨h1 v hv a r1 (hvk.trans e1), hr2 a b r1 r2 e1 e2 hab⟩
      | cons x q =>
        exact hr3 (x :: q) a b r1 r2 p (by simp) (by simpa using e1) (by simpa using e2) hab hfo
  · simp only [nodes] at hn
    cases hw0 : walk dic guide plainDelegate n dic.root [] (guide.child dic.root) () with
    | none => simp [hw0] at hn
    | some r =>
      obtain ⟨vs0, u⟩ := r
      exact (walk_pruned dic guide del n _ _ _ _ vs d1 vs0 u hw hw0).2
  · obtain ⟨ws, hws, hkeys⟩ := walk_recorder dic guide del n _ _ _ _ vs d1 hw []
    obtain ⟨found, hp, hlast, hv⟩ := DFS.passes_of_start dic guide (recorder del) hwf.1
      ⟨(s.delegate, []), s.stack_, s.key_, s.state_⟩ n ws (d1, [] ++ vs) hws
    obtain ⟨fuel, hfuel⟩ := DFS.drain_of_passes hp hlast (by simp [DFS.start])
    have hlen := length_eq_of_map_view hv
    have hlen2 : (ws.filter (fun v => v.result)).length =
        (vs.filter (fun v => v.result)).length := by
      have := congrArg List.length hkeys
      simpa using this
    refine ⟨fuel, fun fuel' hf calls hc => ⟨found, _, hfuel fuel' hf calls (by omega), ?_, ?_⟩⟩
    · simp [recorder]
    · rw [← hkeys]
      have := congrArg
        (List.map (fun x : List UCharType × Option BaseType × (D × List (Visit D)) => x.1)) hv
      simpa [DFS.view, Visit.view, Function.comp_def] using this

/-! ## What a search finds -/

theorem mem_of_map_view {D : Type} {found : List (DFS D)} {ys : List (Visit D)}
    (h : found.map DFS.view = ys.map Visit.view) (x : DFS D) (hx : x ∈ found) :
    ∃ v ∈ ys, x.key_ = v.key ∧ x.stack_.head? = some v.index ∧ x.delegate = v.delegate := by
  have : x.view ∈ found.map DFS.view := List.mem_map_of_mem _ hx
  rw [h] at this
  obtain ⟨v, hv, he⟩ := List.mem_map.1 this
  simp only [Visit.view, DFS.view, Prod.mk.injEq] at he
  exact ⟨v, hv, he.1.symm, he.2.1.symm, he.2.2.symm⟩

theorem keys_of_map_view {D : Type} {found : List (DFS D)} {ys : List (Visit D)}
    (h : found.map DFS.view = ys.map Visit.view) :
    found.map (fun x => x.key_) = ys.map (fun v => v.key) := by
  have := congrArg (List.map (fun x : List UCharType × Option BaseType × D => x.1)) h
  simpa [DFS.view, Visit.view, Function.comp_def] using this

/-- The searches on a well-formed pair, for a delegate with an invariant whose flags
are determined by the path (`desc`) and by the path and its state (`res`), where
`res` at a key implies `desc` at the paths leading to it: the client loop ends, and
it finds exactly the non-empty paths of the Dictionary with `res`, each once, in
the states that the walk records. -/
theorem search_exact {D : Type} (dic : Dictionary) (guide : Guide)
    (hwf : WellFormed dic guide) (del : Delegate D) (Inv : List UCharType → D → Prop)
    (hstep : ∀ path c t d, Inv path d → Inv (path ++ [c]) (del.on_step (path ++ [c]) t d).1)
    (hasc : ∀ path c d, Inv (path ++ [c]) d → Inv path (del.on_ascend (path ++ [c]) d))
    (desc : List UCharType → Prop) (res : List UCharType → BaseType → Prop)
    (hdesc : ∀ path c t d, Inv path d → desc (path ++ [c]) →
      (del.on_step (path ++ [c]) t d).2.1 = true)
    (hres : ∀ path c t d, Inv path d →
      ((del.on_step (path ++ [c]) t d).2.2 = true ↔ res (path ++ [c]) t))
    (hmono : ∀ k t, dic.FollowN k dic.root = some t → res k t →
      ∀ q, q ≠ [] → q <+: k → q ≠ k → desc q)
    (s : DFS D) (h0 : Inv [] s.delegate) :
    ∃ n vs d1 found last,
      walk dic guide del n dic.root [] (guide.child dic.root) s.delegate = some (vs, d1) ∧
      (∀ v ∈ vs, ∃ q a d0, v.key = q ++ [a] ∧ Inv q d0 ∧
        v.delegate = (del.on_step v.key v.index d0).1 ∧
        v.descend = (del.on_step v.key v.index d0).2.1 ∧
        v.result = (del.on_step v.key v.index d0).2.2) ∧
      (∃ fuel, ∀ fuel', fuel ≤ fuel' → ∀ calls, found.length < calls →
        DFS.drain dic guide del fuel' calls (DFS.start dic s) = some (found, last)) ∧
      found.map DFS.view = (vs.filter (fun v => v.result)).map Visit.view ∧
      (∀ k, k ∈ found.map (fun x => x.key_) ↔
        k ≠ [] ∧ ∃ t, dic.FollowN k dic.root = some t ∧ res k t) ∧
      (found.map (fun x => x.key_)).Nodup := by
  obtain ⟨n, ns, vs, d1, hn, hw, hsub⟩ := walk_of_wellFormed hwf del s.delegate
  obtain ⟨found, hp, hlast, hv⟩ := DFS.passes_of_start dic guide del hwf.1 s n vs d1 hw
  obtain ⟨fuel, hfuel⟩ := DFS.drain_of_passes hp hlast (by simp [DFS.start])
  obtain ⟨_, hvis⟩ := walk_inv dic guide del Inv hstep hasc n _ _ _ _ vs d1 hw h0
  have hkeys := keys_of_map_view hv
  -- the plain walk
  have hn' := hn
  simp only [nodes] at hn'
  cases hw0 : walk dic guide plainDelegate n dic.root [] (guide.child dic.root) () with
  | none => simp [hw0] at hn'
  | some r =>
    obtain ⟨vs0, u⟩ := r
    simp only [hw0, Option.some.injEq] at hn'
    refine ⟨n, vs, d1, found, _, hw, hvis, ⟨fuel, hfuel⟩, hv, ?_, ?_⟩
    · intro k
      rw [hkeys]
      constructor
      · intro hk
        obtain ⟨v, hvm, rfl⟩ := List.mem_map.1 hk
        obtain ⟨hvm, hvr⟩ := List.mem_filter.1 hvm
        have hnode : (v.key, v.index) ∈ ns :=
          hsub.subset (List.mem_map_of_mem Visit.node hvm)
        obtain ⟨hne, hfo⟩ := (mem_nodes_iff hwf hn _ _).1 hnode
        obtain ⟨q, a, d0, hq, hinv, _, _, hr⟩ := hvis v hvm
        refine ⟨hne, v.index, hfo, ?_⟩
        have := (hres q a v.index d0 hinv).1
        rw [← hq] at this
        exact this (by rw [← hr]; simpa using hvr)
      · rintro ⟨hne, t, hfo, hr⟩
        have hnode : (k, t) ∈ ns := (mem_nodes_iff hwf hn _ _).2 ⟨hne, hfo⟩
        rw [← hn'] at hnode
        obtain ⟨v0, hv0, hv0e⟩ := List.mem_map.1 hnode
        simp only [Visit.node, Prod.mk.injEq] at hv0e
        have hin := walk_complete dic guide del Inv hstep hasc desc hdesc n _ _ _ _ vs d1 vs0 u
          hw hw0 h0 v0 hv0 (by
            intro q hq1 hq2 hq3
            rw [hv0e.1] at hq2 hq3
            exact hmono k t hfo hr q (by intro h; simp [h] at hq1) hq2 hq3)
        obtain ⟨v, hvm, hve⟩ := List.mem_map.1 hin
        simp only [Visit.node, Prod.mk.injEq, hv0e.1, hv0e.2] at hve
        obtain ⟨q, a, d0, hq, hinv, _, _, hr'⟩ := hvis v hvm
        have := (hres q a v.index d0 hinv).2
        rw [← hq, hve.1, hve.2] at this
        have hvr : v.result = true := by
          rw [hr', hve.1, hve.2]
          exact this hr
        exact List.mem_map.2 ⟨v, List.mem_filter.2 ⟨hvm, by simpa using hvr⟩, hve.1⟩
    · rw [hkeys]
      have hnd := walk_plain_nodup dic guide n _ _ _ vs0 u hw0
      have hs1 : ((vs.filter (fun v => v.result)).map Visit.node).Sublist ns :=
        ((List.filter_sublist _).map Visit.node).trans hsub
      rw [← hn'] at hs1
      have hs2 := hs1.map (fun e : List UCharType × BaseType => e.1)
      simp only [List.map_map] at hs2
      exact List.Nodup.sublist hs2 (by simpa [Function.comp_def, Visit.node] using hnd)

/-! ## The LCS search -/

/-- C5: whenever a call of `next()` of an LCS search returns true (at any point of
a row of calls after `start`), the bytes of the result buffer `lcs()` are a
subsequence of the key that is shown and a subsequence of the query word, and
there are at least `min_length` of them. -/
theorem lcs_is_common_subsequence (dic : Dictionary) (guide : Guide) (s : DFS LCS)
    (word : List CharType) (min_length : Int) (fuel k : Nat) (s1 : DFS LCS)
    (h : DFS.advance dic guide (LCS.delegate dic) fuel k (LCS.start dic s word min_length) =
      some (true, s1)) :
    (LCS.lcs s1).Sublist s1.key ∧ (LCS.lcs s1).Sublist word ∧
      min_length ≤ ((LCS.lcs s1).length : Int) := by
  have hit := DFS.advance_hit dic guide (LCS.delegate dic) (LCS.Inv word min_length)
    (fun path c t d hd => LCS.inv_on_step dic word min_length path c t d hd)
    (fun path c d hd => LCS.inv_on_ascend word min_length path c d hd)
    fuel k (LCS.start dic s word min_length) (LCS.inv_start dic s word min_length) s1 h
  obtain ⟨_, _, t, rest, q, a, d0, _, hk, hinv, hd, hr⟩ := hit
  rw [hk] at hd hr
  have := LCS.on_step_result dic word min_length q a t d0 hinv hr
  simp only [LCS.lcs, DFS.key, hk, hd]
  exact this

/-- C4: on a well-formed pair and for a query word shorter than 32768 bytes, the
client loop of the LCS search ends, and the keys it is shown are exactly the keys
of the dictionary that have a common subsequence with the word of length at least
`min_length`; and after every call of `on_step` in the walk the cell `C[i][j]` is
the length of a longest common subsequence of the first `i` bytes of the path and
the first `j` bytes of the word. -/
theorem lcs_search_exact (dic : Dictionary) (guide : Guide) (hwf : WellFormed dic guide)
    (s : DFS LCS) (word : List CharType) (min_length : Int) (hw : word.length < 32768) :
    ∃ n vs d1 found last,
      walk dic guide (LCS.delegate dic) n dic.root [] (guide.child dic.root)
        (LCS.start dic s word min_length).delegate = some (vs, d1) ∧
      (∀ v ∈ vs, ∀ i, i ≤ v.key.length → ∀ j, j ≤ word.length →
        v.delegate.C_.get i j = (lcsLength (v.key.take i) (word.take j) : Int)) ∧
      (∃ fuel, ∀ fuel', fuel ≤ fuel' → ∀ calls, found.length < calls →
        DFS.drain dic guide (LCS.delegate dic) fuel' calls (LCS.start dic s word min_length) =
          some (found, last)) ∧
      ∀ key, key ∈ found.map (fun x => x.key) ↔
        dic.Contains key = true ∧
          ∃ sub : List UCharType, sub.Sublist key ∧ sub.Sublist word ∧
            min_length ≤ (sub.length : Int) := by
  obtain ⟨n, vs, d1, found, last, hwalk, hvis, hdrain, _, hiff, _⟩ :=
    search_exact dic guide hwf (LCS.delegate dic) (LCS.Inv word min_length)
      (fun path c t d hd => LCS.inv_on_step dic word min_length path c t d hd)
      (fun path c d hd => LCS.inv_on_ascend word min_length path c d hd)
      (fun _ => True)
      (fun key t => dic.has_value t = true ∧ min_length ≤ (lcsLength key word : Int))
      (fun path c t d hd _ => (LCS.on_step_flags dic word min_length hw path c t d hd).1)
      (fun path c t d hd => (LCS.on_step_flags dic word min_length hw path c t d hd).2)
      (fun _ _ _ _ _ _ _ _ => trivial)
      (LCS.start dic s word min_length) (LCS.inv_start dic s word min_length)
  refine ⟨n, vs, d1, found, last, hwalk, ?_, hdrain, ?_⟩
  · intro v hv i hi j hj
    obtain ⟨q, a, d0, hk, hinv, hd, _, _⟩ := hvis v hv
    rw [hk] at hd
    have hinv' : LCS.Inv word min_length (q ++ [a])
        ((LCS.delegate dic).on_step (q ++ [a]) v.index d0).1 :=
      LCS.inv_on_step dic word min_length q a v.index d0 hinv
    rw [← hd, ← hk] at hinv'
    exact LCS.inv_cells word min_length v.key v.delegate hw hinv' i hi j hj
  · intro key
    have h1 := hiff key
    simp only [DFS.key] at h1 ⊢
    rw [h1]
    constructor
    · rintro ⟨_, t, hfo, hv, hl⟩
      refine ⟨by simp [Dictionary.Contains, hfo, hv], ?_⟩
      obtain ⟨sub, h1, h2, h3⟩ := lcsLength_attained _ key word le_rfl
      exact ⟨sub, h1, h2, by rw [h3]; exact hl⟩
    · rintro ⟨hc, sub, h1, h2, h3⟩
      simp only [Dictionary.Contains] at hc
      cases hfo : dic.FollowN key dic.root with
      | none => simp [hfo] at hc
      | some t =>
        simp only [hfo] at hc
        have hne : key ≠ [] := by
          rintro rfl
          simp only [Dictionary.FollowN, Option.some.injEq] at hfo
          rw [← hfo, hwf.2.1] at hc
          cases hc
        refine ⟨hne, t, rfl, hc, ?_⟩
        have := lcsLength_bound _ key word sub le_rfl h1 h2
        have : (sub.length : Int) ≤ (lcsLength key word : Int) := by exact_mod_cast this
        omega

/-! ## The edit distance by its last bytes -/

section Lev

variable (C : Levenshtein.Cost UCharType UCharType Int)

theorem lev_nil_concat (ys : List UCharType) (y : UCharType) :
    levenshtein C [] (ys ++ [y]) = levenshtein C [] ys + C.insert y := by
  induction ys with
  | nil => simp [levenshtein_nil_cons]
  | cons b ys ih =>
    rw [List.cons_append, levenshtein_nil_cons, levenshtein_nil_cons, ih]
    omega

theorem lev_concat_nil (xs : List UCharType) (x : UCharType) :
    levenshtein C (xs ++ [x]) [] = levenshtein C xs [] + C.delete x := by
  induction xs with
  | nil => simp [levenshtein_cons_nil]
  | cons a xs ih =>
    rw [List.cons_append, levenshtein_cons_nil, levenshtein_cons_nil, ih]
    omega

/-- The recurrence of the edit distance on the last bytes. -/
theorem lev_concat_concat : ∀ (n : Nat) (xs ys : List UCharType) (x y : UCharType),
    xs.length + ys.length ≤ n →
    levenshtein C (xs ++ [x]) (ys ++ [y]) =
      min (C.delete x + levenshtein C xs (ys ++ [y]))
        (min (C.insert y + levenshtein C (xs ++ [x]) ys)
          (C.substitute x y + levenshtein C xs ys)) := by
  intro n
  induction n with
  | zero =>
    intro xs ys x y h
    have hx : xs = [] := List.eq_nil_of_length_eq_zero (by omega)
    have hy : ys = [] := List.eq_nil_of_length_eq_zero (by omega)
    subst hx hy
    simp only [List.nil_append]
    rw [levenshtein_cons_cons]
  | succ n ih =>
    intro xs ys x y h
    cases xs with
    | nil =>
      cases ys with
      | nil =>
        simp only [List.nil_append]
        rw [levenshtein_cons_cons]
      | cons b ys =>
        simp only [List.length_cons, List.length_nil] at h
        have h1 := ih [] ys x y (by simp; omega)
        simp only [List.nil_append, List.cons_append] at h1 ⊢
        rw [levenshtein_cons_cons, h1, levenshtein_cons_cons x [] b ys,
          levenshtein_nil_cons, levenshtein_nil_cons, lev_nil_concat]
        generalize levenshtein C [] ys = A
        generalize levenshtein C [x] ys = P
        simp only [← min_add_add_left]
        simp only [min_assoc, min_comm, min_left_comm, add_comm, add_left_comm, add_assoc]
    | cons a xs =>
      cases ys with
      | nil =>
        simp only [List.length_cons, List.length_nil] at h
        have h1 := ih xs [] x y (by simp; omega)
        simp only [List.nil_append, List.cons_append] at h1 ⊢
        rw [levenshtein_cons_cons, h1, levenshtein_cons_cons a xs y [],
          levenshtein_cons_nil, levenshtein_cons_nil, lev_concat_nil]
        generalize levenshtein C xs [] = A
        generalize levenshtein C xs [y] = P
        simp only [← min_add_add_left]
        simp only [min_assoc, min_comm, min_left_comm, add_comm, add_left_comm, add_assoc]
      | cons b ys =>
        simp only [List.length_cons] at h
        have h1 := ih xs (b :: ys) x y (by simp only [List.length_cons]; omega)
        have h2 := ih (a :: xs) ys x y (by simp only [List.length_cons]; omega)
        have h3 := ih xs ys x y (by omega)
        simp only [List.cons_append] at h1 h2 h3 ⊢
        rw [levenshtein_cons_cons a (xs ++ [x]) b (ys ++ [y]), h1, h2, h3,
          levenshtein_cons_cons a xs b (ys ++ [y]), levenshtein_cons_cons a (xs ++ [x]) b ys,
          levenshtein_cons_cons a xs b ys]
        generalize levenshtein C xs (b :: (ys ++ [y])) = A1
        generalize levenshtein C (xs ++ [x]) (b :: ys) = A2
        generalize levenshtein C xs (b :: ys) = A3
        generalize levenshtein C (a :: xs) (ys ++ [y]) = A4
        generalize levenshtein C (a :: (xs ++ [x])) ys = A5
        generalize levenshtein C (a :: xs) ys = A6
        generalize levenshtein C xs (ys ++ [y]) = A7
        generalize levenshtein C (xs ++ [x]) ys = A8
        generalize levenshtein C xs ys = A9
        simp only [← min_add_add_left]
        simp only [min_assoc, min_comm, min_left_comm, add_comm, add_left_comm, add_assoc]

theorem lev_concat (xs ys : List UCharType) (x y : UCharType) :
    levenshtein C (xs ++ [x]) (ys ++ [y]) =
      min (C.delete x + levenshtein C xs (ys ++ [y]))
        (min (C.insert y + levenshtein C (xs ++ [x]) ys)
          (C.substitute x y + levenshtein C xs ys)) :=
  lev_concat_concat C _ xs ys x y le_rfl

/-- Deleting the last byte of the source costs at most its deletion cost. -/
theorem lev_delete_last (xs ys : List UCharType) (x : UCharType) :
    levenshtein C (xs ++ [x]) ys ≤ C.delete x + levenshtein C xs ys := by
  rcases List.eq_nil_or_concat ys with rfl | ⟨ys', y, rfl⟩
  · rw [lev_concat_nil]; omega
  · rw [List.concat_eq_append, lev_concat]
    exact min_le_left _ _

/-- Inserting the last byte of the target costs at most its insertion cost. -/
theorem lev_insert_last (xs ys : List UCharType) (y : UCharType) :
    levenshtein C xs (ys ++ [y]) ≤ C.insert y + levenshtein C xs ys := by
  rcases List.eq_nil_or_concat xs with rfl | ⟨xs', x, rfl⟩
  · rw [lev_nil_concat]; omega
  · rw [List.concat_eq_append, lev_concat]
    exact le_trans (min_le_right _ _) (min_le_left _ _)

/-- With non-negative costs and the triangle inequality for deletions, dropping the
last byte of the target after the fact costs a deletion at most. -/
theorem lev_le_delete (hdel : ∀ a, 0 ≤ C.delete a) (hins : ∀ a, 0 ≤ C.insert a)
    (htri : ∀ a c, C.delete a ≤ C.substitute a c + C.delete c)
    (ys : List UCharType) (c : UCharType) (xs : List UCharType) :
    levenshtein C xs ys ≤ C.delete c + levenshtein C xs (ys ++ [c]) := by
  induction xs using List.reverseRecOn with
  | nil =>
    rw [lev_nil_concat]
    have := hdel c
    have := hins c
    omega
  | append_singleton xs x ih =>
    rw [lev_concat]
    have h1 := lev_delete_last C xs ys x
    have h2 := htri x c
    have := hdel c
    have := hins c
    omega

/-- With non-negative costs and the triangle inequality for insertions, dropping the
last byte of the source after the fact costs an insertion at most. -/
theorem lev_le_insert (hdel : ∀ a, 0 ≤ C.delete a) (hins : ∀ a, 0 ≤ C.insert a)
    (htri : ∀ c b, C.insert b ≤ C.insert c + C.substitute c b)
    (xs : List UCharType) (c : UCharType) (ys : List UCharType) :
    levenshtein C xs ys ≤ C.insert c + levenshtein C (xs ++ [c]) ys := by
  induction ys using List.reverseRecOn with
  | nil =>
    rw [lev_concat_nil]
    have := hdel c
    have := hins c
    omega
  | append_singleton ys y ih =>
    rw [lev_concat]
    have h1 := lev_insert_last C xs ys y
    have h2 := htri c y
    have := hdel c
    have := hins c
    omega

/-- Equal last bytes are matched at no cost, when the costs are non-negative and
satisfy the two triangle inequalities. -/
theorem lev_concat_same (hdel : ∀ a, 0 ≤ C.delete a) (hins : ∀ a, 0 ≤ C.insert a)
    (hself : ∀ a, C.substitute a a = 0)
    (htd : ∀ a c, C.delete a ≤ C.substitute a c + C.delete c)
    (hti : ∀ c b, C.insert b ≤ C.insert c + C.substitute c b)
    (xs ys : List UCharType) (c : UCharType) :
    levenshtein C (xs ++ [c]) (ys ++ [c]) = levenshtein C xs ys := by
  rw [lev_concat, hself]
  have h1 := lev_le_delete C hdel hins htd ys c xs
  have h2 := lev_le_insert C hdel hins hti xs c ys
  omega

/-- With non-negative costs a row of the distance matrix has no entry below the
least entry of the row above, up to the same column. -/
theorem lev_row_mono (hdel : ∀ a, 0 ≤ C.delete a) (hins : ∀ a, 0 ≤ C.insert a)
    (hsub : ∀ a b, 0 ≤ C.substitute a b) (xs : List UCharType) (x : UCharType)
    (w : List UCharType) :
    ∀ j, j ≤ w.length → ∃ j', j' ≤ j ∧
      levenshtein C xs (w.take j') ≤ levenshtein C (xs ++ [x]) (w.take j) := by
  intro j
  induction j with
  | zero =>
    intro _
    refine ⟨0, le_rfl, ?_⟩
    simp only [List.take_zero]
    rw [lev_concat_nil]
    have := hdel x
    omega
  | succ j ih =>
    intro hj
    obtain ⟨j1, hj1, hle⟩ := ih (by omega)
    rw [take_succ_getD w j (by omega), lev_concat]
    have := hdel x
    have := hins (w.getD j 0)
    have := hsub x (w.getD j 0)
    rcases min_choice (C.delete x + levenshtein C xs (w.take j ++ [w.getD j 0]))
        (min (C.insert (w.getD j 0) + levenshtein C (xs ++ [x]) (w.take j))
          (C.substitute x (w.getD j 0) + levenshtein C xs (w.take j))) with h | h
    · refine ⟨j + 1, le_rfl, ?_⟩
      rw [h, take_succ_getD w j (by omega)]
      omega
    · rw [h]
      rcases min_choice (C.insert (w.getD j 0) + levenshtein C (xs ++ [x]) (w.take j))
          (C.substitute x (w.getD j 0) + levenshtein C xs (w.take j)) with h' | h'
      · rw [h']
        exact ⟨j1, by omega, by omega⟩
      · rw [h']
        exact ⟨j, by omega, by omega⟩

/-- With non-negative costs every row of a longer path has its entries above some
entry of the row of the path. -/
theorem lev_rows_mono (hdel : ∀ a, 0 ≤ C.delete a) (hins : ∀ a, 0 ≤ C.insert a)
    (hsub : ∀ a b, 0 ≤ C.substitute a b) (xs : List UCharType) (w : List UCharType)
    (ext : List UCharType) :
    ∀ j, j ≤ w.length → ∃ j', j' ≤ j ∧
      levenshtein C xs (w.take j') ≤ levenshtein C (xs ++ ext) (w.take j) := by
  induction ext using List.reverseRecOn with
  | nil =>
    intro j _
    exact ⟨j, le_rfl, by simp⟩
  | append_singleton ext x ih =>
    intro j hj
    obtain ⟨j1, hj1, h1⟩ := lev_row_mono C hdel hins hsub (xs ++ ext) x w j hj
    obtain ⟨j2, hj2, h2⟩ := ih j1 (by omega)
    exact ⟨j2, by omega, by rw [← List.append_assoc]; omega⟩

end Lev

/-! ## The Similar delegate: what every call of `on_step` does -/

namespace Similar

/-- The loop of `compute_cost_fast`, whatever the flags: the matrix keeps its shape,
only row `i` from column `j` on is written, and `smallest` ends below every entry
of row `i`. -/
theorem cost_loop_frame (tr us : Bool) (s : Similar) (costs : Costs) (key : List UCharType)
    (i : Nat) (dc : CostType) (cols : Nat) :
    ∀ (n j db : Nat) (r1 sm : CostType) (M : Matrix CostType),
      n + j = cols → M.Ready cols (i + 1) →
      (∀ j', j' < j → sm ≤ M.get i j') →
      (cost_loop tr us s costs key i dc n j db r1 sm M).1.Ready cols (i + 1) ∧
      (∀ j', j' < cols →
        (cost_loop tr us s costs key i dc n j db r1 sm M).2 ≤
          (cost_loop tr us s costs key i dc n j db r1 sm M).1.get i j') ∧
      (∀ r j', j' < cols → (r ≠ i ∨ j' < j) →
        (cost_loop tr us s costs key i dc n j db r1 sm M).1.get r j' = M.get r j') := by
  intro n
  induction n with
  | zero =>
    intro j db r1 sm M hj hr hsm
    simp only [cost_loop]
    exact ⟨hr, fun j' hj' => hsm j' (by omega), by simp⟩
  | succ n ih =>
    intro j db r1 sm M hj hr hsm
    simp only [cost_loop]
    generalize (cell_cost tr us s costs key i dc M j db r1) = cc
    have hput : ∀ r j', j' < cols → (r ≠ i ∨ j' < j) → (M.put i j cc.1).get r j' = M.get r j' := by
      intro r j' hj' hne
      exact Matrix.get_put_ne hr.1 (by omega) hj' (by omega) _
    obtain ⟨h1, h2, h3⟩ := ih (j + 1) cc.2 cc.1 (min sm cc.1) (M.put i j cc.1) (by omega)
      (Matrix.put_ready hr _ _ _) (by
        intro j' hj'
        by_cases he : j' = j
        · subst he
          rw [Matrix.get_put_same hr (by omega)]
          exact min_le_right _ _
        · rw [hput i j' (by omega) (Or.inr (by omega))]
          exact le_trans (min_le_left _ _) (hsm j' (by omega)))
    refine ⟨h1, h2, ?_⟩
    intro r j' hj' hne
    rw [h3 r j' hj' (by omega), hput r j' hj' hne]

theorem compute_fields (tr us : Bool) (dic : Dictionary) (key : List UCharType)
    (top : BaseType) (s : Similar) :
    (compute_cost_fast tr us dic key top s).1.costs_ = s.costs_ ∧
    (compute_cost_fast tr us dic key top s).1.word_ = s.word_ ∧
    (compute_cost_fast tr us dic key top s).1.max_cost_ = s.max_cost_ ∧
    (compute_cost_fast tr us dic key top s).1.allow_transpose = s.allow_transpose ∧
    (compute_cost_fast tr us dic key top s).1.allow_split = s.allow_split ∧
    (compute_cost_fast tr us dic key top s).1.allow_merge = s.allow_merge ∧
    (compute_cost_fast tr us dic key top s).1.cached_insert_cost_ = s.cached_insert_cost_ ∧
    (compute_cost_fast tr us dic key top s).1.distances_ = (new_row tr us s key).1 := by
  simp only [compute_cost_fast, new_row]
  cases tr <;> split_ifs <;> exact ⟨rfl, rfl, rfl, rfl, rfl, rfl, rfl, rfl⟩

theorem compute_flags (tr us : Bool) (dic : Dictionary) (key : List UCharType)
    (top : BaseType) (s : Similar) :
    ((compute_cost_fast tr us dic key top s).2.1 = true ↔
      (new_row tr us s key).2 ≤ s.max_cost_) ∧
    ((compute_cost_fast tr us dic key top s).2.2 = true ↔
      (new_row tr us s key).1.get key.length (s.distances_.columns_ - 1) ≤ s.max_cost_ ∧
        dic.has_value top = true) ∧
    ((compute_cost_fast tr us dic key top s).2.2 = true →
      (compute_cost_fast tr us dic key top s).1.found_cost_ =
        (new_row tr us s key).1.get key.length (s.distances_.columns_ - 1)) := by
  simp only [compute_cost_fast, new_row, Matrix.columns]
  cases tr <;> split_ifs with h
  all_goals
    first
    | exact ⟨decide_eq_true_iff, ⟨fun _ => h, fun _ => rfl⟩, fun _ => rfl⟩
    | exact ⟨decide_eq_true_iff, ⟨fun hf => hf.elim, fun hc => absurd hc h⟩,
        fun hf => hf.elim⟩

/-- The new row, whatever the flags and the state (with at least one column): the
matrix has the rows `0 .. |key|`, and `smallest` is below every entry of the new
row. -/
theorem new_row_frame (tr us : Bool) (s : Similar) (key : List UCharType)
    (hcols : 1 ≤ s.distances_.columns_) :
    (new_row tr us s key).1.Ready s.distances_.columns_ (key.length + 1) ∧
    ∀ j, j < s.distances_.columns_ →
      (new_row tr us s key).2 ≤ (new_row tr us s key).1.get key.length j := by
  have hal := Matrix.allocate_ready s.distances_ key.length
  have hM1 := Matrix.put_ready hal key.length 0
    ((s.distances_.allocate key.length).get (key.length - 1) 0 +
      (s.costs_.getD Costs.new).delete_.get (key.getD (key.length - 1) 0))
  have hn : s.distances_.columns_ - 1 + 1 = s.distances_.columns_ := by omega
  have h0 : ∀ j', j' < 1 →
      (s.distances_.allocate key.length).get (key.length - 1) 0 +
        (s.costs_.getD Costs.new).delete_.get (key.getD (key.length - 1) 0) ≤
      ((s.distances_.allocate key.length).put key.length 0
        ((s.distances_.allocate key.length).get (key.length - 1) 0 +
          (s.costs_.getD Costs.new).delete_.get (key.getD (key.length - 1) 0))).get
        key.length j' := by
    intro j' hj'
    have : j' = 0 := by omega
    subst this
    rw [Matrix.get_put_same hal (by omega)]
  obtain ⟨h1, h2, _⟩ := cost_loop_frame tr us s (s.costs_.getD Costs.new) key key.length
    ((s.costs_.getD Costs.new).delete_.get (key.getD (key.length - 1) 0))
    s.distances_.columns_ (s.distances_.columns_ - 1) 1 0
    ((s.distances_.allocate key.length).get (key.length - 1) 0 +
      (s.costs_.getD Costs.new).delete_.get (key.getD (key.length - 1) 0))
    ((s.distances_.allocate key.length).get (key.length - 1) 0 +
      (s.costs_.getD Costs.new).delete_.get (key.getD (key.length - 1) 0))
    ((s.distances_.allocate key.length).put key.length 0
      ((s.distances_.allocate key.length).get (key.length - 1) 0 +
        (s.costs_.getD Costs.new).delete_.get (key.getD (key.length - 1) 0)))
    hn hM1 h0
  exact ⟨h1, h2⟩

/-- What `compute_cost_fast` does, whatever the flags and the state it is called
in (with at least one column): it leaves the configuration alone, it descends as
soon as some entry of the new row is within the bound, and it yields exactly when
the last entry of the new row is within the bound and the state has a value; the
cost shown is then that entry. -/
theorem compute_frame (tr us : Bool) (dic : Dictionary) (key : List UCharType) (top : BaseType)
    (s : Similar) (hcols : 1 ≤ s.distances_.columns_) :
    (compute_cost_fast tr us dic key top s).1.costs_ = s.costs_ ∧
    (compute_cost_fast tr us dic key top s).1.word_ = s.word_ ∧
    (compute_cost_fast tr us dic key top s).1.max_cost_ = s.max_cost_ ∧
    (compute_cost_fast tr us dic key top s).1.allow_transpose = s.allow_transpose ∧
    (compute_cost_fast tr us dic key top s).1.allow_split = s.allow_split ∧
    (compute_cost_fast tr us dic key top s).1.allow_merge = s.allow_merge ∧
    (compute_cost_fast tr us dic key top s).1.cached_insert_cost_ = s.cached_insert_cost_ ∧
    (compute_cost_fast tr us dic key top s).1.distances_.Ready s.distances_.columns_
      (key.length + 1) ∧
    ((∃ j, j < s.distances_.columns_ ∧
        (compute_cost_fast tr us dic key top s).1.distances_.get key.length j ≤ s.max_cost_) →
      (compute_cost_fast tr us dic key top s).2.1 = true) ∧
    ((compute_cost_fast tr us dic key top s).2.2 = true ↔
      (compute_cost_fast tr us dic key top s).1.distances_.get key.length
          (s.distances_.columns_ - 1) ≤ s.max_cost_ ∧
        dic.has_value top = true) ∧
    ((compute_cost_fast tr us dic key top s).2.2 = true →
      (compute_cost_fast tr us dic key top s).1.found_cost_ =
        (compute_cost_fast tr us dic key top s).1.distances_.get key.length
          (s.distances_.columns_ - 1)) := by
  obtain ⟨f1, f2, f3, f4, f5, f6, f7, f8⟩ := compute_fields tr us dic key top s
  obtain ⟨g1, g2, g3⟩ := compute_flags tr us dic key top s
  obtain ⟨h1, h2⟩ := new_row_frame tr us s key hcols
  rw [f8]
  refine ⟨f1, f2, f3, f4, f5, f6, f7, h1, ?_, g2, g3⟩
  rintro ⟨j, hj, hle⟩
  exact g1.2 (le_trans (h2 j hj) hle)

theorem on_step_frame (dic : Dictionary) (key : List UCharType) (top : BaseType)
    (s : Similar) (hcols : 1 ≤ s.distances_.columns_) :
    (on_step dic key top s).1.costs_ = s.costs_ ∧
    (on_step dic key top s).1.word_ = s.word_ ∧
    (on_step dic key top s).1.max_cost_ = s.max_cost_ ∧
    (on_step dic key top s).1.allow_transpose = s.allow_transpose ∧
    (on_step dic key top s).1.allow_split = s.allow_split ∧
    (on_step dic key top s).1.allow_merge = s.allow_merge ∧
    (on_step dic key top s).1.cached_insert_cost_ = s.cached_insert_cost_ ∧
    (on_step dic key top s).1.distances_.Ready s.distances_.columns_ (key.length + 1) ∧
    ((∃ j, j < s.distances_.columns_ ∧
        (on_step dic key top s).1.distances_.get key.length j ≤ s.max_cost_) →
      (on_step dic key top s).2.1 = true) ∧
    ((on_step dic key top s).2.2 = true ↔
      (on_step dic key top s).1.distances_.get key.length (s.distances_.columns_ - 1) ≤
          s.max_cost_ ∧
        dic.has_value top = true) ∧
    ((on_step dic key top s).2.2 = true →
      (on_step dic key top s).1.found_cost_ =
        (on_step dic key top s).1.distances_.get key.length (s.distances_.columns_ - 1)) := by
  simp only [on_step]
  split_ifs
  · exact compute_frame true true dic key top s hcols
  · exact compute_frame false true dic key top s hcols
  · exact compute_frame true false dic key top s hcols
  · exact compute_frame false false dic key top s hcols

theorem config_on_step (dic : Dictionary) (costs : Costs) (word : List UCharType)
    (bound : CostType) (tr sp me : Bool) (key : List UCharType) (top : BaseType) (d : Similar)
    (h : Config costs word bound tr sp me d) :
    Config costs word bound tr sp me (on_step dic key top d).1 := by
  obtain ⟨h1, h2, h3, h4, h5, h6, h7, h8⟩ := h
  obtain ⟨g1, g2, g3, g4, g5, g6, g7, g8, _⟩ := on_step_frame dic key top d (by omega)
  refine ⟨g1.trans h1, g2.trans h2, g3.trans h3, g4.trans h4, g5.trans h5, g6.trans h6,
    g8.1.trans h7, ?_⟩
  intro j hj
  rw [g7]
  exact h8 j hj

theorem config_on_ascend (costs : Costs) (word : List UCharType) (bound : CostType)
    (tr sp me : Bool) (key : List UCharType) (d : Similar)
    (h : Config costs word bound tr sp me d) :
    Config costs word bound tr sp me (on_ascend key d) := by
  simp only [on_ascend]
  split_ifs
  · exact h
  · exact h

end Similar

/-! ## The Similar delegate with transposition, split and merge off -/

namespace Similar

theorem editCost_delete (costs : Costs) (a : UCharType) :
    (editCost costs).delete a = costs.delete_.get a := rfl

theorem editCost_insert (costs : Costs) (a : UCharType) :
    (editCost costs).insert a = costs.insert.get a := rfl

theorem editCost_substitute (costs : Costs) (a b : UCharType) :
    (editCost costs).substitute a b = if a = b then 0 else costs.replace.get a b := rfl

theorem editDistance_concat_ne (costs : Costs) (xs ys : List UCharType) (x y : UCharType)
    (h : y ≠ x) :
    editDistance costs (xs ++ [x]) (ys ++ [y]) =
      min (min (editDistance costs (xs ++ [x]) ys + costs.insert.get y)
          (editDistance costs xs (ys ++ [y]) + costs.delete_.get x))
        (editDistance costs xs ys + costs.replace.get x y) := by
  simp only [editDistance]
  rw [lev_concat, editCost_delete, editCost_insert, editCost_substitute, if_neg (Ne.symm h)]
  omega

theorem editDistance_concat_same (costs : Costs) (hm : Metric costs) (xs ys : List UCharType)
    (x : UCharType) :
    editDistance costs (xs ++ [x]) (ys ++ [x]) = editDistance costs xs ys := by
  obtain ⟨hins, hdel, hrep, htd, hti⟩ := hm
  apply lev_concat_same (editCost costs) hdel hins
  · intro a; simp [editCost_substitute]
  · intro a c
    rw [editCost_substitute, editCost_delete, editCost_delete]
    by_cases h : a = c
    · subst h; simp
    · simp only [h, ite_false]; exact htd a c h
  · intro c b
    rw [editCost_substitute, editCost_insert, editCost_insert]
    by_cases h : c = b
    · subst h; simp
    · simp only [h, ite_false]; exact hti c b h

theorem editDistance_nil_concat (costs : Costs) (ys : List UCharType) (y : UCharType) :
    editDistance costs [] (ys ++ [y]) = editDistance costs [] ys + costs.insert.get y :=
  lev_nil_concat (editCost costs) ys y

theorem editDistance_concat_nil (costs : Costs) (xs : List UCharType) (x : UCharType) :
    editDistance costs (xs ++ [x]) [] = editDistance costs xs [] + costs.delete_.get x :=
  lev_concat_nil (editCost costs) xs x

theorem editDistance_nil_nil (costs : Costs) : editDistance costs [] [] = 0 := by
  simp [editDistance]

/-- With the three features off the value of a cell is the three-way minimum, or
the diagonal entry when the bytes are equal. -/
theorem cell_cost_plain (s : Similar) (costs : Costs) (key : List UCharType) (i : Nat)
    (dc : CostType) (M : Matrix CostType) (j db : Nat) (r1 : CostType) :
    (cell_cost false false s costs key i dc M j db r1).1 =
      if s.word_.getD (j - 1) 0 ≠ key.getD (i - 1) 0 then
        min (min (r1 + s.cached_insert_cost_.getD (j - 1) 0) (M.get (i - 1) j + dc))
          (M.get (i - 1) (j - 1) + costs.replace.get (key.getD (i - 1) 0) (s.word_.getD (j - 1) 0))
      else M.get (i - 1) (j - 1) := by
  simp only [cell_cost, Bool.false_and, Bool.false_eq_true, ite_false]
  split_ifs <;> rfl

/-- The loop of `compute_cost_fast` with the three features off fills row `i` with
the edit distances from the key to the prefixes of the word. -/
theorem cost_loop_spec (costs : Costs) (hm : Metric costs) (word path : List UCharType)
    (c : UCharType) (s : Similar) (hword : s.word_ = word)
    (hcache : ∀ j, j < word.length →
      s.cached_insert_cost_.getD j 0 = costs.insert.get (word.getD j 0)) :
    ∀ (n j db : Nat) (r1 sm : CostType) (M : Matrix CostType),
      n + j = word.length + 1 → 1 ≤ j →
      M.Ready (word.length + 1) (path.length + 2) →
      (∀ r, r ≤ path.length → ∀ j', j' ≤ word.length →
        M.get r j' = editDistance costs (path.take r) (word.take j')) →
      (∀ j', j' < j →
        M.get (path.length + 1) j' = editDistance costs (path ++ [c]) (word.take j')) →
      r1 = M.get (path.length + 1) (j - 1) →
      (∀ r, r ≤ path.length → ∀ j', j' ≤ word.length →
        (cost_loop false false s costs (path ++ [c]) (path.length + 1) (costs.delete_.get c)
          n j db r1 sm M).1.get r j' = editDistance costs (path.take r) (word.take j')) ∧
      ∀ j', j' ≤ word.length →
        (cost_loop false false s costs (path ++ [c]) (path.length + 1) (costs.delete_.get c)
          n j db r1 sm M).1.get (path.length + 1) j' =
          editDistance costs (path ++ [c]) (word.take j') := by
  intro n
  induction n with
  | zero =>
    intro j db r1 sm M hj _ hr hold hrow _
    simp only [cost_loop]
    exact ⟨hold, fun j' hj' => hrow j' (by omega)⟩
  | succ n ih =>
    intro j db r1 sm M hj hj1 hr hold hrow hr1
    simp only [cost_loop]
    obtain ⟨j0, rfl⟩ : ∃ j0, j = j0 + 1 := ⟨j - 1, by omega⟩
    have htake := take_succ_getD word j0 (by omega)
    have hval : (cell_cost false false s costs (path ++ [c]) (path.length + 1)
        (costs.delete_.get c) M (j0 + 1) db r1).1 =
        editDistance costs (path ++ [c]) (word.take (j0 + 1)) := by
      rw [cell_cost_plain, hword]
      simp only [Nat.add_sub_cancel, getD_append_last]
      rw [hcache j0 (by omega), hr1, Nat.add_sub_cancel, hrow j0 (by omega),
        hold path.length le_rfl (j0 + 1) (by omega), hold path.length le_rfl j0 (by omega),
        List.take_length, htake]
      by_cases hb : word.getD j0 0 = c
      · rw [if_neg (by simpa using hb), hb, editDistance_concat_same costs hm]
      · rw [if_pos hb, editDistance_concat_ne costs _ _ _ _ hb]
    rw [hval]
    apply ih (j0 + 1 + 1) _ _ _ _ (by omega) (by omega) (Matrix.put_ready hr _ _ _)
    · intro r hr' j' hj'
      rw [Matrix.get_put_ne hr.1 (by omega) (by omega) (by omega)]
      exact hold r hr' j' hj'
    · intro j' hj'
      by_cases he : j' = j0 + 1
      · subst he
        exact Matrix.get_put_same hr (by omega) _
      · rw [Matrix.get_put_ne hr.1 (by omega) (by omega) (by omega)]
        exact hrow j' (by omega)
    · rw [Nat.add_sub_cancel, Matrix.get_put_same hr (by omega)]

theorem on_step_plain (dic : Dictionary) (key : List UCharType) (top : BaseType) (s : Similar)
    (h1 : s.allow_transpose = false) (h2 : s.allow_split = false) (h3 : s.allow_merge = false) :
    on_step dic key top s = compute_cost_fast false false dic key top s := by
  simp [on_step, h1, h2, h3]

theorem dist_inv_on_step (dic : Dictionary) (costs : Costs) (hm : Metric costs)
    (word : List UCharType) (bound : CostType) (path : List UCharType) (c : UCharType)
    (t : BaseType) (d : Similar) (h : Inv costs word bound path d) :
    Inv costs word bound (path ++ [c]) (on_step dic (path ++ [c]) t d).1 := by
  obtain ⟨hcfg, hready, hcells⟩ := h
  have hcfg' := config_on_step dic costs word bound false false false (path ++ [c]) t d hcfg
  obtain ⟨hcosts, hword, hbound, htr, hsp, hme, hcols, hcache⟩ := hcfg
  refine ⟨hcfg', ?_, ?_⟩
  · have := (on_step_frame dic (path ++ [c]) t d (by omega)).2.2.2.2.2.2.2.1
    rw [hcols] at this
    simpa using this
  · rw [on_step_plain dic _ t d htr hsp hme,
      (compute_fields false false dic (path ++ [c]) t d).2.2.2.2.2.2.2]
    simp only [new_row, hcosts, Option.getD_some, List.length_append, List.length_singleton,
      Nat.add_sub_cancel, getD_append_last, Matrix.columns, hcols]
    have hal : (d.distances_.allocate (path.length + 1)).Ready (word.length + 1)
        (path.length + 2) := by
      have := Matrix.allocate_ready d.distances_ (path.length + 1)
      rwa [hcols] at this
    have hold : ∀ r, r ≤ path.length → ∀ j', j' ≤ word.length →
        (d.distances_.allocate (path.length + 1)).get r j' =
          editDistance costs (path.take r) (word.take j') := by
      intro r hr j' hj'
      rw [Matrix.get_allocate hready _ _ _ (by omega) (by omega) (by omega)]
      exact hcells r hr j' hj'
    obtain ⟨g1, g2⟩ := cost_loop_spec costs hm word path c d hword hcache word.length 1 0
      ((d.distances_.allocate (path.length + 1)).get path.length 0 + costs.delete_.get c)
      ((d.distances_.allocate (path.length + 1)).get path.length 0 + costs.delete_.get c)
      ((d.distances_.allocate (path.length + 1)).put (path.length + 1) 0
        ((d.distances_.allocate (path.length + 1)).get path.length 0 + costs.delete_.get c))
      (by omega) le_rfl (Matrix.put_ready hal _ _ _)
      (by
        intro r hr j' hj'
        rw [Matrix.get_put_ne hal.1 (by omega) (by omega) (by omega)]
        exact hold r hr j' hj')
      (by
        intro j' hj'
        have : j' = 0 := by omega
        subst this
        rw [Matrix.get_put_same hal (by omega), hold path.length le_rfl 0 (by omega)]
        simp only [List.take_zero, List.take_length]
        rw [editDistance_concat_nil])
      (by rw [Matrix.get_put_same hal (by omega)])
    intro r hr j hj
    by_cases hlast : r = path.length + 1
    · subst hlast
      have ht : List.take (path.length + 1) (path ++ [c]) = path ++ [c] :=
        List.take_of_length_le (by simp)
      rw [g2 j hj, ht]
    · have hr' : r ≤ path.length := by omega
      rw [g1 r hr' j hj, List.take_append_of_le_length hr']

theorem dist_inv_on_ascend (costs : Costs) (word : List UCharType) (bound : CostType)
    (path : List UCharType) (c : UCharType) (d : Similar)
    (h : Inv costs word bound (path ++ [c]) d) :
    Inv costs word bound path (on_ascend (path ++ [c]) d) := by
  obtain ⟨hcfg, hready, hcells⟩ := h
  have htr := hcfg.2.2.2.1
  have he : on_ascend (path ++ [c]) d = d := by simp [on_ascend, htr]
  rw [he]
  simp only [List.length_append, List.length_singleton] at hready hcells
  refine ⟨hcfg, ⟨hready.1, ?_⟩, ?_⟩
  · have h2 : (path.length + 1) * (word.length + 1) ≤
        (path.length + 1 + 1) * (word.length + 1) := Nat.mul_le_mul_right _ (by omega)
    exact le_trans h2 hready.2
  · intro r hr j hj
    have := hcells r (by omega) j hj
    rwa [List.take_append_of_le_length hr] at this

/-- What `on_step` returns on a state with the invariant: it descends as soon as
some entry of the row of the new path is within the bound, it yields exactly on
the states with a value whose key is within the bound of the word, and the cost
shown is then the edit distance. -/
theorem dist_on_step_flags (dic : Dictionary) (costs : Costs) (hm : Metric costs)
    (word : List UCharType) (bound : CostType) (path : List UCharType) (c : UCharType)
    (t : BaseType) (d : Similar) (h : Inv costs word bound path d) :
    ((∃ j, j ≤ word.length ∧ editDistance costs (path ++ [c]) (word.take j) ≤ bound) →
      (on_step dic (path ++ [c]) t d).2.1 = true) ∧
    ((on_step dic (path ++ [c]) t d).2.2 = true ↔
      dic.has_value t = true ∧ editDistance costs (path ++ [c]) word ≤ bound) ∧
    ((on_step dic (path ++ [c]) t d).2.2 = true →
      (on_step dic (path ++ [c]) t d).1.found_cost_ = editDistance costs (path ++ [c]) word) := by
  have hinv := dist_inv_on_step dic costs hm word bound path c t d h
  obtain ⟨hcfg, _, _⟩ := h
  obtain ⟨_, _, hbound, _, _, _, hcols, _⟩ := hcfg
  obtain ⟨_, _, _, _, _, _, _, _, f1, f2, f3⟩ := on_step_frame dic (path ++ [c]) t d (by omega)
  have hcell : ∀ j, j ≤ word.length →
      (on_step dic (path ++ [c]) t d).1.distances_.get (path ++ [c]).length j =
        editDistance costs (path ++ [c]) (word.take j) := by
    intro j hj
    have := hinv.2.2 (path ++ [c]).length le_rfl j hj
    rwa [List.take_length] at this
  rw [hcols] at f1 f2 f3
  rw [hbound] at f1 f2
  simp only [Nat.add_sub_cancel] at f2 f3
  rw [hcell word.length le_rfl, List.take_length] at f2 f3
  refine ⟨?_, ?_, f3⟩
  · rintro ⟨j, hj, hle⟩
    exact f1 ⟨j, by omega, by rw [hcell j hj]; exact hle⟩
  · rw [f2]
    exact And.comm

end Similar

/-! ## The start of a Similar search, and what it finds with the features off -/

namespace Similar

theorem start_row_spec (costs : Costs) (word : List UCharType) :
    ∀ (n j : Nat) (cost : CostType) (cached : List CostType) (M : Matrix CostType),
      n + j = word.length + 1 → 1 ≤ j → M.Ready (word.length + 1) 1 →
      cached.length = word.length →
      (∀ j', j' < j → M.get 0 j' = editDistance costs [] (word.take j')) →
      cost = M.get 0 (j - 1) →
      (∀ j', j' + 1 < j → cached.getD j' 0 = costs.insert.get (word.getD j' 0)) →
      (start_loop costs word n j cost cached M).2.Ready (word.length + 1) 1 ∧
      (∀ j', j' ≤ word.length →
        (start_loop costs word n j cost cached M).2.get 0 j' =
          editDistance costs [] (word.take j')) ∧
      ∀ j', j' < word.length →
        (start_loop costs word n j cost cached M).1.getD j' 0 =
          costs.insert.get (word.getD j' 0) := by
  intro n
  induction n with
  | zero =>
    intro j cost cached M hj _ hr _ hrow _ hc
    simp only [start_loop]
    exact ⟨hr, fun j' hj' => hrow j' (by omega), fun j' hj' => hc j' (by omega)⟩
  | succ n ih =>
    intro j cost cached M hj hj1 hr hlen hrow hcost hc
    simp only [start_loop]
    obtain ⟨j0, rfl⟩ : ∃ j0, j = j0 + 1 := ⟨j - 1, by omega⟩
    simp only [Nat.add_sub_cancel] at hcost ⊢
    apply ih (j0 + 1 + 1) _ _ _ (by omega) (by omega) (Matrix.put_ready hr _ _ _)
      (by simpa using hlen)
    · intro j' hj'
      by_cases he : j' = j0 + 1
      · subst he
        rw [Matrix.get_put_same hr (by omega), take_succ_getD word j0 (by omega),
          editDistance_nil_concat, hcost, hrow j0 (by omega)]
      · rw [Matrix.get_put_ne hr.1 (by omega) (by omega) (by omega)]
        exact hrow j' (by omega)
    · rw [Nat.add_sub_cancel, Matrix.get_put_same hr (by omega)]
    · intro j' hj'
      by_cases he : j' = j0
      · subst he
        exact Matrix.getD_set_eq _ _ _ _ (by omega)
      · rw [Matrix.getD_set_ne _ _ _ _ _ he]
        exact hc j' (by omega)

/-- After `start` the invariant holds on the empty path, for the cost table in use
and the bound `max 0 max_cost`. -/
theorem dist_inv_start (dic : Dictionary) (s : DFS Similar) (word : List CharType)
    (max_cost : CostType) (h1 : s.delegate.allow_transpose = false)
    (h2 : s.delegate.allow_split = false) (h3 : s.delegate.allow_merge = false) :
    Inv (s.delegate.costs_.getD Costs.new) word (max 0 max_cost) []
      (start dic s word max_cost).delegate := by
  have hr : ((s.delegate.distances_.set_columns (word.length + 1)).allocate 0).Ready
      (word.length + 1) 1 := by
    have := Matrix.allocate_ready (s.delegate.distances_.set_columns (word.length + 1)) 0
    simpa [Matrix.set_columns] using this
  have hcols : ((s.delegate.distances_.set_columns (word.length + 1)).allocate 0).columns =
      word.length + 1 := rfl
  obtain ⟨g1, g2, g3⟩ := start_row_spec (s.delegate.costs_.getD Costs.new) word word.length 1 0
    (resize s.delegate.cached_insert_cost_ word.length 0)
    (((s.delegate.distances_.set_columns (word.length + 1)).allocate 0).put 0 0 0)
    (by omega) le_rfl (Matrix.put_ready hr _ _ _) (Matrix.resize_length _ _ _)
    (by
      intro j' hj'
      have : j' = 0 := by omega
      subst this
      rw [Matrix.get_put_same hr (by omega), List.take_zero, editDistance_nil_nil])
    (by rw [Matrix.get_put_same hr (by omega)])
    (by intro j' hj'; omega)
  refine ⟨⟨rfl, rfl, rfl, h1, h2, h3, ?_, ?_⟩, ?_, ?_⟩
  · simpa [start, DFS.start, hcols] using g1.1
  · intro j hj
    simp only [start, DFS.start, hcols, Nat.add_sub_cancel]
    exact g3 j hj
  · simpa [start, DFS.start, hcols] using g1
  · intro r hr' j hj
    simp only [List.length_nil, Nat.le_zero] at hr'
    subst hr'
    simp only [start, DFS.start, hcols, Nat.add_sub_cancel, List.take_zero]
    exact g2 j hj

/-- A key within the bound of the word has every prefix within the bound of some
prefix of the word, when no cost is negative: the pruning loses no result. -/
theorem prefix_within (costs : Costs) (hm : Metric costs) (word k q : List UCharType)
    (bound : CostType) (hk : editDistance costs k word ≤ bound) (hq : q <+: k) :
    ∃ j, j ≤ word.length ∧ editDistance costs q (word.take j) ≤ bound := by
  obtain ⟨ext, rfl⟩ := hq
  obtain ⟨hins, hdel, hrep, _, _⟩ := hm
  obtain ⟨j, hj, hle⟩ := lev_rows_mono (editCost costs) hdel hins
    (by
      intro a b
      rw [editCost_substitute]
      split_ifs
      · exact le_rfl
      · exact hrep a b)
    q word ext word.length le_rfl
  rw [List.take_length] at hle
  exact ⟨j, hj, le_trans hle hk⟩

end Similar

/-- The Similar searches with transposition, split and merge off, on a well-formed
pair, for a cost table without negative costs in which a deletion or an insertion
is no dearer done directly than by way of a replacement: the client loop ends, it is
shown exactly the keys of the dictionary whose edit distance to the word is at most
`max 0 max_cost`, each once, and at each of them `cost()` is that distance. -/
theorem similar_plain_exact (dic : Dictionary) (guide : Guide) (hwf : WellFormed dic guide)
    (s : DFS Similar) (word : List CharType) (max_cost : CostType) (costs : Costs)
    (hc : s.delegate.costs_.getD Costs.new = costs) (hm : Similar.Metric costs)
    (h1 : s.delegate.allow_transpose = false) (h2 : s.delegate.allow_split = false)
    (h3 : s.delegate.allow_merge = false) :
    ∃ found last,
      (∃ fuel, ∀ fuel', fuel ≤ fuel' → ∀ calls, found.length < calls →
        DFS.drain dic guide (Similar.delegate dic) fuel' calls
          (Similar.start dic s word max_cost) = some (found, last)) ∧
      (∀ key, key ∈ found.map (fun x => x.key) ↔
        dic.Contains key = true ∧ editDistance costs key word ≤ max 0 max_cost) ∧
      (∀ x ∈ found, Similar.cost x = editDistance costs x.key word) ∧
      (found.map (fun x => x.key)).Nodup := by
  have h0 := Similar.dist_inv_start dic s word max_cost h1 h2 h3
  rw [hc] at h0
  obtain ⟨n, vs, d1, found, last, hwalk, hvis, hdrain, hview, hiff, hnd⟩ :=
    search_exact dic guide hwf (Similar.delegate dic) (Similar.Inv costs word (max 0 max_cost))
      (fun path c t d hd => Similar.dist_inv_on_step dic costs hm word _ path c t d hd)
      (fun path c d hd => Similar.dist_inv_on_ascend costs word _ path c d hd)
      (fun q => ∃ j, j ≤ word.length ∧ editDistance costs q (word.take j) ≤ max 0 max_cost)
      (fun key t => dic.has_value t = true ∧ editDistance costs key word ≤ max 0 max_cost)
      (fun path c t d hd hq => (Similar.dist_on_step_flags dic costs hm word _ path c t d hd).1 hq)
      (fun path c t d hd => (Similar.dist_on_step_flags dic costs hm word _ path c t d hd).2.1)
      (fun k t _ hr q _ hq _ => Similar.prefix_within costs hm word k q _ hr.2 hq)
      (Similar.start dic s word max_cost) h0
  refine ⟨found, last, hdrain, ?_, ?_, hnd⟩
  · intro key
    have h := hiff key
    simp only [DFS.key] at h ⊢
    rw [h]
    constructor
    · rintro ⟨_, t, hfo, hv, hl⟩
      exact ⟨by simp [Dictionary.Contains, hfo, hv], hl⟩
    · rintro ⟨hcn, hl⟩
      simp only [Dictionary.Contains] at hcn
      cases hfo : dic.FollowN key dic.root with
      | none => simp [hfo] at hcn
      | some t =>
        simp only [hfo] at hcn
        have hne : key ≠ [] := by
          rintro rfl
          simp only [Dictionary.FollowN, Option.some.injEq] at hfo
          rw [← hfo, hwf.2.1] at hcn
          cases hcn
        exact ⟨hne, t, rfl, hcn, hl⟩
  · intro x hx
    obtain ⟨v, hv, hk, _, hd⟩ := mem_of_map_view hview x hx
    obtain ⟨hv, hres⟩ := List.mem_filter.1 hv
    obtain ⟨q, a, d0, hq, hinv, hvd, _, hvr⟩ := hvis v hv
    rw [hq] at hvd hvr
    have hr : (Similar.on_step dic (q ++ [a]) v.index d0).2.2 = true := by
      have : v.result = true := by simpa using hres
      rw [← this, hvr]; rfl
    have := (Similar.dist_on_step_flags dic costs hm word _ q a v.index d0 hinv).2.2 hr
    simp only [Similar.cost, DFS.key, hd, hk, hq, hvd]
    exact this

/-! ## The default costs -/

theorem Costs.new_insert (a : UCharType) : Costs.new.insert.get a = 1 := by
  simp [Costs.new, CostsMap1.new, CostsMap1.get]

theorem Costs.new_delete (a : UCharType) : Costs.new.delete_.get a = 1 := by
  simp [Costs.new, CostsMap1.new, CostsMap1.get]

theorem Costs.new_replace (a b : UCharType) : Costs.new.replace.get a b = 1 := by
  simp [Costs.new, CostsMap2.new, CostsMap2.get]

theorem Costs.new_metric : Similar.Metric Costs.new := by
  refine ⟨?_, ?_, ?_, ?_, ?_⟩
  · intro a; rw [Costs.new_insert]; decide
  · intro a; rw [Costs.new_delete]; decide
  · intro a b; rw [Costs.new_replace]; decide
  · intro a c _; rw [Costs.new_delete, Costs.new_delete, Costs.new_replace]; decide
  · intro c b _; rw [Costs.new_insert, Costs.new_insert, Costs.new_replace]; decide

/-- With the default costs the distance of the specification is the Levenshtein
distance. -/
theorem editDistance_unit (xs ys : List UCharType) :
    editDistance Costs.new xs ys = ((levenshtein Levenshtein.defaultCost xs ys : Nat) : Int) := by
  induction xs generalizing ys with
  | nil =>
    induction ys with
    | nil => simp [editDistance]
    | cons y ys ih =>
      simp only [editDistance] at ih ⊢
      rw [levenshtein_nil_cons, levenshtein_nil_cons, ih, Similar.editCost_insert,
        Costs.new_insert]
      simp
  | cons x xs ihx =>
    induction ys with
    | nil =>
      have := ihx []
      simp only [editDistance] at this ⊢
      rw [levenshtein_cons_nil, levenshtein_cons_nil, this, Similar.editCost_delete,
        Costs.new_delete]
      simp
    | cons y ys ihy =>
      have h1 := ihx (y :: ys)
      have h2 := ihx ys
      simp only [editDistance] at h1 h2 ihy ⊢
      rw [levenshtein_cons_cons, levenshtein_cons_cons, h1, h2, ihy, Similar.editCost_insert,
        Similar.editCost_delete, Similar.editCost_substitute, Costs.new_insert,
        Costs.new_delete, Costs.new_replace]
      simp only [Levenshtein.defaultCost_delete, Levenshtein.defaultCost_insert,
        Levenshtein.defaultCost_substitute]
      push_cast
      split_ifs <;> rfl

theorem levenshtein_nil_right (xs : List UCharType) :
    levenshtein Levenshtein.defaultCost xs ([] : List UCharType) = xs.length := by
  induction xs with
  | nil => simp
  | cons x xs ih =>
    rw [levenshtein_cons_nil, ih]
    simp [Nat.add_comm]

namespace Similar

/-- After `start` the configuration is that of the call, for any setting of the
three flags. -/
theorem config_start (dic : Dictionary) (s : DFS Similar) (word : List CharType)
    (max_cost : CostType) :
    Config (s.delegate.costs_.getD Costs.new) word (max 0 max_cost) s.delegate.allow_transpose
      s.delegate.allow_split s.delegate.allow_merge (start dic s word max_cost).delegate := by
  have hr : ((s.delegate.distances_.set_columns (word.length + 1)).allocate 0).Ready
      (word.length + 1) 1 := by
    have := Matrix.allocate_ready (s.delegate.distances_.set_columns (word.length + 1)) 0
    simpa [Matrix.set_columns] using this
  have hcols : ((s.delegate.distances_.set_columns (word.length + 1)).allocate 0).columns =
      word.length + 1 := rfl
  obtain ⟨g1, _, g3⟩ := start_row_spec (s.delegate.costs_.getD Costs.new) word word.length 1 0
    (resize s.delegate.cached_insert_cost_ word.length 0)
    (((s.delegate.distances_.set_columns (word.length + 1)).allocate 0).put 0 0 0)
    (by omega) le_rfl (Matrix.put_ready hr _ _ _) (Matrix.resize_length _ _ _)
    (by
      intro j' hj'
      have : j' = 0 := by omega
      subst this
      rw [Matrix.get_put_same hr (by omega), List.take_zero, editDistance_nil_nil])
    (by rw [Matrix.get_put_same hr (by omega)])
    (by intro j' hj'; omega)
  refine ⟨rfl, rfl, rfl, rfl, rfl, rfl, ?_, ?_⟩
  · simpa [start, DFS.start, hcols] using g1.1
  · intro j hj
    simp only [start, DFS.start, hcols, Nat.add_sub_cancel]
    exact g3 j hj

end Similar

/-- A walk in which every call of `on_step` returned `descend = true` walks exactly
the nodes of the plain walk. -/
theorem walk_all_descend {D : Type} (dic : Dictionary) (guide : Guide) (del : Delegate D) :
    ∀ (n : Nat) (p : BaseType) (path : List UCharType) (c : UCharType) (d : D)
      (vs : List (Visit D)) (d1 : D) (vs0 : List (Visit Unit)) (u : Unit),
      walk dic guide del n p path c d = some (vs, d1) →
      walk dic guide plainDelegate n p path c () = some (vs0, u) →
      (∀ v ∈ vs, v.descend = true) → vs.map Visit.node = vs0.map Visit.node := by
  intro n
  induction n with
  | zero => intro p path c d vs d1 vs0 u h; simp [walk] at h
  | succ n ih =>
    intro p path c d vs d1 vs0 u h h0 hall
    simp only [walk] at h h0
    by_cases hc : c = 0
    · simp only [hc, ite_true, Option.some.injEq, Prod.mk.injEq] at h h0
      obtain ⟨rfl, rfl⟩ := h
      obtain ⟨rfl, _⟩ := h0
      rfl
    · simp only [hc, ite_false] at h h0
      cases hf : dic.Follow c p with
      | none => simp [hf] at h
      | some t =>
        simp only [hf] at h
        simp only [hf, plainDelegate, ite_true] at h0
        cases hm : (if (del.on_step (path ++ [c]) t d).2.1 = true then
            walk dic guide del n t (path ++ [c]) (guide.child t)
              (del.on_step (path ++ [c]) t d).1
            else some ([], (del.on_step (path ++ [c]) t d).1)) with
        | none => simp [hm] at h
        | some rb =>
          obtain ⟨below, d2⟩ := rb
          simp only [hm] at h
          cases hs : walk dic guide del n p path (guide.sibling t)
              (del.on_ascend (path ++ [c]) d2) with
          | none => simp [hs] at h
          | some rs =>
            obtain ⟨beside, d4⟩ := rs
            simp only [hs, Option.some.injEq, Prod.mk.injEq] at h
            obtain ⟨rfl, rfl⟩ := h
            have hd : (del.on_step (path ++ [c]) t d).2.1 = true :=
              hall _ (List.mem_cons_self _ _)
            rw [if_pos hd] at hm
            cases hb0 : walk dic guide plainDelegate n t (path ++ [c]) (guide.child t) () with
            | none => simp [plainDelegate] at hb0; simp [hb0] at h0
            | some rb0 =>
              obtain ⟨below0, ub⟩ := rb0
              have hb0' := hb0
              simp only [plainDelegate] at hb0'
              simp only [hb0'] at h0
              cases hs0 : walk dic guide plainDelegate n p path (guide.sibling t) () with
              | none => simp [plainDelegate] at hs0; simp [hs0] at h0
              | some rs0 =>
                obtain ⟨beside0, us⟩ := rs0
                have hs0' := hs0
                simp only [plainDelegate] at hs0'
                simp only [hs0', Option.some.injEq, Prod.mk.injEq] at h0
                obtain ⟨rfl, _⟩ := h0
                have e1 := ih _ _ _ _ _ _ _ _ hm hb0
                  (fun v hv => hall v (List.mem_cons_of_mem _ (List.mem_append_left _ hv)))
                have e2 := ih _ _ _ _ _ _ _ _ hs hs0
                  (fun v hv => hall v (List.mem_cons_of_mem _ (List.mem_append_right _ hv)))
                simp only [List.map_cons, List.map_append, e1, e2, Visit.node]

/-! ## The Similar search -/

/-- C2: with the default unit costs (no cost table set, or the default-constructed
one), transposition, split and merge off, a well-formed pair and `max_cost >= 0`,
the client loop of the Similar search ends; the keys it is shown are exactly the
keys of the dictionary whose Levenshtein distance to the word is at most
`max_cost`, each once; at each of them `cost()` is that distance; and for the empty
word they are the keys of length at most `max_cost`, with cost their length. -/
theorem similar_unit_costs_levenshtein (dic : Dictionary) (guide : Guide)
    (hwf : WellFormed dic guide) (s : DFS Similar) (word : List CharType)
    (max_cost : CostType)
    (hc : s.delegate.costs_ = none ∨ s.delegate.costs_ = some Costs.new)
    (h1 : s.delegate.allow_transpose = false) (h2 : s.delegate.allow_split = false)
    (h3 : s.delegate.allow_merge = false) (hmax : 0 ≤ max_cost) :
    ∃ found last,
      (∃ fuel, ∀ fuel', fuel ≤ fuel' → ∀ calls, found.length < calls →
        DFS.drain dic guide (Similar.delegate dic) fuel' calls
          (Similar.start dic s word max_cost) = some (found, last)) ∧
      (∀ key, key ∈ found.map (fun x => x.key) ↔
        dic.Contains key = true ∧
          ((levenshtein Levenshtein.defaultCost key word : Nat) : Int) ≤ max_cost) ∧
      (∀ x ∈ found,
        Similar.cost x = ((levenshtein Levenshtein.defaultCost x.key word : Nat) : Int)) ∧
      (found.map (fun x => x.key)).Nodup ∧
      (word = [] →
        (∀ key, key ∈ found.map (fun x => x.key) ↔
          dic.Contains key = true ∧ (key.length : Int) ≤ max_cost) ∧
        ∀ x ∈ found, Similar.cost x = (x.key.length : Int)) := by
  have hcosts : s.delegate.costs_.getD Costs.new = Costs.new := by
    rcases hc with h | h <;> simp [h]
  obtain ⟨found, last, hdrain, hiff, hcost, hnd⟩ :=
    similar_plain_exact dic guide hwf s word max_cost Costs.new hcosts Costs.new_metric h1 h2 h3
  rw [max_eq_right hmax] at hiff
  simp only [editDistance_unit] at hiff hcost
  refine ⟨found, last, hdrain, hiff, hcost, hnd, ?_⟩
  rintro rfl
  simp only [levenshtein_nil_right] at hiff hcost
  exact ⟨hiff, hcost⟩

/-- C3 (amended): with transposition, split and merge off, a well-formed pair, and
a cost table without negative costs in which a deletion or an insertion costs no
more done directly than done by way of a replacement, the client loop of the
Similar search ends; the keys it is shown are exactly the keys of the dictionary
whose weighted edit distance to the word is at most `max(0, max_cost)`, each once;
and at each of them `cost()` is that distance. -/
theorem similar_weighted_distance (dic : Dictionary) (guide : Guide)
    (hwf : WellFormed dic guide) (s : DFS Similar) (word : List CharType)
    (max_cost : CostType) (costs : Costs) (hc : s.delegate.costs_ = some costs)
    (hm : Similar.Metric costs)
    (h1 : s.delegate.allow_transpose = false) (h2 : s.delegate.allow_split = false)
    (h3 : s.delegate.allow_merge = false) :
    ∃ found last,
      (∃ fuel, ∀ fuel', fuel ≤ fuel' → ∀ calls, found.length < calls →
        DFS.drain dic guide (Similar.delegate dic) fuel' calls
          (Similar.start dic s word max_cost) = some (found, last)) ∧
      (∀ key, key ∈ found.map (fun x => x.key) ↔
        dic.Contains key = true ∧ editDistance costs key word ≤ max 0 max_cost) ∧
      (∀ x ∈ found, Similar.cost x = editDistance costs x.key word) ∧
      (found.map (fun x => x.key)).Nodup :=
  similar_plain_exact dic guide hwf s word max_cost costs (by simp [hc]) hm h1 h2 h3

/-- C6: on a well-formed pair, for any cost table and any setting of the three
flags, when in the walk of a Similar search no row minimum and no final cell
exceeds `max_cost`, the client loop ends and the keys it is shown are exactly the
keys of the dictionary, each once. -/
theorem similar_large_bound_enumerates (dic : Dictionary) (guide : Guide)
    (hwf : WellFormed dic guide) (s : DFS Similar) (word : List CharType)
    (max_cost : CostType) (n : Nat) (vs : List (Visit Similar)) (d1 : Similar)
    (hw : walk dic guide (Similar.delegate dic) n dic.root [] (guide.child dic.root)
      (Similar.start dic s word max_cost).delegate = some (vs, d1))
    (hbig : ∀ v ∈ vs,
      (∃ j, j ≤ word.length ∧ v.delegate.distances_.get v.key.length j ≤ max_cost) ∧
      v.delegate.distances_.get v.key.length word.length ≤ max_cost) :
    ∃ found last,
      (∃ fuel, ∀ fuel', fuel ≤ fuel' → ∀ calls, found.length < calls →
        DFS.drain dic guide (Similar.delegate dic) fuel' calls
          (Similar.start dic s word max_cost) = some (found, last)) ∧
      (∀ key, key ∈ found.map (fun x => x.key) ↔ dic.Contains key = true) ∧
      (found.map (fun x => x.key)).Nodup := by
  obtain ⟨found, hp, hlast, hv⟩ := DFS.passes_of_start dic guide (Similar.delegate dic) hwf.1
    (Similar.start dic s word max_cost) n vs d1 hw
  obtain ⟨fuel, hfuel⟩ := DFS.drain_of_passes hp hlast (by simp [Similar.start, DFS.start])
  have hcfg := Similar.config_start dic s word max_cost
  obtain ⟨_, hvis⟩ := walk_inv dic guide (Similar.delegate dic)
    (fun _ d => Similar.Config (s.delegate.costs_.getD Costs.new) word (max 0 max_cost)
      s.delegate.allow_transpose s.delegate.allow_split s.delegate.allow_merge d)
    (fun path c t d hd => Similar.config_on_step dic _ word _ _ _ _ (path ++ [c]) t d hd)
    (fun path c d hd => Similar.config_on_ascend _ word _ _ _ _ (path ++ [c]) d hd)
    n _ _ _ _ vs d1 hw hcfg
  have hflags : ∀ v ∈ vs, v.descend = true ∧ v.result = dic.has_value v.index := by
    intro v hv
    obtain ⟨q, a, d0, _, hd0, hvd, hdesc, hres⟩ := hvis v hv
    obtain ⟨_, _, hbound, _, _, _, hcols, _⟩ := hd0
    obtain ⟨_, _, _, _, _, _, _, _, f1, f2, _⟩ :=
      Similar.on_step_frame dic v.key v.index d0 (by omega)
    obtain ⟨⟨j, hj, hle⟩, hfin⟩ := hbig v hv
    have hvd' : v.delegate = (Similar.on_step dic v.key v.index d0).1 := hvd
    have hdesc' : v.descend = (Similar.on_step dic v.key v.index d0).2.1 := hdesc
    have hres' : v.result = (Similar.on_step dic v.key v.index d0).2.2 := hres
    rw [hcols, hbound, ← hvd'] at f1 f2
    rw [← hdesc'] at f1
    rw [← hres', Nat.add_sub_cancel] at f2
    refine ⟨f1 ⟨j, by omega, le_trans hle (le_max_right _ _)⟩, ?_⟩
    cases hval : dic.has_value v.index with
    | true => exact f2.2 ⟨le_trans hfin (le_max_right _ _), hval⟩
    | false =>
      cases hr : v.result with
      | false => rfl
      | true =>
        have := (f2.1 hr).2
        rw [hval] at this
        cases this
  obtain ⟨_, _, m, ns, hm, _⟩ := id hwf
  have hm' := hm
  simp only [nodes] at hm'
  cases hw0 : walk dic guide plainDelegate m dic.root [] (guide.child dic.root) () with
  | none => simp [hw0] at hm'
  | some r =>
    obtain ⟨vs0, u⟩ := r
    simp only [hw0, Option.some.injEq] at hm'
    have hwa := walk_mono dic guide (Similar.delegate dic) n _ _ _ _ _ hw (max n m)
      (le_max_left _ _)
    have hwb := walk_mono dic guide plainDelegate m _ _ _ _ _ hw0 (max n m) (le_max_right _ _)
    have hnodes := walk_all_descend dic guide (Similar.delegate dic) (max n m) _ _ _ _ vs d1
      vs0 u hwa hwb (fun v hv => (hflags v hv).1)
    rw [hm'] at hnodes
    have hkeys := keys_of_map_view hv
    refine ⟨found, _, ⟨fuel, hfuel⟩, ?_, ?_⟩
    · intro key
      simp only [DFS.key]
      rw [hkeys]
      constructor
      · intro hk
        obtain ⟨v, hvm, rfl⟩ := List.mem_map.1 hk
        obtain ⟨hvm, hvr⟩ := List.mem_filter.1 hvm
        have hnode : (v.key, v.index) ∈ ns := by
          rw [← hnodes]
          exact List.mem_map_of_mem Visit.node hvm
        obtain ⟨_, hfo⟩ := (mem_nodes_iff hwf hm _ _).1 hnode
        have hval : dic.has_value v.index = true := by
          rw [← (hflags v hvm).2]; simpa using hvr
        simp [Dictionary.Contains, hfo, hval]
      · intro hcn
        simp only [Dictionary.Contains] at hcn
        cases hfo : dic.FollowN key dic.root with
        | none => simp [hfo] at hcn
        | some t =>
          simp only [hfo] at hcn
          have hne : key ≠ [] := by
            rintro rfl
            simp only [Dictionary.FollowN, Option.some.injEq] at hfo
            rw [← hfo, hwf.2.1] at hcn
            cases hcn
          have hnode : (key, t) ∈ ns := (mem_nodes_iff hwf hm _ _).2 ⟨hne, hfo⟩
          rw [← hnodes] at hnode
          obtain ⟨v, hvm, hve⟩ := List.mem_map.1 hnode
          simp only [Visit.node, Prod.mk.injEq] at hve
          have hvr : v.result = true := by
            rw [(hflags v hvm).2, hve.2]; exact hcn
          exact List.mem_map.2 ⟨v, List.mem_filter.2 ⟨hvm, by simpa using hvr⟩, hve.1⟩
    · simp only [DFS.key]
      rw [hkeys]
      have hnd := walk_plain_nodup dic guide m _ _ _ vs0 u hw0
      have hs1 : ((vs.filter (fun v => v.result)).map Visit.node).Sublist ns := by
        rw [← hnodes]
        exact (List.filter_sublist _).map Visit.node
      rw [← hm'] at hs1
      have hs2 := hs1.map (fun e : List UCharType × BaseType => e.1)
      simp only [List.map_map] at hs2
      exact List.Nodup.sublist hs2 (by simpa [Function.comp_def, Visit.node] using hnd)

/-! ## Two searches evaluated -/

theorem CostsMap2.get_single_nonneg (k : UCharType) (inner : CostsMap1) (dflt : CostType)
    (hd : 0 ≤ dflt) (hi : ∀ b, 0 ≤ inner.get b) (a b : UCharType) :
    0 ≤ (CostsMap2.mk [(k, inner)] dflt).get a b := by
  simp only [CostsMap2.get, List.isEmpty_cons, Bool.false_eq_true, ite_false, List.lookup]
  cases a == k with
  | true => exact hi b
  | false => exact hd

theorem CostsMap2.get_new_nonneg (a b : UCharType) : 0 ≤ CostsMap2.new.get a b := by
  simp [CostsMap2.get, CostsMap2.new]

theorem CostsMap3.get_new_nonneg3 (a b c : UCharType) : 0 ≤ CostsMap3.new.get a b c := by
  simp [CostsMap3.get, CostsMap3.new]

set_option maxRecDepth 100000 in
theorem skewCosts_nonneg :
    (∀ a, 0 ≤ skewCosts.insert.get a) ∧ (∀ a, 0 ≤ skewCosts.delete_.get a) ∧
      ∀ a b, 0 ≤ skewCosts.replace.get a b := by
  refine ⟨by decide, by decide, ?_⟩
  have h : skewCosts.replace =
      CostsMap2.mk [(99, (CostsMap1.new.set 0 (some 120)).2)] 1 := by decide
  rw [h]
  exact CostsMap2.get_single_nonneg _ _ _ (by decide) (by decide)

set_option maxRecDepth 100000 in
theorem mergeCosts_nonneg :
    (∀ a, 0 ≤ mergeCosts.insert.get a) ∧ (∀ a, 0 ≤ mergeCosts.delete_.get a) ∧
    (∀ a b, 0 ≤ mergeCosts.replace.get a b) ∧ (∀ a b, 0 ≤ mergeCosts.transpose.get a b) ∧
    (∀ a b c, 0 ≤ mergeCosts.split.get a b c) ∧ ∀ a b c, 0 ≤ mergeCosts.merge.get a b c := by
  refine ⟨by decide, by decide, ?_, CostsMap2.get_new_nonneg, CostsMap3.get_new_nonneg3,
    CostsMap3.get_new_nonneg3⟩
  have h : mergeCosts.replace =
      CostsMap2.mk [(99, (CostsMap1.new.set 5 (some 120)).2)] 1 := by decide
  rw [h]
  exact CostsMap2.get_single_nonneg _ _ _ (by decide) (by decide)

set_option maxRecDepth 100000 in
/-- C3 as stated fails twice on the dictionary `cat, car, cart, dog`. With the
non-negative table `skewCosts`, the word `xcar` and `max_cost = 5` the search is
shown `cart`, `cat` and `dog`, the first two at cost 3, and not `car`, although
`d(car, xcar) = 1` (replace `c` by `x`, insert `c`) and `d(cart, xcar) = 2`. With
the default table, the word `cat` and `max_cost = -1` it is shown `cat`, whose
distance 0 is above `max_cost`. -/
theorem similar_weighted_counterexample :
    ((∀ a, 0 ≤ skewCosts.insert.get a) ∧ (∀ a, 0 ≤ skewCosts.delete_.get a) ∧
      ∀ a b, 0 ≤ skewCosts.replace.get a b) ∧
    Similar.collect exampleDic exampleGuide (Similar.delegate exampleDic) 40 10
        (Similar.start exampleDic (Similar.set_costs Similar.new skewCosts)
          [120, 99, 97, 114] 5) =
      some [([99, 97, 114, 116], 3), ([99, 97, 116], 3), ([100, 111, 103], 4)] ∧
    exampleDic.Contains [99, 97, 114] = true ∧
    editDistance skewCosts [99, 97, 114] [120, 99, 97, 114] = 1 ∧
    editDistance skewCosts [99, 97, 114, 116] [120, 99, 97, 114] = 2 ∧
    Similar.collect exampleDic exampleGuide (Similar.delegate exampleDic) 40 10
        (Similar.start exampleDic Similar.new [99, 97, 116] (-1)) =
      some [([99, 97, 116], 0)] ∧
    editDistance Costs.new [99, 97, 116] [99, 97, 116] = 0 :=
  ⟨skewCosts_nonneg, by decide, by decide, by decide, by decide, by decide, by decide⟩

set_option maxRecDepth 100000 in
/-- C7 fails on the dictionary `cat, car, cart, dog` with merge enabled, the
non-negative table `mergeCosts`, the word `xt` and `max_cost = 1`: the search is
shown nothing, because the row of the path `c` has no entry below 5, while the
search that always descends is shown `cat` at cost 1 (merge `ca` into `x`, keep
`t`); with `max_cost = 100` the search itself is shown `cat` at cost 1. -/
theorem pruning_loses_match :
    ((∀ a, 0 ≤ mergeCosts.insert.get a) ∧ (∀ a, 0 ≤ mergeCosts.delete_.get a) ∧
      (∀ a b, 0 ≤ mergeCosts.replace.get a b) ∧ (∀ a b, 0 ≤ mergeCosts.transpose.get a b) ∧
      (∀ a b c, 0 ≤ mergeCosts.split.get a b c) ∧ ∀ a b c, 0 ≤ mergeCosts.merge.get a b c) ∧
    Similar.collect exampleDic exampleGuide (Similar.delegate exampleDic) 40 10
        (Similar.start exampleDic
          (Similar.set_enable_merge (Similar.set_costs Similar.new mergeCosts) true)
          [120, 116] 1) = some [] ∧
    Similar.collect exampleDic exampleGuide (Similar.unpruned exampleDic) 40 10
        (Similar.start exampleDic
          (Similar.set_enable_merge (Similar.set_costs Similar.new mergeCosts) true)
          [120, 116] 1) = some [([99, 97, 116], 1)] ∧
    Similar.collect exampleDic exampleGuide (Similar.delegate exampleDic) 40 10
        (Similar.start exampleDic
          (Similar.set_enable_merge (Similar.set_costs Similar.new mergeCosts) true)
          [120, 116] 100) =
      some [([99, 97, 114], 2), ([99, 97, 114, 116], 2), ([99, 97, 116], 1),
        ([100, 111, 103], 2)] :=
  ⟨mergeCosts_nonneg, by decide, by decide, by decide⟩

/-! ## The dictionary of the scenarios is well formed -/

theorem exampleNodes_eq : nodes exampleDic exampleGuide 9 =
    some [([99], 355), ([99, 97], 609), ([99, 97, 114], 882), ([99, 97, 114, 116], 1140),
      ([99, 97, 116], 884), ([100], 356), ([100, 111], 1903), ([100, 111, 103], 2151)] := by
  decide

set_option maxRecDepth 100000 in
theorem example_closed :
    ∀ e ∈ ([([], 0), ([99], 355), ([99, 97], 609), ([99, 97, 114], 882),
        ([99, 97, 114, 116], 1140), ([99, 97, 116], 884), ([100], 356), ([100, 111], 1903),
        ([100, 111, 103], 2151)] : List (List UCharType × BaseType)),
      ∀ c : UCharType,
        (exampleDic.Follow c e.2).all (fun t => decide ((e.1 ++ [c], t) ∈
          ([([99], 355), ([99, 97], 609), ([99, 97, 114], 882), ([99, 97, 114, 116], 1140),
            ([99, 97, 116], 884), ([100], 356), ([100, 111], 1903),
            ([100, 111, 103], 2151)] : List (List UCharType × BaseType)))) = true := by
  decide

theorem example_wellFormed : WellFormed exampleDic exampleGuide := by
  refine ⟨by decide, by decide, 9, _, exampleNodes_eq, ?_⟩
  intro e he c t hf
  have := example_closed e he c
  rw [hf] at this
  simpa using this

/-- The statement of `next_false_iff_exhausted` for the LCS search on the dictionary
of the scenarios. -/
theorem next_false_iff_exhausted_witness :
    WellFormed exampleDic exampleGuide ∧
    ∃ n vs d1,
      walk exampleDic exampleGuide (LCS.delegate exampleDic) n exampleDic.root []
        (exampleGuide.child exampleDic.root)
        (LCS.start exampleDic LCS.new [99, 97, 114, 116] 3).delegate = some (vs, d1) ∧
      ∃ fuel, ∀ fuel', fuel ≤ fuel' → ∀ k, ∃ s1,
        DFS.advance exampleDic exampleGuide (LCS.delegate exampleDic) fuel' k
            (DFS.start exampleDic (LCS.start exampleDic LCS.new [99, 97, 114, 116] 3)) =
          some (decide (k < (vs.filter (fun v => v.result)).length), s1) ∧
        (k < (vs.filter (fun v => v.result)).length →
          some s1.view = ((vs.filter (fun v => v.result)).get? k).map Visit.view) ∧
        ((vs.filter (fun v => v.result)).length ≤ k → s1.stack_ = []) :=
  ⟨example_wellFormed,
    next_false_iff_exhausted exampleDic exampleGuide example_wellFormed
      (LCS.delegate exampleDic) (LCS.start exampleDic LCS.new [99, 97, 114, 116] 3)⟩

/-- The statement of `on_step_calls_preorder` for the Similar search on the
dictionary of the scenarios. -/
theorem on_step_calls_preorder_witness :
    WellFormed exampleDic exampleGuide ∧
    ∃ n vs d1,
      walk exampleDic exampleGuide (Similar.delegate exampleDic) n exampleDic.root []
        (exampleGuide.child exampleDic.root)
        (Similar.start exampleDic Similar.new [99, 97, 114] 1).delegate = some (vs, d1) ∧
      (vs.map (fun v => v.key)).Pairwise (fun k1 k2 =>
        ¬ k2 <+: k1 ∧
        ∀ q a b r1 r2 p, k1 = q ++ a :: r1 → k2 = q ++ b :: r2 → a ≠ b →
          exampleDic.FollowN q exampleDic.root = some p →
          Guide.InChain exampleDic exampleGuide p (exampleGuide.child p) a ∧
            Guide.After exampleDic exampleGuide p a b) ∧
      (∀ x ∈ vs, x.descend = false → ∀ v ∈ vs, x.key <+: v.key → v.key = x.key) ∧
      ∃ fuel, ∀ fuel', fuel ≤ fuel' → ∀ calls,
        (vs.filter (fun v => v.result)).length < calls →
        ∃ found last,
          DFS.drain exampleDic exampleGuide (recorder (Similar.delegate exampleDic)) fuel' calls
            (DFS.start exampleDic
              ⟨((Similar.start exampleDic Similar.new [99, 97, 114] 1).delegate, []),
                (Similar.start exampleDic Similar.new [99, 97, 114] 1).stack_,
                (Similar.start exampleDic Similar.new [99, 97, 114] 1).key_,
                (Similar.start exampleDic Similar.new [99, 97, 114] 1).state_⟩) =
            some (found, last) ∧
          last.delegate.2 = vs ∧
          found.map (fun x => x.key_) =
            (vs.filter (fun v => v.result)).map (fun v => v.key) :=
  ⟨example_wellFormed,
    on_step_calls_preorder exampleDic exampleGuide example_wellFormed
      (Similar.delegate exampleDic) (Similar.start exampleDic Similar.new [99, 97, 114] 1)⟩

/-- The first call of `next()` of the LCS search for `cart` on the dictionary of the
scenarios returns true, and `result_key_in_dictionary` applies to it. -/
theorem result_key_in_dictionary_witness :
    ∃ s1 : DFS LCS,
      DFS.advance exampleDic exampleGuide (LCS.delegate exampleDic) 10 0
        (LCS.start exampleDic LCS.new [99, 97, 114, 116] 3) = some (true, s1) ∧
      ∃ top rest, s1.stack_ = top :: rest ∧ exampleDic.Reaches exampleDic.root s1.key top ∧
        exampleDic.Contains s1.key = true ∧
        DFS.value exampleDic s1 = some (exampleDic.Find s1.key) := by
  have h : ∃ s1 : DFS LCS,
      DFS.advance exampleDic exampleGuide (LCS.delegate exampleDic) 10 0
        (LCS.start exampleDic LCS.new [99, 97, 114, 116] 3) = some (true, s1) :=
    ⟨_, by rfl⟩
  obtain ⟨s1, h⟩ := h
  exact ⟨s1, h, (result_key_in_dictionary exampleDic exampleGuide).1 _ _ _ _ _ s1 h⟩

theorem weightedCosts_metric : Similar.Metric weightedCosts := by
  have hi : ∀ a, weightedCosts.insert.get a = 2 := by
    intro a; simp [weightedCosts, Costs.set_insert_cost_default, Costs.set_delete_cost_default,
      CostsMap1.set, CostsMap1.get]
  have hd : ∀ a, weightedCosts.delete_.get a = 3 := by
    intro a; simp [weightedCosts, Costs.set_insert_cost_default, Costs.set_delete_cost_default,
      CostsMap1.set, CostsMap1.get]
  have hr : ∀ a b, weightedCosts.replace.get a b = 1 := fun a b => Costs.new_replace a b
  refine ⟨?_, ?_, ?_, ?_, ?_⟩
  · intro a; rw [hi]; decide
  · intro a; rw [hd]; decide
  · intro a b; rw [hr]; decide
  · intro a c _; rw [hd, hd, hr]; decide
  · intro c b _; rw [hi, hi, hr]; decide

/-- The statement of `similar_unit_costs_levenshtein` for the word `car` and
`max_cost = 1` on the dictionary of the scenarios. -/
theorem similar_unit_costs_levenshtein_witness :
    WellFormed exampleDic exampleGuide ∧ (0 : CostType) ≤ 1 ∧
    ∃ found last,
      (∃ fuel, ∀ fuel', fuel ≤ fuel' → ∀ calls, found.length < calls →
        DFS.drain exampleDic exampleGuide (Similar.delegate exampleDic) fuel' calls
          (Similar.start exampleDic Similar.new [99, 97, 114] 1) = some (found, last)) ∧
      (∀ key, key ∈ found.map (fun x => x.key) ↔
        exampleDic.Contains key = true ∧
          ((levenshtein Levenshtein.defaultCost key [99, 97, 114] : Nat) : Int) ≤ 1) ∧
      (∀ x ∈ found,
        Similar.cost x =
          ((levenshtein Levenshtein.defaultCost x.key [99, 97, 114] : Nat) : Int)) ∧
      (found.map (fun x => x.key)).Nodup ∧
      (([99, 97, 114] : List CharType) = [] →
        (∀ key, key ∈ found.map (fun x => x.key) ↔
          exampleDic.Contains key = true ∧ (key.length : Int) ≤ 1) ∧
        ∀ x ∈ found, Similar.cost x = (x.key.length : Int)) :=
  ⟨example_wellFormed, by decide,
    similar_unit_costs_levenshtein exampleDic exampleGuide example_wellFormed Similar.new
      [99, 97, 114] 1 (Or.inl rfl) rfl rfl rfl (by decide)⟩

/-- The statement of `similar_weighted_distance` for the table `weightedCosts`, the
word `ca` and `max_cost = 3` on the dictionary of the scenarios. -/
theorem similar_weighted_distance_witness :
    WellFormed exampleDic exampleGuide ∧ Similar.Metric weightedCosts ∧
    ∃ found last,
      (∃ fuel, ∀ fuel', fuel ≤ fuel' → ∀ calls, found.length < calls →
        DFS.drain exampleDic exampleGuide (Similar.delegate exampleDic) fuel' calls
          (Similar.start exampleDic (Similar.set_costs Similar.new weightedCosts) [99, 97] 3) =
          some (found, last)) ∧
      (∀ key, key ∈ found.map (fun x => x.key) ↔
        exampleDic.Contains key = true ∧
          editDistance weightedCosts key [99, 97] ≤ max 0 3) ∧
      (∀ x ∈ found, Similar.cost x = editDistance weightedCosts x.key [99, 97]) ∧
      (found.map (fun x => x.key)).Nodup :=
  ⟨example_wellFormed, weightedCosts_metric,
    similar_weighted_distance exampleDic exampleGuide example_wellFormed
      (Similar.set_costs Similar.new weightedCosts) [99, 97] 3 weightedCosts rfl
      weightedCosts_metric rfl rfl rfl⟩

/-- The statement of `lcs_search_exact` for the word `cart` and the minimum length 3
on the dictionary of the scenarios. -/
theorem lcs_search_exact_witness :
    WellFormed exampleDic exampleGuide ∧ ([99, 97, 114, 116] : List CharType).length < 32768 ∧
    ∃ n vs d1 found last,
      walk exampleDic exampleGuide (LCS.delegate exampleDic) n exampleDic.root []
        (exampleGuide.child exampleDic.root)
        (LCS.start exampleDic LCS.new [99, 97, 114, 116] 3).delegate = some (vs, d1) ∧
      (∀ v ∈ vs, ∀ i, i ≤ v.key.length → ∀ j, j ≤ ([99, 97, 114, 116] : List CharType).length →
        v.delegate.C_.get i j =
          (lcsLength (v.key.take i) (([99, 97, 114, 116] : List CharType).take j) : Int)) ∧
      (∃ fuel, ∀ fuel', fuel ≤ fuel' → ∀ calls, found.length < calls →
        DFS.drain exampleDic exampleGuide (LCS.delegate exampleDic) fuel' calls
          (LCS.start exampleDic LCS.new [99, 97, 114, 116] 3) = some (found, last)) ∧
      ∀ key, key ∈ found.map (fun x => x.key) ↔
        exampleDic.Contains key = true ∧
          ∃ sub : List UCharType, sub.Sublist key ∧ sub.Sublist [99, 97, 114, 116] ∧
            (3 : Int) ≤ (sub.length : Int) :=
  ⟨example_wellFormed, by decide,
    lcs_search_exact exampleDic exampleGuide example_wellFormed LCS.new [99, 97, 114, 116] 3
      (by decide)⟩

/-- The second call of `next()` of the LCS search for `cart` with minimum length 2
on the dictionary of the scenarios returns true, and `lcs_is_common_subsequence`
applies to it. -/
theorem lcs_is_common_subsequence_witness :
    ∃ s1 : DFS LCS,
      DFS.advance exampleDic exampleGuide (LCS.delegate exampleDic) 10 1
        (LCS.start exampleDic LCS.new [99, 97, 114, 116] 2) = some (true, s1) ∧
      (LCS.lcs s1).Sublist s1.key ∧ (LCS.lcs s1).Sublist [99, 97, 114, 116] ∧
        (2 : Int) ≤ ((LCS.lcs s1).length : Int) := by
  have h : ∃ s1 : DFS LCS,
      DFS.advance exampleDic exampleGuide (LCS.delegate exampleDic) 10 1
        (LCS.start exampleDic LCS.new [99, 97, 114, 116] 2) = some (true, s1) :=
    ⟨_, by rfl⟩
  obtain ⟨s1, h⟩ := h
  exact ⟨s1, h, lcs_is_common_subsequence exampleDic exampleGuide LCS.new [99, 97, 114, 116] 2
    10 1 s1 h⟩

set_option maxRecDepth 100000 in
/-- The statement of `similar_large_bound_enumerates` for the word `car` and
`max_cost = 10` on the dictionary of the scenarios, where no cell of the walk
exceeds 10. -/
theorem similar_large_bound_enumerates_witness :
    WellFormed exampleDic exampleGuide ∧
    ∃ vs d1,
      walk exampleDic exampleGuide (Similar.delegate exampleDic) 9 exampleDic.root []
        (exampleGuide.child exampleDic.root)
        (Similar.start exampleDic Similar.new [99, 97, 114] 10).delegate = some (vs, d1) ∧
      (∀ v ∈ vs, v.delegate.distances_.get v.key.length 3 ≤ 10) ∧
      ∃ found last,
        (∃ fuel, ∀ fuel', fuel ≤ fuel' → ∀ calls, found.length < calls →
          DFS.drain exampleDic exampleGuide (Similar.delegate exampleDic) fuel' calls
            (Similar.start exampleDic Similar.new [99, 97, 114] 10) = some (found, last)) ∧
        (∀ key, key ∈ found.map (fun x => x.key) ↔ exampleDic.Contains key = true) ∧
        (found.map (fun x => x.key)).Nodup := by
  have hall : (walk exampleDic exampleGuide (Similar.delegate exampleDic) 9 exampleDic.root []
      (exampleGuide.child exampleDic.root)
      (Similar.start exampleDic Similar.new [99, 97, 114] 10).delegate).map
        (fun r => r.1.all (fun v => decide (v.delegate.distances_.get v.key.length 3 ≤ 10))) =
      some true := by decide
  have h : ∃ r, walk exampleDic exampleGuide (Similar.delegate exampleDic) 9 exampleDic.root []
      (exampleGuide.child exampleDic.root)
      (Similar.start exampleDic Similar.new [99, 97, 114] 10).delegate = some r := ⟨_, by rfl⟩
  obtain ⟨⟨vs, d1⟩, h⟩ := h
  rw [h] at hall
  simp only [Option.map_some', Option.some.injEq, List.all_eq_true, decide_eq_true_eq] at hall
  exact ⟨example_wellFormed, vs, d1, h, hall,
    similar_large_bound_enumerates exampleDic exampleGuide example_wellFormed Similar.new
      [99, 97, 114] 10 9 vs d1 h (fun v hv => ⟨⟨3, by decide, hall v hv⟩, hall v hv⟩)⟩

/-! ## Two scenarios of the specification evaluated -/

set_option maxRecDepth 100000 in
/-- C18 as stated fails: on the dictionary `cat, car, cart, dog` with the word `ca`,
`delete_cost('t') = 5` and `max_cost = 5`, no result of the Similar search is `cat`
at cost 5. -/
theorem similar_ca_counterexample :
    ¬ ∃ l, Similar.collect exampleDic exampleGuide (Similar.delegate exampleDic) 40 10
        (Similar.start exampleDic (Similar.set_costs Similar.new deleteTCosts) [99, 97] 5) =
          some l ∧ (([99, 97, 116], 5) : List UCharType × CostType) ∈ l := by
  decide

set_option maxRecDepth 100000 in
/-- C18 (amended): on the dictionary `cat, car, cart, dog` with the word `ca`,
`delete_cost('t') = 5`, every other cost 1 and the three features off, the Similar
search with `max_cost = 1` is shown `car` at cost 1 only, so not `cat`; with
`max_cost = 5` it is shown `car` at cost 1, `cart` at cost 3, `cat` at cost 2
(delete `a`, replace `t` by `a`) and `dog` at cost 3. -/
theorem similar_ca_results :
    Similar.collect exampleDic exampleGuide (Similar.delegate exampleDic) 40 10
        (Similar.start exampleDic (Similar.set_costs Similar.new deleteTCosts) [99, 97] 1) =
      some [([99, 97, 114], 1)] ∧
    Similar.collect exampleDic exampleGuide (Similar.delegate exampleDic) 40 10
        (Similar.start exampleDic (Similar.set_costs Similar.new deleteTCosts) [99, 97] 5) =
      some [([99, 97, 114], 1), ([99, 97, 114, 116], 3), ([99, 97, 116], 2),
        ([100, 111, 103], 3)] := by
  constructor <;> decide

set_option maxRecDepth 100000 in
/-- C19 as stated fails: on the dictionary `cat, car, cart, dog` the LCS search
with the word `cart` and the minimum length 3 is also shown the key `car`, with the
common subsequence `car`. -/
theorem lcs_cart_counterexample :
    ∃ l, LCS.collect exampleDic exampleGuide 40 10
        (LCS.start exampleDic LCS.new [99, 97, 114, 116] 3) = some l ∧
      (([99, 97, 114], [99, 97, 114]) : List UCharType × List UCharType) ∈ l :=
  ⟨[([99, 97, 114], [99, 97, 114]), ([99, 97, 114, 116], [99, 97, 114, 116]),
    ([99, 97, 116], [99, 97, 116])], by decide, by decide⟩

set_option maxRecDepth 100000 in
/-- C19 (amended): on the dictionary `cat, car, cart, dog` the LCS search with the
word `cart` and the minimum length 3 is shown, in Guide order, `car` with lcs
`car`, `cart` with lcs `cart` and `cat` with lcs `cat`, and nothing else. -/
theorem lcs_cart_results :
    LCS.collect exampleDic exampleGuide 40 10
        (LCS.start exampleDic LCS.new [99, 97, 114, 116] 3) =
      some [([99, 97, 114], [99, 97, 114]), ([99, 97, 114, 116], [99, 97, 114, 116]),
        ([99, 97, 116], [99, 97, 116])] := by
  decide

/-! ## The cost maps -/

/-- C14 fails for the maps of arity 2 and 3: after the default is set to 7 and one
pair (or triple) under the first key `a` is given the cost 3, a lookup of another
pair (or triple) under `a`, which was never given a cost, returns 1, the default
of the freshly constructed inner map, and not the current default 7; a lookup
under another first key returns 7. -/
theorem costs_map_nested_default :
    (((CostsMap2.new.set 7 none none).2.set 3 (some 97) (some 98)).2.get 97 99 = 1 ∧
      ((CostsMap2.new.set 7 none none).2.set 3 (some 97) (some 98)).2.get 97 97 = 1 ∧
      ((CostsMap2.new.set 7 none none).2.set 3 (some 97) (some 98)).2.get 98 99 = 7 ∧
      (CostsMap2.new.set 7 none none).1 = true ∧
      ((CostsMap2.new.set 7 none none).2.set 3 (some 97) (some 98)).1 = true) ∧
    (((CostsMap3.new.set 7 none none none).2.set 3 (some 97) (some 98) (some 99)).2.get
        97 98 100 = 1 ∧
      ((CostsMap3.new.set 7 none none none).2.set 3 (some 97) (some 98) (some 99)).2.get
        97 100 99 = 1 ∧
      ((CostsMap3.new.set 7 none none none).2.set 3 (some 97) (some 98) (some 99)).2.get
        98 98 99 = 7 ∧
      (CostsMap3.new.set 7 none none none).1 = true ∧
      ((CostsMap3.new.set 7 none none none).2.set 3 (some 97) (some 98) (some 99)).1 = true) := by
  decide

/-- C15 holds when the first key pointer is null and a later one is not (`set`
returns false and leaves the map alone), and fails when the first key pointer is
not null: `set` then returns true whatever the later pointers are. On a map of
arity 2, `set(5, &a, nullptr)` makes every lookup under `a` return 5; on a map of
arity 3 with default 7, `set(5, &a, nullptr, &b)` makes the lookups under `a`
return 1. -/
theorem costs_map_mixed_keys :
    (∀ (m : CostsMap2) (cost : CostType) (k2 : UCharType),
      m.set cost none (some k2) = (false, m)) ∧
    (∀ (m : CostsMap3) (cost : CostType) (p2 p3 : Option UCharType),
      (p2.isSome ∨ p3.isSome) → m.set cost none p2 p3 = (false, m)) ∧
    (∀ (m : CostsMap2) (cost : CostType) (k : UCharType), (m.set cost (some k) none).1 = true) ∧
    (∀ (m : CostsMap3) (cost : CostType) (k : UCharType) (p2 p3 : Option UCharType),
      (m.set cost (some k) p2 p3).1 = true) ∧
    CostsMap2.new.get 97 98 = 1 ∧ (CostsMap2.new.set 5 (some 97) none).2.get 97 98 = 5 ∧
    (CostsMap3.new.set 7 none none none).2.get 97 98 99 = 7 ∧
    ((CostsMap3.new.set 7 none none none).2.set 5 (some 97) none (some 98)).2.get 97 98 99 = 1 := by
  refine ⟨?_, ?_, ?_, ?_, by decide, by decide, by decide, by decide⟩
  · intro m cost k2
    simp [CostsMap2.set, all_null]
  · intro m cost p2 p3 h
    cases p2 <;> cases p3 <;> simp_all [CostsMap3.set, all_null]
  · intro m cost k
    simp [CostsMap2.set]
  · intro m cost k p2 p3
    simp [CostsMap3.set]

/-! ## Reading a dictionary -/

/-- C16 as stated fails: `Read` on the dictionary `cat, car, cart, dog` from an
empty stream, on which the read of the header fails, and from a stream that ends
after a header announcing three units, on which the read of the units fails,
returns false and leaves the 2305 units in place. -/
theorem read_failure_counterexample :
    (Dictionary.Read exampleLayout bytesRead [] exampleDic).1 = false ∧
    (Dictionary.Read exampleLayout bytesRead [] exampleDic).2.1.size_ = 2305 ∧
    (Dictionary.Read exampleLayout bytesRead [3, 0, 0, 0, 1, 2] exampleDic).1 = false ∧
    (Dictionary.Read exampleLayout bytesRead [3, 0, 0, 0, 1, 2] exampleDic).2.1.size_ = 2305 ∧
    (Dictionary.Read exampleLayout bytesRead [3, 0, 0, 0, 1, 2] exampleDic).2.1.Contains
      [99, 97, 116] = true := by
  decide

/-- C16 (amended): when the read callback reports a failure, on the length header
or on the units, `Read` returns false and leaves the dictionary as it was before
the call; so it is empty afterwards if it was empty before. -/
theorem read_failure_keeps_dictionary {σ : Type} (layout : UnitLayout) (read : IOFunction σ)
    (stream : σ) (dic : Dictionary)
    (hfail : (read stream 4).2 = none ∨
      ∃ header, (read stream 4).2 = some header ∧
        (read (read stream 4).1 (layout.size * le32 header)).2 = none) :
    (Dictionary.Read layout read stream dic).1 = false ∧
    (Dictionary.Read layout read stream dic).2.1 = dic ∧
    (dic.size_ = 0 → (Dictionary.Read layout read stream dic).2.1.size_ = 0) := by
  have key : (Dictionary.Read layout read stream dic).1 = false ∧
      (Dictionary.Read layout read stream dic).2.1 = dic := by
    unfold Dictionary.Read
    rcases h1 : read stream 4 with ⟨stream1, r1⟩
    rw [h1] at hfail
    cases r1 with
    | none => exact ⟨rfl, rfl⟩
    | some header =>
      rcases hfail with hf | ⟨hd, hh, hf⟩
      · cases hf
      · simp only [Option.some.injEq] at hh
        subst hh
        simp only at hf ⊢
        rcases h2 : read stream1 (layout.size * le32 header) with ⟨stream2, r2⟩
        rw [h2] at hf
        simp only at hf
        subst hf
        exact ⟨rfl, rfl⟩
  exact ⟨key.1, key.2, fun h => by rw [key.2]; exact h⟩

/-- The statement of `read_failure_keeps_dictionary` for the dictionary
`cat, car, cart, dog` and a stream that ends after a header announcing three
units. -/
theorem read_failure_keeps_dictionary_witness :
    ((bytesRead [3, 0, 0, 0, 1, 2] 4).2 = none ∨
      ∃ header, (bytesRead [3, 0, 0, 0, 1, 2] 4).2 = some header ∧
        (bytesRead (bytesRead [3, 0, 0, 0, 1, 2] 4).1 (exampleLayout.size * le32 header)).2 =
          none) ∧
    (Dictionary.Read exampleLayout bytesRead [3, 0, 0, 0, 1, 2] exampleDic).1 = false ∧
    (Dictionary.Read exampleLayout bytesRead [3, 0, 0, 0, 1, 2] exampleDic).2.1 = exampleDic ∧
    (exampleDic.size_ = 0 →
      (Dictionary.Read exampleLayout bytesRead [3, 0, 0, 0, 1, 2] exampleDic).2.1.size_ = 0) :=
  ⟨Or.inr ⟨[3, 0, 0, 0], by decide, by decide⟩,
    read_failure_keeps_dictionary exampleLayout bytesRead [3, 0, 0, 0, 1, 2] exampleDic
      (Or.inr ⟨[3, 0, 0, 0], by decide, by decide⟩)⟩

/-! ## The last call of `on_ascend` -/

/-- C17 fails on every well-formed pair and for every delegate: the client loop
ends, and the last call of `on_ascend` before `next()` returns false is made with
an empty key, when the stack holds the root only; `ascend()` then pops the empty
key. -/
theorem last_ascend_on_empty_key {D : Type} (dic : Dictionary) (guide : Guide)
    (hwf : WellFormed dic guide) (del : Delegate D) (s : DFS D) :
    ∃ found last, (∃ fuel, ∀ fuel', fuel ≤ fuel' → ∀ calls, found.length < calls →
        DFS.drain dic guide (ascendLog del) fuel' calls
          (DFS.start dic ⟨(s.delegate, []), s.stack_, s.key_, s.state_⟩) = some (found, last)) ∧
      last.delegate.2.getLast? = some [] ∧
      ∃ before, before.stack_ = [dic.root] ∧ before.key_ = [] ∧
        DFS.iteration dic guide (ascendLog del) before = Outcome.returned false last ∧
        (DFS.ascend (ascendLog del) before).key_ = [] := by
  obtain ⟨n, ns, vs, d1, _, hw, _⟩ := walk_of_wellFormed hwf (ascendLog del) (s.delegate, [])
  obtain ⟨found, hp, hlast, _⟩ := DFS.passes_of_start dic guide (ascendLog del) hwf.1
    ⟨(s.delegate, []), s.stack_, s.key_, s.state_⟩ n vs d1 hw
  obtain ⟨fuel, hfuel⟩ := DFS.drain_of_passes hp hlast (by simp [DFS.start])
  refine ⟨found, _, ⟨fuel, hfuel⟩, ?_, ⟨d1, [dic.root], [], Mode.NEXT_SIBLING⟩, rfl, rfl,
    hlast, rfl⟩
  simp [ascendLog]

/-! ## The recurrence of the Similar search with the features off -/

namespace Similar

theorem plainCost_nil_nil (costs : Costs) : plainCost costs [] [] = 0 := by
  simp [plainCost]

theorem plainCost_nil_cons (costs : Costs) (b : UCharType) (w : List UCharType) :
    plainCost costs [] (b :: w) = plainCost costs [] w + costs.insert.get b := by
  simp [plainCost]

theorem plainCost_cons_nil (costs : Costs) (a : UCharType) (k : List UCharType) :
    plainCost costs (a :: k) [] = plainCost costs k [] + costs.delete_.get a := by
  simp [plainCost]

theorem plainCost_cons_cons (costs : Costs) (a b : UCharType) (k w : List UCharType) :
    plainCost costs (a :: k) (b :: w) =
      if b ≠ a then
        min (min (plainCost costs (a :: k) w + costs.insert.get b)
            (plainCost costs k (b :: w) + costs.delete_.get a))
          (plainCost costs k w + costs.replace.get a b)
      else plainCost costs k w := by
  rw [plainCost]

/-- With insertions as dear as deletions and a symmetric table of replacements, the
recurrence is symmetric. -/
theorem plainCost_symm (costs : Costs)
    (hid : ∀ c, costs.insert.get c = costs.delete_.get c)
    (hrep : ∀ x y, costs.replace.get x y = costs.replace.get y x) :
    ∀ (n : Nat) (k w : List UCharType), k.length + w.length ≤ n →
      plainCost costs k w = plainCost costs w k := by
  intro n
  induction n with
  | zero =>
    intro k w h
    cases k with
    | nil => cases w with
      | nil => rfl
      | cons b w => simp at h
    | cons a k => simp at h
  | succ n ih =>
    intro k w h
    cases k with
    | nil =>
      cases w with
      | nil => rfl
      | cons b w =>
        rw [plainCost_nil_cons, plainCost_cons_nil, ih [] w (by simp at h ⊢; omega), hid]
    | cons a k =>
      cases w with
      | nil =>
        rw [plainCost_nil_cons, plainCost_cons_nil, ih k [] (by simp at h ⊢; omega), hid]
      | cons b w =>
        simp only [List.length_cons] at h
        rw [plainCost_cons_cons, plainCost_cons_cons costs b a w k,
          ih (a :: k) w (by simp; omega), ih k (b :: w) (by simp; omega), ih k w (by omega),
          hid b, hid a, hrep a b]
        by_cases hab : b = a
        · subst hab; simp
        · have hba : a ≠ b := fun h => hab h.symm
          simp only [ne_eq, hab, not_false_eq_true, ite_true, hba]
          rw [min_comm (plainCost costs w (a :: k) + costs.delete_.get b)]

end Similar

namespace Similar

/-- The loop of `compute_cost_fast` with the three features off fills row `i` with
the values of the recurrence, for any cost table. -/
theorem plain_loop_spec (costs : Costs) (word path : List UCharType)
    (c : UCharType) (s : Similar) (hword : s.word_ = word)
    (hcache : ∀ j, j < word.length →
      s.cached_insert_cost_.getD j 0 = costs.insert.get (word.getD j 0)) :
    ∀ (n j db : Nat) (r1 sm : CostType) (M : Matrix CostType),
      n + j = word.length + 1 → 1 ≤ j →
      M.Ready (word.length + 1) (path.length + 2) →
      (∀ r, r ≤ path.length → ∀ j', j' ≤ word.length →
        M.get r j' = plainCost costs (path.take r).reverse (word.take j').reverse) →
      (∀ j', j' < j →
        M.get (path.length + 1) j' =
          plainCost costs (path ++ [c]).reverse (word.take j').reverse) →
      r1 = M.get (path.length + 1) (j - 1) →
      (∀ r, r ≤ path.length → ∀ j', j' ≤ word.length →
        (cost_loop false false s costs (path ++ [c]) (path.length + 1) (costs.delete_.get c)
          n j db r1 sm M).1.get r j' =
            plainCost costs (path.take r).reverse (word.take j').reverse) ∧
      ∀ j', j' ≤ word.length →
        (cost_loop false false s costs (path ++ [c]) (path.length + 1) (costs.delete_.get c)
          n j db r1 sm M).1.get (path.length + 1) j' =
          plainCost costs (path ++ [c]).reverse (word.take j').reverse := by
  intro n
  induction n with
  | zero =>
    intro j db r1 sm M hj _ hr hold hrow _
    simp only [cost_loop]
    exact ⟨hold, fun j' hj' => hrow j' (by omega)⟩
  | succ n ih =>
    intro j db r1 sm M hj hj1 hr hold hrow hr1
    simp only [cost_loop]
    obtain ⟨j0, rfl⟩ : ∃ j0, j = j0 + 1 := ⟨j - 1, by omega⟩
    have htake := take_succ_getD word j0 (by omega)
    have hval : (cell_cost false false s costs (path ++ [c]) (path.length + 1)
        (costs.delete_.get c) M (j0 + 1) db r1).1 =
        plainCost costs (path ++ [c]).reverse (word.take (j0 + 1)).reverse := by
      rw [cell_cost_plain, hword]
      simp only [Nat.add_sub_cancel, getD_append_last]
      rw [hcache j0 (by omega), hr1, Nat.add_sub_cancel, hrow j0 (by omega),
        hold path.length le_rfl (j0 + 1) (by omega), hold path.length le_rfl j0 (by omega),
        List.take_length, htake]
      simp only [List.reverse_append, List.reverse_singleton, List.singleton_append]
      rw [plainCost_cons_cons]
    rw [hval]
    apply ih (j0 + 1 + 1) _ _ _ _ (by omega) (by omega) (Matrix.put_ready hr _ _ _)
    · intro r hr' j' hj'
      rw [Matrix.get_put_ne hr.1 (by omega) (by omega) (by omega)]
      exact hold r hr' j' hj'
    · intro j' hj'
      by_cases he : j' = j0 + 1
      · subst he
        exact Matrix.get_put_same hr (by omega) _
      · rw [Matrix.get_put_ne hr.1 (by omega) (by omega) (by omega)]
        exact hrow j' (by omega)
    · rw [Nat.add_sub_cancel, Matrix.get_put_same hr (by omega)]

theorem plain_inv_on_step (dic : Dictionary) (costs : Costs)
    (word : List UCharType) (bound : CostType) (path : List UCharType) (c : UCharType)
    (t : BaseType) (d : Similar) (h : PlainInv costs word bound path d) :
    PlainInv costs word bound (path ++ [c]) (on_step dic (path ++ [c]) t d).1 := by
  obtain ⟨hcfg, hready, hcells⟩ := h
  have hcfg' := config_on_step dic costs word bound false false false (path ++ [c]) t d hcfg
  obtain ⟨hcosts, hword, hbound, htr, hsp, hme, hcols, hcache⟩ := hcfg
  refine ⟨hcfg', ?_, ?_⟩
  · have := (on_step_frame dic (path ++ [c]) t d (by omega)).2.2.2.2.2.2.2.1
    rw [hcols] at this
    simpa using this
  · rw [on_step_plain dic _ t d htr hsp hme,
      (compute_fields false false dic (path ++ [c]) t d).2.2.2.2.2.2.2]
    simp only [new_row, hcosts, Option.getD_some, List.length_append, List.length_singleton,
      Nat.add_sub_cancel, getD_append_last, Matrix.columns, hcols]
    have hal : (d.distances_.allocate (path.length + 1)).Ready (word.length + 1)
        (path.length + 2) := by
      have := Matrix.allocate_ready d.distances_ (path.length + 1)
      rwa [hcols] at this
    have hold : ∀ r, r ≤ path.length → ∀ j', j' ≤ word.length →
        (d.distances_.allocate (path.length + 1)).get r j' =
          plainCost costs (path.take r).reverse (word.take j').reverse := by
      intro r hr j' hj'
      rw [Matrix.get_allocate hready _ _ _ (by omega) (by omega) (by omega)]
      exact hcells r hr j' hj'
    obtain ⟨g1, g2⟩ := plain_loop_spec costs word path c d hword hcache word.length 1 0
      ((d.distances_.allocate (path.length + 1)).get path.length 0 + costs.delete_.get c)
      ((d.distances_.allocate (path.length + 1)).get path.length 0 + costs.delete_.get c)
      ((d.distances_.allocate (path.length + 1)).put (path.length + 1) 0
        ((d.distances_.allocate (path.length + 1)).get path.length 0 + costs.delete_.get c))
      (by omega) le_rfl (Matrix.put_ready hal _ _ _)
      (by
        intro r hr j' hj'
        rw [Matrix.get_put_ne hal.1 (by omega) (by omega) (by omega)]
        exact hold r hr j' hj')
      (by
        intro j' hj'
        have : j' = 0 := by omega
        subst this
        rw [Matrix.get_put_same hal (by omega), hold path.length le_rfl 0 (by omega)]
        simp only [List.take_zero, List.take_length, List.reverse_append,
          List.reverse_singleton, List.singleton_append, List.reverse_nil]
        rw [plainCost_cons_nil])
      (by rw [Matrix.get_put_same hal (by omega)])
    intro r hr j hj
    by_cases hlast : r = path.length + 1
    · subst hlast
      have ht : List.take (path.length + 1) (path ++ [c]) = path ++ [c] :=
        List.take_of_length_le (by simp)
      rw [g2 j hj, ht]
    · have hr' : r ≤ path.length := by omega
      rw [g1 r hr' j hj, List.take_append_of_le_length hr']

theorem plain_row_spec (costs : Costs) (word : List UCharType) :
    ∀ (n j : Nat) (cost : CostType) (cached : List CostType) (M : Matrix CostType),
      n + j = word.length + 1 → 1 ≤ j → M.Ready (word.length + 1) 1 →
      (∀ j', j' < j → M.get 0 j' = plainCost costs [] (word.take j').reverse) →
      cost = M.get 0 (j - 1) →
      ∀ j', j' ≤ word.length →
        (start_loop costs word n j cost cached M).2.get 0 j' =
          plainCost costs [] (word.take j').reverse := by
  intro n
  induction n with
  | zero =>
    intro j cost cached M hj _ hr hrow _
    simp only [start_loop]
    exact fun j' hj' => hrow j' (by omega)
  | succ n ih =>
    intro j cost cached M hj hj1 hr hrow hcost
    simp only [start_loop]
    obtain ⟨j0, rfl⟩ : ∃ j0, j = j0 + 1 := ⟨j - 1, by omega⟩
    simp only [Nat.add_sub_cancel] at hcost ⊢
    apply ih (j0 + 1 + 1) _ _ _ (by omega) (by omega) (Matrix.put_ready hr _ _ _)
    · intro j' hj'
      by_cases he : j' = j0 + 1
      · subst he
        rw [Matrix.get_put_same hr (by omega), take_succ_getD word j0 (by omega),
          List.reverse_append, List.reverse_singleton, List.singleton_append,
          plainCost_nil_cons, hcost, hrow j0 (by omega)]
      · rw [Matrix.get_put_ne hr.1 (by omega) (by omega) (by omega)]
        exact hrow j' (by omega)
    · rw [Nat.add_sub_cancel, Matrix.get_put_same hr (by omega)]

theorem plain_inv_start (dic : Dictionary) (s : DFS Similar) (word : List CharType)
    (max_cost : CostType) (h1 : s.delegate.allow_transpose = false)
    (h2 : s.delegate.allow_split = false) (h3 : s.delegate.allow_merge = false) :
    PlainInv (s.delegate.costs_.getD Costs.new) word (max 0 max_cost) []
      (start dic s word max_cost).delegate := by
  have hcfg := config_start dic s word max_cost
  rw [h1, h2, h3] at hcfg
  have hinv := dist_inv_start dic s word max_cost h1 h2 h3
  refine ⟨hcfg, hinv.2.1, ?_⟩
  have hr : ((s.delegate.distances_.set_columns (word.length + 1)).allocate 0).Ready
      (word.length + 1) 1 := by
    have := Matrix.allocate_ready (s.delegate.distances_.set_columns (word.length + 1)) 0
    simpa [Matrix.set_columns] using this
  have hcols : ((s.delegate.distances_.set_columns (word.length + 1)).allocate 0).columns =
      word.length + 1 := rfl
  have g := plain_row_spec (s.delegate.costs_.getD Costs.new) word word.length 1 0
    (resize s.delegate.cached_insert_cost_ word.length 0)
    (((s.delegate.distances_.set_columns (word.length + 1)).allocate 0).put 0 0 0)
    (by omega) le_rfl (Matrix.put_ready hr _ _ _)
    (by
      intro j' hj'
      have : j' = 0 := by omega
      subst this
      rw [Matrix.get_put_same hr (by omega), List.take_zero, List.reverse_nil,
        plainCost_nil_nil])
    (by rw [Matrix.get_put_same hr (by omega)])
  intro r hr' j hj
  simp only [List.length_nil, Nat.le_zero] at hr'
  subst hr'
  simp only [start, DFS.start, hcols, Nat.add_sub_cancel, List.take_zero, List.reverse_nil]
  exact g j hj

/-- Along any path the states of `steps` keep the invariant. -/
theorem plain_inv_steps (dic : Dictionary) (top : List UCharType → BaseType) (costs : Costs)
    (word : List UCharType) (bound : CostType) :
    ∀ (rest done : List UCharType) (d : Similar), PlainInv costs word bound done d →
      PlainInv costs word bound (done ++ rest) (steps dic top done rest d) := by
  intro rest
  induction rest with
  | nil => intro done d h; simpa [steps] using h
  | cons c rest ih =>
    intro done d h
    have := ih (done ++ [c]) _ (plain_inv_on_step dic costs word bound done c (top (done ++ [c])) d h)
    simpa [steps] using this

end Similar

/-- C12: with transposition, split and merge off and a cost table in which every
insertion costs what the deletion of the same byte costs and `replace` is
symmetric, the last cell of the last row that the search for the word `b`
computes along the path `a` equals the one that the search for the word `a`
computes along the path `b`, for all byte strings `a` and `b`. -/
theorem similar_cost_symmetric (dic : Dictionary) (top1 top2 : List UCharType → BaseType)
    (s : DFS Similar) (max_cost : CostType) (costs : Costs)
    (hc : s.delegate.costs_.getD Costs.new = costs)
    (h1 : s.delegate.allow_transpose = false) (h2 : s.delegate.allow_split = false)
    (h3 : s.delegate.allow_merge = false)
    (hid : ∀ c, costs.insert.get c = costs.delete_.get c)
    (hrep : ∀ x y, costs.replace.get x y = costs.replace.get y x)
    (a b : List UCharType) :
    Similar.path_cost dic top1 s b max_cost a = Similar.path_cost dic top2 s a max_cost b := by
  have ha := Similar.plain_inv_steps dic top1 costs b (max 0 max_cost) a [] _
    (hc ▸ Similar.plain_inv_start dic s b max_cost h1 h2 h3)
  have hb := Similar.plain_inv_steps dic top2 costs a (max 0 max_cost) b [] _
    (hc ▸ Similar.plain_inv_start dic s a max_cost h1 h2 h3)
  simp only [List.nil_append] at ha hb
  simp only [Similar.path_cost]
  rw [ha.2.2 a.length le_rfl b.length le_rfl, hb.2.2 b.length le_rfl a.length le_rfl,
    List.take_length, List.take_length]
  exact Similar.plainCost_symm costs hid hrep _ _ _ le_rfl

/-! ## The last occurrences on the path: `da_` and `da_rollback_` -/

theorem lastDepth_append (path : List UCharType) (a c : UCharType) :
    lastDepth (path ++ [a]) c = if a = c then path.length + 1 else lastDepth path c := by
  induction path with
  | nil => simp [lastDepth]
  | cons x path ih =>
    simp only [List.cons_append, lastDepth, List.length_cons]
    have ih' : lastDepth (path.append [a]) c =
        if a = c then path.length + 1 else lastDepth path c := ih
    rw [ih']
    by_cases hac : a = c
    · simp [hac]
    · simp [hac]

theorem lastDepth_le (path : List UCharType) (c : UCharType) :
    lastDepth path c ≤ path.length := by
  induction path using List.reverseRecOn with
  | nil => simp [lastDepth]
  | append_singleton path a ih =>
    rw [lastDepth_append]
    split_ifs
    · simp
    · simp only [List.length_append, List.length_singleton]; omega

/-- What `lastDepth` is: 0 exactly when the byte is not on the path, and otherwise
a depth at which the path holds the byte and after which it does not. -/
theorem lastDepth_spec (path : List UCharType) (c : UCharType) :
    (lastDepth path c = 0 ↔ c ∉ path) ∧
    (lastDepth path c ≠ 0 → path.getD (lastDepth path c - 1) 0 = c) ∧
    ∀ r, lastDepth path c < r → r ≤ path.length → path.getD (r - 1) 0 ≠ c := by
  induction path using List.reverseRecOn with
  | nil =>
    refine ⟨by simp [lastDepth], by simp [lastDepth], ?_⟩
    intro r h1 h2
    simp only [List.length_nil] at h2
    omega
  | append_singleton path a ih =>
    obtain ⟨ih1, ih2, ih3⟩ := ih
    rw [lastDepth_append]
    by_cases hac : a = c
    · subst hac
      simp only [ite_true]
      refine ⟨by simp, ?_, ?_⟩
      · intro _
        rw [Nat.add_sub_cancel, getD_append_last]
      · intro r h1 h2
        simp only [List.length_append, List.length_singleton] at h2
        omega
    · simp only [hac, ite_false]
      have hle := lastDepth_le path c
      refine ⟨?_, ?_, ?_⟩
      · rw [ih1]
        simp only [List.mem_append, List.mem_singleton, not_or]
        exact ⟨fun h => ⟨h, fun h' => hac h'.symm⟩, fun h => h.1⟩
      · intro h
        rw [getD_append_left path a _ (by omega)]
        exact ih2 h
      · intro r h1 h2
        simp only [List.length_append, List.length_singleton] at h2
        by_cases hr : r = path.length + 1
        · subst hr
          simp only [Nat.add_sub_cancel, getD_append_last]
          exact hac
        · rw [getD_append_left path a _ (by omega)]
          exact ih3 r h1 (by omega)

theorem resize_getD_default {T : Type} (l : List T) (n k : Nat) (v : T) (hk : k < n) :
    (resize l n v).getD k v = l.getD k v := by
  by_cases hl : k < l.length
  · exact Matrix.resize_getD l n k v v hk hl
  · simp only [resize, List.getD_eq_getElem?_getD]
    rw [List.getElem?_append_right (by simp; omega)]
    simp only [List.length_take]
    rw [List.getElem?_eq_none (l := l) (by omega)]
    simp only [Option.getD_none]
    rw [List.getElem?_replicate]
    split_ifs <;> rfl

theorem set_set_getD {T : Type} (l : List T) (a : Nat) (v d : T) :
    (l.set a v).set a (l.getD a d) = l := by
  apply List.ext_getElem?
  intro k
  by_cases hk : k = a
  · subst hk
    by_cases hl : k < l.length
    · simp [List.getElem?_set, hl, List.getD_eq_getElem?_getD]
    · simp [List.getElem?_set, hl, List.getElem?_eq_none (Nat.le_of_not_lt hl)]
  · simp [List.getElem?_set, Ne.symm hk]

namespace Similar

theorem compute_da (us : Bool) (dic : Dictionary) (key : List UCharType) (top : BaseType)
    (s : Similar) :
    (compute_cost_fast true us dic key top s).1.da_ =
      s.da_.set (key.getD (key.length - 1) 0).val key.length ∧
    (compute_cost_fast true us dic key top s).1.da_rollback_ =
      (resize s.da_rollback_ (key.length + 1) 0).set key.length
        (s.da_.getD (key.getD (key.length - 1) 0).val 0) := by
  simp only [compute_cost_fast, ↓reduceIte]
  split_ifs <;> exact ⟨rfl, rfl⟩

theorem compute_da_off (us : Bool) (dic : Dictionary) (key : List UCharType) (top : BaseType)
    (s : Similar) :
    (compute_cost_fast false us dic key top s).1.da_ = s.da_ ∧
    (compute_cost_fast false us dic key top s).1.da_rollback_ = s.da_rollback_ := by
  simp only [compute_cost_fast, Bool.false_eq_true, ↓reduceIte]
  split_ifs <;> exact ⟨rfl, rfl⟩

theorem on_step_da (dic : Dictionary) (key : List UCharType) (top : BaseType) (s : Similar)
    (h : s.allow_transpose = true) :
    (on_step dic key top s).1.da_ =
      s.da_.set (key.getD (key.length - 1) 0).val key.length ∧
    (on_step dic key top s).1.da_rollback_ =
      (resize s.da_rollback_ (key.length + 1) 0).set key.length
        (s.da_.getD (key.getD (key.length - 1) 0).val 0) ∧
    (on_step dic key top s).1.allow_transpose = true := by
  simp only [on_step, h, ite_true]
  split_ifs
  · exact ⟨(compute_da true dic key top s).1, (compute_da true dic key top s).2,
      (compute_fields true true dic key top s).2.2.2.1.trans h⟩
  · exact ⟨(compute_da false dic key top s).1, (compute_da false dic key top s).2,
      (compute_fields true false dic key top s).2.2.2.1.trans h⟩

theorem da_inv_on_step (dic : Dictionary) (path : List UCharType) (c : UCharType)
    (t : BaseType) (d : Similar) (h : DaInv path d) :
    DaInv (path ++ [c]) (on_step dic (path ++ [c]) t d).1 := by
  obtain ⟨htr, hlen, hda, hrb⟩ := h
  obtain ⟨e1, e2, e3⟩ := on_step_da dic (path ++ [c]) t d htr
  simp only [List.length_append, List.length_singleton, Nat.add_sub_cancel,
    getD_append_last] at e1 e2
  refine ⟨e3, by rw [e1]; simpa using hlen, ?_, ?_⟩
  · intro c'
    rw [e1, lastDepth_append]
    by_cases hc : c = c'
    · subst hc
      rw [Matrix.getD_set_eq _ _ _ _ (by rw [hlen]; exact c.isLt)]
      simp
    · have : c'.val ≠ c.val := fun h => hc (Fin.ext h.symm)
      rw [Matrix.getD_set_ne _ _ _ _ _ this, hda c']
      simp [hc]
  · intro r hr1 hr2
    simp only [List.length_append, List.length_singleton] at hr2
    rw [e2]
    by_cases hr : r = path.length + 1
    · subst hr
      rw [Matrix.getD_set_eq _ _ _ _ (by rw [Matrix.resize_length]; omega), hda c]
      simp only [Nat.add_sub_cancel, getD_append_last]
      rw [List.take_append_of_le_length le_rfl, List.take_length]
    · rw [Matrix.getD_set_ne _ _ _ _ _ hr, resize_getD_default _ _ _ _ (by omega),
        hrb r hr1 (by omega), List.take_append_of_le_length (by omega),
        getD_append_left path c _ (by omega)]

theorem da_inv_on_ascend (path : List UCharType) (c : UCharType) (d : Similar)
    (h : DaInv (path ++ [c]) d) : DaInv path (on_ascend (path ++ [c]) d) := by
  obtain ⟨htr, hlen, hda, hrb⟩ := h
  simp only [on_ascend, htr, ite_true, List.length_append, List.length_singleton,
    Nat.add_sub_cancel, getD_append_last]
  refine ⟨rfl, by simpa using hlen, ?_, ?_⟩
  · intro c'
    by_cases hc : c = c'
    · subst hc
      rw [Matrix.getD_set_eq _ _ _ _ (by rw [hlen]; exact c.isLt),
        hrb (path.length + 1) (by omega) (by simp)]
      simp only [Nat.add_sub_cancel, getD_append_last]
      rw [List.take_append_of_le_length le_rfl, List.take_length]
    · have : c'.val ≠ c.val := fun h => hc (Fin.ext h.symm)
      rw [Matrix.getD_set_ne _ _ _ _ _ this, hda c', lastDepth_append]
      simp [hc]
  · intro r hr1 hr2
    have := hrb r hr1 (by simp; omega)
    rw [List.take_append_of_le_length (by omega), getD_append_left path c _ (by omega)] at this
    exact this

theorem da_inv_start (dic : Dictionary) (s : DFS Similar) (word : List CharType)
    (max_cost : CostType) (h : s.delegate.allow_transpose = true) :
    DaInv [] (start dic s word max_cost).delegate := by
  refine ⟨h, ?_, ?_, ?_⟩
  · simp only [start, DFS.start, h, ite_true]
    exact Matrix.resize_length _ _ _
  · intro c
    simp only [start, DFS.start, h, ite_true, lastDepth]
    rw [resize_getD_default _ _ _ _ c.isLt]
    rfl
  · intro r hr1 hr2
    simp only [List.length_nil] at hr2
    omega

/-- The call of `on_ascend` that follows a call of `on_step` puts `da_` back. -/
theorem on_ascend_restores (dic : Dictionary) (path : List UCharType) (c : UCharType)
    (t : BaseType) (d : Similar) (h : DaInv path d) :
    (on_ascend (path ++ [c]) (on_step dic (path ++ [c]) t d).1).da_ = d.da_ := by
  obtain ⟨htr, hlen, hda, hrb⟩ := h
  obtain ⟨e1, e2, e3⟩ := on_step_da dic (path ++ [c]) t d htr
  simp only [List.length_append, List.length_singleton, Nat.add_sub_cancel,
    getD_append_last] at e1 e2
  simp only [on_ascend, e3, ite_true, List.length_append, List.length_singleton,
    Nat.add_sub_cancel, getD_append_last, e1, e2]
  rw [Matrix.getD_set_eq _ _ _ _ (by rw [Matrix.resize_length]; omega)]
  exact set_set_getD _ _ _ _

end Similar

namespace DFS

theorem reached_sound {D : Type} {dic : Dictionary} {guide : Guide} {del : Delegate D}
    (Inv : List UCharType → D → Prop)
    (hstep : ∀ path c t d, Inv path d → Inv (path ++ [c]) (del.on_step (path ++ [c]) t d).1)
    (hasc : ∀ path c d, Inv (path ++ [c]) d → Inv path (del.on_ascend (path ++ [c]) d))
    (s0 : DFS D) (h0 : OnPath dic s0.stack_ s0.key_) (hinv : Inv s0.key_ s0.delegate)
    (s1 : DFS D) (h : Reached dic guide del s0 s1) :
    s1.stack_ = [] ∨ (OnPath dic s1.stack_ s1.key_ ∧ Inv s1.key_ s1.delegate) := by
  induction h with
  | start => exact Or.inr ⟨h0, hinv⟩
  | pass s s1 _ hit ih =>
    rcases ih with ih | ⟨ih1, ih2⟩
    · simp only [iteration, ih] at hit
      cases hm : s.state_ <;> simp [hm] at hit
    · have := iteration_sound dic guide del Inv hstep hasc ih1 ih2
      rw [hit] at this
      exact Or.inr this
  | ret b s s1 _ hit ih =>
    rcases ih with ih | ⟨ih1, ih2⟩
    · simp only [iteration, ih] at hit
      cases hm : s.state_ <;> simp [hm] at hit
    · have := iteration_sound dic guide del Inv hstep hasc ih1 ih2
      rw [hit] at this
      cases b with
      | true => exact Or.inr ⟨this.1, this.2.1⟩
      | false => exact this.symm

end DFS

/-- C20: with transposition on, at every point that the loop of `next()` passes
through after `start()` while the stack is not empty, `da_[c]` is for every byte
`c` the last depth at which the key holds `c`, and 0 when the key does not hold
`c`; a call of `on_ascend` right after a call of `on_step` puts `da_` back; and at
every call of `on_step` in a walk, for a key of length `i`, every entry `k` of
`da_` that the transposition candidate can read is below `i`, so that the row
`k - 1` it reads (when `k >= 1`) is a row above row `i`. -/
theorem da_tracks_last_depth (dic : Dictionary) (guide : Guide) (s : DFS Similar)
    (word : List CharType) (max_cost : CostType)
    (htr : s.delegate.allow_transpose = true) :
    (∀ s1, DFS.Reached dic guide (Similar.delegate dic) (Similar.start dic s word max_cost) s1 →
      s1.stack_ ≠ [] → ∀ c : UCharType,
        s1.delegate.da_.getD c.val 0 = lastDepth s1.key c ∧
        (lastDepth s1.key c = 0 ↔ c ∉ s1.key) ∧
        (lastDepth s1.key c ≠ 0 → s1.key.getD (lastDepth s1.key c - 1) 0 = c) ∧
        ∀ r, lastDepth s1.key c < r → r ≤ s1.key.length → s1.key.getD (r - 1) 0 ≠ c) ∧
    (∀ s1, DFS.Reached dic guide (Similar.delegate dic) (Similar.start dic s word max_cost) s1 →
      s1.stack_ ≠ [] → ∀ (c : UCharType) (t : BaseType),
        (Similar.on_ascend (s1.key ++ [c])
          (Similar.on_step dic (s1.key ++ [c]) t s1.delegate).1).da_ = s1.delegate.da_) ∧
    (∀ n vs d1,
      walk dic guide (Similar.delegate dic) n dic.root [] (guide.child dic.root)
        (Similar.start dic s word max_cost).delegate = some (vs, d1) →
      ∀ v ∈ vs, ∃ q a d0, v.key = q ++ [a] ∧
        v.delegate = (Similar.on_step dic v.key v.index d0).1 ∧
        (Similar.on_ascend v.key v.delegate).da_ = d0.da_ ∧
        ∀ b : UCharType, d0.da_.getD b.val 0 < v.key.length) := by
  have h0 := Similar.da_inv_start dic s word max_cost htr
  have hreach : ∀ s1,
      DFS.Reached dic guide (Similar.delegate dic) (Similar.start dic s word max_cost) s1 →
      s1.stack_ ≠ [] → Similar.DaInv s1.key_ s1.delegate := by
    intro s1 hr hne
    have := DFS.reached_sound (Similar.DaInv)
      (fun path c t d hd => Similar.da_inv_on_step dic path c t d hd)
      (fun path c d hd => Similar.da_inv_on_ascend path c d hd)
      (Similar.start dic s word max_cost) (by simpa [Similar.start, DFS.start] using DFS.OnPath.root)
      (by simpa [Similar.start, DFS.start] using h0) s1 hr
    rcases this with h | h
    · exact absurd h hne
    · exact h.2
  refine ⟨?_, ?_, ?_⟩
  · intro s1 hr hne c
    obtain ⟨_, _, hda, _⟩ := hreach s1 hr hne
    obtain ⟨g1, g2, g3⟩ := lastDepth_spec s1.key c
    exact ⟨hda c, g1, g2, g3⟩
  · intro s1 hr hne c t
    exact Similar.on_ascend_restores dic s1.key_ c t s1.delegate (hreach s1 hr hne)
  · intro n vs d1 hw v hv
    obtain ⟨_, hvis⟩ := walk_inv dic guide (Similar.delegate dic) Similar.DaInv
      (fun path c t d hd => Similar.da_inv_on_step dic path c t d hd)
      (fun path c d hd => Similar.da_inv_on_ascend path c d hd)
      n _ _ _ _ vs d1 hw (by simpa [Similar.start, DFS.start] using h0)
    obtain ⟨q, a, d0, hk, hinv, hvd, _, _⟩ := hvis v hv
    refine ⟨q, a, d0, hk, hvd, ?_, ?_⟩
    · have e : v.delegate = (Similar.on_step dic v.key v.index d0).1 := hvd
      rw [e, hk]
      exact Similar.on_ascend_restores dic q a v.index d0 hinv
    · intro b
      rw [hinv.2.2.1 b, hk, List.length_append, List.length_singleton]
      exact Nat.lt_succ_of_le (lastDepth_le q b)

/-- The statement of `da_tracks_last_depth` for the search for `act` with
transposition on, on the dictionary of the scenarios. -/
theorem da_tracks_last_depth_witness :
    (Similar.set_enable_transpose Similar.new true).delegate.allow_transpose = true ∧
    (∀ s1, DFS.Reached exampleDic exampleGuide (Similar.delegate exampleDic)
        (Similar.start exampleDic (Similar.set_enable_transpose Similar.new true)
          [97, 99, 116] 1) s1 →
      s1.stack_ ≠ [] → ∀ c : UCharType,
        s1.delegate.da_.getD c.val 0 = lastDepth s1.key c ∧
        (lastDepth s1.key c = 0 ↔ c ∉ s1.key) ∧
        (lastDepth s1.key c ≠ 0 → s1.key.getD (lastDepth s1.key c - 1) 0 = c) ∧
        ∀ r, lastDepth s1.key c < r → r ≤ s1.key.length → s1.key.getD (r - 1) 0 ≠ c) ∧
    (∀ s1, DFS.Reached exampleDic exampleGuide (Similar.delegate exampleDic)
        (Similar.start exampleDic (Similar.set_enable_transpose Similar.new true)
          [97, 99, 116] 1) s1 →
      s1.stack_ ≠ [] → ∀ (c : UCharType) (t : BaseType),
        (Similar.on_ascend (s1.key ++ [c])
          (Similar.on_step exampleDic (s1.key ++ [c]) t s1.delegate).1).da_ =
            s1.delegate.da_) ∧
    (∀ n vs d1,
      walk exampleDic exampleGuide (Similar.delegate exampleDic) n exampleDic.root []
        (exampleGuide.child exampleDic.root)
        (Similar.start exampleDic (Similar.set_enable_transpose Similar.new true)
          [97, 99, 116] 1).delegate = some (vs, d1) →
      ∀ v ∈ vs, ∃ q a d0, v.key = q ++ [a] ∧
        v.delegate = (Similar.on_step exampleDic v.key v.index d0).1 ∧
        (Similar.on_ascend v.key v.delegate).da_ = d0.da_ ∧
        ∀ b : UCharType, d0.da_.getD b.val 0 < v.key.length) :=
  ⟨rfl, da_tracks_last_depth exampleDic exampleGuide
    (Similar.set_enable_transpose Similar.new true) [97, 99, 116] 1 rfl⟩

/-! ## Turning a feature on lowers the cells -/

namespace Similar

theorem stage_le (cA cB candA candB : CostType) (pA pB : Prop) [Decidable pA] [Decidable pB]
    (hc : cB ≤ cA) (hp : pA → pB ∧ candB ≤ candA) :
    (if pB then min cB candB else cB) ≤ (if pA then min cA candA else cA) := by
  split_ifs with h1 h2 h2
  · exact min_le_min hc (hp h2).2
  · exact le_trans (min_le_left _ _) hc
  · exact absurd (hp h2).1 h1
  · exact hc

theorem stage_le_nested (cA cB candA candB : CostType) (bA bB qA qB : Prop)
    [Decidable bA] [Decidable bB] [Decidable qA] [Decidable qB]
    (hc : cB ≤ cA) (hp : bA → ¬ qA → bB ∧ ¬ qB ∧ candB ≤ candA) :
    (if bB then (if qB then cB else min cB candB) else cB) ≤
      (if bA then (if qA then cA else min cA candA) else cA) := by
  by_cases hbA : bA
  · by_cases hqA : qA
    · rw [if_pos hbA, if_pos hqA]
      split_ifs
      · exact hc
      · exact le_trans (min_le_left _ _) hc
      · exact hc
    · obtain ⟨h1, h2, h3⟩ := hp hbA hqA
      rw [if_pos hbA, if_neg hqA, if_pos h1, if_neg h2]
      exact min_le_min hc h3
  · rw [if_neg hbA]
    split_ifs
    · exact hc
    · exact le_trans (min_le_left _ _) hc
    · exact hc

/-- The value of a cell, stage by stage. -/
theorem cell_cost_fst (T U : Bool) (s : Similar) (costs : Costs) (key : List UCharType)
    (i : Nat) (dc : CostType) (M : Matrix CostType) (j db : Nat) (r1 : CostType) :
    (cell_cost T U s costs key i dc M j db r1).1 =
      (fun c2 : CostType =>
        if (U && s.allow_merge && decide (i > 1)) = true then
          min c2 (M.get (i - 2) (j - 1) +
            costs.merge.get (key.getD (i - 2) 0) (key.getD (i - 1) 0) (s.word_.getD (j - 1) 0))
        else c2)
      ((fun c1 : CostType =>
        if (U && s.allow_split && decide (j > 1)) = true then
          min c1 (M.get (i - 1) (j - 2) +
            costs.split.get (key.getD (i - 1) 0) (s.word_.getD (j - 2) 0)
              (s.word_.getD (j - 1) 0))
        else c1)
      ((fun c0 : CostType =>
        if (T && decide (db ≥ 1)) = true then
          (if s.da_.getD (s.word_.getD (j - 1) 0).val 0 < 1 ∨ db < 1 then c0
          else min c0 (M.get (s.da_.getD (s.word_.getD (j - 1) 0).val 0 - 1) (db - 1) +
            col_delete_range_cost M (s.da_.getD (s.word_.getD (j - 1) 0).val 0 + 1) (i - 1) +
            costs.transpose.get
              (key.getD (s.da_.getD (s.word_.getD (j - 1) 0).val 0 - 1) 0) (key.getD (i - 1) 0) +
            row_insert_range_cost M (db + 1) (j - 1)))
        else c0)
      (if s.word_.getD (j - 1) 0 ≠ key.getD (i - 1) 0 then
        min (min (r1 + s.cached_insert_cost_.getD (j - 1) 0) (M.get (i - 1) j + dc))
          (M.get (i - 1) (j - 1) +
            costs.replace.get (key.getD (i - 1) 0) (s.word_.getD (j - 1) 0))
      else M.get (i - 1) (j - 1)))) := by
  simp only [cell_cost]
  split_ifs <;> rfl

theorem cell_cost_snd (T U : Bool) (s : Similar) (costs : Costs) (key : List UCharType)
    (i : Nat) (dc : CostType) (M : Matrix CostType) (j db : Nat) (r1 : CostType) :
    (cell_cost T U s costs key i dc M j db r1).2 =
      if s.word_.getD (j - 1) 0 ≠ key.getD (i - 1) 0 then db else if T = true then j else db := by
  simp only [cell_cost]
  split_ifs <;> rfl

end Similar

namespace Similar

/-- A cell is not larger when more features are on and the cells it is computed
from are not larger. -/
theorem cell_cost_le (sA sB : Similar) (costs : Costs) (key : List UCharType) (i : Nat)
    (dc : CostType) (MA MB : Matrix CostType) (j dbA dbB : Nat) (rA rB : CostType)
    (TA UA TB UB : Bool) (wl : Nat)
    (hword : sA.word_ = sB.word_)
    (hcache : ∀ j', j' < wl →
      sA.cached_insert_cost_.getD j' 0 = sB.cached_insert_cost_.getD j' 0)
    (hT : TA = true → TB = true)
    (hS : (UA && sA.allow_split) = true → (UB && sB.allow_split) = true)
    (hM : (UA && sA.allow_merge) = true → (UB && sB.allow_merge) = true)
    (hda : TA = true → ∀ b : UCharType,
      sA.da_.getD b.val 0 = sB.da_.getD b.val 0 ∧ sA.da_.getD b.val 0 < i)
    (hdb : TA = true → dbA = dbB) (hdbj : dbA < j)
    (hi : 1 ≤ i) (hj1 : 1 ≤ j) (hj : j ≤ wl) (hr : rB ≤ rA)
    (hcell : ∀ r, r < i → ∀ j', j' ≤ wl → MB.get r j' ≤ MA.get r j')
    (hcol : ∀ r, r < i → MB.get r 0 = MA.get r 0)
    (hrow : ∀ j', j' ≤ wl → MB.get 0 j' = MA.get 0 j') :
    (cell_cost TB UB sB costs key i dc MB j dbB rB).1 ≤
      (cell_cost TA UA sA costs key i dc MA j dbA rA).1 := by
  rw [cell_cost_fst, cell_cost_fst]
  beta_reduce
  rw [← hword, ← hcache (j - 1) (by omega)]
  have hbase :
      (if sA.word_.getD (j - 1) 0 ≠ key.getD (i - 1) 0 then
        min (min (rB + sA.cached_insert_cost_.getD (j - 1) 0) (MB.get (i - 1) j + dc))
          (MB.get (i - 1) (j - 1) +
            costs.replace.get (key.getD (i - 1) 0) (sA.word_.getD (j - 1) 0))
      else MB.get (i - 1) (j - 1)) ≤
      (if sA.word_.getD (j - 1) 0 ≠ key.getD (i - 1) 0 then
        min (min (rA + sA.cached_insert_cost_.getD (j - 1) 0) (MA.get (i - 1) j + dc))
          (MA.get (i - 1) (j - 1) +
            costs.replace.get (key.getD (i - 1) 0) (sA.word_.getD (j - 1) 0))
      else MA.get (i - 1) (j - 1)) := by
    have h1 := hcell (i - 1) (by omega) j hj
    have h2 := hcell (i - 1) (by omega) (j - 1) (by omega)
    split_ifs
    · exact min_le_min (min_le_min (add_le_add_right hr _) (add_le_add_right h1 _))
        (add_le_add_right h2 _)
    · exact h2
  refine stage_le _ _ _ _ _ _ (stage_le _ _ _ _ _ _ (stage_le_nested _ _ _ _ _ _ _ _ hbase ?_) ?_) ?_
  · intro hb hq
    have hTA : TA = true := by
      cases TA
      · simp at hb
      · rfl
    have hL : 1 ≤ dbA := by
      simp only [hTA, Bool.true_and, decide_eq_true_eq] at hb
      exact hb
    obtain ⟨hk, hki⟩ := hda hTA (sA.word_.getD (j - 1) 0)
    have hdbe := hdb hTA
    subst hdbe
    have hk1 : 1 ≤ sA.da_.getD (sA.word_.getD (j - 1) 0).val 0 := by
      by_contra hlt
      exact hq (Or.inl (Nat.lt_of_not_le hlt))
    rw [← hk]
    refine ⟨by simp [hT hTA, hL],
      fun h => h.elim (fun h => absurd hk1 (Nat.not_le_of_lt h))
        (fun h => absurd hL (Nat.not_le_of_lt h)), ?_⟩
    have c1 := hcell (sA.da_.getD (sA.word_.getD (j - 1) 0).val 0 - 1)
      (Nat.lt_of_le_of_lt (Nat.sub_le _ _) hki) (dbA - 1) (by omega)
    have c2 := hcol (i - 1) (by omega)
    have c3 := hcol (sA.da_.getD (sA.word_.getD (j - 1) 0).val 0) hki
    have c4 := hrow (j - 1) (by omega)
    have c5 := hrow dbA (by omega)
    simp only [col_delete_range_cost, row_insert_range_cost, Nat.add_sub_cancel]
    rw [c2, c3, c4, c5]
    linarith
  · intro hs
    have h1 : (UA && sA.allow_split) = true := by
      cases hh : (UA && sA.allow_split)
      · simp [hh] at hs
      · rfl
    have hj2 : j > 1 := by
      simp only [h1, Bool.true_and, decide_eq_true_eq] at hs
      exact hs
    refine ⟨by simp [hS h1, hj2], ?_⟩
    exact add_le_add_right (hcell (i - 1) (by omega) (j - 2) (by omega)) _
  · intro hm
    have h1 : (UA && sA.allow_merge) = true := by
      cases hh : (UA && sA.allow_merge)
      · simp [hh] at hm
      · rfl
    have hi2 : i > 1 := by
      simp only [h1, Bool.true_and, decide_eq_true_eq] at hm
      exact hm
    refine ⟨by simp [hM h1, hi2], ?_⟩
    exact add_le_add_right (hcell (i - 2) (by omega) (j - 1) (by omega)) _

end Similar

namespace Similar

/-- The loop of `compute_cost_fast`: with more features on and no larger cells to
start from, no cell of the new row and not `smallest` is larger. -/
theorem cost_loop_le (sA sB : Similar) (costs : Costs) (key : List UCharType) (i : Nat)
    (dc : CostType) (TA UA TB UB : Bool) (wl : Nat)
    (hword : sA.word_ = sB.word_)
    (hcache : ∀ j', j' < wl →
      sA.cached_insert_cost_.getD j' 0 = sB.cached_insert_cost_.getD j' 0)
    (hT : TA = true → TB = true)
    (hS : (UA && sA.allow_split) = true → (UB && sB.allow_split) = true)
    (hM : (UA && sA.allow_merge) = true → (UB && sB.allow_merge) = true)
    (hda : TA = true → ∀ b : UCharType,
      sA.da_.getD b.val 0 = sB.da_.getD b.val 0 ∧ sA.da_.getD b.val 0 < i)
    (hi : 1 ≤ i) :
    ∀ (n j dbA dbB : Nat) (rA rB smA smB : CostType) (MA MB : Matrix CostType),
      n + j = wl + 1 → 1 ≤ j → MA.Ready (wl + 1) (i + 1) → MB.Ready (wl + 1) (i + 1) →
      (TA = true → dbA = dbB) → dbA < j → rB ≤ rA → smB ≤ smA →
      (∀ r, r < i → ∀ j', j' ≤ wl → MB.get r j' ≤ MA.get r j') →
      (∀ r, r < i → MB.get r 0 = MA.get r 0) →
      (∀ j', j' ≤ wl → MB.get 0 j' = MA.get 0 j') →
      (∀ j', j' < j → MB.get i j' ≤ MA.get i j') →
      (∀ j', j' ≤ wl →
        (cost_loop TB UB sB costs key i dc n j dbB rB smB MB).1.get i j' ≤
          (cost_loop TA UA sA costs key i dc n j dbA rA smA MA).1.get i j') ∧
      (cost_loop TB UB sB costs key i dc n j dbB rB smB MB).2 ≤
        (cost_loop TA UA sA costs key i dc n j dbA rA smA MA).2 := by
  intro n
  induction n with
  | zero =>
    intro j dbA dbB rA rB smA smB MA MB hj _ _ _ _ _ _ hsm _ _ _ hrowi
    simp only [cost_loop]
    exact ⟨fun j' hj' => hrowi j' (by omega), hsm⟩
  | succ n ih =>
    intro j dbA dbB rA rB smA smB MA MB hj hj1 hRA hRB hdb hdbj hr hsm hcell hcol hrow hrowi
    simp only [cost_loop]
    have hc := cell_cost_le sA sB costs key i dc MA MB j dbA dbB rA rB TA UA TB UB wl hword
      hcache hT hS hM hda hdb hdbj hi hj1 (by omega) hr hcell hcol hrow
    have hsA := cell_cost_snd TA UA sA costs key i dc MA j dbA rA
    have hsB := cell_cost_snd TB UB sB costs key i dc MB j dbB rB
    generalize cell_cost TA UA sA costs key i dc MA j dbA rA = cA at hc hsA
    generalize cell_cost TB UB sB costs key i dc MB j dbB rB = cB at hc hsB
    apply ih (j + 1) cA.2 cB.2 cA.1 cB.1 (min smA cA.1) (min smB cB.1) (MA.put i j cA.1)
      (MB.put i j cB.1) (by omega) (by omega) (Matrix.put_ready hRA _ _ _)
      (Matrix.put_ready hRB _ _ _)
    · intro hTA
      rw [hsA, hsB, ← hword, hdb hTA, hTA, hT hTA]
    · rw [hsA]
      split_ifs <;> omega
    · exact hc
    · exact min_le_min hsm hc
    · intro r hr' j' hj'
      rw [Matrix.get_put_ne hRA.1 (by omega) (by omega) (by omega),
        Matrix.get_put_ne hRB.1 (by omega) (by omega) (by omega)]
      exact hcell r hr' j' hj'
    · intro r hr'
      rw [Matrix.get_put_ne hRA.1 (by omega) (by omega) (by omega),
        Matrix.get_put_ne hRB.1 (by omega) (by omega) (by omega)]
      exact hcol r hr'
    · intro j' hj'
      rw [Matrix.get_put_ne hRA.1 (by omega) (by omega) (by omega),
        Matrix.get_put_ne hRB.1 (by omega) (by omega) (by omega)]
      exact hrow j' hj'
    · intro j' hj'
      by_cases he : j' = j
      · subst he
        rw [Matrix.get_put_same hRA (by omega), Matrix.get_put_same hRB (by omega)]
        exact hc
      · rw [Matrix.get_put_ne hRA.1 (by omega) (by omega) (by omega),
          Matrix.get_put_ne hRB.1 (by omega) (by omega) (by omega)]
        exact hrowi j' (by omega)

end Similar

namespace Similar

theorem on_step_eq (dic : Dictionary) (key : List UCharType) (top : BaseType) (s : Similar) :
    on_step dic key top s =
      compute_cost_fast s.allow_transpose (s.allow_split || s.allow_merge) dic key top s := by
  simp only [on_step]
  cases h1 : s.allow_split <;> cases h2 : s.allow_merge <;> cases h3 : s.allow_transpose <;>
    simp

/-- The new row leaves the rows above it alone, and its first entry is the first
entry of the row above plus the cost of deleting the last byte of the key. -/
theorem new_row_old (tr us : Bool) (s : Similar) (key : List UCharType) (cols : Nat)
    (hcols : s.distances_.columns_ = cols) (hc1 : 1 ≤ cols) (hk : 1 ≤ key.length)
    (hready : s.distances_.Ready cols key.length) :
    (∀ r j, r < key.length → j < cols →
      (new_row tr us s key).1.get r j = s.distances_.get r j) ∧
    (new_row tr us s key).1.get key.length 0 =
      s.distances_.get (key.length - 1) 0 +
        (s.costs_.getD Costs.new).delete_.get (key.getD (key.length - 1) 0) := by
  have hal : (s.distances_.allocate key.length).Ready cols (key.length + 1) := by
    have := Matrix.allocate_ready s.distances_ key.length
    rwa [hcols] at this
  have hM1 := Matrix.put_ready hal key.length 0
    ((s.distances_.allocate key.length).get (key.length - 1) 0 +
      (s.costs_.getD Costs.new).delete_.get (key.getD (key.length - 1) 0))
  obtain ⟨_, _, h3⟩ := cost_loop_frame tr us s (s.costs_.getD Costs.new) key key.length
    ((s.costs_.getD Costs.new).delete_.get (key.getD (key.length - 1) 0))
    cols (cols - 1) 1 0
    ((s.distances_.allocate key.length).get (key.length - 1) 0 +
      (s.costs_.getD Costs.new).delete_.get (key.getD (key.length - 1) 0))
    ((s.distances_.allocate key.length).get (key.length - 1) 0 +
      (s.costs_.getD Costs.new).delete_.get (key.getD (key.length - 1) 0))
    ((s.distances_.allocate key.length).put key.length 0
      ((s.distances_.allocate key.length).get (key.length - 1) 0 +
        (s.costs_.getD Costs.new).delete_.get (key.getD (key.length - 1) 0)))
    (by omega) hM1 (by
      intro j' hj'
      have : j' = 0 := by omega
      subst this
      rw [Matrix.get_put_same hal (by omega)])
  simp only [new_row, Matrix.columns, hcols]
  constructor
  · intro r j hr hj
    rw [h3 r j hj (Or.inl (by omega)),
      Matrix.get_put_ne hal.1 (by omega) hj (by omega),
      Matrix.get_allocate hready _ _ _ hr (by omega) hj]
  · rw [h3 key.length 0 (by omega) (Or.inr (by omega)), Matrix.get_put_same hal (by omega),
      Matrix.get_allocate hready _ _ _ (by omega) (by omega) (by omega)]

/-- The new rows of two related states: no cell and not `smallest` is larger in the
state with more features. -/
theorem new_row_le (costs : Costs) (word : List UCharType) (bound : CostType)
    (path : List UCharType) (c : UCharType) (dA dB : Similar)
    (h : Below costs word bound path dA dB) :
    (∀ j, j ≤ word.length →
      (new_row dB.allow_transpose (dB.allow_split || dB.allow_merge) dB (path ++ [c])).1.get
          (path.length + 1) j ≤
        (new_row dA.allow_transpose (dA.allow_split || dA.allow_merge) dA (path ++ [c])).1.get
          (path.length + 1) j) ∧
    (new_row dB.allow_transpose (dB.allow_split || dB.allow_merge) dB (path ++ [c])).2 ≤
      (new_row dA.allow_transpose (dA.allow_split || dA.allow_merge) dA (path ++ [c])).2 := by
  obtain ⟨hcA, hcB, hT, hS, hM, hRA, hRB, hcell, hcol, hrow, hdA, hdB⟩ := h
  obtain ⟨hcostA, hwordA, _, _, _, _, hcolsA, hcacheA⟩ := hcA
  obtain ⟨hcostB, hwordB, _, _, _, _, hcolsB, hcacheB⟩ := hcB
  have halA : (dA.distances_.allocate (path.length + 1)).Ready (word.length + 1)
      (path.length + 2) := by
    have := Matrix.allocate_ready dA.distances_ (path.length + 1)
    rwa [hcolsA] at this
  have halB : (dB.distances_.allocate (path.length + 1)).Ready (word.length + 1)
      (path.length + 2) := by
    have := Matrix.allocate_ready dB.distances_ (path.length + 1)
    rwa [hcolsB] at this
  have goA : ∀ r j, r ≤ path.length → j ≤ word.length →
      (dA.distances_.allocate (path.length + 1)).get r j = dA.distances_.get r j :=
    fun r j hr hj => Matrix.get_allocate hRA _ _ _ (by omega) (by omega) (by omega)
  have goB : ∀ r j, r ≤ path.length → j ≤ word.length →
      (dB.distances_.allocate (path.length + 1)).get r j = dB.distances_.get r j :=
    fun r j hr hj => Matrix.get_allocate hRB _ _ _ (by omega) (by omega) (by omega)
  have hcache : ∀ j', j' < word.length →
      dA.cached_insert_cost_.getD j' 0 = dB.cached_insert_cost_.getD j' 0 :=
    fun j' hj' => (hcacheA j' hj').trans (hcacheB j' hj').symm
  simp only [new_row, hcostA, hcostB, Option.getD_some, List.length_append,
    List.length_singleton, Nat.add_sub_cancel, getD_append_last, Matrix.columns, hcolsA,
    hcolsB]
  rw [goA _ _ le_rfl (Nat.zero_le _), goB _ _ le_rfl (Nat.zero_le _), hcol _ le_rfl]
  apply cost_loop_le dA dB costs (path ++ [c]) (path.length + 1) (costs.delete_.get c)
    dA.allow_transpose (dA.allow_split || dA.allow_merge) dB.allow_transpose
    (dB.allow_split || dB.allow_merge) word.length (hwordA.trans hwordB.symm) hcache hT
    (by
      intro hh
      have : dA.allow_split = true := by
        cases h1 : dA.allow_split
        · simp [h1] at hh
        · rfl
      simp [hS this])
    (by
      intro hh
      have : dA.allow_merge = true := by
        cases h1 : dA.allow_merge
        · simp [h1] at hh
        · rfl
      simp [hM this])
    (by
      intro hTA b
      obtain ⟨_, _, h1, _⟩ := hdA hTA
      obtain ⟨_, _, h2, _⟩ := hdB (hT hTA)
      rw [h1 b, h2 b]
      exact ⟨rfl, Nat.lt_succ_of_le (lastDepth_le path b)⟩)
    (by omega) word.length 1 0 0 _ _ _ _ _ _ (by omega) le_rfl
    (Matrix.put_ready halA _ _ _) (Matrix.put_ready halB _ _ _) (fun _ => rfl) (by omega)
    le_rfl le_rfl
  · intro r hr j hj
    rw [Matrix.get_put_ne halA.1 (by omega) (by omega) (by omega),
      Matrix.get_put_ne halB.1 (by omega) (by omega) (by omega), goA r j (by omega) hj,
      goB r j (by omega) hj]
    exact hcell r (by omega) j hj
  · intro r hr
    rw [Matrix.get_put_ne halA.1 (by omega) (by omega) (by omega),
      Matrix.get_put_ne halB.1 (by omega) (by omega) (by omega), goA r 0 (by omega) (by omega),
      goB r 0 (by omega) (by omega)]
    exact hcol r (by omega)
  · intro j hj
    rw [Matrix.get_put_ne halA.1 (by omega) (by omega) (by omega),
      Matrix.get_put_ne halB.1 (by omega) (by omega) (by omega), goA 0 j (by omega) hj,
      goB 0 j (by omega) hj]
    exact hrow j hj
  · intro j hj
    have : j = 0 := by omega
    subst this
    rw [Matrix.get_put_same halA (by omega), Matrix.get_put_same halB (by omega)]

end Similar

namespace Similar

/-- A call of `on_step` keeps two states related, and the state with more
features descends and yields whenever the other one does, at no larger cost. -/
theorem below_on_step (dic : Dictionary) (costs : Costs) (word : List UCharType)
    (bound : CostType) (path : List UCharType) (c : UCharType) (t : BaseType)
    (dA dB : Similar) (h : Below costs word bound path dA dB) :
    Below costs word bound (path ++ [c]) (on_step dic (path ++ [c]) t dA).1
      (on_step dic (path ++ [c]) t dB).1 ∧
    ((on_step dic (path ++ [c]) t dA).2.1 = true → (on_step dic (path ++ [c]) t dB).2.1 = true) ∧
    ((on_step dic (path ++ [c]) t dA).2.2 = true →
      (on_step dic (path ++ [c]) t dB).2.2 = true ∧
      (on_step dic (path ++ [c]) t dB).1.found_cost_ ≤
        (on_step dic (path ++ [c]) t dA).1.found_cost_) := by
  have hle := new_row_le costs word bound path c dA dB h
  obtain ⟨hcA, hcB, hT, hS, hM, hRA, hRB, hcell, hcol, hrow, hdA, hdB⟩ := h
  have hcA' := config_on_step dic costs word bound _ _ _ (path ++ [c]) t dA hcA
  have hcB' := config_on_step dic costs word bound _ _ _ (path ++ [c]) t dB hcB
  obtain ⟨hcostA, hwordA, hbA, _, _, _, hcolsA, _⟩ := hcA
  obtain ⟨hcostB, hwordB, hbB, _, _, _, hcolsB, _⟩ := hcB
  obtain ⟨_, _, _, fA4, fA5, fA6, _, fA8, _⟩ := on_step_frame dic (path ++ [c]) t dA (by omega)
  obtain ⟨_, _, _, fB4, fB5, fB6, _, fB8, _⟩ := on_step_frame dic (path ++ [c]) t dB (by omega)
  have eA := (compute_fields dA.allow_transpose (dA.allow_split || dA.allow_merge) dic
    (path ++ [c]) t dA).2.2.2.2.2.2.2
  have eB := (compute_fields dB.allow_transpose (dB.allow_split || dB.allow_merge) dic
    (path ++ [c]) t dB).2.2.2.2.2.2.2
  obtain ⟨gA1, gA2, gA3⟩ := compute_flags dA.allow_transpose (dA.allow_split || dA.allow_merge)
    dic (path ++ [c]) t dA
  obtain ⟨gB1, gB2, gB3⟩ := compute_flags dB.allow_transpose (dB.allow_split || dB.allow_merge)
    dic (path ++ [c]) t dB
  rw [← on_step_eq] at eA eB gA1 gA2 gA3 gB1 gB2 gB3
  have hlenA : (path ++ [c]).length = path.length + 1 := by simp
  obtain ⟨oA1, oA2⟩ := new_row_old dA.allow_transpose (dA.allow_split || dA.allow_merge) dA
    (path ++ [c]) (word.length + 1) hcolsA (by omega) (by simp) (by rw [hlenA]; exact hRA)
  obtain ⟨oB1, oB2⟩ := new_row_old dB.allow_transpose (dB.allow_split || dB.allow_merge) dB
    (path ++ [c]) (word.length + 1) hcolsB (by omega) (by simp) (by rw [hlenA]; exact hRB)
  rw [hlenA] at oA1 oA2 oB1 oB2 gA2 gA3 gB2 gB3
  rw [hcolsA, Nat.add_sub_cancel] at gA2 gA3
  rw [hcolsB, Nat.add_sub_cancel] at gB2 gB3
  rw [hbA] at gA1 gA2
  rw [hbB] at gB1 gB2
  refine ⟨⟨?_, ?_, ?_, ?_, ?_, ?_, ?_, ?_, ?_, ?_, ?_, ?_⟩, ?_, ?_⟩
  · rw [fA4, fA5, fA6]; exact hcA'
  · rw [fB4, fB5, fB6]; exact hcB'
  · rw [fA4, fB4]; exact hT
  · rw [fA5, fB5]; exact hS
  · rw [fA6, fB6]; exact hM
  · rw [hcolsA] at fA8; exact fA8
  · rw [hcolsB] at fB8; exact fB8
  · intro r hr j hj
    rw [hlenA] at hr
    rw [eA, eB]
    by_cases hlast : r = path.length + 1
    · subst hlast
      exact hle.1 j hj
    · rw [oA1 r j (by omega) (by omega), oB1 r j (by omega) (by omega)]
      exact hcell r (by omega) j hj
  · intro r hr
    rw [hlenA] at hr
    rw [eA, eB]
    by_cases hlast : r = path.length + 1
    · subst hlast
      rw [oA2, oB2, hcostA, hcostB, Nat.add_sub_cancel, hcol _ le_rfl]
    · rw [oA1 r 0 (by omega) (by omega), oB1 r 0 (by omega) (by omega)]
      exact hcol r (by omega)
  · intro j hj
    rw [eA, eB, oA1 0 j (by omega) (by omega), oB1 0 j (by omega) (by omega)]
    exact hrow j hj
  · intro hTA
    rw [fA4] at hTA
    exact da_inv_on_step dic path c t dA (hdA hTA)
  · intro hTB
    rw [fB4] at hTB
    exact da_inv_on_step dic path c t dB (hdB hTB)
  · intro hd
    exact gB1.2 (le_trans hle.2 (gA1.1 hd))
  · intro hr
    have hA := gA2.1 hr
    have hB : (on_step dic (path ++ [c]) t dB).2.2 = true :=
      gB2.2 ⟨le_trans (hle.1 word.length le_rfl) hA.1, hA.2⟩
    refine ⟨hB, ?_⟩
    rw [gA3 hr, gB3 hB]
    exact hle.1 word.length le_rfl

/-- The calls of `on_ascend` keep two states related. -/
theorem below_on_ascend (costs : Costs) (word : List UCharType) (bound : CostType)
    (path : List UCharType) (c : UCharType) (dA dB : Similar)
    (h : Below costs word bound (path ++ [c]) dA dB) :
    Below costs word bound path (on_ascend (path ++ [c]) dA) (on_ascend (path ++ [c]) dB) := by
  obtain ⟨hcA, hcB, hT, hS, hM, hRA, hRB, hcell, hcol, hrow, hdA, hdB⟩ := h
  have hcA' := config_on_ascend costs word bound _ _ _ (path ++ [c]) dA hcA
  have hcB' := config_on_ascend costs word bound _ _ _ (path ++ [c]) dB hcB
  have fA : (on_ascend (path ++ [c]) dA).allow_transpose = dA.allow_transpose ∧
      (on_ascend (path ++ [c]) dA).allow_split = dA.allow_split ∧
      (on_ascend (path ++ [c]) dA).allow_merge = dA.allow_merge ∧
      (on_ascend (path ++ [c]) dA).distances_ = dA.distances_ := by
    simp only [on_ascend]
    split_ifs <;> exact ⟨rfl, rfl, rfl, rfl⟩
  have fB : (on_ascend (path ++ [c]) dB).allow_transpose = dB.allow_transpose ∧
      (on_ascend (path ++ [c]) dB).allow_split = dB.allow_split ∧
      (on_ascend (path ++ [c]) dB).allow_merge = dB.allow_merge ∧
      (on_ascend (path ++ [c]) dB).distances_ = dB.distances_ := by
    simp only [on_ascend]
    split_ifs <;> exact ⟨rfl, rfl, rfl, rfl⟩
  have hlen : (path ++ [c]).length = path.length + 1 := by simp
  rw [hlen] at hRA hRB hcell hcol
  have hshrink : ∀ M : Matrix CostType, M.Ready (word.length + 1) (path.length + 1 + 1) →
      M.Ready (word.length + 1) (path.length + 1) := by
    intro M hM
    refine ⟨hM.1, le_trans (Nat.mul_le_mul_right _ (by omega)) hM.2⟩
  refine ⟨?_, ?_, ?_, ?_, ?_, ?_, ?_, ?_, ?_, ?_, ?_, ?_⟩
  · rw [fA.1, fA.2.1, fA.2.2.1]; exact hcA'
  · rw [fB.1, fB.2.1, fB.2.2.1]; exact hcB'
  · rw [fA.1, fB.1]; exact hT
  · rw [fA.2.1, fB.2.1]; exact hS
  · rw [fA.2.2.1, fB.2.2.1]; exact hM
  · rw [fA.2.2.2]; exact hshrink _ hRA
  · rw [fB.2.2.2]; exact hshrink _ hRB
  · intro r hr j hj
    rw [fA.2.2.2, fB.2.2.2]
    exact hcell r (by omega) j hj
  · intro r hr
    rw [fA.2.2.2, fB.2.2.2]
    exact hcol r (by omega)
  · intro j hj
    rw [fA.2.2.2, fB.2.2.2]
    exact hrow j hj
  · intro hTA
    rw [fA.1] at hTA
    exact da_inv_on_ascend path c dA (hdA hTA)
  · intro hTB
    rw [fB.1] at hTB
    exact da_inv_on_ascend path c dB (hdB hTB)

end Similar

/-- One step of the walk at a label that is not zero: the call of `on_step`, the
walk below when it descends, the call of `on_ascend`, and the walk from the next
label of the chain. -/
theorem walk_unfold {D : Type} (dic : Dictionary) (guide : Guide) (del : Delegate D) (n : Nat)
    (p : BaseType) (path : List UCharType) (c : UCharType) (d : D) (vs : List (Visit D))
    (d1 : D) (h : walk dic guide del (n + 1) p path c d = some (vs, d1)) (hc : c ≠ 0) :
    ∃ t below d2 beside, dic.Follow c p = some t ∧
      ((del.on_step (path ++ [c]) t d).2.1 = true ∧
          walk dic guide del n t (path ++ [c]) (guide.child t)
            (del.on_step (path ++ [c]) t d).1 = some (below, d2) ∨
        (del.on_step (path ++ [c]) t d).2.1 = false ∧ below = [] ∧
          d2 = (del.on_step (path ++ [c]) t d).1) ∧
      walk dic guide del n p path (guide.sibling t) (del.on_ascend (path ++ [c]) d2) =
        some (beside, d1) ∧
      vs = (⟨path ++ [c], t, (del.on_step (path ++ [c]) t d).1,
          (del.on_step (path ++ [c]) t d).2.1, (del.on_step (path ++ [c]) t d).2.2⟩ :
            Visit D) :: (below ++ beside) := by
  simp only [walk, hc, ite_false] at h
  cases hf : dic.Follow c p with
  | none => simp [hf] at h
  | some t =>
    simp only [hf] at h
    cases hm : (if (del.on_step (path ++ [c]) t d).2.1 = true then
        walk dic guide del n t (path ++ [c]) (guide.child t)
          (del.on_step (path ++ [c]) t d).1
        else some ([], (del.on_step (path ++ [c]) t d).1)) with
    | none => simp [hm] at h
    | some rb =>
      obtain ⟨below, d2⟩ := rb
      simp only [hm] at h
      cases hs : walk dic guide del n p path (guide.sibling t)
          (del.on_ascend (path ++ [c]) d2) with
      | none => simp [hs] at h
      | some rs =>
        obtain ⟨beside, d4⟩ := rs
        simp only [hs, Option.some.injEq, Prod.mk.injEq] at h
        obtain ⟨rfl, rfl⟩ := h
        refine ⟨t, below, d2, beside, rfl, ?_, hs, rfl⟩
        by_cases hd : (del.on_step (path ++ [c]) t d).2.1 = true
        · rw [if_pos hd] at hm
          exact Or.inl ⟨hd, hm⟩
        · rw [if_neg hd] at hm
          simp only [Option.some.injEq, Prod.mk.injEq] at hm
          exact Or.inr ⟨by simpa using hd, hm.1.symm, hm.2.symm⟩

namespace Similar

theorem ready_shrink {M : Matrix CostType} {cols n m : Nat} (h : M.Ready cols n) (hm : m ≤ n) :
    M.Ready cols m :=
  ⟨h.1, le_trans (Nat.mul_le_mul_right _ hm) h.2⟩

theorem on_ascend_matrix (key : List UCharType) (d : Similar) :
    (on_ascend key d).distances_ = d.distances_ := by
  simp only [on_ascend]
  split_ifs <;> rfl

/-- A walk from a path leaves the rows `0 .. |path|` of the matrix alone. -/
theorem walk_keeps_rows (dic : Dictionary) (guide : Guide) (costs : Costs)
    (word : List UCharType) (bound : CostType) (tr sp me : Bool) :
    ∀ (n : Nat) (p : BaseType) (path : List UCharType) (c : UCharType) (d : Similar)
      (vs : List (Visit Similar)) (d1 : Similar),
      walk dic guide (delegate dic) n p path c d = some (vs, d1) →
      Config costs word bound tr sp me d →
      d.distances_.Ready (word.length + 1) (path.length + 1) →
      Config costs word bound tr sp me d1 ∧
      d1.distances_.Ready (word.length + 1) (path.length + 1) ∧
      ∀ r, r ≤ path.length → ∀ j, j ≤ word.length →
        d1.distances_.get r j = d.distances_.get r j := by
  intro n
  induction n with
  | zero => intro p path c d vs d1 h; simp [walk] at h
  | succ n ih =>
    intro p path c d vs d1 h hcfg hready
    by_cases hc : c = 0
    · subst hc
      simp only [walk, ite_true, Option.some.injEq, Prod.mk.injEq] at h
      obtain ⟨_, rfl⟩ := h
      exact ⟨hcfg, hready, fun _ _ _ _ => rfl⟩
    · obtain ⟨t, below, d2, beside, _, hbelow, hs, _⟩ :=
        walk_unfold dic guide (delegate dic) n p path c d vs d1 h hc
      have hcols := hcfg.2.2.2.2.2.2.1
      have hlen : (path ++ [c]).length = path.length + 1 := by simp
      have hcfg1 : Config costs word bound tr sp me (on_step dic (path ++ [c]) t d).1 :=
        config_on_step dic costs word bound tr sp me (path ++ [c]) t d hcfg
      have hready1 : (on_step dic (path ++ [c]) t d).1.distances_.Ready (word.length + 1)
          (path.length + 1 + 1) := by
        have := (on_step_frame dic (path ++ [c]) t d (by omega)).2.2.2.2.2.2.2.1
        rwa [hcols, hlen] at this
      have hrows1 : ∀ r, r ≤ path.length → ∀ j, j ≤ word.length →
          (on_step dic (path ++ [c]) t d).1.distances_.get r j = d.distances_.get r j := by
        intro r hr j hj
        rw [on_step_eq, (compute_fields _ _ dic (path ++ [c]) t d).2.2.2.2.2.2.2]
        exact (new_row_old _ _ d (path ++ [c]) (word.length + 1) hcols (by omega) (by simp)
          (by rw [hlen]; exact hready)).1 r j (by rw [hlen]; omega) (by omega)
      have h2 : Config costs word bound tr sp me d2 ∧
          d2.distances_.Ready (word.length + 1) (path.length + 1 + 1) ∧
          ∀ r, r ≤ path.length → ∀ j, j ≤ word.length →
            d2.distances_.get r j = d.distances_.get r j := by
        rcases hbelow with ⟨_, hb⟩ | ⟨_, _, rfl⟩
        · have hb' : walk dic guide (delegate dic) n t (path ++ [c]) (guide.child t)
              (on_step dic (path ++ [c]) t d).1 = some (below, d2) := hb
          obtain ⟨g1, g2, g3⟩ := ih _ _ _ _ _ _ hb' hcfg1 (by rw [hlen]; exact hready1)
          rw [hlen] at g2 g3
          exact ⟨g1, g2, fun r hr j hj => (g3 r (by omega) j hj).trans (hrows1 r hr j hj)⟩
        · exact ⟨hcfg1, hready1, hrows1⟩
      have hs' : walk dic guide (delegate dic) n p path (guide.sibling t)
          (on_ascend (path ++ [c]) d2) = some (beside, d1) := hs
      obtain ⟨k1, k2, k3⟩ := ih _ _ _ _ _ _ hs'
        (config_on_ascend costs word bound tr sp me (path ++ [c]) d2 h2.1)
        (by rw [on_ascend_matrix]; exact ready_shrink h2.2.1 (by omega))
      refine ⟨k1, k2, ?_⟩
      intro r hr j hj
      rw [k3 r hr j hj, on_ascend_matrix]
      exact h2.2.2 r hr j hj

/-- The relation of two states is kept when the one with more features goes down
into a subtree and comes back. -/
theorem below_of_keeps (costs : Costs) (word : List UCharType) (bound : CostType)
    (path : List UCharType) (dA dB dB2 : Similar) (h : Below costs word bound path dA dB)
    (hcfg : Config costs word bound dB.allow_transpose dB.allow_split dB.allow_merge dB2)
    (hready : dB2.distances_.Ready (word.length + 1) (path.length + 1))
    (hrows : ∀ r, r ≤ path.length → ∀ j, j ≤ word.length →
      dB2.distances_.get r j = dB.distances_.get r j)
    (hda : dB.allow_transpose = true → DaInv path dB2) :
    Below costs word bound path dA dB2 := by
  obtain ⟨hcA, hcB, hT, hS, hM, hRA, hRB, hcell, hcol, hrow, hdA, hdB⟩ := h
  have e1 : dB2.allow_transpose = dB.allow_transpose := hcfg.2.2.2.1
  have e2 : dB2.allow_split = dB.allow_split := hcfg.2.2.2.2.1
  have e3 : dB2.allow_merge = dB.allow_merge := hcfg.2.2.2.2.2.1
  refine ⟨hcA, ?_, ?_, ?_, ?_, hRA, hready, ?_, ?_, ?_, hdA, ?_⟩
  · rw [e1, e2, e3]; exact hcfg
  · rw [e1]; exact hT
  · rw [e2]; exact hS
  · rw [e3]; exact hM
  · intro r hr j hj
    rw [hrows r hr j hj]
    exact hcell r hr j hj
  · intro r hr
    rw [hrows r hr 0 (by omega)]
    exact hcol r hr
  · intro j hj
    rw [hrows 0 (by omega) j hj]
    exact hrow j hj
  · intro h
    rw [e1] at h
    exact hda h

end Similar

namespace Similar

/-- Two walks from related states: the final states are related, and every path at
which the walk with fewer features yields is a path at which the walk with more
features yields, at no larger cost. -/
theorem walk_below (dic : Dictionary) (guide : Guide) (costs : Costs)
    (word : List UCharType) (bound : CostType) :
    ∀ (n : Nat) (p : BaseType) (path : List UCharType) (c : UCharType) (dA dB : Similar)
      (vsA : List (Visit Similar)) (dA1 : Similar) (vsB : List (Visit Similar))
      (dB1 : Similar),
      walk dic guide (delegate dic) n p path c dA = some (vsA, dA1) →
      walk dic guide (delegate dic) n p path c dB = some (vsB, dB1) →
      Below costs word bound path dA dB →
      Below costs word bound path dA1 dB1 ∧
      ∀ v ∈ vsA, v.result = true → ∃ v' ∈ vsB, v'.key = v.key ∧ v'.index = v.index ∧
        v'.result = true ∧ v'.delegate.found_cost_ ≤ v.delegate.found_cost_ := by
  intro n
  induction n with
  | zero => intro p path c dA dB vsA dA1 vsB dB1 h; simp [walk] at h
  | succ n ih =>
    intro p path c dA dB vsA dA1 vsB dB1 hA hB hrel
    by_cases hc : c = 0
    · subst hc
      simp only [walk, ite_true, Option.some.injEq, Prod.mk.injEq] at hA hB
      obtain ⟨rfl, rfl⟩ := hA
      obtain ⟨rfl, rfl⟩ := hB
      exact ⟨hrel, by simp⟩
    · obtain ⟨t, belowA, dA2, besideA, hf, hbA, hsA, rfl⟩ :=
        walk_unfold dic guide (delegate dic) n p path c dA vsA dA1 hA hc
      obtain ⟨t', belowB, dB2, besideB, hf', hbB, hsB, rfl⟩ :=
        walk_unfold dic guide (delegate dic) n p path c dB vsB dB1 hB hc
      rw [hf] at hf'
      simp only [Option.some.injEq] at hf'
      subst hf'
      obtain ⟨hrel1, hdesc, hres⟩ := below_on_step dic costs word bound path c t dA dB hrel
      have hlen : (path ++ [c]).length = path.length + 1 := by simp
      have hsA' : walk dic guide (delegate dic) n p path (guide.sibling t)
          (on_ascend (path ++ [c]) dA2) = some (besideA, dA1) := hsA
      have hsB' : walk dic guide (delegate dic) n p path (guide.sibling t)
          (on_ascend (path ++ [c]) dB2) = some (besideB, dB1) := hsB
      have hmid : Below costs word bound (path ++ [c]) dA2 dB2 ∧
          ∀ v ∈ belowA, v.result = true → ∃ v' ∈ belowB, v'.key = v.key ∧
            v'.index = v.index ∧ v'.result = true ∧
            v'.delegate.found_cost_ ≤ v.delegate.found_cost_ := by
        rcases hbA with ⟨hdA, hwA⟩ | ⟨hdA, rfl, rfl⟩
        · rcases hbB with ⟨_, hwB⟩ | ⟨hdB, _, _⟩
          · exact ih _ _ _ _ _ _ _ _ _ hwA hwB hrel1
          · have : (on_step dic (path ++ [c]) t dB).2.1 = true := hdesc hdA
            have hdB' : (on_step dic (path ++ [c]) t dB).2.1 = false := hdB
            rw [this] at hdB'
            cases hdB'
        · rcases hbB with ⟨_, hwB⟩ | ⟨_, _, rfl⟩
          · have hwB' : walk dic guide (delegate dic) n t (path ++ [c]) (guide.child t)
                (on_step dic (path ++ [c]) t dB).1 = some (belowB, dB2) := hwB
            obtain ⟨_, hcB, _, _, _, _, hRB, _, _, _, _, hdaB⟩ := id hrel1
            obtain ⟨k1, k2, k3⟩ := walk_keeps_rows dic guide costs word bound _ _ _ n _ _ _ _ _ _
              hwB' hcB hRB
            refine ⟨below_of_keeps costs word bound (path ++ [c]) _ _ dB2 hrel1 k1 k2 k3 ?_,
              by simp⟩
            intro htr
            exact (walk_inv dic guide (delegate dic) DaInv
              (fun path c t d hd => da_inv_on_step dic path c t d hd)
              (fun path c d hd => da_inv_on_ascend path c d hd)
              n _ _ _ _ _ _ hwB' (hdaB htr)).1
          · exact ⟨hrel1, by simp⟩
      obtain ⟨hrel2, hresb⟩ := hmid
      have hrel3 := below_on_ascend costs word bound path c dA2 dB2 hrel2
      obtain ⟨hrel4, hress⟩ := ih _ _ _ _ _ _ _ _ _ hsA' hsB' hrel3
      refine ⟨hrel4, ?_⟩
      intro v hv hvr
      rcases List.mem_cons.1 hv with rfl | hv
      · obtain ⟨g1, g2⟩ := hres hvr
        exact ⟨_, List.mem_cons_self _ _, rfl, rfl, g1, g2⟩
      · rcases List.mem_append.1 hv with hv | hv
        · obtain ⟨v', hv', g⟩ := hresb v hv hvr
          exact ⟨v', List.mem_cons_of_mem _ (List.mem_append_left _ hv'), g⟩
        · obtain ⟨v', hv', g⟩ := hress v hv hvr
          exact ⟨v', List.mem_cons_of_mem _ (List.mem_append_right _ hv'), g⟩

end Similar

theorem mem_found_of_visit {D : Type} {found : List (DFS D)} {ys : List (Visit D)}
    (h : found.map DFS.view = ys.map Visit.view) (v : Visit D) (hv : v ∈ ys) :
    ∃ x ∈ found, x.key_ = v.key ∧ x.delegate = v.delegate := by
  have : v.view ∈ ys.map Visit.view := List.mem_map_of_mem _ hv
  rw [← h] at this
  obtain ⟨x, hx, he⟩ := List.mem_map.1 this
  simp only [Visit.view, DFS.view, Prod.mk.injEq] at he
  exact ⟨x, hx, he.1, he.2.2⟩

namespace Similar

theorem start_ready (dic : Dictionary) (s : DFS Similar) (word : List CharType)
    (max_cost : CostType) :
    (start dic s word max_cost).delegate.distances_.Ready (word.length + 1) 1 := by
  have hr : ((s.delegate.distances_.set_columns (word.length + 1)).allocate 0).Ready
      (word.length + 1) 1 := by
    have := Matrix.allocate_ready (s.delegate.distances_.set_columns (word.length + 1)) 0
    simpa [Matrix.set_columns] using this
  have hcols : ((s.delegate.distances_.set_columns (word.length + 1)).allocate 0).columns =
      word.length + 1 := rfl
  obtain ⟨g1, _, _⟩ := start_row_spec (s.delegate.costs_.getD Costs.new) word word.length 1 0
    (resize s.delegate.cached_insert_cost_ word.length 0)
    (((s.delegate.distances_.set_columns (word.length + 1)).allocate 0).put 0 0 0)
    (by omega) le_rfl (Matrix.put_ready hr _ _ _) (Matrix.resize_length _ _ _)
    (by
      intro j' hj'
      have : j' = 0 := by omega
      subst this
      rw [Matrix.get_put_same hr (by omega), List.take_zero, editDistance_nil_nil])
    (by rw [Matrix.get_put_same hr (by omega)])
    (by intro j' hj'; omega)
  simpa [start, DFS.start, hcols] using g1

/-- After `start`, two searches that differ in their flags only are related when
every feature that is on in the first is on in the second. -/
theorem below_start (dic : Dictionary) (s : DFS Similar) (word : List CharType)
    (max_cost : CostType) (tA spA meA tB spB meB : Bool)
    (hT : tA = true → tB = true) (hS : spA = true → spB = true)
    (hM : meA = true → meB = true) :
    Below (s.delegate.costs_.getD Costs.new) word (max 0 max_cost) []
      (start dic (set_enable_merge (set_enable_split (set_enable_transpose s tA) spA) meA)
        word max_cost).delegate
      (start dic (set_enable_merge (set_enable_split (set_enable_transpose s tB) spB) meB)
        word max_cost).delegate := by
  have cA := config_start dic
    (set_enable_merge (set_enable_split (set_enable_transpose s tA) spA) meA) word max_cost
  have cB := config_start dic
    (set_enable_merge (set_enable_split (set_enable_transpose s tB) spB) meB) word max_cost
  have rA := start_ready dic
    (set_enable_merge (set_enable_split (set_enable_transpose s tA) spA) meA) word max_cost
  have rB := start_ready dic
    (set_enable_merge (set_enable_split (set_enable_transpose s tB) spB) meB) word max_cost
  have hd : (start dic (set_enable_merge (set_enable_split (set_enable_transpose s tB) spB) meB)
      word max_cost).delegate.distances_ =
      (start dic (set_enable_merge (set_enable_split (set_enable_transpose s tA) spA) meA)
        word max_cost).delegate.distances_ := rfl
  refine ⟨cA, cB, hT, hS, hM, rA, rB, ?_, ?_, ?_, ?_, ?_⟩
  · intro r _ j _; rw [hd]
  · intro r _; rw [hd]
  · intro j _; rw [hd]
  · intro h
    exact da_inv_start dic _ word max_cost h
  · intro h
    exact da_inv_start dic _ word max_cost h

end Similar

/-- C11 (amended): on a well-formed pair, for every query word, cost table and `max_cost`,
when every feature (transposition, split, merge) that is on in one Similar search
is on in a second one that is otherwise the same, in particular when the second
has one feature more, both client loops end, every key that the first is shown
the second is shown too, and the second shows it at a cost that is not larger. -/
theorem similar_feature_monotone (dic : Dictionary) (guide : Guide)
    (hwf : WellFormed dic guide) (s : DFS Similar) (word : List CharType)
    (max_cost : CostType) (tA spA meA tB spB meB : Bool)
    (hT : tA = true → tB = true) (hS : spA = true → spB = true)
    (hM : meA = true → meB = true) :
    ∃ foundA lastA foundB lastB,
      (∃ fuel, ∀ fuel', fuel ≤ fuel' → ∀ calls, foundA.length < calls →
        DFS.drain dic guide (Similar.delegate dic) fuel' calls
          (Similar.start dic
            (Similar.set_enable_merge
              (Similar.set_enable_split (Similar.set_enable_transpose s tA) spA) meA)
            word max_cost) = some (foundA, lastA)) ∧
      (∃ fuel, ∀ fuel', fuel ≤ fuel' → ∀ calls, foundB.length < calls →
        DFS.drain dic guide (Similar.delegate dic) fuel' calls
          (Similar.start dic
            (Similar.set_enable_merge
              (Similar.set_enable_split (Similar.set_enable_transpose s tB) spB) meB)
            word max_cost) = some (foundB, lastB)) ∧
      ∀ x ∈ foundA, ∃ y ∈ foundB, y.key = x.key ∧ Similar.cost y ≤ Similar.cost x := by
  obtain ⟨nA, _, vsA, dA1, _, hwA, _⟩ := walk_of_wellFormed hwf (Similar.delegate dic)
    (Similar.start dic
      (Similar.set_enable_merge
        (Similar.set_enable_split (Similar.set_enable_transpose s tA) spA) meA)
      word max_cost).delegate
  obtain ⟨nB, _, vsB, dB1, _, hwB, _⟩ := walk_of_wellFormed hwf (Similar.delegate dic)
    (Similar.start dic
      (Similar.set_enable_merge
        (Similar.set_enable_split (Similar.set_enable_transpose s tB) spB) meB)
      word max_cost).delegate
  obtain ⟨foundA, hpA, hlastA, hvA⟩ := DFS.passes_of_start dic guide (Similar.delegate dic)
    hwf.1 _ nA vsA dA1 hwA
  obtain ⟨foundB, hpB, hlastB, hvB⟩ := DFS.passes_of_start dic guide (Similar.delegate dic)
    hwf.1 _ nB vsB dB1 hwB
  obtain ⟨fuelA, hfA⟩ := DFS.drain_of_passes hpA hlastA (by simp [Similar.start, DFS.start])
  obtain ⟨fuelB, hfB⟩ := DFS.drain_of_passes hpB hlastB (by simp [Similar.start, DFS.start])
  have hwA' := walk_mono dic guide (Similar.delegate dic) nA _ _ _ _ _ hwA (max nA nB)
    (le_max_left _ _)
  have hwB' := walk_mono dic guide (Similar.delegate dic) nB _ _ _ _ _ hwB (max nA nB)
    (le_max_right _ _)
  obtain ⟨_, hres⟩ := Similar.walk_below dic guide _ word _ (max nA nB) _ _ _ _ _ vsA dA1 vsB
    dB1 hwA' hwB' (Similar.below_start dic s word max_cost tA spA meA tB spB meB hT hS hM)
  refine ⟨foundA, _, foundB, _, ⟨fuelA, hfA⟩, ⟨fuelB, hfB⟩, ?_⟩
  intro x hx
  obtain ⟨v, hv, hk, _, hd⟩ := mem_of_map_view hvA x hx
  obtain ⟨hv, hvr⟩ := List.mem_filter.1 hv
  obtain ⟨v', hv', hk', _, hr', hc'⟩ := hres v hv (by simpa using hvr)
  obtain ⟨y, hy, hyk, hyd⟩ := mem_found_of_visit hvB v'
    (List.mem_filter.2 ⟨hv', by simpa using hr'⟩)
  refine ⟨y, hy, ?_, ?_⟩
  · simp only [DFS.key]
    rw [hyk, hk', hk]
  · simp only [Similar.cost]
    rw [hyd, hd]
    exact hc'

/-! ## The recurrence with transpositions -/

namespace Similar

theorem transposeCost_nil_left (w : List UCharType) : transposeCost [] w = w.length := by
  rw [transposeCost]

theorem transposeCost_nil_right (a : List UCharType) : transposeCost a [] = a.length := by
  cases a with
  | nil => rw [transposeCost]
  | cons x k => rw [transposeCost]; rfl

theorem transposeCost_cons_cons (a : UCharType) (k : List UCharType) (b : UCharType)
    (w : List UCharType) :
    transposeCost (a :: k) (b :: w) =
      if k.indexOf b < k.length ∧ w.indexOf a < w.length then
        min (if b ≠ a then
            min (min (transposeCost (a :: k) w + 1) (transposeCost k (b :: w) + 1))
              (transposeCost k w + 1)
          else transposeCost k w)
          (transposeCost (k.drop (k.indexOf b + 1)) (w.drop (w.indexOf a + 1)) +
            k.indexOf b + 1 + w.indexOf a)
      else
        (if b ≠ a then
            min (min (transposeCost (a :: k) w + 1) (transposeCost k (b :: w) + 1))
              (transposeCost k w + 1)
          else transposeCost k w) := by
  rw [transposeCost]

/-- The first occurrence of a byte in a list, as an index and as a split. -/
theorem indexOf_first (p : List UCharType) (y : UCharType) (r : List UCharType) (h : y ∉ p) :
    (p ++ y :: r).indexOf y = p.length ∧ (p ++ y :: r).drop (p.length + 1) = r := by
  constructor
  · rw [List.indexOf_append_of_not_mem h, List.indexOf_cons_self, Nat.add_zero]
  · rw [List.drop_append_eq_append_drop]
    simp

theorem first_of_indexOf (a : List UCharType) (y : UCharType)
    (h : a.indexOf y < a.length) : ∃ p r, a = p ++ y :: r ∧ y ∉ p :=
  List.eq_append_cons_of_mem (List.indexOf_lt_length.1 h)

/-- The cell is at most the candidate that the loop computes first. -/
theorem transposeCost_base_le (x : UCharType) (a : List UCharType) (y : UCharType)
    (w : List UCharType) :
    transposeCost (x :: a) (y :: w) ≤
      if y ≠ x then
        min (min (transposeCost (x :: a) w + 1) (transposeCost a (y :: w) + 1))
          (transposeCost a w + 1)
      else transposeCost a w := by
  rw [transposeCost_cons_cons]
  split_ifs <;> simp

/-- The cell is at most the transposition candidate, when the last occurrences
exist. -/
theorem transposeCost_le_first (x : UCharType) (y : UCharType)
    (p a0 q w0 : List UCharType) (hp : y ∉ p) (hq : x ∉ q) :
    transposeCost (x :: (p ++ y :: a0)) (y :: (q ++ x :: w0)) ≤
      transposeCost a0 w0 + p.length + 1 + q.length := by
  rw [transposeCost_cons_cons]
  obtain ⟨e1, e2⟩ := indexOf_first p y a0 hp
  obtain ⟨e3, e4⟩ := indexOf_first q x w0 hq
  rw [e1, e2, e3, e4]
  have c1 : p.length < (p ++ y :: a0).length := by simp
  have c2 : q.length < (q ++ x :: w0).length := by simp
  rw [if_pos ⟨c1, c2⟩]
  exact min_le_right _ _

/-- The cell is one of its candidates. -/
theorem transposeCost_cases (x : UCharType) (a : List UCharType) (y : UCharType)
    (w : List UCharType) :
    (transposeCost (x :: a) (y :: w) =
      if y ≠ x then
        min (min (transposeCost (x :: a) w + 1) (transposeCost a (y :: w) + 1))
          (transposeCost a w + 1)
      else transposeCost a w) ∨
    ∃ p a0 q w0, a = p ++ y :: a0 ∧ y ∉ p ∧ w = q ++ x :: w0 ∧ x ∉ q ∧
      transposeCost (x :: a) (y :: w) = transposeCost a0 w0 + p.length + 1 + q.length := by
  by_cases hc : a.indexOf y < a.length ∧ w.indexOf x < w.length
  · obtain ⟨p, a0, ha, hp⟩ := first_of_indexOf a y hc.1
    obtain ⟨q, w0, hw, hq⟩ := first_of_indexOf w x hc.2
    rcases Nat.le_total
      (if y ≠ x then
        min (min (transposeCost (x :: a) w + 1) (transposeCost a (y :: w) + 1))
          (transposeCost a w + 1)
      else transposeCost a w)
      (transposeCost a0 w0 + p.length + 1 + q.length) with h | h
    · left
      rw [transposeCost_cons_cons, if_pos hc]
      obtain ⟨e1, e2⟩ := indexOf_first p y a0 hp
      obtain ⟨e3, e4⟩ := indexOf_first q x w0 hq
      rw [← ha] at e1 e2
      rw [← hw] at e3 e4
      rw [e1, e2, e3, e4]
      exact min_eq_left h
    · right
      refine ⟨p, a0, q, w0, ha, hp, hw, hq, ?_⟩
      rw [transposeCost_cons_cons, if_pos hc]
      obtain ⟨e1, e2⟩ := indexOf_first p y a0 hp
      obtain ⟨e3, e4⟩ := indexOf_first q x w0 hq
      rw [← ha] at e1 e2
      rw [← hw] at e3 e4
      rw [e1, e2, e3, e4]
      exact min_eq_right h
  · left
    rw [transposeCost_cons_cons, if_neg hc]

/-- The recurrence is symmetric in the path and the word. -/
theorem transposeCost_symm (a w : List UCharType) : transposeCost a w = transposeCost w a := by
  suffices key : ∀ n (a w : List UCharType), a.length + w.length = n →
      transposeCost a w = transposeCost w a from key _ a w rfl
  intro n
  induction n using Nat.strong_induction_on with
  | _ n ih =>
    intro a w h
    cases a with
    | nil => rw [transposeCost_nil_left, transposeCost_nil_right]
    | cons x a =>
      cases w with
      | nil => rw [transposeCost_nil_left, transposeCost_nil_right]
      | cons y w =>
        simp only [List.length_cons] at h
        have i1 : transposeCost (x :: a) w = transposeCost w (x :: a) :=
          ih _ (by simp only [List.length_cons]; omega) _ _ rfl
        have i2 : transposeCost a (y :: w) = transposeCost (y :: w) a :=
          ih _ (by simp only [List.length_cons]; omega) _ _ rfl
        have i3 : transposeCost a w = transposeCost w a := ih _ (by omega) _ _ rfl
        have i4 : transposeCost (a.drop (a.indexOf y + 1)) (w.drop (w.indexOf x + 1)) =
            transposeCost (w.drop (w.indexOf x + 1)) (a.drop (a.indexOf y + 1)) :=
          ih _ (by simp only [List.length_drop]; omega) _ _ rfl
        rw [transposeCost_cons_cons x a y w, transposeCost_cons_cons y w x a, i1, i2, i3, i4]
        have hcomm : (w.indexOf x < w.length ∧ a.indexOf y < a.length) ↔
            (a.indexOf y < a.length ∧ w.indexOf x < w.length) := and_comm
        have hne : x ≠ y ↔ y ≠ x := ne_comm
        simp only [hcomm, hne]
        split_ifs <;> omega

end Similar

namespace Similar

/-- Dropping `p` from the front costs at most `|p|`, from bounds for one byte. -/
theorem cost_block_aux (n : Nat)
    (hP : ∀ (a w : List UCharType) (x : UCharType), a.length + w.length ≤ n →
      transposeCost (x :: a) w ≤ transposeCost a w + 1) :
    ∀ (p t W : List UCharType), p.length + t.length + W.length ≤ n + 1 →
      transposeCost (p ++ t) W ≤ transposeCost t W + p.length := by
  intro p
  induction p with
  | nil => intro t W _; simp
  | cons c p ih =>
    intro t W h
    simp only [List.length_cons] at h
    have h1 := hP (p ++ t) W c (by simp only [List.length_append]; omega)
    have h2 := ih t W (by omega)
    simp only [List.cons_append, List.length_cons]
    omega

theorem cost_end_aux (n : Nat) :
    ∀ (a w : List UCharType) (x : UCharType), a.length + w.length ≤ n →
      transposeCost (x :: a) w ≤ transposeCost a w + 1 ∧
      transposeCost a w ≤ transposeCost (x :: a) w + 1 := by
  induction n with
  | zero =>
    intro a w x h
    have ha : a = [] := List.length_eq_zero.1 (by omega)
    have hw : w = [] := List.length_eq_zero.1 (by omega)
    subst ha hw
    simp [transposeCost_nil_right]
  | succ n ih =>
    intro a w x h
    have hi : ∀ (a w : List UCharType) (x : UCharType), a.length + w.length ≤ n →
        transposeCost (x :: a) w ≤ transposeCost a w + 1 := fun a w x h => (ih a w x h).1
    have hii : ∀ (a w : List UCharType) (x : UCharType), a.length + w.length ≤ n →
        transposeCost a w ≤ transposeCost (x :: a) w + 1 := fun a w x h => (ih a w x h).2
    have hblock := cost_block_aux n hi
    cases w with
    | nil =>
      rw [transposeCost_nil_right, transposeCost_nil_right]
      simp only [List.length_cons]
      omega
    | cons y w =>
      simp only [List.length_cons] at h
      -- the two bounds for one more byte of the word, at the smaller pair
      have hA : transposeCost a (y :: w) ≤ transposeCost a w + 1 := by
        rw [transposeCost_symm a (y :: w), transposeCost_symm a w]
        exact hi w a y (by omega)
      constructor
      · by_cases hxy : y = x
        · subst hxy
          have h1 := transposeCost_base_le y a y w
          simp only [ne_eq, not_true_eq_false, if_false] at h1
          have h2 : transposeCost a w ≤ transposeCost a (y :: w) + 1 := by
            rw [transposeCost_symm a (y :: w), transposeCost_symm a w]
            exact hii w a y (by omega)
          omega
        · have h1 := transposeCost_base_le x a y w
          rw [if_pos hxy] at h1
          omega
      · have hB : transposeCost a w ≤ transposeCost (x :: a) w + 1 := hii a w x (by omega)
        rcases transposeCost_cases x a y w with h1 | ⟨p, a0, q, w0, ha, hp, hw, hq, h1⟩
        · by_cases hxy : y = x
          · subst hxy
            simp only [ne_eq, not_true_eq_false, if_false] at h1
            omega
          · rw [if_pos hxy] at h1
            omega
        · rw [h1]
          subst ha hw
          simp only [List.length_append, List.length_cons] at h
          have s1 := hblock p (y :: a0) (y :: (q ++ x :: w0))
            (by simp only [List.length_append, List.length_cons]; omega)
          have s2 := transposeCost_base_le y a0 y (q ++ x :: w0)
          simp only [ne_eq, not_true_eq_false, if_false] at s2
          have s3 : transposeCost a0 (q ++ x :: w0) ≤ transposeCost a0 w0 + (q.length + 1) := by
            rw [transposeCost_symm a0 (q ++ x :: w0), transposeCost_symm a0 w0]
            have := hblock (q ++ [x]) w0 a0
              (by simp only [List.length_append, List.length_cons, List.length_nil]; omega)
            simpa using this
          omega

/-- One more byte on the path changes the cell by at most 1. -/
theorem cost_cons_le (x : UCharType) (a w : List UCharType) :
    transposeCost (x :: a) w ≤ transposeCost a w + 1 :=
  (cost_end_aux _ a w x (Nat.le_refl _)).1

theorem cost_le_cons (x : UCharType) (a w : List UCharType) :
    transposeCost a w ≤ transposeCost (x :: a) w + 1 :=
  (cost_end_aux _ a w x (Nat.le_refl _)).2

theorem cost_cons_le_right (y : UCharType) (a w : List UCharType) :
    transposeCost a (y :: w) ≤ transposeCost a w + 1 := by
  rw [transposeCost_symm a (y :: w), transposeCost_symm a w]
  exact cost_cons_le y w a

theorem cost_le_cons_right (y : UCharType) (a w : List UCharType) :
    transposeCost a w ≤ transposeCost a (y :: w) + 1 := by
  rw [transposeCost_symm a (y :: w), transposeCost_symm a w]
  exact cost_le_cons y w a

theorem cost_append_le (p a w : List UCharType) :
    transposeCost (p ++ a) w ≤ transposeCost a w + p.length :=
  cost_block_aux _ (fun a w x _ => cost_cons_le x a w) p a w (Nat.le_succ _)

theorem cost_append_le_right (q a w : List UCharType) :
    transposeCost a (q ++ w) ≤ transposeCost a w + q.length := by
  rw [transposeCost_symm a (q ++ w), transposeCost_symm a w]
  exact cost_append_le q w a

/-- Equal last bytes: the cell is at most the diagonal cell. -/
theorem cost_match_le (x : UCharType) (a w : List UCharType) :
    transposeCost (x :: a) (x :: w) ≤ transposeCost a w := by
  have h1 := transposeCost_base_le x a x w
  simpa using h1

/-- The cell is at most the diagonal cell plus 1. -/
theorem cost_diag_le (x y : UCharType) (a w : List UCharType) :
    transposeCost (x :: a) (y :: w) ≤ transposeCost a w + 1 := by
  by_cases hxy : y = x
  · subst hxy
    have := cost_match_le y a w
    omega
  · have h1 := transposeCost_base_le x a y w
    rw [if_pos hxy] at h1
    omega

/-- The first occurrence of `y` in `p ++ y :: a0`. -/
theorem first_split (p : List UCharType) (y : UCharType) (a0 : List UCharType) :
    ∃ p1 r, p ++ y :: a0 = p1 ++ y :: (r ++ a0) ∧ y ∉ p1 ∧ p1.length + r.length ≤ p.length := by
  by_cases h : y ∈ p
  · obtain ⟨p1, p2, hp, hp1⟩ := List.eq_append_cons_of_mem h
    refine ⟨p1, p2 ++ [y], ?_, hp1, ?_⟩
    · rw [hp]; simp
    · rw [hp]; simp
  · exact ⟨p, [], by simp, h, by simp⟩

/-- The cell is at most the transposition candidate for any earlier occurrences,
not only the last ones. -/
theorem cost_swap_le (x y : UCharType) (p a0 q w0 : List UCharType) :
    transposeCost (x :: (p ++ y :: a0)) (y :: (q ++ x :: w0)) ≤
      transposeCost a0 w0 + p.length + 1 + q.length := by
  obtain ⟨p1, r1, hp, hp1, hl1⟩ := first_split p y a0
  obtain ⟨q1, r2, hq, hq1, hl2⟩ := first_split q x w0
  rw [hp, hq]
  have h1 := transposeCost_le_first x y p1 (r1 ++ a0) q1 (r2 ++ w0) hp1 hq1
  have h2 := cost_append_le r1 a0 (r2 ++ w0)
  have h3 := cost_append_le_right r2 a0 w0
  omega

end Similar

namespace Similar

theorem cost_append_cons_le_right (q : List UCharType) (x : UCharType) (a w : List UCharType) :
    transposeCost a (q ++ x :: w) ≤ transposeCost a w + q.length + 1 := by
  have h1 := cost_append_le_right q a (x :: w)
  have h2 := cost_cons_le_right x a w
  omega

theorem cost_append_cons_le (p : List UCharType) (x : UCharType) (a w : List UCharType) :
    transposeCost (p ++ x :: a) w ≤ transposeCost a w + p.length + 1 := by
  have h1 := cost_append_le p (x :: a) w
  have h2 := cost_cons_le x a w
  omega

theorem dominates_cons (x : UCharType) (S S2 : List UCharType) (h : Dominates S S2) :
    Dominates (x :: S) (x :: S2) := by
  constructor
  · intro z
    induction z with
    | nil =>
      have := h.1 []
      rw [transposeCost_nil_right, transposeCost_nil_right] at this
      rw [transposeCost_nil_right, transposeCost_nil_right]
      simp only [List.length_cons]
      omega
    | cons y z ih =>
      have f1 := cost_cons_le_right y (x :: S) z
      have f2 := cost_cons_le x S (y :: z)
      have f3 := cost_diag_le x y S z
      have g2 := h.1 (y :: z)
      have g3 := h.1 z
      rcases transposeCost_cases x S2 y z with h1 | ⟨p, S0, q, z0, hS2, hp, hz, hq, h1⟩
      · by_cases hxy : y = x
        · subst hxy
          simp only [ne_eq, not_true_eq_false, if_false] at h1
          have := cost_match_le y S z
          omega
        · rw [if_pos hxy] at h1
          omega
      · rw [h1]
        rcases h.2 y p S0 z0 hS2 hp with ⟨p2, T0, hS, _, hle⟩ | hle
        · subst hS hz
          have := cost_swap_le x y p2 T0 q z0
          omega
        · subst hz
          have s1 := cost_cons_le_right y (x :: S) (q ++ x :: z0)
          have s2 := cost_append_le_right q (x :: S) (x :: z0)
          have s3 := cost_match_le x S z0
          omega
  · intro y p S0 z hS2 hp
    cases p with
    | nil =>
      simp only [List.nil_append, List.cons.injEq] at hS2
      obtain ⟨rfl, rfl⟩ := hS2
      left
      exact ⟨[], S, rfl, hp, by have := h.1 z; simpa using this⟩
    | cons e p =>
      simp only [List.cons_append, List.cons.injEq] at hS2
      obtain ⟨rfl, rfl⟩ := hS2
      have hp2 : y ∉ p := fun hm => hp (List.mem_cons_of_mem _ hm)
      have hne : y ≠ x := fun he => hp (by rw [he]; exact List.mem_cons_self _ _)
      rcases h.2 y p S0 z rfl hp2 with ⟨p2, T0, hS, hp3, hle⟩ | hle
      · left
        refine ⟨x :: p2, T0, by rw [hS]; rfl, ?_, ?_⟩
        · intro hm
          rcases List.mem_cons.1 hm with hm | hm
          · exact hne hm
          · exact hp3 hm
        · simp only [List.length_cons]
          omega
      · right
        have := cost_cons_le x S z
        simp only [List.length_cons]
        omega

theorem dominates_append (V S S2 : List UCharType) (h : Dominates S S2) :
    Dominates (V ++ S) (V ++ S2) := by
  induction V with
  | nil => exact h
  | cons x V ih => exact dominates_cons x _ _ ih

theorem dominates_insert (c : UCharType) (S : List UCharType) : Dominates S (c :: S) := by
  constructor
  · intro z
    exact cost_le_cons c S z
  · intro y p S0 z hS2 hp
    cases p with
    | nil =>
      simp only [List.nil_append, List.cons.injEq] at hS2
      obtain ⟨rfl, rfl⟩ := hS2
      right
      simp
    | cons e p =>
      simp only [List.cons_append, List.cons.injEq] at hS2
      obtain ⟨rfl, rfl⟩ := hS2
      left
      refine ⟨p, S0, rfl, fun hm => hp (List.mem_cons_of_mem _ hm), ?_⟩
      simp only [List.length_cons]
      omega

theorem dominates_delete (c : UCharType) (S : List UCharType) : Dominates (c :: S) S := by
  constructor
  · intro z
    exact cost_cons_le c S z
  · intro y p S0 z hS2 hp
    subst hS2
    by_cases hcy : y = c
    · subst hcy
      left
      refine ⟨[], p ++ y :: S0, rfl, by simp, ?_⟩
      have := cost_append_cons_le p y S0 z
      simp only [List.length_nil]
      omega
    · left
      refine ⟨c :: p, S0, rfl, ?_, ?_⟩
      · intro hm
        rcases List.mem_cons.1 hm with hm | hm
        · exact hcy hm
        · exact hp hm
      · simp only [List.length_cons]
        omega

theorem cost_substitute_le (c c2 : UCharType) (S : List UCharType) (z : List UCharType) :
    transposeCost (c :: S) z ≤ transposeCost (c2 :: S) z + 1 := by
  induction z with
  | nil =>
    rw [transposeCost_nil_right, transposeCost_nil_right]
    simp
  | cons y z ih =>
    have f1 := cost_cons_le_right y (c :: S) z
    have f2 := cost_cons_le c S (y :: z)
    have f3 := cost_diag_le c y S z
    rcases transposeCost_cases c2 S y z with h1 | ⟨p, S0, q, z0, hS, hp, hz, hq, h1⟩
    · by_cases hxy : y = c2
      · subst hxy
        simp only [ne_eq, not_true_eq_false, if_false] at h1
        omega
      · rw [if_pos hxy] at h1
        omega
    · rw [h1]
      subst hS hz
      have s1 := cost_cons_le c (p ++ y :: S0) (y :: (q ++ c2 :: z0))
      have s2 := cost_append_le p (y :: S0) (y :: (q ++ c2 :: z0))
      have s3 := cost_match_le y S0 (q ++ c2 :: z0)
      have s4 := cost_append_cons_le_right q c2 S0 z0
      omega

theorem dominates_substitute (c c2 : UCharType) (S : List UCharType) :
    Dominates (c :: S) (c2 :: S) := by
  constructor
  · exact cost_substitute_le c c2 S
  · intro y p S0 z hS2 hp
    cases p with
    | nil =>
      simp only [List.nil_append, List.cons.injEq] at hS2
      obtain ⟨rfl, rfl⟩ := hS2
      right
      have := cost_cons_le c S z
      simpa using this
    | cons e p =>
      simp only [List.cons_append, List.cons.injEq] at hS2
      obtain ⟨rfl, rfl⟩ := hS2
      have hp2 : y ∉ p := fun hm => hp (List.mem_cons_of_mem _ hm)
      by_cases hcy : y = c
      · subst hcy
        left
        refine ⟨[], p ++ y :: S0, rfl, by simp, ?_⟩
        have := cost_append_cons_le p y S0 z
        simp only [List.length_nil, List.length_cons]
        omega
      · left
        refine ⟨c :: p, S0, rfl, ?_, ?_⟩
        · intro hm
          rcases List.mem_cons.1 hm with hm | hm
          · exact hcy hm
          · exact hp2 hm
        · simp only [List.length_cons]
          omega

end Similar

namespace Similar

/-- A swap of the last two bytes of the path followed by a match of the last
byte. -/
theorem cost_swap_match (c c2 : UCharType) (S z : List UCharType) :
    transposeCost (c :: c2 :: S) (c2 :: z) ≤ transposeCost (c :: S) z + 1 := by
  induction z with
  | nil =>
    have s1 := cost_cons_le c (c2 :: S) [c2]
    have s2 := cost_match_le c2 S []
    rw [transposeCost_nil_right] at s2 ⊢
    simp only [List.length_cons]
    omega
  | cons y z ih =>
    have f1 : transposeCost (c :: c2 :: S) (c2 :: y :: z) ≤
        transposeCost (c :: c2 :: S) (c2 :: z) + 1 := by
      have := (dominates_cons c2 _ _ (dominates_delete y z)).1 (c :: c2 :: S)
      rw [transposeCost_symm (c2 :: y :: z), transposeCost_symm (c2 :: z)] at this
      exact this
    have f2 := cost_cons_le c (c2 :: S) (c2 :: y :: z)
    have f3 := cost_match_le c2 S (y :: z)
    have f4 := cost_diag_le c c2 (c2 :: S) (y :: z)
    have f5 := cost_diag_le c2 y S z
    rcases transposeCost_cases c S y z with h1 | ⟨p, S0, q, z0, hS, hp, hz, hq, h1⟩
    · by_cases hxy : y = c
      · subst hxy
        simp only [ne_eq, not_true_eq_false, if_false] at h1
        have := cost_swap_le y c2 [] S [] z
        simp only [List.nil_append, List.length_nil] at this
        omega
      · rw [if_pos hxy] at h1
        omega
    · rw [h1]
      subst hS hz
      have s1 := cost_match_le c2 (p ++ y :: S0) (y :: (q ++ c :: z0))
      have s2 := cost_append_le p (y :: S0) (y :: (q ++ c :: z0))
      have s3 := cost_match_le y S0 (q ++ c :: z0)
      have s4 := cost_append_cons_le_right q c S0 z0
      omega

theorem cost_swap_heads (c c2 : UCharType) (S z : List UCharType) :
    transposeCost (c :: c2 :: S) z ≤ transposeCost (c2 :: c :: S) z + 1 := by
  induction z with
  | nil =>
    rw [transposeCost_nil_right, transposeCost_nil_right]
    simp
  | cons y z ih =>
    have f1 := cost_cons_le_right y (c :: c2 :: S) z
    have f2 := (dominates_cons c _ _ (dominates_delete c2 S)).1 (y :: z)
    have f3 := cost_diag_le c y (c2 :: S) z
    have f4 := cost_substitute_le c2 c S z
    rcases transposeCost_cases c2 (c :: S) y z with h1 | ⟨p, S0, q, z0, hS, hp, hz, hq, h1⟩
    · by_cases hxy : y = c2
      · subst hxy
        simp only [ne_eq, not_true_eq_false, if_false] at h1
        have := cost_swap_match c y S z
        omega
      · rw [if_pos hxy] at h1
        omega
    · rw [h1]
      subst hz
      cases p with
      | nil =>
        simp only [List.nil_append, List.cons.injEq] at hS
        obtain ⟨rfl, rfl⟩ := hS
        have s1 := cost_match_le c (c2 :: S) (q ++ c2 :: z0)
        have s2 := cost_append_le_right q (c2 :: S) (c2 :: z0)
        have s3 := cost_match_le c2 S z0
        simp only [List.length_nil]
        omega
      | cons e p =>
        simp only [List.cons_append, List.cons.injEq] at hS
        obtain ⟨rfl, rfl⟩ := hS
        have s1 := cost_cons_le c (c2 :: (p ++ y :: S0)) (y :: (q ++ c2 :: z0))
        have s2 := cost_swap_le c2 y p S0 q z0
        simp only [List.length_cons]
        omega

theorem dominates_swap (c c2 : UCharType) (S : List UCharType) :
    Dominates (c :: c2 :: S) (c2 :: c :: S) := by
  constructor
  · exact cost_swap_heads c c2 S
  · intro y p S0 z hS2 hp
    cases p with
    | nil =>
      simp only [List.nil_append, List.cons.injEq] at hS2
      obtain ⟨rfl, rfl⟩ := hS2
      right
      have := (dominates_cons c _ _ (dominates_delete c2 S)).1 z
      simpa using this
    | cons e p =>
      simp only [List.cons_append, List.cons.injEq] at hS2
      obtain ⟨rfl, hS2⟩ := hS2
      have hye : y ≠ c2 := fun he => hp (by rw [he]; exact List.mem_cons_self _ _)
      have hp2 : y ∉ p := fun hm => hp (List.mem_cons_of_mem _ hm)
      cases p with
      | nil =>
        simp only [List.nil_append, List.cons.injEq] at hS2
        obtain ⟨rfl, rfl⟩ := hS2
        left
        refine ⟨[], c2 :: S, rfl, by simp, ?_⟩
        have := cost_cons_le c2 S z
        simp only [List.length_nil, List.length_cons]
        omega
      | cons e2 p =>
        simp only [List.cons_append, List.cons.injEq] at hS2
        obtain ⟨rfl, rfl⟩ := hS2
        have hye2 : y ≠ c := fun he => hp2 (by rw [he]; exact List.mem_cons_self _ _)
        have hp3 : y ∉ p := fun hm => hp2 (List.mem_cons_of_mem _ hm)
        left
        refine ⟨c :: c2 :: p, S0, rfl, ?_, ?_⟩
        · intro hm
          rcases List.mem_cons.1 hm with hm | hm
          · exact hye2 hm
          · rcases List.mem_cons.1 hm with hm | hm
            · exact hye hm
            · exact hp3 hm
        · simp only [List.length_cons]
          omega

end Similar

/-- One edit of the path changes no cell by more than 1. -/
theorem edit_dominates (a b : List UCharType) (h : Edit a b) : Similar.Dominates a b := by
  cases h with
  | insert u v c => exact Similar.dominates_append u _ _ (Similar.dominates_insert c v)
  | delete u v c => exact Similar.dominates_append u _ _ (Similar.dominates_delete c v)
  | substitute u v c c2 =>
    exact Similar.dominates_append u _ _ (Similar.dominates_substitute c c2 v)
  | swap u v c c2 => exact Similar.dominates_append u _ _ (Similar.dominates_swap c c2 v)

theorem transposeCost_self (a : List UCharType) : Similar.transposeCost a a = 0 := by
  induction a with
  | nil => rw [Similar.transposeCost_nil_left]; rfl
  | cons x a ih =>
    have := Similar.cost_match_le x a a
    omega

/-- No sequence of edits from `a` to `w` is shorter than the value of the
recurrence. -/
theorem transposeCost_le_chain (n : Nat) (a w : List UCharType) (h : EditChain n a w) :
    Similar.transposeCost a w ≤ n := by
  induction h with
  | done a => rw [transposeCost_self]
  | step n a b c hab _ ih =>
    have := (edit_dominates a b hab).1 c
    omega

theorem edit_append_left (s a b : List UCharType) (h : Edit a b) : Edit (s ++ a) (s ++ b) := by
  cases h with
  | insert u v c =>
    have := Edit.insert (s ++ u) v c
    simpa using this
  | delete u v c =>
    have := Edit.delete (s ++ u) v c
    simpa using this
  | substitute u v c c2 =>
    have := Edit.substitute (s ++ u) v c c2
    simpa using this
  | swap u v c c2 =>
    have := Edit.swap (s ++ u) v c c2
    simpa using this

theorem edit_reverse (a b : List UCharType) (h : Edit a b) : Edit a.reverse b.reverse := by
  cases h with
  | insert u v c =>
    have := Edit.insert v.reverse u.reverse c
    simpa using this
  | delete u v c =>
    have := Edit.delete v.reverse u.reverse c
    simpa using this
  | substitute u v c c2 =>
    have := Edit.substitute v.reverse u.reverse c c2
    simpa using this
  | swap u v c c2 =>
    have := Edit.swap v.reverse u.reverse c2 c
    simpa using this

theorem chain_trans (n m : Nat) (a b c : List UCharType) (h1 : EditChain n a b)
    (h2 : EditChain m b c) : EditChain (n + m) a c := by
  induction h1 with
  | done a => simpa using h2
  | step n a b d hab _ ih =>
    have := EditChain.step (n + m) a b c hab (ih h2)
    have e : n + 1 + m = n + m + 1 := by omega
    rw [e]
    exact this

theorem chain_append_left (s : List UCharType) (n : Nat) (a b : List UCharType)
    (h : EditChain n a b) : EditChain n (s ++ a) (s ++ b) := by
  induction h with
  | done a => exact EditChain.done _
  | step n a b c hab _ ih => exact EditChain.step n _ _ _ (edit_append_left s a b hab) ih

theorem chain_reverse (n : Nat) (a b : List UCharType) (h : EditChain n a b) :
    EditChain n a.reverse b.reverse := by
  induction h with
  | done a => exact EditChain.done _
  | step n a b c hab _ ih => exact EditChain.step n _ _ _ (edit_reverse a b hab) ih

theorem chain_one (a b : List UCharType) (h : Edit a b) : EditChain 1 a b :=
  EditChain.step 0 a b b h (EditChain.done b)

/-- The deletion of the bytes `p` in front of `a`. -/
theorem chain_delete (p a : List UCharType) : EditChain p.length (p ++ a) a := by
  induction p with
  | nil => exact EditChain.done _
  | cons x p ih =>
    have h1 : Edit (x :: (p ++ a)) (p ++ a) := Edit.delete [] (p ++ a) x
    exact EditChain.step _ _ _ _ h1 ih

/-- The insertion of the bytes `q` in front of `a`. -/
theorem chain_insert (q a : List UCharType) : EditChain q.length a (q ++ a) := by
  induction q with
  | nil => exact EditChain.done _
  | cons x q ih =>
    have h1 : Edit (q ++ a) (x :: (q ++ a)) := Edit.insert [] (q ++ a) x
    have := chain_trans _ _ _ _ _ ih (chain_one _ _ h1)
    exact this

/-- The value of the recurrence is the length of a sequence of edits. -/
theorem chain_of_transposeCost (a w : List UCharType) :
    EditChain (Similar.transposeCost a w) a w := by
  suffices key : ∀ n (a w : List UCharType), a.length + w.length = n →
      EditChain (Similar.transposeCost a w) a w from key _ a w rfl
  intro n
  induction n using Nat.strong_induction_on with
  | _ n ih =>
    intro a w h
    cases a with
    | nil =>
      rw [Similar.transposeCost_nil_left]
      have := chain_insert w []
      simpa using this
    | cons x a =>
      cases w with
      | nil =>
        rw [Similar.transposeCost_nil_right]
        have := chain_delete (x :: a) []
        simpa using this
      | cons y w =>
        simp only [List.length_cons] at h
        have i1 : EditChain (Similar.transposeCost (x :: a) w) (x :: a) w :=
          ih _ (by simp only [List.length_cons]; omega) _ _ rfl
        have i2 : EditChain (Similar.transposeCost a (y :: w)) a (y :: w) :=
          ih _ (by simp only [List.length_cons]; omega) _ _ rfl
        have i3 : EditChain (Similar.transposeCost a w) a w := ih _ (by omega) _ _ rfl
        have c1 : EditChain (Similar.transposeCost (x :: a) w + 1) (x :: a) (y :: w) :=
          chain_trans _ _ _ _ _ i1 (chain_one _ _ (Edit.insert [] w y))
        have c2 : EditChain (Similar.transposeCost a (y :: w) + 1) (x :: a) (y :: w) := by
          have := chain_trans _ _ _ _ _ (chain_one _ _ (Edit.delete [] a x)) i2
          rw [Nat.add_comm] at this
          exact this
        have c3 : EditChain (Similar.transposeCost a w + 1) (x :: a) (y :: w) := by
          have := chain_trans _ _ _ _ _ (chain_one _ _ (Edit.substitute [] a x y))
            (chain_append_left [y] _ _ _ i3)
          rw [Nat.add_comm] at this
          exact this
        have c4 : y = x → EditChain (Similar.transposeCost a w) (x :: a) (y :: w) := by
          rintro rfl
          exact chain_append_left [y] _ _ _ i3
        rcases Similar.transposeCost_cases x a y w with h1 | ⟨p, a0, q, w0, ha, hp, hw, hq, h1⟩
        · rw [h1]
          by_cases hxy : y = x
          · rw [if_neg (not_not.2 hxy)]
            exact c4 hxy
          · rw [if_pos hxy]
            rcases Nat.le_total (Similar.transposeCost (x :: a) w + 1)
              (Similar.transposeCost a (y :: w) + 1) with g1 | g1
            · rcases Nat.le_total (Similar.transposeCost (x :: a) w + 1)
                (Similar.transposeCost a w + 1) with g2 | g2
              · rw [min_eq_left g1, min_eq_left g2]; exact c1
              · rw [min_eq_left g1, min_eq_right g2]; exact c3
            · rcases Nat.le_total (Similar.transposeCost a (y :: w) + 1)
                (Similar.transposeCost a w + 1) with g2 | g2
              · rw [min_eq_right g1, min_eq_left g2]; exact c2
              · rw [min_eq_right g1, min_eq_right g2]; exact c3
        · rw [h1]
          subst ha hw
          simp only [List.length_append, List.length_cons] at h
          have i4 : EditChain (Similar.transposeCost a0 w0) a0 w0 := ih _ (by omega) _ _ rfl
          -- delete `p`, swap, edit the rest, insert `q`
          have d1 : EditChain p.length (x :: (p ++ y :: a0)) (x :: y :: a0) :=
            chain_append_left [x] _ _ _ (chain_delete p (y :: a0))
          have d2 : EditChain 1 (x :: y :: a0) (y :: x :: a0) :=
            chain_one _ _ (Edit.swap [] a0 x y)
          have d3 : EditChain (Similar.transposeCost a0 w0) (y :: x :: a0) (y :: x :: w0) :=
            chain_append_left [y, x] _ _ _ i4
          have d4 : EditChain q.length (y :: x :: w0) (y :: (q ++ x :: w0)) :=
            chain_append_left [y] _ _ _ (chain_insert q (x :: w0))
          have := chain_trans _ _ _ _ _ (chain_trans _ _ _ _ _ (chain_trans _ _ _ _ _ d1 d2) d3) d4
          have e : p.length + 1 + Similar.transposeCost a0 w0 + q.length =
              Similar.transposeCost a0 w0 + p.length + 1 + q.length := by omega
          rw [e] at this
          exact this

/-! ## The matrix of the search with transposition on -/

theorem Costs.new_transpose (a b : UCharType) : Costs.new.transpose.get a b = 1 := by
  simp [Costs.new, CostsMap2.new, CostsMap2.get]

/-- The last occurrence of a byte splits the path. -/
theorem lastDepth_split (p : List UCharType) (c : UCharType) (h : lastDepth p c ≠ 0) :
    ∃ u v, p = u ++ c :: v ∧ c ∉ v ∧ u.length + 1 = lastDepth p c := by
  induction p with
  | nil => simp [lastDepth] at h
  | cons a rest ih =>
    simp only [lastDepth] at h ⊢
    by_cases hr : lastDepth rest c ≠ 0
    · obtain ⟨u, v, e, hv, hl⟩ := ih hr
      rw [if_pos hr]
      refine ⟨a :: u, v, by rw [e]; rfl, hv, ?_⟩
      simp only [List.length_cons]
      omega
    · rw [if_neg hr] at h ⊢
      by_cases hac : a = c
      · subst hac
        rw [if_pos rfl]
        refine ⟨[], rest, rfl, ?_, rfl⟩
        exact (lastDepth_spec rest a).1.1 (not_not.1 hr)
      · rw [if_neg hac] at h
        exact absurd rfl h

/-- The last occurrence on the path is the first one when the path is read from
its end. -/
theorem lastDepth_index (p : List UCharType) (c : UCharType) :
    (lastDepth p c = 0 → ¬ p.reverse.indexOf c < p.reverse.length) ∧
    (lastDepth p c ≠ 0 →
      p.reverse.indexOf c < p.reverse.length ∧
      p.reverse.indexOf c = p.length - lastDepth p c ∧
      p.reverse.drop (p.reverse.indexOf c + 1) = (p.take (lastDepth p c - 1)).reverse) := by
  constructor
  · intro h hlt
    have hm := List.indexOf_lt_length.1 hlt
    exact (lastDepth_spec p c).1.1 h (List.mem_reverse.1 hm)
  · intro h
    obtain ⟨u, v, e, hv, hl⟩ := lastDepth_split p c h
    have hrev : p.reverse = v.reverse ++ c :: u.reverse := by
      rw [e]; simp
    have hv' : c ∉ v.reverse := fun hm => hv (List.mem_reverse.1 hm)
    obtain ⟨e1, e2⟩ := Similar.indexOf_first v.reverse c u.reverse hv'
    rw [← hrev] at e1 e2
    have hlen : p.length = u.length + 1 + v.length := by rw [e]; simp; omega
    refine ⟨?_, ?_, ?_⟩
    · rw [e1, List.length_reverse, List.length_reverse]; omega
    · rw [e1, List.length_reverse]; omega
    · rw [e1, e2, ← hl, Nat.add_sub_cancel, e, List.take_left]

namespace Similar

/-- The recurrence at the path `P ++ [c]` and the word `W ++ [b]`, with the last
occurrences in place of the first ones of the reversed lists. -/
theorem transposeCost_last (P W : List UCharType) (c b : UCharType) :
    transposeCost (c :: P.reverse) (b :: W.reverse) =
      if lastDepth P b ≠ 0 ∧ lastDepth W c ≠ 0 then
        min (if b ≠ c then
            min (min (transposeCost (c :: P.reverse) W.reverse + 1)
                (transposeCost P.reverse (b :: W.reverse) + 1))
              (transposeCost P.reverse W.reverse + 1)
          else transposeCost P.reverse W.reverse)
          (transposeCost (P.take (lastDepth P b - 1)).reverse
              (W.take (lastDepth W c - 1)).reverse +
            (P.length - lastDepth P b) + 1 + (W.length - lastDepth W c))
      else
        (if b ≠ c then
            min (min (transposeCost (c :: P.reverse) W.reverse + 1)
                (transposeCost P.reverse (b :: W.reverse) + 1))
              (transposeCost P.reverse W.reverse + 1)
          else transposeCost P.reverse W.reverse) := by
  rw [transposeCost_cons_cons]
  obtain ⟨p0, p1⟩ := lastDepth_index P b
  obtain ⟨w0, w1⟩ := lastDepth_index W c
  by_cases hk : lastDepth P b = 0
  · have c1 : ¬ (P.reverse.indexOf b < P.reverse.length ∧
        W.reverse.indexOf c < W.reverse.length) := fun h => p0 hk h.1
    have c2 : ¬ (lastDepth P b ≠ 0 ∧ lastDepth W c ≠ 0) := fun h => h.1 hk
    rw [if_neg c1, if_neg c2]
  · by_cases hl : lastDepth W c = 0
    · have c1 : ¬ (P.reverse.indexOf b < P.reverse.length ∧
          W.reverse.indexOf c < W.reverse.length) := fun h => w0 hl h.2
      have c2 : ¬ (lastDepth P b ≠ 0 ∧ lastDepth W c ≠ 0) := fun h => h.2 hl
      rw [if_neg c1, if_neg c2]
    · obtain ⟨a1, a2, a3⟩ := p1 hk
      obtain ⟨b1, b2, b3⟩ := w1 hl
      have c1 : P.reverse.indexOf b < P.reverse.length ∧
          W.reverse.indexOf c < W.reverse.length := ⟨a1, b1⟩
      have c2 : lastDepth P b ≠ 0 ∧ lastDepth W c ≠ 0 := ⟨hk, hl⟩
      rw [if_pos c1, if_pos c2, a3, b3, a2, b2]

theorem cell_arith (A B C D k l P J : Nat) (p : Prop) [Decidable p] (hk : k ≤ P)
    (hl : l ≤ J) :
    (if l ≥ 1 then
      if k < 1 ∨ l < 1 then
        if p then min (min ((A : Int) + 1) ((B : Int) + 1)) ((C : Int) + 1) else (C : Int)
      else
        min (if p then min (min ((A : Int) + 1) ((B : Int) + 1)) ((C : Int) + 1) else (C : Int))
          ((D : Int) + ((P : Int) - (k : Int)) + 1 + ((J : Int) - (l : Int)))
    else if p then min (min ((A : Int) + 1) ((B : Int) + 1)) ((C : Int) + 1) else (C : Int)) =
    ((if k ≠ 0 ∧ l ≠ 0 then
        min (if p then min (min (A + 1) (B + 1)) (C + 1) else C)
          (D + (P - k) + 1 + (J - l))
      else if p then min (min (A + 1) (B + 1)) (C + 1) else C : Nat) : Int) := by
  split_ifs <;> omega

/-- One pass of the loop of `compute_cost_fast` with transposition on and the
default costs stores the value of the recurrence, and `db` stays the last column
that holds the last byte of the key. -/
theorem trans_cell (word path : List UCharType) (c : UCharType) (s : Similar)
    (hword : s.word_ = word)
    (hcache : ∀ j, j < word.length → s.cached_insert_cost_.getD j 0 = 1)
    (hda : ∀ b : UCharType, s.da_.getD b.val 0 = lastDepth path b)
    (M : Matrix CostType) (j0 db : Nat) (r1 : CostType) (hj : j0 < word.length)
    (hold : ∀ r, r ≤ path.length → ∀ j', j' ≤ word.length →
      M.get r j' = ((transposeCost (path.take r).reverse (word.take j').reverse : Nat) : Int))
    (hr1 : r1 = ((transposeCost (path ++ [c]).reverse (word.take j0).reverse : Nat) : Int))
    (hdb : db = lastDepth (word.take j0) c) :
    (cell_cost true false s Costs.new (path ++ [c]) (path.length + 1) 1 M (j0 + 1) db r1).1 =
      ((transposeCost (path ++ [c]).reverse (word.take (j0 + 1)).reverse : Nat) : Int) ∧
    (cell_cost true false s Costs.new (path ++ [c]) (path.length + 1) 1 M (j0 + 1) db r1).2 =
      lastDepth (word.take (j0 + 1)) c := by
  have htake := take_succ_getD word j0 hj
  have hkle := lastDepth_le path (word.getD j0 0)
  have hlle := lastDepth_le (word.take j0) c
  have hWlen : (word.take j0).length = j0 := by
    rw [List.length_take]; omega
  rw [hWlen] at hlle
  constructor
  · rw [cell_cost_fst, hword]
    simp only [Bool.false_and, Bool.false_eq_true, ite_false, Bool.true_and, Nat.add_sub_cancel,
      getD_append_last, hda, col_delete_range_cost, row_insert_range_cost, Costs.new_replace,
      Costs.new_transpose, hcache j0 hj, hr1, decide_eq_true_eq]
    rw [hold path.length le_rfl (j0 + 1) (by omega), hold path.length le_rfl j0 (by omega),
      hold path.length le_rfl 0 (by omega),
      hold (lastDepth path (word.getD j0 0)) hkle 0 (by omega),
      hold 0 (by omega) j0 (by omega), hold 0 (by omega) db (by omega),
      hold (lastDepth path (word.getD j0 0) - 1) (by omega) (db - 1) (by omega)]
    simp only [List.take_zero, List.reverse_nil, transposeCost_nil_left, transposeCost_nil_right,
      List.length_reverse, List.length_take, List.take_length, htake, List.reverse_append,
      List.reverse_singleton, List.singleton_append]
    rw [transposeCost_last path (word.take j0) c (word.getD j0 0), ← hdb, hWlen,
      List.take_take]
    have hmin1 : min (db - 1) j0 = db - 1 := by omega
    have hmin2 : min (lastDepth path (word.getD j0 0)) path.length =
        lastDepth path (word.getD j0 0) := by omega
    have hmin3 : min j0 word.length = j0 := by omega
    have hmin4 : min db word.length = db := by omega
    rw [hmin1, hmin2, hmin3, hmin4]
    generalize transposeCost (c :: path.reverse) (word.take j0).reverse = A
    generalize transposeCost path.reverse (word.getD j0 0 :: (word.take j0).reverse) = B
    generalize transposeCost path.reverse (word.take j0).reverse = C
    generalize transposeCost (path.take (lastDepth path (word.getD j0 0) - 1)).reverse
      (word.take (db - 1)).reverse = D
    generalize lastDepth path (word.getD j0 0) = k at hkle
    generalize word.getD j0 0 = b
    have hdbj : db ≤ j0 := by omega
    clear hmin1 hmin2 hmin3 hmin4 hda hold hr1 hdb htake
    exact cell_arith A B C D k db path.length j0 (b ≠ c) hkle hdbj
  · rw [cell_cost_snd, hword, htake, lastDepth_append, ← hdb]
    simp only [Nat.add_sub_cancel, getD_append_last, hWlen, if_true]
    by_cases hbc : word.getD j0 0 = c
    · simp [hbc]
    · simp [hbc]

end Similar

namespace Similar

/-- The loop of `compute_cost_fast` with transposition on and the default costs
fills row `i` with the values of the recurrence with transpositions. -/
theorem trans_loop_spec (word path : List UCharType) (c : UCharType) (s : Similar)
    (hword : s.word_ = word)
    (hcache : ∀ j, j < word.length → s.cached_insert_cost_.getD j 0 = 1)
    (hda : ∀ b : UCharType, s.da_.getD b.val 0 = lastDepth path b) :
    ∀ (n j db : Nat) (r1 sm : CostType) (M : Matrix CostType),
      n + j = word.length + 1 → 1 ≤ j →
      M.Ready (word.length + 1) (path.length + 2) →
      (∀ r, r ≤ path.length → ∀ j', j' ≤ word.length →
        M.get r j' =
          ((transposeCost (path.take r).reverse (word.take j').reverse : Nat) : Int)) →
      (∀ j', j' < j →
        M.get (path.length + 1) j' =
          ((transposeCost (path ++ [c]).reverse (word.take j').reverse : Nat) : Int)) →
      r1 = M.get (path.length + 1) (j - 1) →
      db = lastDepth (word.take (j - 1)) c →
      (∀ r, r ≤ path.length → ∀ j', j' ≤ word.length →
        (cost_loop true false s Costs.new (path ++ [c]) (path.length + 1) 1
          n j db r1 sm M).1.get r j' =
            ((transposeCost (path.take r).reverse (word.take j').reverse : Nat) : Int)) ∧
      ∀ j', j' ≤ word.length →
        (cost_loop true false s Costs.new (path ++ [c]) (path.length + 1) 1
          n j db r1 sm M).1.get (path.length + 1) j' =
          ((transposeCost (path ++ [c]).reverse (word.take j').reverse : Nat) : Int) := by
  intro n
  induction n with
  | zero =>
    intro j db r1 sm M hj _ hr hold hrow _ _
    simp only [cost_loop]
    exact ⟨hold, fun j' hj' => hrow j' (by omega)⟩
  | succ n ih =>
    intro j db r1 sm M hj hj1 hr hold hrow hr1 hdb
    simp only [cost_loop]
    obtain ⟨j0, rfl⟩ : ∃ j0, j = j0 + 1 := ⟨j - 1, by omega⟩
    simp only [Nat.add_sub_cancel] at hr1 hdb
    obtain ⟨hval, hdb'⟩ := trans_cell word path c s hword hcache hda M j0 db r1 (by omega) hold
      (by rw [hr1]; exact hrow j0 (by omega)) hdb
    rw [hval, hdb']
    apply ih (j0 + 1 + 1) _ _ _ _ (by omega) (by omega) (Matrix.put_ready hr _ _ _)
    · intro r hr' j' hj'
      rw [Matrix.get_put_ne hr.1 (by omega) (by omega) (by omega)]
      exact hold r hr' j' hj'
    · intro j' hj'
      by_cases he : j' = j0 + 1
      · subst he
        exact Matrix.get_put_same hr (by omega) _
      · rw [Matrix.get_put_ne hr.1 (by omega) (by omega) (by omega)]
        exact hrow j' (by omega)
    · rw [Nat.add_sub_cancel, Matrix.get_put_same hr (by omega)]
    · rw [Nat.add_sub_cancel]

theorem trans_inv_on_step (dic : Dictionary) (word : List UCharType) (bound : CostType)
    (path : List UCharType) (c : UCharType) (t : BaseType) (d : Similar)
    (h : TransInv word bound path d) :
    TransInv word bound (path ++ [c]) (on_step dic (path ++ [c]) t d).1 := by
  obtain ⟨hcfg, hready, hcells, hdainv⟩ := h
  have hcfg' := config_on_step dic Costs.new word bound true false false (path ++ [c]) t d hcfg
  have hda' := da_inv_on_step dic path c t d hdainv
  obtain ⟨hcosts, hword, hbound, htr, hsp, hme, hcols, hcache⟩ := hcfg
  refine ⟨hcfg', ?_, ?_, hda'⟩
  · have := (on_step_frame dic (path ++ [c]) t d (by omega)).2.2.2.2.2.2.2.1
    rw [hcols] at this
    simpa using this
  · have hos : on_step dic (path ++ [c]) t d = compute_cost_fast true false dic (path ++ [c]) t d := by
      rw [on_step_eq, htr, hsp, hme]
      rfl
    rw [hos, (compute_fields true false dic (path ++ [c]) t d).2.2.2.2.2.2.2]
    simp only [new_row, hcosts, Option.getD_some, List.length_append, List.length_singleton,
      Nat.add_sub_cancel, getD_append_last, Matrix.columns, hcols, Costs.new_delete]
    have hal : (d.distances_.allocate (path.length + 1)).Ready (word.length + 1)
        (path.length + 2) := by
      have := Matrix.allocate_ready d.distances_ (path.length + 1)
      rwa [hcols] at this
    have hold : ∀ r, r ≤ path.length → ∀ j', j' ≤ word.length →
        (d.distances_.allocate (path.length + 1)).get r j' =
          ((transposeCost (path.take r).reverse (word.take j').reverse : Nat) : Int) := by
      intro r hr j' hj'
      rw [Matrix.get_allocate hready _ _ _ (by omega) (by omega) (by omega)]
      exact hcells r hr j' hj'
    obtain ⟨g1, g2⟩ := trans_loop_spec word path c d hword
      (by intro j hj; rw [hcache j hj, Costs.new_insert]) hdainv.2.2.1 word.length 1 0
      ((d.distances_.allocate (path.length + 1)).get path.length 0 + 1)
      ((d.distances_.allocate (path.length + 1)).get path.length 0 + 1)
      ((d.distances_.allocate (path.length + 1)).put (path.length + 1) 0
        ((d.distances_.allocate (path.length + 1)).get path.length 0 + 1))
      (by omega) le_rfl (Matrix.put_ready hal _ _ _)
      (by
        intro r hr j' hj'
        rw [Matrix.get_put_ne hal.1 (by omega) (by omega) (by omega)]
        exact hold r hr j' hj')
      (by
        intro j' hj'
        have : j' = 0 := by omega
        subst this
        rw [Matrix.get_put_same hal (by omega), hold path.length le_rfl 0 (by omega)]
        simp only [List.take_zero, List.reverse_nil, transposeCost_nil_right,
          List.length_reverse, List.length_take, List.length_append, List.length_singleton]
        push_cast
        simp)
      (by rw [Matrix.get_put_same hal (by omega)])
      (by simp [lastDepth])
    intro r hr j hj
    by_cases hlast : r = path.length + 1
    · subst hlast
      have ht : List.take (path.length + 1) (path ++ [c]) = path ++ [c] :=
        List.take_of_length_le (by simp)
      rw [g2 j hj, ht]
    · have hr' : r ≤ path.length := by omega
      rw [g1 r hr' j hj, List.take_append_of_le_length hr']

theorem trans_inv_on_ascend (word : List UCharType) (bound : CostType)
    (path : List UCharType) (c : UCharType) (d : Similar)
    (h : TransInv word bound (path ++ [c]) d) :
    TransInv word bound path (on_ascend (path ++ [c]) d) := by
  obtain ⟨hcfg, hready, hcells, hdainv⟩ := h
  refine ⟨config_on_ascend _ _ _ _ _ _ _ d hcfg, ?_, ?_, da_inv_on_ascend path c d hdainv⟩
  · rw [on_ascend_matrix]
    exact ready_shrink hready (by simp)
  · intro r hr j hj
    rw [on_ascend_matrix, hcells r (by simp; omega) j hj, List.take_append_of_le_length hr]

theorem plainCost_unit_nil (w : List UCharType) :
    plainCost Costs.new [] w = (w.length : Int) := by
  induction w with
  | nil => rw [plainCost_nil_nil]; rfl
  | cons b w ih =>
    rw [plainCost_nil_cons, ih, Costs.new_insert]
    simp

theorem trans_inv_start (dic : Dictionary) (s : DFS Similar) (word : List CharType)
    (max_cost : CostType)
    (hc : s.delegate.costs_ = none ∨ s.delegate.costs_ = some Costs.new)
    (h1 : s.delegate.allow_transpose = true) (h2 : s.delegate.allow_split = false)
    (h3 : s.delegate.allow_merge = false) :
    TransInv word (max 0 max_cost) [] (start dic s word max_cost).delegate := by
  have hcosts : s.delegate.costs_.getD Costs.new = Costs.new := by
    rcases hc with h | h <;> simp [h]
  have hcfg := config_start dic s word max_cost
  rw [h1, h2, h3, hcosts] at hcfg
  refine ⟨hcfg, start_ready dic s word max_cost, ?_, da_inv_start dic s word max_cost h1⟩
  have hr : ((s.delegate.distances_.set_columns (word.length + 1)).allocate 0).Ready
      (word.length + 1) 1 := by
    have := Matrix.allocate_ready (s.delegate.distances_.set_columns (word.length + 1)) 0
    simpa [Matrix.set_columns] using this
  have hcols : ((s.delegate.distances_.set_columns (word.length + 1)).allocate 0).columns =
      word.length + 1 := rfl
  have g := plain_row_spec (s.delegate.costs_.getD Costs.new) word word.length 1 0
    (resize s.delegate.cached_insert_cost_ word.length 0)
    (((s.delegate.distances_.set_columns (word.length + 1)).allocate 0).put 0 0 0)
    (by omega) le_rfl (Matrix.put_ready hr _ _ _)
    (by
      intro j' hj'
      have : j' = 0 := by omega
      subst this
      rw [Matrix.get_put_same hr (by omega), List.take_zero, List.reverse_nil,
        plainCost_nil_nil])
    (by rw [Matrix.get_put_same hr (by omega)])
  intro r hr' j hj
  simp only [List.length_nil, Nat.le_zero] at hr'
  subst hr'
  simp only [start, DFS.start, hcols, Nat.add_sub_cancel, List.take_zero, List.reverse_nil]
  rw [g j hj, hcosts, plainCost_unit_nil, transposeCost_nil_left]

end Similar

/-! ## The Damerau-Levenshtein distance -/

/-- The value of the recurrence with transpositions is the least number of edits
(insertions, deletions, substitutions and swaps of adjacent bytes) that turn `a`
into `w`. -/
theorem transposeCost_distance (a w : List UCharType) :
    EditChain (Similar.transposeCost a.reverse w.reverse) a w ∧
    ∀ m, EditChain m a w → Similar.transposeCost a.reverse w.reverse ≤ m := by
  constructor
  · have := chain_reverse _ _ _ (chain_of_transposeCost a.reverse w.reverse)
    simpa using this
  · intro m hm
    exact transposeCost_le_chain m _ _ (chain_reverse _ _ _ hm)

namespace Similar

/-- Along any path the states of `steps` keep the invariant. -/
theorem trans_inv_steps (dic : Dictionary) (top : List UCharType → BaseType)
    (word : List UCharType) (bound : CostType) :
    ∀ (rest done : List UCharType) (d : Similar), TransInv word bound done d →
      TransInv word bound (done ++ rest) (steps dic top done rest d) := by
  intro rest
  induction rest with
  | nil => intro done d h; simpa [steps] using h
  | cons c rest ih =>
    intro done d h
    have := ih (done ++ [c]) _ (trans_inv_on_step dic word bound done c (top (done ++ [c])) d h)
    simpa [steps] using this

end Similar

set_option maxRecDepth 100000 in
/-- The scenario of C13 evaluated: on the dictionary `cat, car, cart, dog` with the
word `act` and `max_cost = 1`, the search with transposition on is shown `cat` at
cost 1 and nothing else; with transposition off it is shown nothing, and the cell
that it computes for the path `cat` is 2. -/
theorem similar_act_results :
    Similar.collect exampleDic exampleGuide (Similar.delegate exampleDic) 40 10
        (Similar.start exampleDic (Similar.set_enable_transpose Similar.new true)
          [97, 99, 116] 1) = some [([99, 97, 116], 1)] ∧
    Similar.collect exampleDic exampleGuide (Similar.delegate exampleDic) 40 10
        (Similar.start exampleDic (Similar.set_enable_transpose Similar.new false)
          [97, 99, 116] 1) = some [] ∧
    Similar.path_cost exampleDic (fun _ => 0) (Similar.set_enable_transpose Similar.new false)
      [97, 99, 116] 1 [99, 97, 116] = 2 := by
  refine ⟨?_, ?_, ?_⟩ <;> decide

/-- C13: with transposition on, split and merge off and the default unit costs, at
every point that the loop of `next()` passes through after `start()` while the
stack is not empty, the cell `d[|a|][|w|]` for the key `a` and the word `w` is the
Damerau-Levenshtein distance with adjacent transpositions from `a` to `w`: it is
the length of a sequence of insertions, deletions, substitutions and swaps of
adjacent bytes that turns `a` into `w`, and no such sequence is shorter. The same
holds for the cell that the search computes when it descends along any byte string
`a`. On the dictionary `cat, car, cart, dog` with the word `act` and
`max_cost = 1` the search is shown `cat` at cost 1, and nothing else; with
transposition off the cell of `cat` is 2 and the search is shown nothing. -/
theorem similar_damerau_distance (dic : Dictionary) (guide : Guide) (s : DFS Similar)
    (word : List CharType) (max_cost : CostType)
    (hc : s.delegate.costs_ = none ∨ s.delegate.costs_ = some Costs.new)
    (h1 : s.delegate.allow_transpose = true) (h2 : s.delegate.allow_split = false)
    (h3 : s.delegate.allow_merge = false) :
    (∀ s1, DFS.Reached dic guide (Similar.delegate dic) (Similar.start dic s word max_cost) s1 →
      s1.stack_ ≠ [] →
      ∃ n : Nat, s1.delegate.distances_.get s1.key.length word.length = (n : Int) ∧
        EditChain n s1.key word ∧ ∀ m, EditChain m s1.key word → n ≤ m) ∧
    (∀ (top : List UCharType → BaseType) (a : List UCharType),
      ∃ n : Nat, Similar.path_cost dic top s word max_cost a = (n : Int) ∧
        EditChain n a word ∧ ∀ m, EditChain m a word → n ≤ m) ∧
    Similar.collect exampleDic exampleGuide (Similar.delegate exampleDic) 40 10
        (Similar.start exampleDic (Similar.set_enable_transpose Similar.new true)
          [97, 99, 116] 1) = some [([99, 97, 116], 1)] ∧
    Similar.collect exampleDic exampleGuide (Similar.delegate exampleDic) 40 10
        (Similar.start exampleDic (Similar.set_enable_transpose Similar.new false)
          [97, 99, 116] 1) = some [] ∧
    Similar.path_cost exampleDic (fun _ => 0) (Similar.set_enable_transpose Similar.new false)
      [97, 99, 116] 1 [99, 97, 116] = 2 := by
  have h0 := Similar.trans_inv_start dic s word max_cost hc h1 h2 h3
  refine ⟨?_, ?_, similar_act_results⟩
  · intro s1 hr hne
    have := DFS.reached_sound (Similar.TransInv word (max 0 max_cost))
      (fun path c t d hd => Similar.trans_inv_on_step dic word _ path c t d hd)
      (fun path c d hd => Similar.trans_inv_on_ascend word _ path c d hd)
      (Similar.start dic s word max_cost) (by simpa [Similar.start, DFS.start] using DFS.OnPath.root)
      (by simpa [Similar.start, DFS.start] using h0) s1 hr
    rcases this with h | h
    · exact absurd h hne
    · obtain ⟨_, _, hcells, _⟩ := h.2
      refine ⟨Similar.transposeCost s1.key.reverse word.reverse, ?_,
        transposeCost_distance s1.key word⟩
      have := hcells s1.key_.length le_rfl word.length le_rfl
      rw [List.take_length, List.take_length] at this
      exact this
  · intro top a
    have hinv := Similar.trans_inv_steps dic top word (max 0 max_cost) a [] _ h0
    simp only [List.nil_append] at hinv
    refine ⟨Similar.transposeCost a.reverse word.reverse, ?_, transposeCost_distance a word⟩
    have := hinv.2.2.1 a.length le_rfl word.length le_rfl
    rw [List.take_length, List.take_length] at this
    exact this

/-- The statement of `similar_damerau_distance` for the search for `act` with
transposition on and `max_cost = 1` on the dictionary of the scenarios. -/
theorem similar_damerau_distance_witness :
    ((Similar.set_enable_transpose Similar.new true).delegate.costs_ = none ∨
      (Similar.set_enable_transpose Similar.new true).delegate.costs_ = some Costs.new) ∧
    (Similar.set_enable_transpose Similar.new true).delegate.allow_transpose = true ∧
    (∀ s1, DFS.Reached exampleDic exampleGuide (Similar.delegate exampleDic)
        (Similar.start exampleDic (Similar.set_enable_transpose Similar.new true)
          [97, 99, 116] 1) s1 →
      s1.stack_ ≠ [] →
      ∃ n : Nat, s1.delegate.distances_.get s1.key.length 3 = (n : Int) ∧
        EditChain n s1.key [97, 99, 116] ∧ ∀ m, EditChain m s1.key [97, 99, 116] → n ≤ m) ∧
    (∀ (top : List UCharType → BaseType) (a : List UCharType),
      ∃ n : Nat, Similar.path_cost exampleDic top (Similar.set_enable_transpose Similar.new true)
          [97, 99, 116] 1 a = (n : Int) ∧
        EditChain n a [97, 99, 116] ∧ ∀ m, EditChain m a [97, 99, 116] → n ≤ m) :=
  ⟨Or.inl rfl, rfl,
    (similar_damerau_distance exampleDic exampleGuide
      (Similar.set_enable_transpose Similar.new true) [97, 99, 116] 1 (Or.inl rfl) rfl rfl rfl).1,
    (similar_damerau_distance exampleDic exampleGuide
      (Similar.set_enable_transpose Similar.new true) [97, 99, 116] 1 (Or.inl rfl) rfl rfl
      rfl).2.1⟩

/-! ## The searches with a feature off and on, evaluated -/

namespace DFS

variable {D : Type}

theorem next_mono (dic : Dictionary) (guide : Guide) (del : Delegate D)
    (fuel : Nat) (s : DFS D) (r : Bool × DFS D)
    (h : next dic guide del fuel s = some r) (fuel' : Nat) (hle : fuel ≤ fuel') :
    next dic guide del fuel' s = some r := by
  simp only [next] at h ⊢
  split_ifs at h ⊢
  · exact h
  · exact next_loop_mono dic guide del fuel s r h fuel' hle

/-- A client loop that has ended within its budgets ends in the same way with
larger budgets. -/
theorem drain_mono (dic : Dictionary) (guide : Guide) (del : Delegate D)
    (fuel fuel' : Nat) (hle : fuel ≤ fuel') :
    ∀ (calls calls' : Nat) (s : DFS D) (r : List (DFS D) × DFS D),
      drain dic guide del fuel calls s = some r → calls ≤ calls' →
      drain dic guide del fuel' calls' s = some r := by
  intro calls
  induction calls with
  | zero => intro calls' s r h; simp [drain] at h
  | succ n ih =>
    intro calls' s r h hc
    obtain ⟨m, rfl⟩ : ∃ m, calls' = m + 1 := ⟨calls' - 1, by omega⟩
    simp only [drain] at h ⊢
    cases hn : next dic guide del fuel s with
    | none => simp [hn] at h
    | some p =>
      obtain ⟨b, s1⟩ := p
      rw [next_mono dic guide del fuel s (b, s1) hn fuel' hle]
      rw [hn] at h
      cases b with
      | false => exact h
      | true =>
        simp only at h ⊢
        cases hd : drain dic guide del fuel n s1 with
        | none => simp [hd] at h
        | some q =>
          rw [ih m s1 q hd (by omega)]
          rw [hd] at h
          exact h

end DFS

set_option maxRecDepth 100000 in
/-- The searches for `act` with `max_cost = 2` and the default costs on the
dictionary `cat, car, cart, dog`: with the three features off the client loop is
shown `cart` at cost 2 and `cat` at cost 2; with transposition on it is shown
`car` at cost 2, `cart` at cost 2 and `cat` at cost 1. -/
theorem similar_act_two_results :
    Similar.collect exampleDic exampleGuide (Similar.delegate exampleDic) 40 10
        (Similar.start exampleDic
          (Similar.set_enable_merge
            (Similar.set_enable_split (Similar.set_enable_transpose Similar.new false) false)
            false)
          [97, 99, 116] 2) = some [([99, 97, 114, 116], 2), ([99, 97, 116], 2)] ∧
    Similar.collect exampleDic exampleGuide (Similar.delegate exampleDic) 40 10
        (Similar.start exampleDic
          (Similar.set_enable_merge
            (Similar.set_enable_split (Similar.set_enable_transpose Similar.new true) false)
            false)
          [97, 99, 116] 2) =
      some [([99, 97, 114], 2), ([99, 97, 114, 116], 2), ([99, 97, 116], 1)] := by
  constructor <;> decide

/-- What the client loop was shown, from an evaluation with fixed budgets. -/
theorem found_of_collect (dic : Dictionary) (guide : Guide) (s : DFS Similar)
    (found : List (DFS Similar)) (last : DFS Similar) (l : List (List UCharType × CostType))
    (fuel0 calls0 : Nat)
    (h : ∃ fuel, ∀ fuel', fuel ≤ fuel' → ∀ calls, found.length < calls →
      DFS.drain dic guide (Similar.delegate dic) fuel' calls s = some (found, last))
    (he : Similar.collect dic guide (Similar.delegate dic) fuel0 calls0 s = some l) :
    found.map (fun x => (x.key, Similar.cost x)) = l := by
  obtain ⟨fuel, hf⟩ := h
  simp only [Similar.collect, Option.map_eq_some'] at he
  obtain ⟨r, hr, hl⟩ := he
  have h1 := DFS.drain_mono dic guide (Similar.delegate dic) fuel0 (max fuel fuel0)
    (le_max_right _ _) calls0 (max (found.length + 1) calls0) s r hr (le_max_right _ _)
  have h2 := hf (max fuel fuel0) (le_max_left _ _) (max (found.length + 1) calls0)
    (lt_of_lt_of_le (Nat.lt_succ_self _) (le_max_left _ _))
  rw [h1] at h2
  cases h2
  exact hl

set_option maxRecDepth 100000 in
/-- C11 as stated fails on a pair that is not well-formed. With the Guide
`mismatchedGuide`, which names at the state of `c` a child that `exampleDic` does
not have, the cost table `splitCosts`, the word `dog` and `max_cost = 0`: with
split off the search does not descend below `c` and is shown `dog` at cost 0;
with split on the split candidate makes the row of `c` reach 0, the search
descends, `follow` fails on the child `z`, `next()` returns false at the key `c`
with the stack not empty, and the client loop is shown nothing. -/
theorem similar_feature_counterexample :
    Similar.collect exampleDic mismatchedGuide (Similar.delegate exampleDic) 40 10
        (Similar.start exampleDic
          (Similar.set_enable_split (Similar.set_costs Similar.new splitCosts) false)
          [100, 111, 103] 0) = some [([100, 111, 103], 0)] ∧
    Similar.collect exampleDic mismatchedGuide (Similar.delegate exampleDic) 40 10
        (Similar.start exampleDic
          (Similar.set_enable_split (Similar.set_costs Similar.new splitCosts) true)
          [100, 111, 103] 0) = some [] ∧
    (DFS.drain exampleDic mismatchedGuide (Similar.delegate exampleDic) 40 10
        (Similar.start exampleDic
          (Similar.set_enable_split (Similar.set_costs Similar.new splitCosts) true)
          [100, 111, 103] 0)).map (fun r => (r.2.key, r.2.stack_)) =
      some ([99], [355, 0]) ∧
    mismatchedGuide.child 355 = 122 ∧ exampleDic.Follow 122 355 = none ∧
    splitCosts.split.get 99 100 111 = 0 := by
  refine ⟨?_, ?_, ?_, ?_, ?_, ?_⟩ <;> decide

/-- The statement of `similar_feature_monotone` for the searches for `act` with
`max_cost = 2` on the dictionary of the scenarios, without and with
transposition: the first is shown `cart` and `cat` at cost 2, the second `car` at
cost 2, `cart` at cost 2 and `cat` at cost 1. -/
theorem similar_feature_monotone_witness :
    WellFormed exampleDic exampleGuide ∧
    ∃ foundA lastA foundB lastB,
      (∃ fuel, ∀ fuel', fuel ≤ fuel' → ∀ calls, foundA.length < calls →
        DFS.drain exampleDic exampleGuide (Similar.delegate exampleDic) fuel' calls
          (Similar.start exampleDic
            (Similar.set_enable_merge
              (Similar.set_enable_split (Similar.set_enable_transpose Similar.new false)
                false) false)
            [97, 99, 116] 2) = some (foundA, lastA)) ∧
      (∃ fuel, ∀ fuel', fuel ≤ fuel' → ∀ calls, foundB.length < calls →
        DFS.drain exampleDic exampleGuide (Similar.delegate exampleDic) fuel' calls
          (Similar.start exampleDic
            (Similar.set_enable_merge
              (Similar.set_enable_split (Similar.set_enable_transpose Similar.new true)
                false) false)
            [97, 99, 116] 2) = some (foundB, lastB)) ∧
      foundA.map (fun x => (x.key, Similar.cost x)) =
        [([99, 97, 114, 116], 2), ([99, 97, 116], 2)] ∧
      foundB.map (fun x => (x.key, Similar.cost x)) =
        [([99, 97, 114], 2), ([99, 97, 114, 116], 2), ([99, 97, 116], 1)] ∧
      ∀ x ∈ foundA, ∃ y ∈ foundB, y.key = x.key ∧ Similar.cost y ≤ Similar.cost x := by
  obtain ⟨foundA, lastA, foundB, lastB, hA, hB, h⟩ :=
    similar_feature_monotone exampleDic exampleGuide example_wellFormed Similar.new
      [97, 99, 116] 2 false false false true false false (fun _ => rfl) (fun h => h)
      (fun h => h)
  exact ⟨example_wellFormed, foundA, lastA, foundB, lastB, hA, hB,
    found_of_collect _ _ _ _ _ _ 40 10 hA similar_act_two_results.1,
    found_of_collect _ _ _ _ _ _ 40 10 hB similar_act_two_results.2, h⟩

/-- The statement of `similar_cost_symmetric` for the default costs and the byte
strings `cat` and `act`. -/
theorem similar_cost_symmetric_witness :
    (∀ c, Costs.new.insert.get c = Costs.new.delete_.get c) ∧
    (∀ x y, Costs.new.replace.get x y = Costs.new.replace.get y x) ∧
    Similar.path_cost exampleDic (fun _ => 0) Similar.new [97, 99, 116] 0 [99, 97, 116] =
      Similar.path_cost exampleDic (fun _ => 0) Similar.new [99, 97, 116] 0 [97, 99, 116] :=
  ⟨fun c => by rw [Costs.new_insert, Costs.new_delete],
    fun x y => by rw [Costs.new_replace, Costs.new_replace],
    similar_cost_symmetric exampleDic (fun _ => 0) (fun _ => 0) Similar.new 0 Costs.new rfl
      rfl rfl rfl (fun c => by rw [Costs.new_insert, Costs.new_delete])
      (fun x y => by rw [Costs.new_replace, Costs.new_replace]) [99, 97, 116] [97, 99, 116]⟩

/-- The statement of `last_ascend_on_empty_key` for the search for `act` with
transposition on, on the dictionary of the scenarios. -/
theorem last_ascend_on_empty_key_witness :
    WellFormed exampleDic exampleGuide ∧
    ∃ found last, (∃ fuel, ∀ fuel', fuel ≤ fuel' → ∀ calls, found.length < calls →
        DFS.drain exampleDic exampleGuide (ascendLog (Similar.delegate exampleDic)) fuel' calls
          (DFS.start exampleDic
            ⟨((Similar.start exampleDic (Similar.set_enable_transpose Similar.new true)
                [97, 99, 116] 1).delegate, []),
              (Similar.start exampleDic (Similar.set_enable_transpose Similar.new true)
                [97, 99, 116] 1).stack_,
              (Similar.start exampleDic (Similar.set_enable_transpose Similar.new true)
                [97, 99, 116] 1).key_,
              (Similar.start exampleDic (Similar.set_enable_transpose Similar.new true)
                [97, 99, 116] 1).state_⟩) = some (found, last)) ∧
      last.delegate.2.getLast? = some [] ∧
      ∃ before, before.stack_ = [exampleDic.root] ∧ before.key_ = [] ∧
        DFS.iteration exampleDic exampleGuide (ascendLog (Similar.delegate exampleDic)) before =
          Outcome.returned false last ∧
        (DFS.ascend (ascendLog (Similar.delegate exampleDic)) before).key_ = [] :=
  ⟨example_wellFormed,
    last_ascend_on_empty_key exampleDic exampleGuide example_wellFormed
      (Similar.delegate exampleDic)
      (Similar.start exampleDic (Similar.set_enable_transpose Similar.new true)
        [97, 99, 116] 1)⟩

/-! ## The minimum of a row does not fall along a path -/

namespace Similar

/-- With transposition and merge off and non-negative costs, a cell of the new row
is at least some cell of the row above, when the cell to its left is. -/
theorem rise_cell (costs : Costs) (hnn : NonNegative costs) (us : Bool) (word : List UCharType)
    (s : Similar) (hme : s.allow_merge = false)
    (hcache : ∀ j, j < word.length →
      s.cached_insert_cost_.getD j 0 = costs.insert.get (word.getD j 0))
    (key : List UCharType) (i : Nat) (M : Matrix CostType) (j0 db : Nat)
    (r1 : CostType) (hj : j0 < word.length)
    (hr1 : ∃ j', j' ≤ word.length ∧ M.get (i - 1) j' ≤ r1) :
    ∃ j', j' ≤ word.length ∧
      M.get (i - 1) j' ≤
        (cell_cost false us s costs key i (costs.delete_.get (key.getD (i - 1) 0)) M
          (j0 + 1) db r1).1 := by
  obtain ⟨hins, hdel, hrep, hsplit⟩ := hnn
  have hmin : ∀ x y : CostType,
      (∃ j', j' ≤ word.length ∧ M.get (i - 1) j' ≤ x) →
      (∃ j', j' ≤ word.length ∧ M.get (i - 1) j' ≤ y) →
      ∃ j', j' ≤ word.length ∧ M.get (i - 1) j' ≤ min x y := by
    intro x y hx hy
    rcases min_choice x y with h | h
    · rw [h]; exact hx
    · rw [h]; exact hy
  have hadd : ∀ (j' : Nat) (x : CostType), j' ≤ word.length → 0 ≤ x →
      ∃ j'', j'' ≤ word.length ∧ M.get (i - 1) j'' ≤ M.get (i - 1) j' + x :=
    fun j' x hj' hx => ⟨j', hj', le_add_of_nonneg_right hx⟩
  rw [cell_cost_fst]
  simp only [Bool.false_and, Bool.false_eq_true, ite_false, hme, Bool.and_false,
    Nat.add_sub_cancel]
  have hbase : ∃ j', j' ≤ word.length ∧ M.get (i - 1) j' ≤
      (if s.word_.getD j0 0 ≠ key.getD (i - 1) 0 then
        min (min (r1 + s.cached_insert_cost_.getD j0 0)
            (M.get (i - 1) (j0 + 1) + costs.delete_.get (key.getD (i - 1) 0)))
          (M.get (i - 1) j0 + costs.replace.get (key.getD (i - 1) 0) (s.word_.getD j0 0))
      else M.get (i - 1) j0) := by
    split_ifs
    · refine hmin _ _ (hmin _ _ ?_ (hadd _ _ (by omega) (hdel _))) (hadd _ _ (by omega) (hrep _ _))
      obtain ⟨j', hj', hle⟩ := hr1
      refine ⟨j', hj', le_trans hle (le_add_of_nonneg_right ?_)⟩
      rw [hcache j0 hj]
      exact hins _
    · exact ⟨j0, by omega, le_refl _⟩
  by_cases hs : (us && s.allow_split && decide (j0 + 1 > 1)) = true
  · rw [if_pos hs]
    exact hmin _ _ hbase (hadd _ _ (by omega) (hsplit _ _ _))
  · rw [if_neg hs]
    exact hbase

/-- The loop of `compute_cost_fast` with transposition and merge off and
non-negative costs: every cell of the new row is at least some cell of the row
above. -/
theorem rise_loop_spec (costs : Costs) (hnn : NonNegative costs) (us : Bool)
    (word path : List UCharType) (c : UCharType) (s : Similar) (hme : s.allow_merge = false)
    (hcache : ∀ j, j < word.length →
      s.cached_insert_cost_.getD j 0 = costs.insert.get (word.getD j 0)) :
    ∀ (n j db : Nat) (r1 sm : CostType) (M : Matrix CostType),
      n + j = word.length + 1 → 1 ≤ j →
      M.Ready (word.length + 1) (path.length + 2) →
      (∀ j', j' < j → ∃ j'', j'' ≤ word.length ∧
        M.get path.length j'' ≤ M.get (path.length + 1) j') →
      r1 = M.get (path.length + 1) (j - 1) →
      ∀ j', j' ≤ word.length → ∃ j'', j'' ≤ word.length ∧
        M.get path.length j'' ≤
          (cost_loop false us s costs (path ++ [c]) (path.length + 1) (costs.delete_.get c)
            n j db r1 sm M).1.get (path.length + 1) j' := by
  intro n
  induction n with
  | zero =>
    intro j db r1 sm M hj _ hr hrow _ j' hj'
    simp only [cost_loop]
    exact hrow j' (by omega)
  | succ n ih =>
    intro j db r1 sm M hj hj1 hr hrow hr1 j' hj'
    simp only [cost_loop]
    obtain ⟨j0, rfl⟩ : ∃ j0, j = j0 + 1 := ⟨j - 1, by omega⟩
    simp only [Nat.add_sub_cancel] at hr1
    have hcell := rise_cell costs hnn us word s hme hcache (path ++ [c]) (path.length + 1)
      M j0 db r1 (by omega)
      (by rw [hr1]; simpa using hrow j0 (by omega))
    simp only [Nat.add_sub_cancel, getD_append_last] at hcell
    have hold : ∀ j'', j'' ≤ word.length →
        (M.put (path.length + 1) (j0 + 1)
          (cell_cost false us s costs (path ++ [c]) (path.length + 1) (costs.delete_.get c) M
            (j0 + 1) db r1).1).get path.length j'' = M.get path.length j'' := by
      intro j'' hj''
      exact Matrix.get_put_ne hr.1 (by omega) (by omega) (by omega) _
    obtain ⟨j'', hj'', hle⟩ := ih (j0 + 1 + 1) _ _ _ _ (by omega) (by omega)
      (Matrix.put_ready hr _ _ _)
      (by
        intro j1 hj1'
        by_cases he : j1 = j0 + 1
        · subst he
          obtain ⟨j2, hj2, hle⟩ := hcell
          refine ⟨j2, hj2, ?_⟩
          rw [hold j2 hj2, Matrix.get_put_same hr (by omega)]
          exact hle
        · obtain ⟨j2, hj2, hle⟩ := hrow j1 (by omega)
          refine ⟨j2, hj2, ?_⟩
          rw [hold j2 hj2, Matrix.get_put_ne hr.1 (by omega) (by omega) (by omega)]
          exact hle)
      (by rw [Nat.add_sub_cancel, Matrix.get_put_same hr (by omega)]) j' hj'
    exact ⟨j'', hj'', by rw [← hold j'' hj'']; exact hle⟩

/-- A call of `on_step` leaves the rows of the path alone. -/
theorem on_step_old_rows (dic : Dictionary) (costs : Costs) (word : List UCharType)
    (bound : CostType) (tr sp me : Bool) (path : List UCharType) (c : UCharType)
    (t : BaseType) (d : Similar) (hcfg : Config costs word bound tr sp me d)
    (hready : d.distances_.Ready (word.length + 1) (path.length + 1)) :
    ∀ r, r ≤ path.length → ∀ j, j ≤ word.length →
      (on_step dic (path ++ [c]) t d).1.distances_.get r j = d.distances_.get r j := by
  intro r hr j hj
  have hcols := hcfg.2.2.2.2.2.2.1
  have hlen : (path ++ [c]).length = path.length + 1 := by simp
  rw [on_step_eq, (compute_fields _ _ dic (path ++ [c]) t d).2.2.2.2.2.2.2]
  exact (new_row_old _ _ d (path ++ [c]) (word.length + 1) hcols (by omega) (by simp)
    (by rw [hlen]; exact hready)).1 r j (by rw [hlen]; omega) (by omega)

theorem row_inv_on_step (dic : Dictionary) (costs : Costs) (hnn : NonNegative costs)
    (word : List UCharType) (bound : CostType) (sp : Bool) (path : List UCharType)
    (c : UCharType) (t : BaseType) (d : Similar) (h : RowInv costs word bound sp path d) :
    RowInv costs word bound sp (path ++ [c]) (on_step dic (path ++ [c]) t d).1 := by
  obtain ⟨hcfg, hready, hrows⟩ := h
  have hcfg' := config_on_step dic costs word bound false sp false (path ++ [c]) t d hcfg
  have hold := on_step_old_rows dic costs word bound false sp false path c t d hcfg hready
  obtain ⟨hcosts, hword, hbound, htr, hsp, hme, hcols, hcache⟩ := hcfg
  refine ⟨hcfg', ?_, ?_⟩
  · have := (on_step_frame dic (path ++ [c]) t d (by omega)).2.2.2.2.2.2.2.1
    rw [hcols] at this
    simpa using this
  · intro r hr1 hr j hj
    simp only [List.length_append, List.length_singleton] at hr
    by_cases hlast : r = path.length + 1
    · subst hlast
      simp only [Nat.add_sub_cancel]
      have hal : (d.distances_.allocate (path.length + 1)).Ready (word.length + 1)
          (path.length + 2) := by
        have := Matrix.allocate_ready d.distances_ (path.length + 1)
        rwa [hcols] at this
      have hget : ∀ j', j' ≤ word.length →
          ((d.distances_.allocate (path.length + 1)).put (path.length + 1) 0
            ((d.distances_.allocate (path.length + 1)).get path.length 0 +
              costs.delete_.get c)).get path.length j' = d.distances_.get path.length j' := by
        intro j' hj'
        rw [Matrix.get_put_ne hal.1 (by omega) (by omega) (by omega),
          Matrix.get_allocate hready _ _ _ (by omega) (by omega) (by omega)]
      obtain ⟨j', hj', hle⟩ := rise_loop_spec costs hnn (sp || false) word path c d hme hcache
        word.length 1 0
        ((d.distances_.allocate (path.length + 1)).get path.length 0 + costs.delete_.get c)
        ((d.distances_.allocate (path.length + 1)).get path.length 0 + costs.delete_.get c)
        ((d.distances_.allocate (path.length + 1)).put (path.length + 1) 0
          ((d.distances_.allocate (path.length + 1)).get path.length 0 + costs.delete_.get c))
        (by omega) le_rfl (Matrix.put_ready hal _ _ _)
        (by
          intro j1 hj1
          have : j1 = 0 := by omega
          subst this
          refine ⟨0, by omega, ?_⟩
          rw [Matrix.get_put_same hal (by omega), hget 0 (by omega),
            Matrix.get_allocate hready _ _ _ (by omega) (by omega) (by omega)]
          exact le_add_of_nonneg_right (hnn.2.1 c))
        (by rw [Matrix.get_put_same hal (by omega)]) j hj
      refine ⟨j', hj', ?_⟩
      rw [hold path.length le_rfl j' hj', ← hget j' hj']
      have hos : (on_step dic (path ++ [c]) t d).1.distances_ =
          (new_row false (sp || false) d (path ++ [c])).1 := by
        rw [on_step_eq, htr, hsp, hme]
        exact (compute_fields false (sp || false) dic (path ++ [c]) t d).2.2.2.2.2.2.2
      rw [hos]
      simp only [new_row, hcosts, Option.getD_some, List.length_append, List.length_singleton,
        Nat.add_sub_cancel, getD_append_last, Matrix.columns, hcols]
      exact hle
    · have hr' : r ≤ path.length := by omega
      obtain ⟨j', hj', hle⟩ := hrows r hr1 hr' j hj
      refine ⟨j', hj', ?_⟩
      rw [hold r hr' j hj, hold (r - 1) (by omega) j' hj']
      exact hle

theorem row_inv_on_ascend (costs : Costs) (word : List UCharType) (bound : CostType)
    (sp : Bool) (path : List UCharType) (c : UCharType) (d : Similar)
    (h : RowInv costs word bound sp (path ++ [c]) d) :
    RowInv costs word bound sp path (on_ascend (path ++ [c]) d) := by
  obtain ⟨hcfg, hready, hrows⟩ := h
  refine ⟨config_on_ascend _ _ _ _ _ _ _ d hcfg, ?_, ?_⟩
  · rw [on_ascend_matrix]
    exact ready_shrink hready (by simp)
  · intro r hr1 hr j hj
    rw [on_ascend_matrix]
    exact hrows r hr1 (by simp; omega) j hj

theorem row_inv_start (dic : Dictionary) (s : DFS Similar) (word : List CharType)
    (max_cost : CostType) (h1 : s.delegate.allow_transpose = false)
    (h3 : s.delegate.allow_merge = false) :
    RowInv (s.delegate.costs_.getD Costs.new) word (max 0 max_cost) s.delegate.allow_split []
      (start dic s word max_cost).delegate := by
  have hcfg := config_start dic s word max_cost
  rw [h1, h3] at hcfg
  refine ⟨hcfg, start_ready dic s word max_cost, ?_⟩
  intro r hr1 hr
  simp only [List.length_nil] at hr
  omega

/-- Along any path the states of `steps` keep the invariant, and the rows of the
path from which they start. -/
theorem row_inv_steps (dic : Dictionary) (top : List UCharType → BaseType) (costs : Costs)
    (hnn : NonNegative costs) (word : List UCharType) (bound : CostType) (sp : Bool) :
    ∀ (rest done : List UCharType) (d : Similar), RowInv costs word bound sp done d →
      RowInv costs word bound sp (done ++ rest) (steps dic top done rest d) ∧
      ∀ r, r ≤ done.length → ∀ j, j ≤ word.length →
        (steps dic top done rest d).distances_.get r j = d.distances_.get r j := by
  intro rest
  induction rest with
  | nil => intro done d h; exact ⟨by simpa [steps] using h, fun _ _ _ _ => rfl⟩
  | cons c rest ih =>
    intro done d h
    obtain ⟨g1, g2⟩ := ih (done ++ [c]) _
      (row_inv_on_step dic costs hnn word bound sp done c (top (done ++ [c])) d h)
    refine ⟨by simpa [steps] using g1, ?_⟩
    intro r hr j hj
    simp only [steps]
    rw [g2 r (by simp; omega) j hj]
    exact on_step_old_rows dic costs word bound false sp false done c _ d h.1 h.2.1 r hr j hj

theorem steps_append (dic : Dictionary) (top : List UCharType → BaseType) :
    ∀ (a b done : List UCharType) (d : Similar),
      steps dic top done (a ++ b) d = steps dic top (done ++ a) b (steps dic top done a d) := by
  intro a
  induction a with
  | nil => intro b done d; simp [steps]
  | cons c a ih =>
    intro b done d
    simp only [List.cons_append, steps]
    have := ih b (done ++ [c]) (on_step dic (done ++ [c]) (top (done ++ [c])) d).1
    have e : done ++ [c] ++ a = done ++ c :: a := by simp
    rw [e] at this
    exact this

/-- In a state with the invariant the rows rise: every cell of a row is at least
some cell of any row above it. -/
theorem row_inv_chain (costs : Costs) (word : List UCharType) (bound : CostType) (sp : Bool)
    (path : List UCharType) (d : Similar) (h : RowInv costs word bound sp path d) :
    ∀ k r, r + k ≤ path.length → ∀ j, j ≤ word.length →
      ∃ j', j' ≤ word.length ∧ d.distances_.get r j' ≤ d.distances_.get (r + k) j := by
  intro k
  induction k with
  | zero => intro r _ j hj; exact ⟨j, hj, le_refl _⟩
  | succ k ih =>
    intro r hr j hj
    obtain ⟨j1, hj1, h1⟩ := h.2.2 (r + (k + 1)) (by omega) hr j hj
    obtain ⟨j2, hj2, h2⟩ := ih r (by omega) j1 hj1
    refine ⟨j2, hj2, le_trans h2 ?_⟩
    have e : r + (k + 1) - 1 = r + k := by omega
    rw [e] at h1
    exact h1

end Similar

namespace Similar

/-- The value `smallest` of the loop of `compute_cost_fast` is a cell of the new
row. -/
theorem cost_loop_attained (tr us : Bool) (s : Similar) (costs : Costs) (key : List UCharType)
    (i : Nat) (dc : CostType) (cols : Nat) :
    ∀ (n j db : Nat) (r1 sm : CostType) (M : Matrix CostType),
      n + j = cols → M.Ready cols (i + 1) →
      (∃ j', j' < j ∧ sm = M.get i j') →
      ∃ j', j' < cols ∧
        (cost_loop tr us s costs key i dc n j db r1 sm M).2 =
          (cost_loop tr us s costs key i dc n j db r1 sm M).1.get i j' := by
  intro n
  induction n with
  | zero =>
    intro j db r1 sm M hj _ hsm
    simp only [cost_loop]
    obtain ⟨j', hj', h⟩ := hsm
    exact ⟨j', by omega, h⟩
  | succ n ih =>
    intro j db r1 sm M hj hr hsm
    simp only [cost_loop]
    generalize (cell_cost tr us s costs key i dc M j db r1) = cc
    apply ih (j + 1) cc.2 cc.1 (min sm cc.1) (M.put i j cc.1) (by omega)
      (Matrix.put_ready hr _ _ _)
    rcases min_choice sm cc.1 with h | h
    · obtain ⟨j', hj', e⟩ := hsm
      refine ⟨j', by omega, ?_⟩
      rw [h, Matrix.get_put_ne hr.1 (by omega) (by omega) (by omega)]
      exact e
    · refine ⟨j, by omega, ?_⟩
      rw [h, Matrix.get_put_same hr (by omega)]

theorem new_row_attained (tr us : Bool) (s : Similar) (key : List UCharType)
    (hcols : 1 ≤ s.distances_.columns_) :
    ∃ j, j < s.distances_.columns_ ∧
      (new_row tr us s key).2 = (new_row tr us s key).1.get key.length j := by
  have hal := Matrix.allocate_ready s.distances_ key.length
  have hM1 := Matrix.put_ready hal key.length 0
    ((s.distances_.allocate key.length).get (key.length - 1) 0 +
      (s.costs_.getD Costs.new).delete_.get (key.getD (key.length - 1) 0))
  simp only [new_row, Matrix.columns]
  exact cost_loop_attained tr us s (s.costs_.getD Costs.new) key key.length
    ((s.costs_.getD Costs.new).delete_.get (key.getD (key.length - 1) 0))
    s.distances_.columns_ (s.distances_.columns_ - 1) 1 0 _ _ _ (by omega) hM1
    ⟨0, by omega, by rw [Matrix.get_put_same hal (by omega)]⟩

/-- The flag `descend` that `on_step` returns is the test of the minimum of the new
row against `max_cost_`: it is false exactly when every cell of the row exceeds
`max_cost_`. -/
theorem descend_iff_row (dic : Dictionary) (key : List UCharType) (top : BaseType)
    (s : Similar) (hcols : 1 ≤ s.distances_.columns_) :
    (on_step dic key top s).2.1 = false ↔
      ∀ j, j < s.distances_.columns_ →
        s.max_cost_ < (on_step dic key top s).1.distances_.get key.length j := by
  constructor
  · intro h j hj
    by_contra hle
    have := (on_step_frame dic key top s hcols).2.2.2.2.2.2.2.2.1 ⟨j, hj, not_lt.1 hle⟩
    rw [h] at this
    cases this
  · intro h
    obtain ⟨j, hj, hatt⟩ := new_row_attained s.allow_transpose (s.allow_split || s.allow_merge)
      s key hcols
    have hcell := h j hj
    rw [on_step_eq, (compute_fields _ _ dic key top s).2.2.2.2.2.2.2, ← hatt] at hcell
    cases hd : (on_step dic key top s).2.1 with
    | false => rfl
    | true =>
      rw [on_step_eq] at hd
      have := (compute_flags _ _ dic key top s).1.1 hd
      exact absurd this (not_le.2 hcell)

end Similar

/-- C23: with transposition and merge off (split on or off) and non-negative costs
of insertions, deletions, replacements and splits, at every point that the loop of
`next()` passes through after `start()` while the stack is not empty, every cell
of a row `r >= 1` of the key is at least some cell of row `r - 1`, so the minimum
of a row is at least the minimum of the row above. The same holds for the rows
that the search computes when it descends along any byte string. Hence a bound
that every cell of the row of a path exceeds is exceeded by every cell, the last
one included, of the last row computed for any extension of the path; and
`on_step` returns `descend = false` exactly when every cell of the new row exceeds
`max_cost_`, so that after such a call every row of an extension exceeds
`max_cost_`. -/
theorem row_minimum_monotone (dic : Dictionary) (guide : Guide) (s : DFS Similar)
    (word : List CharType) (max_cost : CostType)
    (hnn : Similar.NonNegative (s.delegate.costs_.getD Costs.new))
    (h1 : s.delegate.allow_transpose = false) (h3 : s.delegate.allow_merge = false) :
    (∀ s1, DFS.Reached dic guide (Similar.delegate dic) (Similar.start dic s word max_cost) s1 →
      s1.stack_ ≠ [] →
      ∀ r, 1 ≤ r → r ≤ s1.key.length → ∀ j, j ≤ word.length →
        ∃ j', j' ≤ word.length ∧
          s1.delegate.distances_.get (r - 1) j' ≤ s1.delegate.distances_.get r j) ∧
    (∀ (top : List UCharType → BaseType) (path : List UCharType),
      ∀ r, 1 ≤ r → r ≤ path.length → ∀ j, j ≤ word.length →
        ∃ j', j' ≤ word.length ∧
          (Similar.steps dic top [] path
              (Similar.start dic s word max_cost).delegate).distances_.get (r - 1) j' ≤
            (Similar.steps dic top [] path
              (Similar.start dic s word max_cost).delegate).distances_.get r j) ∧
    (∀ (top : List UCharType → BaseType) (path ext : List UCharType) (b : CostType),
      (∀ j, j ≤ word.length →
        b < (Similar.steps dic top [] path
          (Similar.start dic s word max_cost).delegate).distances_.get path.length j) →
      ∀ j, j ≤ word.length →
        b < (Similar.steps dic top [] (path ++ ext)
          (Similar.start dic s word max_cost).delegate).distances_.get
            (path.length + ext.length) j) ∧
    (∀ (top : List UCharType → BaseType) (path : List UCharType) (c : UCharType),
      ((Similar.on_step dic (path ++ [c]) (top (path ++ [c]))
          (Similar.steps dic top [] path (Similar.start dic s word max_cost).delegate)).2.1 =
          false ↔
        ∀ j, j ≤ word.length →
          max 0 max_cost <
            (Similar.steps dic top [] (path ++ [c])
              (Similar.start dic s word max_cost).delegate).distances_.get
                (path.length + 1) j) ∧
      ((Similar.on_step dic (path ++ [c]) (top (path ++ [c]))
          (Similar.steps dic top [] path (Similar.start dic s word max_cost).delegate)).2.1 =
          false →
        ∀ (ext : List UCharType) (j : Nat), j ≤ word.length →
          max 0 max_cost <
            (Similar.steps dic top [] (path ++ [c] ++ ext)
              (Similar.start dic s word max_cost).delegate).distances_.get
                (path.length + 1 + ext.length) j)) := by
  have h0 := Similar.row_inv_start dic s word max_cost h1 h3
  have hsteps : ∀ (top : List UCharType → BaseType) (path : List UCharType),
      Similar.RowInv (s.delegate.costs_.getD Costs.new) word (max 0 max_cost)
        s.delegate.allow_split path
        (Similar.steps dic top [] path (Similar.start dic s word max_cost).delegate) := by
    intro top path
    have := (Similar.row_inv_steps dic top _ hnn word (max 0 max_cost) s.delegate.allow_split
      path [] _ h0).1
    simpa using this
  have hext : ∀ (top : List UCharType → BaseType) (path ext : List UCharType) (b : CostType),
      (∀ j, j ≤ word.length →
        b < (Similar.steps dic top [] path
          (Similar.start dic s word max_cost).delegate).distances_.get path.length j) →
      ∀ j, j ≤ word.length →
        b < (Similar.steps dic top [] (path ++ ext)
          (Similar.start dic s word max_cost).delegate).distances_.get
            (path.length + ext.length) j := by
    intro top path ext b hb j hj
    obtain ⟨j', hj', hle⟩ := Similar.row_inv_chain _ word _ _ (path ++ ext) _
      (hsteps top (path ++ ext)) ext.length path.length (by simp) j hj
    have hkeep := (Similar.row_inv_steps dic top _ hnn word (max 0 max_cost)
      s.delegate.allow_split ext path _ (hsteps top path)).2 path.length le_rfl j' hj'
    have happ := Similar.steps_append dic top path ext []
      (Similar.start dic s word max_cost).delegate
    simp only [List.nil_append] at happ
    rw [← happ] at hkeep
    rw [hkeep] at hle
    exact lt_of_lt_of_le (hb j' hj') hle
  have hone : ∀ (top : List UCharType → BaseType) (path : List UCharType) (c : UCharType),
      Similar.steps dic top [] (path ++ [c]) (Similar.start dic s word max_cost).delegate =
        (Similar.on_step dic (path ++ [c]) (top (path ++ [c]))
          (Similar.steps dic top [] path (Similar.start dic s word max_cost).delegate)).1 := by
    intro top path c
    have happ := Similar.steps_append dic top path [c] []
      (Similar.start dic s word max_cost).delegate
    simp only [List.nil_append] at happ
    rw [happ]
    rfl
  have hdesc : ∀ (top : List UCharType → BaseType) (path : List UCharType) (c : UCharType),
      ((Similar.on_step dic (path ++ [c]) (top (path ++ [c]))
          (Similar.steps dic top [] path (Similar.start dic s word max_cost).delegate)).2.1 =
          false ↔
        ∀ j, j ≤ word.length →
          max 0 max_cost <
            (Similar.steps dic top [] (path ++ [c])
              (Similar.start dic s word max_cost).delegate).distances_.get
                (path.length + 1) j) := by
    intro top path c
    obtain ⟨hcfg, _, _⟩ := hsteps top path
    obtain ⟨_, _, hbound, _, _, _, hcols, _⟩ := hcfg
    have := Similar.descend_iff_row dic (path ++ [c]) (top (path ++ [c]))
      (Similar.steps dic top [] path (Similar.start dic s word max_cost).delegate)
      (by omega)
    rw [this, hone, hcols, hbound]
    simp only [List.length_append, List.length_singleton]
    constructor
    · intro h j hj; exact h j (by omega)
    · intro h j hj; exact h j (by omega)
  refine ⟨?_, ?_, hext, ?_⟩
  · intro s1 hr hne
    have := DFS.reached_sound
      (Similar.RowInv (s.delegate.costs_.getD Costs.new) word (max 0 max_cost)
        s.delegate.allow_split)
      (fun path c t d hd => Similar.row_inv_on_step dic _ hnn word _ _ path c t d hd)
      (fun path c d hd => Similar.row_inv_on_ascend _ word _ _ path c d hd)
      (Similar.start dic s word max_cost)
      (by simpa [Similar.start, DFS.start] using DFS.OnPath.root)
      (by simpa [Similar.start, DFS.start] using h0) s1 hr
    rcases this with h | h
    · exact absurd h hne
    · exact h.2.2.2
  · intro top path
    exact (hsteps top path).2.2
  · intro top path c
    refine ⟨hdesc top path c, ?_⟩
    intro hd ext j hj
    have := hext top (path ++ [c]) ext (max 0 max_cost)
      (by
        have := (hdesc top path c).1 hd
        simpa using this) j hj
    simpa using this

theorem Costs.new_nonNegative : Similar.NonNegative Costs.new :=
  ⟨fun a => by rw [Costs.new_insert]; decide, fun a => by rw [Costs.new_delete]; decide,
    fun a b => by rw [Costs.new_replace]; decide, fun a b c => CostsMap3.get_new_nonneg3 a b c⟩

/-- The statement of `row_minimum_monotone` for the search for `act` with the
default costs, split on and `max_cost = 1` on the dictionary of the scenarios. -/
theorem row_minimum_monotone_witness :
    Similar.NonNegative
      ((Similar.set_enable_split Similar.new true).delegate.costs_.getD Costs.new) ∧
    (∀ s1, DFS.Reached exampleDic exampleGuide (Similar.delegate exampleDic)
        (Similar.start exampleDic (Similar.set_enable_split Similar.new true)
          [97, 99, 116] 1) s1 →
      s1.stack_ ≠ [] →
      ∀ r, 1 ≤ r → r ≤ s1.key.length → ∀ j, j ≤ 3 →
        ∃ j', j' ≤ 3 ∧
          s1.delegate.distances_.get (r - 1) j' ≤ s1.delegate.distances_.get r j) ∧
    (∀ (top : List UCharType → BaseType) (path ext : List UCharType) (b : CostType),
      (∀ j, j ≤ 3 →
        b < (Similar.steps exampleDic top [] path
          (Similar.start exampleDic (Similar.set_enable_split Similar.new true)
            [97, 99, 116] 1).delegate).distances_.get path.length j) →
      ∀ j, j ≤ 3 →
        b < (Similar.steps exampleDic top [] (path ++ ext)
          (Similar.start exampleDic (Similar.set_enable_split Similar.new true)
            [97, 99, 116] 1).delegate).distances_.get (path.length + ext.length) j) :=
  ⟨Costs.new_nonNegative,
    (row_minimum_monotone exampleDic exampleGuide (Similar.set_enable_split Similar.new true)
      [97, 99, 116] 1 Costs.new_nonNegative rfl rfl).1,
    (row_minimum_monotone exampleDic exampleGuide (Similar.set_enable_split Similar.new true)
      [97, 99, 116] 1 Costs.new_nonNegative rfl rfl).2.2.1⟩

/-! ## The assertion of `backtrack` -/

set_option maxRecDepth 100000 in
/-- C22 fails: on the dictionary `cat, car, cart, dog` the LCS search with the word
`cart` and the minimum length 3 calls `backtrack` three times, for `car`, `cart`
and `cat`, and the assertion that closes `backtrack` is false in each of the three
calls: the loop has counted `i` down to 0, the assertion reads `C_[0][4] = 0`, and
the result buffer holds 3, 4 and 3 bytes. The first of these calls is the call of
`on_step` for the key `car` after the calls for `c` and `ca`. -/
theorem backtrack_assertion_fails :
    (DFS.drain exampleDic exampleGuide (LCS.assertLog exampleDic) 40 10
        ⟨((LCS.start exampleDic LCS.new [99, 97, 114, 116] 3).delegate, []),
          (LCS.start exampleDic LCS.new [99, 97, 114, 116] 3).stack_,
          (LCS.start exampleDic LCS.new [99, 97, 114, 116] 3).key_,
          (LCS.start exampleDic LCS.new [99, 97, 114, 116] 3).state_⟩).map
      (fun r => (r.1.map (fun x => (x.key, x.delegate.1.result_)), r.2.delegate.2)) =
      some ([([99, 97, 114], [99, 97, 114]), ([99, 97, 114, 116], [99, 97, 114, 116]),
        ([99, 97, 116], [99, 97, 116])], [false, false, false]) ∧
    LCS.on_step_assertion exampleDic [99, 97, 114] 882
      (LCS.steps exampleDic (fun _ => 0) [] [99, 97]
        (LCS.start exampleDic LCS.new [99, 97, 114, 116] 3).delegate) = some false ∧
    (LCS.backtrack_loop
      (LCS.on_step exampleDic [99, 97, 114] 882
        (LCS.steps exampleDic (fun _ => 0) [] [99, 97]
          (LCS.start exampleDic LCS.new [99, 97, 114, 116] 3).delegate)).1.C_
      [99, 97, 114] [99, 97, 114, 116] 7 3 4 []).2.1 = 0 ∧
    (LCS.on_step exampleDic [99, 97, 114] 882
        (LCS.steps exampleDic (fun _ => 0) [] [99, 97]
          (LCS.start exampleDic LCS.new [99, 97, 114, 116] 3).delegate)).1.result_ =
      [99, 97, 114] ∧
    (LCS.on_step exampleDic [99, 97, 114] 882
        (LCS.steps exampleDic (fun _ => 0) [] [99, 97]
          (LCS.start exampleDic LCS.new [99, 97, 114, 116] 3).delegate)).1.C_.get 0 4 = 0 ∧
    (LCS.on_step exampleDic [99, 97, 114] 882
        (LCS.steps exampleDic (fun _ => 0) [] [99, 97]
          (LCS.start exampleDic LCS.new [99, 97, 114, 116] 3).delegate)).1.C_.get 3 4 = 3 := by
  refine ⟨?_, ?_, ?_, ?_, ?_, ?_⟩ <;> decide

/-! ## The length of the result of `backtrack` -/

namespace LCS

theorem on_step_descend (dic : Dictionary) (key : List UCharType) (t : BaseType) (d : LCS) :
    (on_step dic key t d).2.1 = true := by
  simp only [on_step]
  split_ifs <;> rfl

/-- When `on_step` returns `result = true` it has called `backtrack` on the new
matrix: the state has a value and the last cell of the new row is at least
`min_length_`, and the result buffer is what the loop of `backtrack` pushed,
reversed. -/
theorem on_step_backtrack (dic : Dictionary) (word : List UCharType) (min_length : Int)
    (path : List UCharType) (c : UCharType) (t : BaseType) (d : LCS)
    (h : Inv word min_length path d) :
    ((on_step dic (path ++ [c]) t d).2.2 = true ↔
      dic.has_value t = true ∧
        min_length ≤ (on_step dic (path ++ [c]) t d).1.C_.get (path.length + 1) word.length) ∧
    ((on_step dic (path ++ [c]) t d).2.2 = true →
      (on_step dic (path ++ [c]) t d).1.result_ =
        (backtrack_loop (on_step dic (path ++ [c]) t d).1.C_ (path ++ [c]) word
          (path.length + 1 + word.length) (path.length + 1) word.length []).1.reverse) := by
  obtain ⟨hm, _, _⟩ := on_step_matrix dic word path c min_length t d h
  obtain ⟨hword, hmin, hready, _⟩ := h
  have hcols : d.C_.columns = word.length + 1 := hready.1
  rw [hm]
  simp only [on_step, List.length_append, List.length_singleton, hcols, Nat.add_sub_cancel,
    hword, hmin]
  constructor
  · split_ifs with h1 h2
    · simp [h1, h2]
    · simp [h1]; omega
    · simp [h1]
  · split_ifs with h1 h2
    · intro _; simp [backtrack]
    · intro hc; cases hc
    · intro hc; cases hc

/-- The result buffer after a call of `on_step` that returned `result = true` is
a common subsequence of the key and the word, of at least as many bytes as the
last cell of the new row says. -/
theorem on_step_result_cell (dic : Dictionary) (word : List UCharType) (min_length : Int)
    (path : List UCharType) (c : UCharType) (t : BaseType) (d : LCS)
    (h : Inv word min_length path d) (hres : (on_step dic (path ++ [c]) t d).2.2 = true) :
    (on_step dic (path ++ [c]) t d).1.result_.Sublist (path ++ [c]) ∧
    (on_step dic (path ++ [c]) t d).1.result_.Sublist word ∧
    (on_step dic (path ++ [c]) t d).1.C_.get (path.length + 1) word.length ≤
      ((on_step dic (path ++ [c]) t d).1.result_.length : Int) := by
  have hinv := inv_on_step dic word min_length path c t d h
  have hbt := (on_step_backtrack dic word min_length path c t d h).2 hres
  obtain ⟨bt, h1, h2, h3, h4⟩ := backtrack_loop_spec word min_length (path ++ [c]) _ hinv
    (path.length + 1 + word.length) (path.length + 1) word.length [] (by simp) le_rfl le_rfl
  simp only [List.nil_append] at h1
  have ht : List.take (path.length + 1) (path ++ [c]) = path ++ [c] :=
    List.take_of_length_le (by simp)
  rw [ht] at h2
  rw [List.take_length] at h3
  rw [hbt, h1, List.length_reverse]
  exact ⟨h2, h3, h4⟩

/-- For a word shorter than 32768 bytes the result buffer after a call of `on_step`
that returned `result = true` has exactly as many bytes as the last cell of the new
row says, the length of a longest common subsequence of the key and the word. -/
theorem on_step_result_length (dic : Dictionary) (word : List UCharType) (min_length : Int)
    (hw : word.length < 32768) (path : List UCharType) (c : UCharType) (t : BaseType) (d : LCS)
    (h : Inv word min_length path d) (hres : (on_step dic (path ++ [c]) t d).2.2 = true) :
    ((on_step dic (path ++ [c]) t d).1.result_.length : Int) =
      (on_step dic (path ++ [c]) t d).1.C_.get (path.length + 1) word.length ∧
    (on_step dic (path ++ [c]) t d).1.result_.length = lcsLength (path ++ [c]) word := by
  have hinv := inv_on_step dic word min_length path c t d h
  obtain ⟨h1, h2, h3⟩ := on_step_result_cell dic word min_length path c t d h hres
  have hcell := inv_cells word min_length _ _ hw hinv (path.length + 1) (by simp)
    word.length le_rfl
  have ht : List.take (path.length + 1) (path ++ [c]) = path ++ [c] :=
    List.take_of_length_le (by simp)
  rw [ht, List.take_length] at hcell
  have hb := lcsLength_bound _ (path ++ [c]) word _ le_rfl h1 h2
  rw [hcell] at h3 ⊢
  have : (on_step dic (path ++ [c]) t d).1.result_.length = lcsLength (path ++ [c]) word := by
    omega
  exact ⟨by rw [this], this⟩

end LCS

/-- C21 (amended): for a query word shorter than 32768 bytes, every call of
`on_step` that calls `backtrack` (these are the calls that return `result = true`)
leaves in the result buffer exactly `C[i][|w|]` bytes, for the length `i` of the
key with which `backtrack` was called, and this is the length of a longest common
subsequence of the key and the word; so it is after every call of `next()` that
returns true. -/
theorem lcs_backtrack_length (dic : Dictionary) (guide : Guide) (s : DFS LCS)
    (word : List CharType) (min_length : Int) (hw : word.length < 32768) :
    (∀ (path : List UCharType) (c : UCharType) (t : BaseType) (d : LCS),
      LCS.Inv word min_length path d → (LCS.on_step dic (path ++ [c]) t d).2.2 = true →
      ((LCS.on_step dic (path ++ [c]) t d).1.result_.length : Int) =
        (LCS.on_step dic (path ++ [c]) t d).1.C_.get (path.length + 1) word.length ∧
      (LCS.on_step dic (path ++ [c]) t d).1.result_.length = lcsLength (path ++ [c]) word) ∧
    (∀ (fuel k : Nat) (s1 : DFS LCS),
      DFS.advance dic guide (LCS.delegate dic) fuel k (LCS.start dic s word min_length) =
        some (true, s1) →
      ((LCS.lcs s1).length : Int) = s1.delegate.C_.get s1.key.length word.length ∧
      (LCS.lcs s1).length = lcsLength s1.key word) := by
  refine ⟨fun path c t d h hres =>
    LCS.on_step_result_length dic word min_length hw path c t d h hres, ?_⟩
  intro fuel k s1 h
  have hit := DFS.advance_hit dic guide (LCS.delegate dic) (LCS.Inv word min_length)
    (fun path c t d hd => LCS.inv_on_step dic word min_length path c t d hd)
    (fun path c d hd => LCS.inv_on_ascend word min_length path c d hd)
    fuel k (LCS.start dic s word min_length) (LCS.inv_start dic s word min_length) s1 h
  obtain ⟨_, _, t, rest, q, a, d0, _, hk, hinv, hd, hr⟩ := hit
  rw [hk] at hd hr
  have := LCS.on_step_result_length dic word min_length hw q a t d0 hinv hr
  simp only [LCS.lcs, DFS.key, hk, hd, List.length_append, List.length_singleton]
  exact this

set_option maxRecDepth 100000 in
/-- The statement of `lcs_backtrack_length` for the search for `cart` with the
minimum length 3 on the dictionary of the scenarios; its first call of `next()`
returns true. -/
theorem lcs_backtrack_length_witness :
    ([99, 97, 114, 116] : List CharType).length < 32768 ∧
    (DFS.advance exampleDic exampleGuide (LCS.delegate exampleDic) 40 0
        (LCS.start exampleDic LCS.new [99, 97, 114, 116] 3)).map (fun r => (r.1, r.2.key)) =
      some (true, [99, 97, 114]) ∧
    ∀ (fuel k : Nat) (s1 : DFS LCS),
      DFS.advance exampleDic exampleGuide (LCS.delegate exampleDic) fuel k
          (LCS.start exampleDic LCS.new [99, 97, 114, 116] 3) = some (true, s1) →
      ((LCS.lcs s1).length : Int) = s1.delegate.C_.get s1.key.length 4 ∧
      (LCS.lcs s1).length = lcsLength s1.key [99, 97, 114, 116] :=
  ⟨by decide, by decide,
    (lcs_backtrack_length exampleDic exampleGuide LCS.new [99, 97, 114, 116] 3 (by decide)).2⟩

/-! ## A key of 32768 bytes -/

theorem toIndexType_succ (x : Int) : toIndexType (toIndexType x + 1) = toIndexType (x + 1) := by
  unfold toIndexType
  omega

theorem getD_replicate_lt (a : UCharType) (n k : Nat) (h : k < n) :
    (List.replicate n a).getD k 0 = a := by
  simp [List.getD_eq_getElem?_getD, List.getElem?_replicate, h]

namespace LCS

/-- On a key and a word that repeat one byte, the cell `C[i][j]` is the smaller of
`i` and `j`, converted to `IndexType`. -/
theorem replicate_cells (a : UCharType) (m r : Nat) (min_length : Int) (d : LCS)
    (h : Inv (List.replicate m a) min_length (List.replicate r a) d) :
    ∀ i, i ≤ r → ∀ j, j ≤ m → d.C_.get i j = toIndexType ((min i j : Nat) : Int) := by
  obtain ⟨_, _, _, hrow0, hcol0, hrec⟩ := h
  simp only [List.length_replicate] at hrow0 hcol0 hrec
  intro i
  induction i with
  | zero =>
    intro _ j hj
    rw [hrow0 j hj]
    simp [toIndexType]
  | succ i ihi =>
    intro hi j
    cases j with
    | zero =>
      intro _
      rw [hcol0 _ hi]
      simp [toIndexType]
    | succ j =>
      intro hj
      rw [hrec i (by omega) j (by omega), getD_replicate_lt a r i (by omega),
        getD_replicate_lt a m j (by omega), if_pos rfl, ihi (by omega) j (by omega),
        toIndexType_succ]
      congr 1
      have : min (i + 1) (j + 1) = min i j + 1 := by omega
      rw [this]
      push_cast
      rfl

/-- On a key and a word that repeat one byte, the loop of `backtrack` pushes a byte
in every pass. -/
theorem backtrack_replicate (C : Matrix Int) (a : UCharType) (r m : Nat) :
    ∀ (fuel i j : Nat) (res : List UCharType), i ≤ r → j ≤ m → min i j ≤ fuel →
      (backtrack_loop C (List.replicate r a) (List.replicate m a) fuel i j res).1.length =
        res.length + min i j := by
  intro fuel
  induction fuel with
  | zero =>
    intro i j res _ _ hf
    simp only [backtrack_loop]
    omega
  | succ fuel ih =>
    intro i j res hi hj hf
    simp only [backtrack_loop]
    by_cases hpos : i > 0 ∧ j > 0
    · rw [if_pos hpos, getD_replicate_lt a r (i - 1) (by omega),
        getD_replicate_lt a m (j - 1) (by omega), if_pos rfl,
        ih (i - 1) (j - 1) _ (by omega) (by omega) (by omega)]
      simp only [List.length_append, List.length_singleton]
      omega
    · rw [if_neg hpos]
      show res.length = res.length + min i j
      omega

end LCS

theorem xor_chain (a b c : Nat) : a ^^^ (a ^^^ b ^^^ c) ^^^ c = b := by
  rw [Nat.xor_assoc a b c, Nat.xor_cancel_left, Nat.xor_cancel_right]

theorem chainState_pos (k : Nat) (hk : 1 ≤ k) :
    chainState k ≠ 0 ∧ chainState k % 256 = 97 ∧ chainState k / 256 = k := by
  have : ¬ k = 0 := by omega
  simp only [chainState, this, if_false]
  omega

theorem chain_unit (n k : Nat) (hk1 : 1 ≤ k) (hkn : k ≤ n) :
    (chainDic n).units_ (chainState k) =
      stateUnit 97 (decide (k = n)) (chainState k ^^^ chainState (k + 1) ^^^ 97) := by
  obtain ⟨h0, h1, h2⟩ := chainState_pos k hk1
  simp only [chainDic, h0, if_false, h1, h2, hk1, hkn, and_self, if_true]

theorem chain_follow (n k : Nat) (hk : k < n) :
    (chainDic n).Follow 97 (chainState k) = some (chainState (k + 1)) := by
  have hlabel : ((chainDic n).units_ (chainState (k + 1))).label = 97 := by
    rw [chain_unit n (k + 1) (by omega) (by omega)]
    rfl
  have h97 : ((97 : CharType) : Fin 256).val = 97 := rfl
  by_cases hk0 : k = 0
  · subst hk0
    have hu : (chainDic n).units_ (chainState 0) =
        stateUnit 0 false (0 ^^^ chainState 1 ^^^ 97) := by
      simp [chainDic, chainState]
    simp only [Dictionary.Follow, hu, stateUnit, h97]
    have e : chainState 0 ^^^ (0 ^^^ chainState 1 ^^^ 97) ^^^ 97 = chainState 1 := by
      have : chainState 0 = 0 := rfl
      rw [this]
      exact xor_chain 0 (chainState 1) 97
    rw [e]
    simp only [Nat.zero_add] at hlabel
    simp [hlabel]
  · simp only [Dictionary.Follow, chain_unit n k (by omega) (by omega), stateUnit, h97,
      xor_chain]
    simp [hlabel]

theorem chain_child (n k : Nat) (hk : k < n) : (chainGuide n).child (chainState k) = 97 := by
  by_cases hk0 : k = 0
  · subst hk0
    simp [Guide.child, chainGuide, chainState, hk]
  · obtain ⟨h0, h1, h2⟩ := chainState_pos k (by omega)
    have : 1 ≤ k := by omega
    simp [Guide.child, chainGuide, h0, h1, h2, hk, this]

theorem chain_has_value (n k : Nat) (hk1 : 1 ≤ k) (hkn : k ≤ n) :
    (chainDic n).has_value (chainState k) = decide (k = n) := by
  simp only [Dictionary.has_value, chain_unit n k hk1 hkn, stateUnit]

theorem chainStack_top (k : Nat) : ∃ rest, chainStack k = chainState k :: rest := by
  cases k with
  | zero => exact ⟨[], rfl⟩
  | succ k => exact ⟨chainStack k, rfl⟩

/-- In the LCS search on `chainDic n` for the word of `n` bytes `a`, the loop of
`next()` comes to every key of `k < n` bytes `a` in mode `NEXT_CHILD`, with the
invariant of the matrix. -/
theorem chain_reached (n : Nat) (min_length : Int) :
    ∀ k, k < n → ∃ d : LCS,
      DFS.Reached (chainDic n) (chainGuide n) (LCS.delegate (chainDic n))
        (LCS.start (chainDic n) LCS.new (List.replicate n 97) min_length)
        ⟨d, chainStack k, List.replicate k 97, Mode.NEXT_CHILD⟩ ∧
      LCS.Inv (List.replicate n 97) min_length (List.replicate k 97) d := by
  intro k
  induction k with
  | zero =>
    intro _
    exact ⟨_, DFS.Reached.start, LCS.inv_start (chainDic n) LCS.new _ min_length⟩
  | succ k ih =>
    intro hk
    obtain ⟨d, hr, hinv⟩ := ih (by omega)
    obtain ⟨rest, hst⟩ := chainStack_top k
    have hchild := chain_child n k (by omega)
    have hit := DFS.iteration_child_step (chainDic n) (chainGuide n) (LCS.delegate (chainDic n))
      (chainState k) (chainState (k + 1)) rest (List.replicate k 97) d
      (by rw [hchild]; decide) (by rw [hchild]; exact chain_follow n k (by omega))
    rw [hchild] at hit
    have hres : ((LCS.delegate (chainDic n)).on_step (List.replicate k 97 ++ [97])
        (chainState (k + 1)) d).2.2 = false := by
      have h1 := (LCS.on_step_backtrack (chainDic n) _ min_length _ 97 (chainState (k + 1)) d
        hinv).1
      have h2 : (chainDic n).has_value (chainState (k + 1)) = false := by
        rw [chain_has_value n (k + 1) (by omega) (by omega)]
        simp
        omega
      cases h3 : (LCS.on_step (chainDic n) (List.replicate k 97 ++ [97]) (chainState (k + 1))
          d).2.2 with
      | false => exact h3
      | true =>
        have := (h1.1 h3).1
        rw [h2] at this
        cases this
    rw [hres] at hit
    simp only [Bool.false_eq_true, if_false] at hit
    refine ⟨(LCS.on_step (chainDic n) (List.replicate k 97 ++ [97]) (chainState (k + 1)) d).1,
      ?_, ?_⟩
    · have := DFS.Reached.pass _ _ hr (by rw [hst]; exact hit)
      have e : DFS.stepped (LCS.delegate (chainDic n)) (chainState k) (chainState (k + 1)) rest
          (List.replicate k 97) 97 d =
          ⟨(LCS.on_step (chainDic n) (List.replicate k 97 ++ [97]) (chainState (k + 1)) d).1,
            chainStack (k + 1), List.replicate (k + 1) 97, Mode.NEXT_CHILD⟩ := by
        simp only [DFS.stepped, LCS.delegate, LCS.on_step_descend, if_true, chainStack, hst,
          List.replicate_succ']
      rw [e] at this
      exact this
    · have := LCS.inv_on_step (chainDic n) _ min_length _ 97 (chainState (k + 1)) d hinv
      rw [List.replicate_succ']
      exact this

/-- The LCS search on `chainDic n` for the word of `n >= 1` bytes `a`, with a
minimum length that the cell `C[n][n]` reaches: a pass of the loop of `next()`
returns true at the key of `n` bytes `a`; the result buffer then holds `n` bytes,
and `C[n][n]` is `n` converted to `IndexType`. -/
theorem chain_search_result (n : Nat) (min_length : Int) (hn : 1 ≤ n)
    (hL : min_length ≤ toIndexType (n : Int)) :
    ∃ s s1 : DFS LCS,
      DFS.Reached (chainDic n) (chainGuide n) (LCS.delegate (chainDic n))
        (LCS.start (chainDic n) LCS.new (List.replicate n 97) min_length) s ∧
      DFS.iteration (chainDic n) (chainGuide n) (LCS.delegate (chainDic n)) s =
        Outcome.returned true s1 ∧
      s1.key = List.replicate n 97 ∧ (LCS.lcs s1).length = n ∧
      s1.delegate.C_.get n n = toIndexType (n : Int) := by
  obtain ⟨m, rfl⟩ : ∃ m, n = m + 1 := ⟨n - 1, by omega⟩
  obtain ⟨d, hr, hinv⟩ := chain_reached (m + 1) min_length m (by omega)
  obtain ⟨rest, hst⟩ := chainStack_top m
  have hchild := chain_child (m + 1) m (by omega)
  have hit := DFS.iteration_child_step (chainDic (m + 1)) (chainGuide (m + 1))
    (LCS.delegate (chainDic (m + 1))) (chainState m) (chainState (m + 1)) rest
    (List.replicate m 97) d
    (by rw [hchild]; decide) (by rw [hchild]; exact chain_follow (m + 1) m (by omega))
  rw [hchild] at hit
  have hinv' := LCS.inv_on_step (chainDic (m + 1)) _ min_length _ 97 (chainState (m + 1)) d hinv
  have hinv2 := hinv'
  rw [← List.replicate_succ'] at hinv2
  have hcell := LCS.replicate_cells 97 (m + 1) (m + 1) min_length _ hinv2 (m + 1) le_rfl
    (m + 1) le_rfl
  rw [Nat.min_self, List.replicate_succ'] at hcell
  obtain ⟨hiff, hbt⟩ := LCS.on_step_backtrack (chainDic (m + 1)) _ min_length _ 97
    (chainState (m + 1)) d hinv
  simp only [List.length_replicate] at hiff hbt
  have hres : ((LCS.delegate (chainDic (m + 1))).on_step (List.replicate m 97 ++ [97])
      (chainState (m + 1)) d).2.2 = true := by
    refine hiff.2 ⟨?_, ?_⟩
    · rw [chain_has_value (m + 1) (m + 1) (by omega) le_rfl]
      simp
    · rw [hcell]
      exact hL
  rw [hres] at hit
  simp only [if_true] at hit
  refine ⟨_, _, hr, by rw [hst]; exact hit, ?_, ?_, ?_⟩
  · simp only [DFS.stepped, DFS.key, List.replicate_succ']
  · have hb := hbt hres
    simp only [LCS.lcs, DFS.stepped, LCS.delegate]
    rw [hb, List.length_reverse, ← List.replicate_succ',
      LCS.backtrack_replicate _ 97 (m + 1) (m + 1) (m + 1 + (m + 1)) (m + 1) (m + 1) [] le_rfl
        le_rfl (by omega)]
    simp
  · simp only [DFS.stepped, LCS.delegate]
    exact hcell

/-- C21 as stated fails for long words. In the LCS search on the dictionary with
the single key of 32768 bytes `a`, for the word of 32768 bytes `a` and the minimum
length -32768, a pass of the loop of `next()` returns true at that key with a
result buffer of 32768 bytes, while `C[32768][32768]` is -32768: the cell has
wrapped. With the key and the word of 65539 bytes `a` and the minimum length 3 the
result buffer holds 65539 bytes and `C[65539][65539]` is 3. -/
theorem lcs_backtrack_counterexample :
    (∃ s s1 : DFS LCS,
      DFS.Reached (chainDic 32768) (chainGuide 32768) (LCS.delegate (chainDic 32768))
        (LCS.start (chainDic 32768) LCS.new (List.replicate 32768 97) (-32768)) s ∧
      DFS.iteration (chainDic 32768) (chainGuide 32768) (LCS.delegate (chainDic 32768)) s =
        Outcome.returned true s1 ∧
      s1.key = List.replicate 32768 97 ∧ (LCS.lcs s1).length = 32768 ∧
      s1.delegate.C_.get 32768 32768 = -32768) ∧
    (∃ s s1 : DFS LCS,
      DFS.Reached (chainDic 65539) (chainGuide 65539) (LCS.delegate (chainDic 65539))
        (LCS.start (chainDic 65539) LCS.new (List.replicate 65539 97) 3) s ∧
      DFS.iteration (chainDic 65539) (chainGuide 65539) (LCS.delegate (chainDic 65539)) s =
        Outcome.returned true s1 ∧
      s1.key = List.replicate 65539 97 ∧ (LCS.lcs s1).length = 65539 ∧
      s1.delegate.C_.get 65539 65539 = 3) := by
  have e1 : toIndexType ((32768 : Nat) : Int) = -32768 := by decide
  have e2 : toIndexType ((65539 : Nat) : Int) = 3 := by decide
  constructor
  · obtain ⟨s, s1, h1, h2, h3, h4, h5⟩ := chain_search_result 32768 (-32768) (by omega)
      (by rw [e1])
    exact ⟨s, s1, h1, h2, h3, h4, by rw [h5, e1]⟩
  · obtain ⟨s, s1, h1, h2, h3, h4, h5⟩ := chain_search_result 65539 3 (by omega)
      (by rw [e2])
    exact ⟨s, s1, h1, h2, h3, h4, by rw [h5, e2]⟩

end dawgdic
